import Mathlib

/-!
# Ada lexical scanner (AdaLexer.h / AdaLexer.cpp)

A shallow embedding of the token model, the reserved-word classifier, the numeric-literal
parser and the line-buffered scanner, followed by the properties established about them.

Conventions of the embedding:
* a QChar is its 16-bit code unit, a natural number; a QString is a list of code units;
* quint8 and quint16 fields are natural numbers reduced modulo 256 and 65536 where the
  source stores into them;
* every while loop of the source is a recursive function with an iteration budget (fuel);
  running out of budget is the value none;
* the attached QTextStream is the list of its lines together with the lines not yet read.
-/

namespace Ada

/-! ## Characters -/

/-- Unicode property data consulted by the QChar member functions for code units above 127.
The source calls isSpace, isDigit, isLetter, isLetterOrNumber, isPrint and toLower of the Qt
library. On the ASCII range their results are fixed and written out below; above it they depend
on the Unicode tables of the library version in use, which are a parameter of the embedding. -/
structure QCharData where
  space : Nat → Bool
  digit : Nat → Bool
  letter : Nat → Bool
  number : Nat → Bool
  print : Nat → Bool
  lower : Nat → Nat
  /-- Every code unit has one Unicode category: no decimal digit is a letter. -/
  digit_not_letter : ∀ c, digit c = true → letter c = false

/-- A character table in which no code unit above 127 has any property. -/
def asciiData : QCharData where
  space := fun _ => false
  digit := fun _ => false
  letter := fun _ => false
  number := fun _ => false
  print := fun _ => false
  lower := fun c => c
  digit_not_letter := fun _ _ => rfl

/-- A character table that knows, above 127, only the Arabic-Indic digits U+0660 to U+0669:
decimal digits and printable, as in the Unicode data behind QChar. -/
def arabicIndicData : QCharData where
  space := fun _ => false
  digit := fun c => decide (1632 ≤ c ∧ c ≤ 1641)
  letter := fun _ => false
  number := fun _ => false
  print := fun c => decide (1632 ≤ c ∧ c ≤ 1641)
  lower := fun c => c
  digit_not_letter := fun _ _ => rfl

/-- A character table that knows, above 127, only the superscript two U+00B2: a number of
category No, which is neither a decimal digit nor a letter, and printable. -/
def superscriptData : QCharData where
  space := fun _ => false
  digit := fun _ => false
  letter := fun _ => false
  number := fun c => decide (c = 178)
  print := fun c => decide (c = 178)
  lower := fun c => c
  digit_not_letter := fun _ _ => rfl

/-- Code units of a string literal. -/
def qstr (s : String) : List Nat := s.toList.map Char.toNat

/-- QChar::isNull -/
def isNull (c : Nat) : Bool := c == 0

/-- QChar::isSpace: tab, line feed, vertical tab, form feed, carriage return and space on ASCII -/
def isSpace (Q : QCharData) (c : Nat) : Bool :=
  if c < 128 then c == 32 || (9 ≤ c && c ≤ 13) else Q.space c

/-- QChar::isDigit: the decimal digits on ASCII, category Nd above -/
def isDigit (Q : QCharData) (c : Nat) : Bool :=
  if c < 128 then 48 ≤ c && c ≤ 57 else Q.digit c

/-- QChar::isLetter: A-Z and a-z on ASCII, the letter categories above -/
def isLetter (Q : QCharData) (c : Nat) : Bool :=
  if c < 128 then (65 ≤ c && c ≤ 90) || (97 ≤ c && c ≤ 122) else Q.letter c

/-- QChar::isLetterOrNumber: letters and digits on ASCII, letter and number categories above -/
def isLetterOrNumber (Q : QCharData) (c : Nat) : Bool :=
  if c < 128 then (65 ≤ c && c ≤ 90) || (97 ≤ c && c ≤ 122) || (48 ≤ c && c ≤ 57)
  else Q.letter c || Q.digit c || Q.number c

/-- QChar::isPrint: space up to tilde on ASCII -/
def isPrint (Q : QCharData) (c : Nat) : Bool :=
  if c < 128 then 32 ≤ c && c ≤ 126 else Q.print c

/-- QChar::toLower: A-Z map to a-z on ASCII, every other ASCII code unit is unchanged -/
def toLower (Q : QCharData) (c : Nat) : Nat :=
  if c < 128 then (if 65 ≤ c && c ≤ 90 then c + 32 else c) else Q.lower c

/-! ## Token types (enum TokenType, AdaLexer.h) -/

abbrev T_Invalid : Nat := 0
abbrev T_abort : Nat := 1
abbrev T_abs : Nat := 2
abbrev T_abstract : Nat := 3
abbrev T_accept : Nat := 4
abbrev T_access : Nat := 5
abbrev T_aliased : Nat := 6
abbrev T_all : Nat := 7
abbrev T_and : Nat := 8
abbrev T_array : Nat := 9
abbrev T_at : Nat := 10
abbrev T_begin : Nat := 11
abbrev T_body : Nat := 12
abbrev T_case : Nat := 13
abbrev T_constant : Nat := 14
abbrev T_declare : Nat := 15
abbrev T_delay : Nat := 16
abbrev T_delta : Nat := 17
abbrev T_digits : Nat := 18
abbrev T_do : Nat := 19
abbrev T_else : Nat := 20
abbrev T_elsif : Nat := 21
abbrev T_end : Nat := 22
abbrev T_entry : Nat := 23
abbrev T_exception : Nat := 24
abbrev T_exit : Nat := 25
abbrev T_for : Nat := 26
abbrev T_function : Nat := 27
abbrev T_generic : Nat := 28
abbrev T_goto : Nat := 29
abbrev T_if : Nat := 30
abbrev T_in : Nat := 31
abbrev T_interface : Nat := 32
abbrev T_is : Nat := 33
abbrev T_limited : Nat := 34
abbrev T_loop : Nat := 35
abbrev T_mod : Nat := 36
abbrev T_new : Nat := 37
abbrev T_not : Nat := 38
abbrev T_null : Nat := 39
abbrev T_of : Nat := 40
abbrev T_or : Nat := 41
abbrev T_others : Nat := 42
abbrev T_out : Nat := 43
abbrev T_overriding : Nat := 44
abbrev T_package : Nat := 45
abbrev T_pragma : Nat := 46
abbrev T_private : Nat := 47
abbrev T_procedure : Nat := 48
abbrev T_protected : Nat := 49
abbrev T_raise : Nat := 50
abbrev T_range : Nat := 51
abbrev T_record : Nat := 52
abbrev T_rem : Nat := 53
abbrev T_renames : Nat := 54
abbrev T_requeue : Nat := 55
abbrev T_return : Nat := 56
abbrev T_reverse : Nat := 57
abbrev T_select : Nat := 58
abbrev T_separate : Nat := 59
abbrev T_some : Nat := 60
abbrev T_subtype : Nat := 61
abbrev T_synchronized : Nat := 62
abbrev T_tagged : Nat := 63
abbrev T_task : Nat := 64
abbrev T_terminate : Nat := 65
abbrev T_then : Nat := 66
abbrev T_type : Nat := 67
abbrev T_until : Nat := 68
abbrev T_use : Nat := 69
abbrev T_when : Nat := 70
abbrev T_while : Nat := 71
abbrev T_with : Nat := 72
abbrev T_xor : Nat := 73
abbrev T_Colon : Nat := 74
abbrev T_Comma : Nat := 75
abbrev T_Dot : Nat := 76
abbrev T_Semicolon : Nat := 77
abbrev T_Tick : Nat := 78
abbrev T_LParen : Nat := 79
abbrev T_RParen : Nat := 80
abbrev T_Ampers : Nat := 81
abbrev T_Bar : Nat := 82
abbrev T_Eq : Nat := 83
abbrev T_Neq : Nat := 84
abbrev T_Lt : Nat := 85
abbrev T_Leq : Nat := 86
abbrev T_Geq : Nat := 87
abbrev T_Gt : Nat := 88
abbrev T_Plus : Nat := 89
abbrev T_Minus : Nat := 90
abbrev T_Star : Nat := 91
abbrev T_Slash : Nat := 92
abbrev T_Arrow : Nat := 93
abbrev T_Assig : Nat := 94
abbrev T_DoubleDot : Nat := 95
abbrev T_DoubleStar : Nat := 96
abbrev T_LLBrack : Nat := 97
abbrev T_RLBrack : Nat := 98
abbrev T_Box : Nat := 99
abbrev T_Number : Nat := 100
abbrev T_Character : Nat := 101
abbrev T_String : Nat := 102
abbrev T_Identifier : Nat := 103
abbrev T_Attribute : Nat := 104
abbrev T_Comment : Nat := 105
abbrev T_EOF : Nat := 106

/-- The table s_tokenName without its closing null pointer. -/
def s_tokenName : List String := [
  "?", "abort", "abs", "abstract", "accept", "access", "aliased", "all",
  "and", "array", "at", "begin", "body", "case", "constant", "declare",
  "delay", "delta", "digits", "do", "else", "elsif", "end", "entry",
  "exception", "exit", "for", "function", "generic", "goto", "if", "in",
  "interface", "is", "limited", "loop", "mod", "new", "not", "null",
  "of", "or", "others", "out", "overriding", "package", "pragma", "private",
  "procedure", "protected", "raise", "range", "record", "rem", "renames", "requeue",
  "return", "reverse", "select", "separate", "some", "subtype", "synchronized", "tagged",
  "task", "terminate", "then", "type", "until", "use", "when", "while",
  "with", "xor", "Colon", "Comma", "Dot", "Semicolon", "Tick", "LParen",
  "RParen", "Ampers", "Bar", "Eq", "Neq", "Lt", "Leq", "Geq",
  "Gt", "Plus", "Minus", "Star", "Slash", "Arrow", "Assig", "DoubleDot",
  "DoubleStar", "LLBrack", "RLBrack", "Box", "Number", "Character", "String", "Identifier",
  "Attribute", "Comment", "EOF"
]

namespace Lexer

/-- Lexer::isKeyWord -/
def isKeyWord (type : Nat) : Bool := type ≥ T_abort && type ≤ T_xor

/-- Lexer::isDelimiter -/
def isDelimiter (type : Nat) : Bool := type ≥ T_Colon && type ≤ T_Box

/-- Lexer::isNumber -/
def isNumber (type : Nat) : Bool := type == T_Number

/-- Lexer::tokenName. A delimiter missing from the glyph switch would run into the assertion
and then fall out of the switch to the table access, which is what the last alternative does. -/
def tokenName (type : Nat) (asSymbol : Bool) : String :=
  if type ≤ T_EOF then
    if asSymbol && isDelimiter type then
      if type = T_Colon then ":"
      else if type = T_Comma then ","
      else if type = T_Dot then "."
      else if type = T_Semicolon then ";"
      else if type = T_Tick then "\x27"
      else if type = T_LParen then "("
      else if type = T_RParen then ")"
      else if type = T_Ampers then "&"
      else if type = T_Bar then "|"
      else if type = T_Eq then "="
      else if type = T_Neq then "/="
      else if type = T_Lt then "<"
      else if type = T_Leq then "<="
      else if type = T_Geq then ">="
      else if type = T_Gt then ">"
      else if type = T_Plus then "+"
      else if type = T_Minus then "-"
      else if type = T_Star then "*"
      else if type = T_Slash then "/"
      else if type = T_Arrow then "=>"
      else if type = T_Assig then ":="
      else if type = T_DoubleDot then ".."
      else if type = T_DoubleStar then "**"
      else if type = T_LLBrack then "<<"
      else if type = T_RLBrack then ">>"
      else if type = T_Box then "<>"
      else s_tokenName.getD type ""
    else s_tokenName.getD type ""
  else "?"

/-- The case labels of the switch in Lexer::isAda83KeyWord, in the order of the source. -/
def ada83Cases : List Nat := [
    T_abort, T_declare, T_generic, T_of, T_select, T_abs, T_delay, T_goto, T_or, T_separate,
    T_accept, T_delta, T_others, T_subtype, T_access, T_digits, T_if, T_out, T_all, T_do, T_in,
    T_task, T_and, T_is, T_package, T_terminate, T_array, T_pragma, T_then, T_at, T_else,
    T_private, T_type, T_elsif, T_limited, T_procedure, T_end, T_loop, T_begin, T_entry,
    T_raise, T_use, T_body, T_exception, T_range, T_exit, T_mod, T_record, T_when, T_rem,
    T_while, T_new, T_renames, T_with, T_case, T_for, T_not, T_return, T_constant, T_function,
    T_null, T_reverse, T_xor]

/-- Lexer::isAda83KeyWord: the switch answers true at its case labels and false in the
default branch. -/
def isAda83KeyWord (type : Nat) : Bool := List.elem type ada83Cases

/-- Lexer::isAda95KeyWord -/
def isAda95KeyWord (type : Nat) : Bool :=
  if type = T_abstract ∨ type = T_aliased ∨ type = T_protected ∨ type = T_requeue
      ∨ type = T_tagged ∨ type = T_until then true
  else isAda83KeyWord type

/-- Lexer::isAda05KeyWord -/
def isAda05KeyWord (type : Nat) : Bool :=
  if type = T_interface ∨ type = T_overriding ∨ type = T_synchronized then true
  else isAda95KeyWord type

/-- Lexer::isAda12KeyWord -/
def isAda12KeyWord (type : Nat) : Bool :=
  if type = T_some then true else isAda05KeyWord type

/-- The switch over the delimiter types in tokenName: the glyph a case returns, none in
the default branch, where the assertion stands. -/
def tokenGlyph (type : Nat) : Option String :=
  if type = T_Colon then some ":"
  else if type = T_Comma then some ","
  else if type = T_Dot then some "."
  else if type = T_Semicolon then some ";"
  else if type = T_Tick then some "\x27"
  else if type = T_LParen then some "("
  else if type = T_RParen then some ")"
  else if type = T_Ampers then some "&"
  else if type = T_Bar then some "|"
  else if type = T_Eq then some "="
  else if type = T_Neq then some "/="
  else if type = T_Lt then some "<"
  else if type = T_Leq then some "<="
  else if type = T_Geq then some ">="
  else if type = T_Gt then some ">"
  else if type = T_Plus then some "+"
  else if type = T_Minus then some "-"
  else if type = T_Star then some "*"
  else if type = T_Slash then some "/"
  else if type = T_Arrow then some "=>"
  else if type = T_Assig then some ":="
  else if type = T_DoubleDot then some ".."
  else if type = T_DoubleStar then some "**"
  else if type = T_LLBrack then some "<<"
  else if type = T_RLBrack then some ">>"
  else if type = T_Box then some "<>"
  else none

/-- The helper at of AdaLexer.cpp: the code unit at an offset, 0 outside the string. -/
def at_ (str : List Nat) (off : Nat) : Nat :=
  if off < str.length then str.getD off 0 else 0

/-- Byte k of a C string literal: its characters followed by the terminating 0. The source
reads no byte behind the terminator unless str holds a NUL code unit exactly where the literal
ends; such a read is answered with 0 here. -/
def cstrAt (m : String) (k : Nat) : Nat := (qstr m).getD k 0

/-- The for loop of check, n iterations from index i on, then the test of the terminator. -/
def checkLoop (Q : QCharData) (str : List Nat) (off : Nat) (m : String) : Nat → Nat → Bool
  | 0, i => if cstrAt m (i - off) != 0 then false else true
  | n + 1, i =>
    if toLower Q (str.getD i 0) != cstrAt m (i - off) then false
    else checkLoop Q str off m n (i + 1)

/-- The helper check of AdaLexer.cpp: the rest of str from off on equals the literal,
letter case ignored. The loop runs while i is below the length of str. -/
def check (Q : QCharData) (str : List Nat) (off : Nat) (m : String) : Bool :=
  checkLoop Q str off m (str.length - off) off

/-- One case of a switch with its lower-case and its upper-case label. -/
def isCase (u : Nat) (a b : Char) : Bool := u == a.toNat || u == b.toNat

/-- Lexer::findReservedWord: every break leads to the final return of T_Invalid. -/
def findReservedWord (Q : QCharData) (str : List Nat) : Nat :=
  if isCase (at_ str 0) 'a' 'A' then
    if isCase (at_ str 1) 'b' 'B' then
      if isCase (at_ str 2) 'o' 'O' then
        if check Q str 3 "rt" then T_abort
        else T_Invalid
      else if isCase (at_ str 2) 's' 'S' then
        if at_ str 3 == 0 then T_abs
        else if check Q str 3 "tract" then T_abstract
        else T_Invalid
      else T_Invalid
    else if isCase (at_ str 1) 'c' 'C' then
      if check Q str 2 "cept" then T_accept
      else if check Q str 2 "cess" then T_access
      else T_Invalid
    else if isCase (at_ str 1) 'l' 'L' then
      if check Q str 2 "iased" then T_aliased
      else if check Q str 2 "l" then T_all
      else T_Invalid
    else if isCase (at_ str 1) 'n' 'N' then
      if check Q str 2 "d" then T_and
      else T_Invalid
    else if isCase (at_ str 1) 'r' 'R' then
      if check Q str 2 "ray" then T_array
      else T_Invalid
    else if isCase (at_ str 1) 't' 'T' then
      if at_ str 3 == 0 then T_at
      else T_Invalid
    else T_Invalid
  else if isCase (at_ str 0) 'b' 'B' then
    if isCase (at_ str 1) 'e' 'E' then
      if check Q str 2 "gin" then T_begin
      else T_Invalid
    else if isCase (at_ str 1) 'o' 'O' then
      if check Q str 2 "dy" then T_body
      else T_Invalid
    else T_Invalid
  else if isCase (at_ str 0) 'c' 'C' then
    if isCase (at_ str 1) 'a' 'A' then
      if check Q str 2 "se" then T_case
      else T_Invalid
    else if isCase (at_ str 1) 'o' 'O' then
      if check Q str 2 "nstant" then T_constant
      else T_Invalid
    else T_Invalid
  else if isCase (at_ str 0) 'd' 'D' then
    if isCase (at_ str 1) 'e' 'E' then
      if check Q str 2 "clare" then T_declare
      else if check Q str 2 "lay" then T_delay
      else if check Q str 2 "lta" then T_delta
      else T_Invalid
    else if isCase (at_ str 1) 'i' 'I' then
      if check Q str 2 "gits" then T_digits
      else T_Invalid
    else if isCase (at_ str 1) 'o' 'O' then
      if check Q str 2 "" then T_do
      else T_Invalid
    else T_Invalid
  else if isCase (at_ str 0) 'e' 'E' then
    if isCase (at_ str 1) 'l' 'L' then
      if check Q str 2 "se" then T_else
      else if check Q str 2 "sif" then T_elsif
      else T_Invalid
    else if isCase (at_ str 1) 'n' 'N' then
      if check Q str 2 "d" then T_end
      else if check Q str 2 "try" then T_entry
      else T_Invalid
    else if isCase (at_ str 1) 'x' 'X' then
      if check Q str 2 "ception" then T_exception
      else if check Q str 2 "it" then T_exit
      else T_Invalid
    else T_Invalid
  else if isCase (at_ str 0) 'f' 'F' then
    if check Q str 1 "or" then T_for
    else if check Q str 1 "unction" then T_function
    else T_Invalid
  else if isCase (at_ str 0) 'g' 'G' then
    if check Q str 1 "eneric" then T_generic
    else if check Q str 1 "oto" then T_goto
    else T_Invalid
  else if isCase (at_ str 0) 'i' 'I' then
    if isCase (at_ str 1) 'f' 'F' then
      if check Q str 2 "" then T_if
      else T_Invalid
    else if isCase (at_ str 1) 'n' 'N' then
      if check Q str 2 "terface" then T_interface
      else if check Q str 2 "" then T_in
      else T_Invalid
    else if isCase (at_ str 1) 's' 'S' then
      if check Q str 2 "" then T_is
      else T_Invalid
    else T_Invalid
  else if isCase (at_ str 0) 'l' 'L' then
    if check Q str 1 "imited" then T_limited
    else if check Q str 1 "oop" then T_loop
    else T_Invalid
  else if isCase (at_ str 0) 'm' 'M' then
    if check Q str 1 "od" then T_mod
    else T_Invalid
  else if isCase (at_ str 0) 'n' 'N' then
    if check Q str 1 "ew" then T_new
    else if check Q str 1 "ot" then T_not
    else if check Q str 1 "ull" then T_null
    else T_Invalid
  else if isCase (at_ str 0) 'o' 'O' then
    if check Q str 1 "f" then T_of
    else if check Q str 1 "r" then T_or
    else if check Q str 1 "thers" then T_others
    else if check Q str 1 "ut" then T_out
    else if check Q str 1 "verriding" then T_overriding
    else T_Invalid
  else if isCase (at_ str 0) 'p' 'P' then
    if isCase (at_ str 1) 'a' 'A' then
      if check Q str 2 "ckage" then T_package
      else T_Invalid
    else if isCase (at_ str 1) 'r' 'R' then
      if check Q str 2 "agma" then T_pragma
      else if check Q str 2 "ivate" then T_private
      else if check Q str 2 "ocedure" then T_procedure
      else if check Q str 2 "otected" then T_protected
      else T_Invalid
    else T_Invalid
  else if isCase (at_ str 0) 'r' 'R' then
    if isCase (at_ str 1) 'a' 'A' then
      if check Q str 2 "ise" then T_raise
      else if check Q str 2 "nge" then T_range
      else T_Invalid
    else if isCase (at_ str 1) 'e' 'E' then
      if check Q str 2 "cord" then T_record
      else if check Q str 2 "m" then T_rem
      else if check Q str 2 "names" then T_renames
      else if check Q str 2 "queue" then T_requeue
      else if check Q str 2 "turn" then T_return
      else if check Q str 2 "verse" then T_reverse
      else T_Invalid
    else T_Invalid
  else if isCase (at_ str 0) 's' 'S' then
    if isCase (at_ str 1) 'e' 'E' then
      if check Q str 2 "lect" then T_select
      else if check Q str 2 "parate" then T_separate
      else T_Invalid
    else if isCase (at_ str 1) 'o' 'O' then
      if check Q str 2 "me" then T_some
      else T_Invalid
    else if isCase (at_ str 1) 'u' 'U' then
      if check Q str 2 "btype" then T_subtype
      else T_Invalid
    else if isCase (at_ str 1) 'y' 'Y' then
      if check Q str 2 "nchronized" then T_synchronized
      else T_Invalid
    else T_Invalid
  else if isCase (at_ str 0) 't' 'T' then
    if isCase (at_ str 1) 'a' 'A' then
      if check Q str 2 "gged" then T_tagged
      else if check Q str 2 "sk" then T_task
      else T_Invalid
    else if isCase (at_ str 1) 'e' 'E' then
      if check Q str 2 "rminate" then T_terminate
      else T_Invalid
    else if isCase (at_ str 1) 'h' 'H' then
      if check Q str 2 "en" then T_then
      else T_Invalid
    else if isCase (at_ str 1) 'y' 'Y' then
      if check Q str 2 "pe" then T_type
      else T_Invalid
    else T_Invalid
  else if isCase (at_ str 0) 'u' 'U' then
    if check Q str 1 "ntil" then T_until
    else if check Q str 1 "se" then T_use
    else T_Invalid
  else if isCase (at_ str 0) 'w' 'W' then
    if isCase (at_ str 1) 'h' 'H' then
      if check Q str 2 "en" then T_when
      else if check Q str 2 "ile" then T_while
      else T_Invalid
    else if isCase (at_ str 1) 'i' 'I' then
      if check Q str 2 "th" then T_with
      else T_Invalid
    else T_Invalid
  else if isCase (at_ str 0) 'x' 'X' then
    if check Q str 1 "or" then T_xor
    else T_Invalid
  else T_Invalid

end Lexer

/-! ## Numeric literals (class NumberParser) -/

/-- The fields of NumberParser. -/
structure NumberParser where
  d_error : List Nat
  d_str : List Nat
  d_start : Nat
  d_off : Nat
  d_hasDecimals : Bool
  d_hasExponent : Bool
  d_isBased : Bool
deriving DecidableEq, Repr

namespace NumberParser

/-- The constructor NumberParser(str, start). -/
def new (str : List Nat) (start : Nat) : NumberParser :=
  ⟨[], str, start, start, false, false, false⟩

/-- NumberParser::lookAhead: the code unit at d_start + off, the null QChar outside the string -/
def lookAhead (P : NumberParser) (off : Nat) : Nat :=
  if P.d_start + off < P.d_str.length then P.d_str.getD (P.d_start + off) 0 else 0

/-- NumberParser::error: stores the message and answers false -/
def error (P : NumberParser) (msg : String) : Bool × NumberParser :=
  (false, { P with d_error := qstr msg })

/-- The while loop of numeral. The local ch of the source always holds lookAhead(d_off) when
an iteration starts, so it is read again here. -/
def numeralLoop (Q : QCharData) : Nat → NumberParser → Option (Bool × NumberParser)
  | 0, _ => none
  | fuel + 1, P =>
    let ch := lookAhead P P.d_off
    if ch = 95 ∨ isDigit Q ch = true then
      if ch = 95 then
        let P1 := { P with d_off := P.d_off + 1 }
        if isDigit Q (lookAhead P1 P1.d_off) = true then
          numeralLoop Q fuel { P1 with d_off := P1.d_off + 1 }
        else some (error P1 "expecting digit")
      else if isDigit Q ch = true then
        numeralLoop Q fuel { P with d_off := P.d_off + 1 }
      else numeralLoop Q fuel P
    else some (true, P)

/-- NumberParser::numeral -/
def numeral (Q : QCharData) (fuel : Nat) (P : NumberParser) : Option (Bool × NumberParser) :=
  if isDigit Q (lookAhead P P.d_off) = false then some (error P "expecting digit")
  else numeralLoop Q fuel { P with d_off := P.d_off + 1 }

/-- The helper extended_digit of AdaLexer.cpp. -/
def extended_digit (Q : QCharData) (ch : Nat) : Bool :=
  if isDigit Q ch = true then true
  else if ch = 97 ∨ ch = 65 ∨ ch = 98 ∨ ch = 66 ∨ ch = 99 ∨ ch = 67 ∨ ch = 100 ∨ ch = 68
      ∨ ch = 101 ∨ ch = 69 ∨ ch = 102 ∨ ch = 70 then true
  else false

/-- The while loop of basedNumeral. -/
def basedNumeralLoop (Q : QCharData) : Nat → NumberParser → Option (Bool × NumberParser)
  | 0, _ => none
  | fuel + 1, P =>
    let ch := lookAhead P P.d_off
    if ch = 95 ∨ extended_digit Q ch = true then
      if ch = 95 then
        let P1 := { P with d_off := P.d_off + 1 }
        if extended_digit Q (lookAhead P1 P1.d_off) = true then
          basedNumeralLoop Q fuel { P1 with d_off := P1.d_off + 1 }
        else some (error P1 "expecting extended digit")
      else if extended_digit Q ch = true then
        basedNumeralLoop Q fuel { P with d_off := P.d_off + 1 }
      else basedNumeralLoop Q fuel P
    else some (true, P)

/-- NumberParser::basedNumeral -/
def basedNumeral (Q : QCharData) (fuel : Nat) (P : NumberParser) :
    Option (Bool × NumberParser) :=
  if extended_digit Q (lookAhead P P.d_off) = false then some (error P "expecting extended digit")
  else basedNumeralLoop Q fuel { P with d_off := P.d_off + 1 }

/-- NumberParser::exponent. After a sign, and at a digit, the answer is the one of numeral. -/
def exponent (Q : QCharData) (fuel : Nat) (P : NumberParser) : Option (Bool × NumberParser) :=
  let ch := lookAhead P P.d_off
  if ch = 43 ∨ ch = 45 ∨ isDigit Q ch = true then
    if ch = 43 ∨ ch = 45 then numeral Q fuel { P with d_off := P.d_off + 1 }
    else if isDigit Q ch = true then numeral Q fuel P
    else some (true, P)
  else some (error P "expecting plus, minus or digit")

/-- The optional exponent that ends both branches of parse. -/
def parseExponent (Q : QCharData) (fuel : Nat) (P : NumberParser) :
    Option (Bool × NumberParser) :=
  if toLower Q (lookAhead P P.d_off) = 101 then
    exponent Q fuel { P with d_hasExponent := true, d_off := P.d_off + 1 }
  else some (true, P)

/-- NumberParser::parse. The answer pairs the returned bool with the parser afterwards. -/
def parse (Q : QCharData) (fuel : Nat) (P0 : NumberParser) : Option (Bool × NumberParser) :=
  let P := { P0 with d_off := 0, d_hasDecimals := false, d_hasExponent := false,
                     d_isBased := false }
  match numeral Q fuel P with
  | none => none
  | some (false, P) => some (false, P)
  | some (true, P) =>
    if lookAhead P P.d_off = 35 then
      match basedNumeral Q fuel { P with d_isBased := true, d_off := P.d_off + 1 } with
      | none => none
      | some (false, P) => some (false, P)
      | some (true, P) =>
        let afterPoint :=
          if lookAhead P P.d_off = 46 then
            basedNumeral Q fuel { P with d_hasDecimals := true, d_off := P.d_off + 1 }
          else some (true, P)
        match afterPoint with
        | none => none
        | some (false, P) => some (false, P)
        | some (true, P) =>
          if lookAhead P P.d_off ≠ 35 then some (error P "expecting #")
          else parseExponent Q fuel { P with d_off := P.d_off + 1 }
    else
      let afterPoint :=
        if lookAhead P P.d_off = 46 then
          numeral Q fuel { P with d_hasDecimals := true, d_off := P.d_off + 1 }
        else some (true, P)
      match afterPoint with
      | none => none
      | some (false, P) => some (false, P)
      | some (true, P) => parseExponent Q fuel P

end NumberParser

/-! ## The scanner (class Lexer) -/

/-- The fields of struct Token. -/
structure Token where
  d_type : Nat
  d_line : Nat
  d_col : Nat
  d_len : Nat
  d_val : List Nat
deriving DecidableEq, Repr

/-- The constructor of Token: d_type is a quint8, d_line, d_col and d_len are quint16. -/
def mkToken (t line col len : Nat) (val : List Nat) : Token :=
  ⟨t % 256, line % 65536, col % 65536, len % 65536, val⟩

/-- The attached QTextStream: all its lines, and the lines not yet read. -/
structure TextStream where
  text : List (List Nat)
  rest : List (List Nat)
deriving DecidableEq, Repr

/-- The fields of Lexer (d_ownsStream only governs deallocation and is left out). -/
structure Lexer where
  d_in : Option TextStream
  d_lineNr : Nat
  d_colNr : Nat
  d_line : List Nat
  d_lastTokenType : Nat
deriving DecidableEq, Repr

namespace Lexer

/-- The constructor Lexer(parent). -/
def new : Lexer := ⟨none, 0, 0, [], T_Invalid⟩

/-- Lexer::reset -/
def reset (L : Lexer) : Lexer :=
  { d_in := L.d_in.map (fun s => { s with rest := s.text }),
    d_lineNr := 0, d_colNr := 0, d_line := [], d_lastTokenType := T_Invalid }

/-- Lexer::setStream -/
def setStream (L : Lexer) (i : Option TextStream) : Lexer :=
  reset { L with d_in := i }

/-- A scanner attached to a source with the given lines. -/
def attach (lines : List (List Nat)) : Lexer :=
  setStream new (some ⟨lines, lines⟩)

/-- QTextStream::atEnd of d_in -/
def atEnd (L : Lexer) : Bool :=
  match L.d_in with
  | some s => s.rest.isEmpty
  | none => true

/-- Lexer::nextLine -/
def nextLine (L : Lexer) : Lexer :=
  match L.d_in with
  | some s =>
    { L with d_colNr := 0, d_lineNr := (L.d_lineNr + 1) % 65536, d_line := s.rest.headD [],
             d_in := some { s with rest := s.rest.tail } }
  | none => { L with d_colNr := 0, d_lineNr := (L.d_lineNr + 1) % 65536, d_line := [] }

/-- Lexer::skipWhiteSpace; d_colNr is a quint16 -/
def skipWhiteSpace (Q : QCharData) : Nat → Lexer → Option Lexer
  | 0, _ => none
  | fuel + 1, L =>
    if L.d_colNr < L.d_line.length ∧ isSpace Q (L.d_line.getD L.d_colNr 0) = true then
      skipWhiteSpace Q fuel { L with d_colNr := (L.d_colNr + 1) % 65536 }
    else some L

/-- Lexer::lookAhead, the variant answering a char: code units from 0xff on read as 0 -/
def lookAhead (L : Lexer) (off : Nat) : Nat :=
  if L.d_colNr + off < L.d_line.length then
    let ch := L.d_line.getD (L.d_colNr + off) 0
    if ch < 255 then ch else 0
  else 0

/-- Lexer::lookAhead2, the variant answering a QChar -/
def lookAhead2 (L : Lexer) (off : Nat) : Nat :=
  if L.d_colNr + off < L.d_line.length then L.d_line.getD (L.d_colNr + off) 0 else 0

/-- Lexer::token: builds the token at the current position, then advances the column and
records the type. -/
def token (L : Lexer) (tt : Nat) (len : Nat) (val : List Nat) : Token × Lexer :=
  (mkToken tt L.d_lineNr L.d_colNr len val,
   { L with d_colNr := (L.d_colNr + len) % 65536, d_lastTokenType := tt % 256 })

/-- QString::replace of two double quotes by one, left to right. -/
def replaceQuotes : List Nat → List Nat
  | 34 :: 34 :: rest => 34 :: replaceQuotes rest
  | c :: rest => c :: replaceQuotes rest
  | [] => []

/-- The while loop of string: the answer is either the token returned from inside the loop or
the offset at which the loop was left. Where none of the three tests applies the source starts
the next iteration with off unchanged. -/
def stringLoop (Q : QCharData) (L : Lexer) : Nat → Nat → Option (Sum (Token × Lexer) Nat)
  | 0, _ => none
  | fuel + 1, off =>
    let ch := lookAhead2 L off
    if ch = 34 then
      if lookAhead L (off + 1) = 34 then stringLoop Q L fuel (off + 2)
      else some (Sum.inr off)
    else if isPrint Q ch = true then stringLoop Q L fuel (off + 1)
    else if isNull ch = true then
      some (Sum.inl (token L T_Invalid (L.d_line.length - L.d_colNr)
        (qstr "non terminated string")))
    else stringLoop Q L fuel off

/-- Lexer::string -/
def string (Q : QCharData) (fuel : Nat) (L : Lexer) : Option (Token × Lexer) :=
  match stringLoop Q L fuel 1 with
  | none => none
  | some (Sum.inl r) => some r
  | some (Sum.inr off) =>
    let str := replaceQuotes ((L.d_line.drop (L.d_colNr + 1)).take (off - 1))
    some (token L T_String (off + 1) str)

/-- The while loop of ident: the offset at which it is left. -/
def identLoop (Q : QCharData) (L : Lexer) : Nat → Nat → Option Nat
  | 0, _ => none
  | fuel + 1, off =>
    let ch := lookAhead2 L off
    if isLetterOrNumber Q ch = false ∧ ch ≠ 95 then some off
    else identLoop Q L fuel (off + 1)

/-- Lexer::ident -/
def ident (Q : QCharData) (fuel : Nat) (L : Lexer) : Option (Token × Lexer) :=
  match identLoop Q L fuel 0 with
  | none => none
  | some off =>
    let str := (L.d_line.drop L.d_colNr).take off
    let tt := findReservedWord Q str
    if L.d_lastTokenType = T_Tick then some (token L T_Attribute off str)
    else if tt ≠ T_Invalid then some (token L tt off [])
    else some (token L T_Identifier off str)

/-- Lexer::numeric -/
def numeric (Q : QCharData) (fuel : Nat) (L : Lexer) : Option (Token × Lexer) :=
  match NumberParser.parse Q fuel (NumberParser.new L.d_line L.d_colNr) with
  | none => none
  | some (ok, np) =>
    if ok = false then some (token L T_Invalid np.d_off np.d_error)
    else some (token L T_Number np.d_off ((L.d_line.drop L.d_colNr).take np.d_off))

/-- The first while loop of nextToken: reads lines until the column is inside the line.
The answer is either the EOF token returned from inside the loop or the scanner when the loop
is left. -/
def lineLoop (Q : QCharData) : Nat → Lexer → Option (Sum (Token × Lexer) Lexer)
  | 0, _ => none
  | fuel + 1, L =>
    if L.d_colNr ≥ L.d_line.length then
      if atEnd L = true then some (Sum.inl (token L T_EOF 0 []))
      else
        match skipWhiteSpace Q fuel (nextLine L) with
        | none => none
        | some L1 => lineLoop Q fuel L1
    else some (Sum.inr L)

/-- The second while loop of nextToken. Its body returns in every case, so it is entered at
most once; the statement behind the loop returns a default-constructed Invalid token. -/
def scanToken (Q : QCharData) (fuel : Nat) (L : Lexer) : Option (Token × Lexer) :=
  if L.d_colNr < L.d_line.length then
    let ch := L.d_line.getD L.d_colNr 0
    if ch = 38 then some (token L T_Ampers 1 [])
    else if ch = 40 then some (token L T_LParen 1 [])
    else if ch = 41 then some (token L T_RParen 1 [])
    else if ch = 42 then
      if lookAhead L 1 = 42 then some (token L T_DoubleStar 2 [])
      else some (token L T_Star 1 [])
    else if ch = 43 then some (token L T_Plus 1 [])
    else if ch = 44 then some (token L T_Comma 1 [])
    else if ch = 45 then
      if lookAhead L 1 = 45 then
        some (token L T_Comment (L.d_line.length - L.d_colNr) (L.d_line.drop (L.d_colNr + 2)))
      else some (token L T_Minus 1 [])
    else if ch = 46 then
      if lookAhead L 1 = 46 then some (token L T_DoubleDot 2 [])
      else some (token L T_Dot 1 [])
    else if ch = 47 then
      if lookAhead L 1 = 61 then some (token L T_Neq 2 [])
      else some (token L T_Slash 1 [])
    else if ch = 58 then
      if lookAhead L 1 = 61 then some (token L T_Assig 2 [])
      else some (token L T_Colon 1 [])
    else if ch = 59 then some (token L T_Semicolon 1 [])
    else if ch = 60 then
      if lookAhead L 1 = 61 then some (token L T_Leq 2 [])
      else if lookAhead L 1 = 60 then some (token L T_LLBrack 2 [])
      else if lookAhead L 1 = 62 then some (token L T_Box 2 [])
      else some (token L T_Lt 1 [])
    else if ch = 61 then
      if lookAhead L 1 = 62 then some (token L T_Arrow 2 [])
      else some (token L T_Eq 1 [])
    else if ch = 62 then
      if lookAhead L 1 = 61 then some (token L T_Geq 2 [])
      else if lookAhead L 1 = 62 then some (token L T_RLBrack 2 [])
      else some (token L T_Gt 1 [])
    else if ch = 124 then some (token L T_Bar 1 [])
    else if ch = 39 then
      if lookAhead L 2 = 39 then
        some (token L T_Character 3 ((L.d_line.drop (L.d_colNr + 1)).take 1))
      else some (token L T_Tick 1 [])
    else if ch = 34 then string Q fuel L
    else if isDigit Q ch = true then numeric Q fuel L
    else if isLetter Q ch = true then ident Q fuel L
    else some (token L T_Invalid 1 (qstr "unexpected character " ++ [39, ch, 39]))
  else some (mkToken T_Invalid 0 0 0 [], L)

/-- The first part of nextToken: skipWhiteSpace followed by the first while loop. -/
def advance (Q : QCharData) (fuel : Nat) (L : Lexer) : Option (Sum (Token × Lexer) Lexer) :=
  match skipWhiteSpace Q fuel L with
  | none => none
  | some L1 => lineLoop Q fuel L1

/-- Lexer::nextToken: the returned token and the scanner afterwards. -/
def nextToken (Q : QCharData) (fuel : Nat) (L : Lexer) : Option (Token × Lexer) :=
  if L.d_in = none then some (token L T_EOF 0 [])
  else
    match advance Q fuel L with
    | none => none
    | some (Sum.inl r) => some r
    | some (Sum.inr L2) => scanToken Q fuel L2

/-- The scanner after n calls of nextToken, with the tokens they returned. -/
def calls (Q : QCharData) (fuel : Nat) : Nat → Lexer → Option (List Token × Lexer)
  | 0, L => some ([], L)
  | n + 1, L =>
    match nextToken Q fuel L with
    | none => none
    | some (t, L1) =>
      match calls Q fuel n L1 with
      | none => none
      | some (ts, L2) => some (t :: ts, L2)

/-- The token stream of a source: nextToken is called until it answers EOF, as the loop of
Highlighter::highlightBlock does; at most n calls. -/
def tokens (Q : QCharData) (fuel : Nat) : Nat → Lexer → Option (List Token)
  | 0, _ => none
  | n + 1, L =>
    match nextToken Q fuel L with
    | none => none
    | some (t, L1) =>
      if t.d_type = T_EOF then some [t]
      else
        match tokens Q fuel n L1 with
        | none => none
        | some ts => some (t :: ts)

end Lexer


/-! ## Token predicates (struct Token) and the highlighter (class Highlighter) -/

namespace Token

/-- Token::isValid -/
def isValid (t : Token) : Bool := t.d_type != T_EOF && t.d_type != T_Invalid

/-- Token::isEof -/
def isEof (t : Token) : Bool := t.d_type == T_EOF

/-- Token::isKeyWord -/
def isKeyWord (t : Token) : Bool := Lexer.isKeyWord t.d_type

/-- Token::isDelimiter -/
def isDelimiter (t : Token) : Bool := Lexer.isDelimiter t.d_type

/-- Token::isNumber -/
def isNumber (t : Token) : Bool := Lexer.isNumber t.d_type

/-- Token::isString -/
def isString (t : Token) : Bool := t.d_type == T_String || t.d_type == T_Character

/-- Token::isIdent -/
def isIdent (t : Token) : Bool := t.d_type == T_Identifier

/-- Token::isAttr -/
def isAttr (t : Token) : Bool := t.d_type == T_Attribute

/-- Token::isComment -/
def isComment (t : Token) : Bool := t.d_type == T_Comment

end Token

/-- The character formats that Highlighter holds as members, named after them. -/
inductive Format where
  | commentFormat
  | stringFormat
  | charFormat
  | numberFormat
  | delimiterFormat
  | keyWordFormat
  | identFormat
  | attrFormat
  | invalidFormat
deriving DecidableEq, Repr

/-- One call of setFormat in highlightBlock: start, count, the member the format was copied
from, and the value of the property TokenProp set on the copy. -/
structure FormatCall where
  start : Nat
  count : Nat
  format : Format
  tokenProp : Nat
deriving DecidableEq, Repr

namespace Highlighter

/-- The chain of tests in the loop of highlightBlock that picks the format of a token. -/
def pickFormat (t : Token) : Format :=
  if t.isComment = true then Format.commentFormat
  else if t.isString = true then Format.stringFormat
  else if t.d_type = T_Character then Format.charFormat
  else if t.isNumber = true then Format.numberFormat
  else if t.isDelimiter = true then Format.delimiterFormat
  else if t.isKeyWord = true then Format.keyWordFormat
  else if t.isIdent = true then Format.identFormat
  else if t.isAttr = true then Format.attrFormat
  else Format.invalidFormat

/-- The while loop of highlightBlock, entered with the token t and the scanner L, at most n
tests of its condition: the calls of setFormat in order, and the scanner when it is left. -/
def highlightLoop (Q : QCharData) (fuel : Nat) :
    Nat → Token → Lexer → Option (List FormatCall × Lexer)
  | 0, _, _ => none
  | n + 1, t, L =>
    if t.isEof = true then some ([], L)
    else
      match Lexer.nextToken Q fuel L with
      | none => none
      | some (t1, L1) =>
        match highlightLoop Q fuel n t1 L1 with
        | none => none
        | some (cs, L2) => some (⟨t.d_col, t.d_len, pickFormat t, t.d_type⟩ :: cs, L2)

/-- The lines that a QTextStream reads from the text of one block: a block of a document holds
no line separator, so the text is one line, and an empty text is a stream at its end. -/
def blockLines (text : List Nat) : List (List Nat) :=
  if text = [] then [] else [text]

/-- Highlighter::highlightBlock on the scanner d_lex: the calls of setFormat in order, and the
scanner afterwards. -/
def highlightBlock (Q : QCharData) (fuel n : Nat) (d_lex : Lexer) (text : List Nat) :
    Option (List FormatCall × Lexer) :=
  let L := Lexer.setStream d_lex (some ⟨blockLines text, blockLines text⟩)
  match Lexer.nextToken Q fuel L with
  | none => none
  | some (t, L1) =>
    match highlightLoop Q fuel n t L1 with
    | none => none
    | some (cs, L2) => some (cs, Lexer.setStream L2 none)

end Highlighter
/-! ## Definitions used to state the properties -/

/-- The reserved-word vocabulary, as the specification lists it. -/
def reservedWords : List String := [
  "abort", "abs", "abstract", "accept", "access", "aliased", "all", "and", "array", "at",
  "begin", "body", "case", "constant", "declare", "delay", "delta", "digits", "do", "else",
  "elsif", "end", "entry", "exception", "exit", "for", "function", "generic", "goto", "if",
  "in", "interface", "is", "limited", "loop", "mod", "new", "not", "null", "of", "or",
  "others", "out", "overriding", "package", "pragma", "private", "procedure", "protected",
  "raise", "range", "record", "rem", "renames", "requeue", "return", "reverse", "select",
  "separate", "some", "subtype", "synchronized", "tagged", "task", "terminate", "then",
  "type", "until", "use", "when", "while", "with", "xor"]

/-- Lower-casing of an ASCII letter; every other code unit is unchanged. -/
def asciiLower (c : Nat) : Nat := if 65 ≤ c ∧ c ≤ 90 then c + 32 else c

/-- The string s is a letter-casing of the lower-case word w: position by position the code
unit of s is the one of w or its upper-case form. -/
def Casing (s w : List Nat) : Prop := List.Forall₂ (fun c l => c = l ∨ c + 32 = l) s w

/-- The keyword table: each keyword type from abort to xor with its name in s_tokenName. -/
def keywordTable : List (String × Nat) :=
  (List.range 73).map fun i => (s_tokenName.getD (i + 1) "", i + 1)

/-- A case-insensitive lookup in the keyword table, T_Invalid where no entry matches. -/
def lookupReservedWord (str : List Nat) : Nat :=
  match keywordTable.find? (fun p => qstr p.1 == str.map asciiLower) with
  | some p => p.2
  | none => T_Invalid

/-- The one-character delimiters of the switch in nextToken with their types. -/
def oneCharDelimiter (c : Nat) : Option Nat :=
  if c = 38 then some T_Ampers
  else if c = 40 then some T_LParen
  else if c = 41 then some T_RParen
  else if c = 42 then some T_Star
  else if c = 43 then some T_Plus
  else if c = 44 then some T_Comma
  else if c = 45 then some T_Minus
  else if c = 46 then some T_Dot
  else if c = 47 then some T_Slash
  else if c = 58 then some T_Colon
  else if c = 59 then some T_Semicolon
  else if c = 60 then some T_Lt
  else if c = 61 then some T_Eq
  else if c = 62 then some T_Gt
  else if c = 124 then some T_Bar
  else none

/-- The delimiter fixed by the current character c and the next character of the same line
(none at the end of the line): its type and length. Two dashes start a comment and a tick is
decided by the character two places on, so neither starts a delimiter here. -/
def delimiterAt (c : Nat) (next : Option Nat) : Option (Nat × Nat) :=
  if c = 42 ∧ next = some 42 then some (T_DoubleStar, 2)
  else if c = 46 ∧ next = some 46 then some (T_DoubleDot, 2)
  else if c = 47 ∧ next = some 61 then some (T_Neq, 2)
  else if c = 58 ∧ next = some 61 then some (T_Assig, 2)
  else if c = 60 ∧ next = some 61 then some (T_Leq, 2)
  else if c = 60 ∧ next = some 60 then some (T_LLBrack, 2)
  else if c = 60 ∧ next = some 62 then some (T_Box, 2)
  else if c = 61 ∧ next = some 62 then some (T_Arrow, 2)
  else if c = 62 ∧ next = some 61 then some (T_Geq, 2)
  else if c = 62 ∧ next = some 62 then some (T_RLBrack, 2)
  else if c = 45 ∧ next = some 45 then none
  else (oneCharDelimiter c).map fun tt => (tt, 1)

/-- The line the scanner holds after k lines of the source were read; empty before the
first line is read. -/
def curLine (lines : List (List Nat)) (k : Nat) : List Nat :=
  if k = 0 then [] else lines.getD (k - 1) []

/-- The scanner is attached to the source and has read k of its lines: the stream holds the
remaining lines, the line buffer holds line k, the line number is k as a quint16, and the
column is not behind the end of the line. -/
def At (lines : List (List Nat)) (k : Nat) (L : Lexer) : Prop :=
  L.d_in = some ⟨lines, lines.drop k⟩ ∧ L.d_lineNr = k % 65536 ∧ L.d_line = curLine lines k ∧
  k ≤ lines.length ∧ L.d_colNr ≤ L.d_line.length

/-- Every line of the source is shorter than 65536 characters. -/
def Short (lines : List (List Nat)) : Prop := ∀ l ∈ lines, l.length < 65536

/-- Position (k, c) is not behind position (k1, c1): line first, then column. -/
def PosLe (k c k1 c1 : Nat) : Prop := k < k1 ∨ (k = k1 ∧ c ≤ c1)

/-- Every character of the source from position (k, c) up to, not including, position
(k1, c1) is white space. -/
def Blank (Q : QCharData) (lines : List (List Nat)) (k c k1 c1 : Nat) : Prop :=
  ∀ i j, PosLe k c i j → (i < k1 ∨ (i = k1 ∧ j < c1)) → j < (curLine lines i).length →
    isSpace Q ((curLine lines i).getD j 0) = true

/-- The parser P1 continues P on the same text: the offset has not moved back, and it is
still inside the text if it was. -/
def NumberParser.Ext (P P1 : NumberParser) : Prop :=
  P1.d_str = P.d_str ∧ P1.d_start = P.d_start ∧ P.d_off ≤ P1.d_off ∧
  (P.d_start + P.d_off ≤ P.d_str.length → P1.d_start + P1.d_off ≤ P1.d_str.length)

/-- A result of the scanner at L that, where it is a token, was built by the helper token with
a type other than EOF and a length of at least one that stays inside the line. -/
def TokenInLine (L : Lexer) (r : Option (Token × Lexer)) : Prop :=
  ∀ t L1, r = some (t, L1) →
    ∃ tt len val, (t, L1) = Lexer.token L tt len val ∧ tt ≠ T_EOF ∧ tt < 256 ∧ 1 ≤ len ∧
      L.d_colNr + len ≤ L.d_line.length

/-! ### The grammar of numeric literals, as the specification gives it -/

/-- The rule digit: 0 to 9. -/
def Digit (c : Nat) : Prop := 48 ≤ c ∧ c ≤ 57

/-- The rule extended_digit: a digit, a to f, or A to F. -/
def ExtendedDigit (c : Nat) : Prop := Digit c ∨ (97 ≤ c ∧ c ≤ 102) ∨ (65 ≤ c ∧ c ≤ 70)

/-- The repetition of the rules numeral and based_numeral: a sequence of groups, each a
digit that an underscore may precede. -/
inductive Groups (dig : Nat → Prop) : List Nat → Prop
  | nil : Groups dig []
  | digit (d : Nat) (t : List Nat) : dig d → Groups dig t → Groups dig (d :: t)
  | underline (d : Nat) (t : List Nat) : dig d → Groups dig t → Groups dig (95 :: d :: t)

/-- The rule numeral: a digit followed by groups of digits. -/
def Numeral (w : List Nat) : Prop := ∃ d t, w = d :: t ∧ Digit d ∧ Groups Digit t

/-- The rule based_numeral: an extended digit followed by groups of extended digits. -/
def BasedNumeral (w : List Nat) : Prop :=
  ∃ d t, w = d :: t ∧ ExtendedDigit d ∧ Groups ExtendedDigit t

/-- The rule exponent: e or E, an optional plus or minus, a numeral. -/
def Exponent (w : List Nat) : Prop :=
  ∃ e sign n, w = e :: (sign ++ n) ∧ (e = 101 ∨ e = 69) ∧
    (sign = [] ∨ sign = [43] ∨ sign = [45]) ∧ Numeral n

/-- The rule decimal_literal; point tells whether the fraction is there, ex whether the
exponent is. -/
def DecimalLiteral (w : List Nat) (point ex : Bool) : Prop :=
  ∃ n frac e, w = n ++ (frac ++ e) ∧ Numeral n ∧
    ((point = true ∧ ∃ m, frac = 46 :: m ∧ Numeral m) ∨ (point = false ∧ frac = [])) ∧
    ((ex = true ∧ Exponent e) ∨ (ex = false ∧ e = []))

/-- The rule based_literal; point tells whether the fraction is there, ex whether the
exponent is. -/
def BasedLiteral (w : List Nat) (point ex : Bool) : Prop :=
  ∃ b d frac e, w = b ++ (35 :: (d ++ (frac ++ (35 :: e)))) ∧ Numeral b ∧ BasedNumeral d ∧
    ((point = true ∧ ∃ m, frac = 46 :: m ∧ BasedNumeral m) ∨ (point = false ∧ frac = [])) ∧
    ((ex = true ∧ Exponent e) ∨ (ex = false ∧ e = []))

/-! ### String literals -/

/-- A string body and the text it stands for: a printable character other than the double
quote stands for itself, a doubled double quote stands for one double quote. -/
inductive StringBody (Q : QCharData) : List Nat → List Nat → Prop
  | nil : StringBody Q [] []
  | char (c : Nat) (b d : List Nat) : c ≠ 34 → isPrint Q c = true → StringBody Q b d →
      StringBody Q (c :: b) (c :: d)
  | quote (b d : List Nat) : StringBody Q b d → StringBody Q (34 :: 34 :: b) (34 :: d)

/-- The rest of a line behind an opening double quote that no lone double quote closes:
printable characters other than the double quote and doubled double quotes, up to the end
of the line or to a null character. -/
inductive OpenString (Q : QCharData) : List Nat → Prop
  | eol : OpenString Q []
  | nul (r : List Nat) : OpenString Q (0 :: r)
  | char (c : Nat) (r : List Nat) : c ≠ 34 → isPrint Q c = true → OpenString Q r →
      OpenString Q (c :: r)
  | quote (r : List Nat) : OpenString Q r → OpenString Q (34 :: 34 :: r)


/-! ### Token names -/

/-- The delimiter types in the order of the enumeration, each with its glyph and its
mnemonic name. -/
def delimiterNames : List (Nat × String × String) := [
  (T_Colon, ":", "Colon"), (T_Comma, ",", "Comma"), (T_Dot, ".", "Dot"),
  (T_Semicolon, ";", "Semicolon"), (T_Tick, "\x27", "Tick"), (T_LParen, "(", "LParen"),
  (T_RParen, ")", "RParen"), (T_Ampers, "&", "Ampers"), (T_Bar, "|", "Bar"),
  (T_Eq, "=", "Eq"), (T_Neq, "/=", "Neq"), (T_Lt, "<", "Lt"), (T_Leq, "<=", "Leq"),
  (T_Geq, ">=", "Geq"), (T_Gt, ">", "Gt"), (T_Plus, "+", "Plus"), (T_Minus, "-", "Minus"),
  (T_Star, "*", "Star"), (T_Slash, "/", "Slash"), (T_Arrow, "=>", "Arrow"),
  (T_Assig, ":=", "Assig"), (T_DoubleDot, "..", "DoubleDot"), (T_DoubleStar, "**", "DoubleStar"),
  (T_LLBrack, "<<", "LLBrack"), (T_RLBrack, ">>", "RLBrack"), (T_Box, "<>", "Box")]

/-- The enumerators named after the reserved words, in the order of the vocabulary. -/
def keywordTypes : List Nat := [
  T_abort, T_abs, T_abstract, T_accept, T_access, T_aliased, T_all, T_and, T_array, T_at,
  T_begin, T_body, T_case, T_constant, T_declare, T_delay, T_delta, T_digits, T_do, T_else,
  T_elsif, T_end, T_entry, T_exception, T_exit, T_for, T_function, T_generic, T_goto, T_if, T_in,
  T_interface, T_is, T_limited, T_loop, T_mod, T_new, T_not, T_null, T_of, T_or, T_others, T_out,
  T_overriding, T_package, T_pragma, T_private, T_procedure, T_protected, T_raise, T_range,
  T_record, T_rem, T_renames, T_requeue, T_return, T_reverse, T_select, T_separate, T_some,
  T_subtype, T_synchronized, T_tagged, T_task, T_terminate, T_then, T_type, T_until, T_use,
  T_when, T_while, T_with, T_xor]

/-! ### The grammar of numeric literals over the character classes of the parser -/

/-- A character that QChar::isDigit accepts. -/
def ReadsDigit (Q : QCharData) (c : Nat) : Prop := isDigit Q c = true

/-- A character that the helper extended_digit accepts. -/
def ReadsExtendedDigit (Q : QCharData) (c : Nat) : Prop := NumberParser.extended_digit Q c = true

/-- A character that lower-cases to e, which parse takes for the exponent marker. -/
def ReadsMarker (Q : QCharData) (c : Nat) : Prop := toLower Q c = 101

/-- The rules numeral and based_numeral over a class of digits. -/
def NumeralOf (dig : Nat → Prop) (w : List Nat) : Prop :=
  ∃ d t, w = d :: t ∧ dig d ∧ Groups dig t

/-- The rule exponent over a class of digits and a class of markers. -/
def ExponentOf (dig mark : Nat → Prop) (w : List Nat) : Prop :=
  ∃ e sign n, w = e :: (sign ++ n) ∧ mark e ∧
    (sign = [] ∨ sign = [43] ∨ sign = [45]) ∧ NumeralOf dig n

/-- The rule decimal_literal over a class of digits and a class of markers. -/
def DecimalOf (dig mark : Nat → Prop) (w : List Nat) (point ex : Bool) : Prop :=
  ∃ n frac e, w = n ++ (frac ++ e) ∧ NumeralOf dig n ∧
    ((point = true ∧ ∃ m, frac = 46 :: m ∧ NumeralOf dig m) ∨ (point = false ∧ frac = [])) ∧
    ((ex = true ∧ ExponentOf dig mark e) ∨ (ex = false ∧ e = []))

/-- The rule based_literal over classes of digits, extended digits and markers. -/
def BasedOf (dig xdig mark : Nat → Prop) (w : List Nat) (point ex : Bool) : Prop :=
  ∃ b d frac e, w = b ++ (35 :: (d ++ (frac ++ (35 :: e)))) ∧ NumeralOf dig b ∧
    NumeralOf xdig d ∧
    ((point = true ∧ ∃ m, frac = 46 :: m ∧ NumeralOf xdig m) ∨ (point = false ∧ frac = [])) ∧
    ((ex = true ∧ ExponentOf dig mark e) ∨ (ex = false ∧ e = []))

/-- Every underscore of w stands between two characters of the class that its place asks
for: extended digits where exactly one number sign precedes it, counting k number signs
before w, and digits elsewhere. -/
def UnderlinesOk (Q : QCharData) (k : Nat) (w : List Nat) : Prop :=
  ∀ l r, w = l ++ 95 :: r → ∃ l1 a c r1, l = l1 ++ [a] ∧ r = c :: r1 ∧
    (if k + l.count 35 = 1 then ReadsExtendedDigit Q a ∧ ReadsExtendedDigit Q c
     else ReadsDigit Q a ∧ ReadsDigit Q c)

/-- The places at which parse calls numeral, each given by the text read before it: the
start of the literal, behind the point of a decimal literal, and behind the marker and the
optional sign of the exponent of a decimal or based literal. -/
def NumeralSite (lead : List Nat) : Prop :=
  lead = [] ∨ (∃ n, Numeral n ∧ lead = n ++ [46]) ∨
  (∃ w point e sign, (DecimalLiteral w point false ∨ BasedLiteral w point false) ∧
    (e = 101 ∨ e = 69) ∧ (sign = [] ∨ sign = [43] ∨ sign = [45]) ∧ lead = w ++ e :: sign)

/-! ### Diagnostics and termination -/

/-- The four messages that NumberParser stores through error. -/
def numericMessages : List (List Nat) :=
  [qstr "expecting digit", qstr "expecting extended digit", qstr "expecting #",
   qstr "expecting plus, minus or digit"]

/-- No line of the source holds, behind a double quote, a character that is neither printable
nor null. -/
def QuoteSafe (Q : QCharData) (lines : List (List Nat)) : Prop :=
  ∀ l ∈ lines, ∀ i j, i < j → j < l.length → l.getD i 0 = 34 →
    isPrint Q (l.getD j 0) = true ∨ l.getD j 0 = 0

/-- The parser P1 has kept the flags isBased and hasDecimals of P and has read, from the
offset of P on, no number sign and no point. -/
def NumberParser.Plain (P P1 : NumberParser) : Prop :=
  P1.d_isBased = P.d_isBased ∧ P1.d_hasDecimals = P.d_hasDecimals ∧
  ∀ i, P.d_off ≤ i → i < P1.d_off →
    P.d_str.getD (P.d_start + i) 0 ≠ 35 ∧ P.d_str.getD (P.d_start + i) 0 ≠ 46

/-- The flags isBased and hasDecimals of P tell whether a number sign and a point stand among
the characters read so far. -/
def NumberParser.FlagsTell (P : NumberParser) : Prop :=
  (P.d_isBased = true ↔ ∃ i, i < P.d_off ∧ P.d_str.getD (P.d_start + i) 0 = 35) ∧
  (P.d_hasDecimals = true ↔ ∃ i, i < P.d_off ∧ P.d_str.getD (P.d_start + i) 0 = 46)

/-! ### The order of the format tests -/

/-- The tests of highlightBlock in their order, each with the format it selects. -/
def formatTests : List ((Token → Bool) × Format) :=
  [(Token.isComment, Format.commentFormat), (Token.isString, Format.stringFormat),
   (fun t => t.d_type == T_Character, Format.charFormat),
   (Token.isNumber, Format.numberFormat), (Token.isDelimiter, Format.delimiterFormat),
   (Token.isKeyWord, Format.keyWordFormat), (Token.isIdent, Format.identFormat),
   (Token.isAttr, Format.attrFormat)]

/-- The format of the first test that the token passes, the invalid format if it passes
none. -/
def firstFormat (t : Token) : Format :=
  match formatTests.find? (fun p => p.1 t) with
  | some p => p.2
  | none => Format.invalidFormat

/-- The call of setFormat that goes with a token. -/
def formatCallOf (t : Token) : FormatCall :=
  ⟨t.d_col, t.d_len, Highlighter.pickFormat t, t.d_type⟩
open Lexer

/-! ## An unprintable character inside a string literal -/

/-- Where the character at off is no double quote, not printable and not null, the loop of
string starts each iteration at the same offset and never leaves. -/
theorem stringLoop_stuck (Q : QCharData) (L : Lexer) (off : Nat)
    (h1 : lookAhead2 L off ≠ 34) (h2 : isPrint Q (lookAhead2 L off) = false)
    (h3 : isNull (lookAhead2 L off) = false) :
    ∀ fuel, stringLoop Q L fuel off = none := by
  intro fuel
  induction fuel with
  | zero => rfl
  | succ n ih => simp [stringLoop, h1, h2, h3, ih]

/-- C1, at the source whose only line is a double quote followed by a tab: whatever the
iteration budget, the first call of nextToken does not return. -/
theorem nextToken_tab_in_string_never_returns (Q : QCharData) (fuel : Nat) :
    nextToken Q fuel (attach [[34, 9]]) = none := by
  have hs : ∀ k, stringLoop Q ⟨some ⟨[[34, 9]], []⟩, 1, 0, [34, 9], 0⟩ k 1 = none :=
    stringLoop_stuck Q _ 1 (by decide) (by rfl) (by rfl)
  rcases fuel with _ | _ | _ | n
  · rfl
  · rfl
  · rfl
  · simp [nextToken, advance, attach, setStream, reset, new, skipWhiteSpace, lineLoop, atEnd,
      nextLine, scanToken, string, isSpace, hs]


/-- At the source whose only line is a double quote, a tab and a closing double quote,
nextToken does not return, whatever the iteration budget. -/
theorem nextToken_tab_in_closed_string_never_returns (Q : QCharData) (fuel : Nat) :
    nextToken Q fuel (attach [[34, 9, 34]]) = none := by
  have hs : ∀ k, stringLoop Q ⟨some ⟨[[34, 9, 34]], []⟩, 1, 0, [34, 9, 34], 0⟩ k 1 = none :=
    stringLoop_stuck Q _ 1 (by decide) (by rfl) (by rfl)
  rcases fuel with _ | _ | _ | n
  · rfl
  · rfl
  · rfl
  · simp [nextToken, advance, attach, setStream, reset, new, skipWhiteSpace, lineLoop, atEnd,
      nextLine, scanToken, string, isSpace, hs]

/-- At the source whose only line is a double quote, the letter a and a tab, with no closing
quote, nextToken does not return, whatever the iteration budget. -/
theorem nextToken_tab_in_open_string_never_returns (Q : QCharData) (fuel : Nat) :
    nextToken Q fuel (attach [[34, 97, 9]]) = none := by
  have hs : ∀ k, stringLoop Q ⟨some ⟨[[34, 97, 9]], []⟩, 1, 0, [34, 97, 9], 0⟩ k 2 = none :=
    stringLoop_stuck Q _ 2 (by decide) (by rfl) (by rfl)
  have h1 : ∀ k, stringLoop Q ⟨some ⟨[[34, 97, 9]], []⟩, 1, 0, [34, 97, 9], 0⟩ k 1 = none := by
    intro k
    cases k with
    | zero => rfl
    | succ k => rw [stringLoop]; simp [lookAhead2, isPrint, hs]
  rcases fuel with _ | _ | _ | n
  · rfl
  · rfl
  · rfl
  · simp [nextToken, advance, attach, setStream, reset, new, skipWhiteSpace, lineLoop, atEnd,
      nextLine, scanToken, string, isSpace, h1]

/-! ## The reserved-word classifier -/

/-- C5, at the string atx: the classifier answers the keyword at, where a lookup of the
lower-cased string in the keyword table finds no keyword; the at case tests the character at
offset 3 where the word ends at offset 2. -/
theorem findReservedWord_atx (Q : QCharData) :
    findReservedWord Q (qstr "atx") = T_at ∧ lookupReservedWord (qstr "atx") = T_Invalid :=
  ⟨rfl, by decide⟩

theorem asciiLower_eq_zero (u : Nat) : (asciiLower u == 0) = (u == 0) := by
  unfold asciiLower
  by_cases h : 65 ≤ u ∧ u ≤ 90
  · have h1 : u ≠ 0 := by omega
    simp [h, h1]
  · simp [h]

theorem toLower_asciiLower (Q : QCharData) (c : Nat) :
    toLower Q (asciiLower c) = toLower Q c := by
  unfold toLower asciiLower
  by_cases h : 65 ≤ c ∧ c ≤ 90
  · have h1 : c < 128 := by omega
    have h2 : c + 32 < 128 := by omega
    have h3 : ¬ (65 ≤ c + 32 ∧ c + 32 ≤ 90) := by omega
    simp only [h, h1, h2, h3, and_self, ↓reduceIte, decide_True, Bool.and_self]
    simp
    omega
  · simp [h]

theorem getD_map_asciiLower (s : List Nat) (i : Nat) :
    (s.map asciiLower).getD i 0 = asciiLower (s.getD i 0) := by
  induction s generalizing i with
  | nil => simp [asciiLower]
  | cons a t ih =>
    cases i with
    | zero => rfl
    | succ i => simp only [List.map_cons, List.getD_cons_succ, ih]

theorem at_map_asciiLower (s : List Nat) (i : Nat) :
    at_ (s.map asciiLower) i = asciiLower (at_ s i) := by
  unfold at_
  by_cases h : i < s.length
  · simp [h, getD_map_asciiLower]
  · simp [h, asciiLower]

theorem checkLoop_map_asciiLower (Q : QCharData) (s : List Nat) (off : Nat) (m : String) :
    ∀ n i, checkLoop Q (s.map asciiLower) off m n i = checkLoop Q s off m n i := by
  intro n
  induction n with
  | zero => intro i; rfl
  | succ n ih =>
    intro i
    simp only [checkLoop, getD_map_asciiLower, toLower_asciiLower, ih]

theorem check_map_asciiLower (Q : QCharData) (s : List Nat) (off : Nat) (m : String) :
    check Q (s.map asciiLower) off m = check Q s off m := by
  simp only [check, checkLoop_map_asciiLower, List.length_map]

theorem isCase_asciiLower (u : Nat) (a b : Char) (h : b.toNat + 32 = a.toNat)
    (ha : 97 ≤ a.toNat ∧ a.toNat ≤ 122) : isCase (asciiLower u) a b = isCase u a b := by
  unfold isCase asciiLower
  generalize a.toNat = x at *
  generalize b.toNat = y at *
  rw [Bool.eq_iff_iff]
  simp only [Bool.or_eq_true, beq_iff_eq]
  split_ifs <;> omega

/-- The classifier does not tell a string from its ASCII lower-casing. -/
theorem findReservedWord_map_asciiLower (Q : QCharData) (s : List Nat) :
    findReservedWord Q (s.map asciiLower) = findReservedWord Q s := by
  simp only [findReservedWord, at_map_asciiLower, check_map_asciiLower, asciiLower_eq_zero,
    isCase_asciiLower _ 'a' 'A' (by decide) (by decide),
    isCase_asciiLower _ 'b' 'B' (by decide) (by decide),
    isCase_asciiLower _ 'c' 'C' (by decide) (by decide),
    isCase_asciiLower _ 'd' 'D' (by decide) (by decide),
    isCase_asciiLower _ 'e' 'E' (by decide) (by decide),
    isCase_asciiLower _ 'f' 'F' (by decide) (by decide),
    isCase_asciiLower _ 'g' 'G' (by decide) (by decide),
    isCase_asciiLower _ 'h' 'H' (by decide) (by decide),
    isCase_asciiLower _ 'i' 'I' (by decide) (by decide),
    isCase_asciiLower _ 'l' 'L' (by decide) (by decide),
    isCase_asciiLower _ 'm' 'M' (by decide) (by decide),
    isCase_asciiLower _ 'n' 'N' (by decide) (by decide),
    isCase_asciiLower _ 'o' 'O' (by decide) (by decide),
    isCase_asciiLower _ 'p' 'P' (by decide) (by decide),
    isCase_asciiLower _ 'r' 'R' (by decide) (by decide),
    isCase_asciiLower _ 's' 'S' (by decide) (by decide),
    isCase_asciiLower _ 't' 'T' (by decide) (by decide),
    isCase_asciiLower _ 'u' 'U' (by decide) (by decide),
    isCase_asciiLower _ 'w' 'W' (by decide) (by decide),
    isCase_asciiLower _ 'x' 'X' (by decide) (by decide),
    isCase_asciiLower _ 'y' 'Y' (by decide) (by decide)]

theorem Casing.map_asciiLower {s w : List Nat} (h : Casing s w)
    (hw : ∀ l ∈ w, 97 ≤ l ∧ l ≤ 122) : s.map asciiLower = w := by
  unfold Casing at h
  induction h with
  | nil => rfl
  | @cons c l s' w' hcl _ ih =>
    have hl := hw l (List.mem_cons_self _ _)
    have ht := ih (fun x hx => hw x (List.mem_cons_of_mem _ hx))
    simp only [List.map_cons, ht, List.cons.injEq, and_true]
    unfold asciiLower
    split_ifs <;> omega

theorem keywordTable_all (Q : QCharData) :
    keywordTable.all (fun p => findReservedWord Q (qstr p.1) == p.2
      && (qstr p.1).all (fun l => decide (97 ≤ l) && decide (l ≤ 122))
      && isKeyWord p.2 && (tokenName p.2 false == p.1)) = true := by
  rfl

theorem keywordTable_spec (Q : QCharData) (w : String) (k : Nat) (h : (w, k) ∈ keywordTable)
    (s : List Nat) (hs : Casing s (qstr w)) :
    findReservedWord Q s = k ∧ isKeyWord k = true ∧ tokenName k false = w := by
  have h1 := List.all_eq_true.mp (keywordTable_all Q) (w, k) h
  simp only [Bool.and_eq_true, beq_iff_eq, List.all_eq_true, decide_eq_true_eq] at h1
  obtain ⟨⟨⟨hf, hl⟩, hk⟩, hn⟩ := h1
  refine ⟨?_, hk, hn⟩
  rw [← findReservedWord_map_asciiLower, hs.map_asciiLower hl, hf]

theorem reservedWords_eq : reservedWords = keywordTable.map Prod.fst := by decide

theorem mem_keywordTable_of_isKeyWord (k : Nat) (h : isKeyWord k = true) :
    (tokenName k false, k) ∈ keywordTable := by
  simp only [isKeyWord, Bool.and_eq_true, decide_eq_true_eq, ge_iff_le] at h
  have h3 : tokenName k false = s_tokenName.getD k "" := by
    have : k ≤ T_EOF := by simp only [T_EOF, T_xor] at *; omega
    simp [tokenName, this]
  unfold keywordTable
  rw [List.mem_map]
  refine ⟨k - 1, ?_, ?_⟩
  · rw [List.mem_range]; simp only [T_xor] at h; omega
  · have : k - 1 + 1 = k := by simp only [T_abort] at h; omega
    rw [this, h3]

/-- C4: the vocabulary has 73 words; for each of them and every letter-casing s of it,
findReservedWord answers a keyword type whose tokenName is the word; and for every keyword
type k, findReservedWord answers k on every letter-casing of tokenName k. -/
theorem keyword_round_trip (Q : QCharData) :
    reservedWords.length = 73 ∧
    (∀ w ∈ reservedWords, ∀ s, Casing s (qstr w) →
      isKeyWord (findReservedWord Q s) = true ∧ tokenName (findReservedWord Q s) false = w) ∧
    (∀ k, isKeyWord k = true → ∀ s, Casing s (qstr (tokenName k false)) →
      findReservedWord Q s = k) := by
  refine ⟨by decide, ?_, ?_⟩
  · intro w hw s hs
    rw [reservedWords_eq, List.mem_map] at hw
    obtain ⟨⟨w', k⟩, hp, rfl⟩ := hw
    obtain ⟨hf, hk, hn⟩ := keywordTable_spec Q w' k hp s hs
    rw [hf]
    exact ⟨hk, hn⟩
  · intro k hk s hs
    exact (keywordTable_spec Q _ k (mem_keywordTable_of_isKeyWord k hk) s hs).1

/-- C4 at the spelling BeGiN of begin. -/
theorem keyword_round_trip_witness :
    findReservedWord asciiData (qstr "BeGiN") = T_begin ∧
    tokenName (findReservedWord asciiData (qstr "BeGiN")) false = "begin" :=
  have hc : Casing (qstr "BeGiN") (qstr "begin") := by
    unfold Casing
    decide
  ⟨(keyword_round_trip asciiData).2.2 T_begin (by decide) _ hc,
   ((keyword_round_trip asciiData).2.1 "begin" (by decide) _ hc).2⟩

/-! ## The scanner: white space and line reading -/

theorem skipWhiteSpace_spec (Q : QCharData) : ∀ (f : Nat) (L L' : Lexer),
    skipWhiteSpace Q f L = some L' →
    L' = { L with d_colNr := L'.d_colNr } ∧
    ¬ (L'.d_colNr < L.d_line.length ∧ isSpace Q (L.d_line.getD L'.d_colNr 0) = true) ∧
    (L.d_line.length < 65536 → L.d_colNr ≤ L'.d_colNr ∧
      (∀ j, L.d_colNr ≤ j → j < L'.d_colNr →
        j < L.d_line.length ∧ isSpace Q (L.d_line.getD j 0) = true)) := by
  intro f
  induction f with
  | zero => intro L L' h; simp [skipWhiteSpace] at h
  | succ f ih =>
    intro L L' h
    rw [skipWhiteSpace] at h
    by_cases hc : L.d_colNr < L.d_line.length ∧ isSpace Q (L.d_line.getD L.d_colNr 0) = true
    · rw [if_pos hc] at h
      obtain ⟨h1, h2, h3⟩ := ih _ _ h
      refine ⟨?_, h2, ?_⟩
      · rw [h1]
      · intro hs
        have hm : (L.d_colNr + 1) % 65536 = L.d_colNr + 1 := Nat.mod_eq_of_lt (by omega)
        obtain ⟨h4, h5⟩ := h3 hs
        simp only [hm] at h4 h5
        refine ⟨by omega, ?_⟩
        intro j hj1 hj2
        by_cases hj : j = L.d_colNr
        · subst hj; exact hc
        · exact h5 j (by omega) hj2
    · rw [if_neg hc] at h
      cases h
      exact ⟨rfl, hc, fun _ => ⟨le_refl _, fun j h1 h2 => absurd h2 (by omega)⟩⟩

theorem lookAhead_pos (L : Lexer) (off x : Nat) (h : lookAhead L off = x) (hx : x ≠ 0) :
    L.d_colNr + off < L.d_line.length ∧ L.d_line.getD (L.d_colNr + off) 0 = x := by
  unfold lookAhead at h
  by_cases hc : L.d_colNr + off < L.d_line.length
  · rw [if_pos hc] at h
    by_cases h2 : L.d_line.getD (L.d_colNr + off) 0 < 255
    · simp only [h2, ↓reduceIte] at h
      exact ⟨hc, h⟩
    · simp only [h2, ↓reduceIte] at h
      exact absurd h.symm hx
  · rw [if_neg hc] at h
    exact absurd h.symm hx

theorem lookAhead2_pos (L : Lexer) (off x : Nat) (h : lookAhead2 L off = x) (hx : x ≠ 0) :
    L.d_colNr + off < L.d_line.length ∧ L.d_line.getD (L.d_colNr + off) 0 = x := by
  unfold lookAhead2 at h
  by_cases hc : L.d_colNr + off < L.d_line.length
  · rw [if_pos hc] at h
    exact ⟨hc, h⟩
  · rw [if_neg hc] at h
    exact absurd h.symm hx

theorem curLine_short {lines : List (List Nat)} (hs : Short lines) (k : Nat) :
    (curLine lines k).length < 65536 := by
  unfold curLine
  split_ifs with h
  · simp
  · by_cases hk : k - 1 < lines.length
    · rw [List.getD_eq_getElem _ _ hk]
      exact hs _ (List.getElem_mem _)
    · rw [List.getD_eq_default _ _ (by omega)]
      simp

theorem Blank.blank_trans {Q : QCharData} {lines : List (List Nat)} {k c k1 c1 k2 c2 : Nat}
    (h1 : Blank Q lines k c k1 c1) (h2 : Blank Q lines k1 c1 k2 c2) :
    Blank Q lines k c k2 c2 := by
  intro i j hle hlt hj
  by_cases hb : i < k1 ∨ (i = k1 ∧ j < c1)
  · exact h1 i j hle hb hj
  · refine h2 i j ?_ hlt hj
    unfold PosLe
    omega

theorem Blank.blank_refl (Q : QCharData) (lines : List (List Nat)) (k c : Nat) :
    Blank Q lines k c k c := by
  intro i j hle hlt _
  unfold PosLe at hle
  omega

theorem PosLe.posLe_trans {k c k1 c1 k2 c2 : Nat} (h1 : PosLe k c k1 c1) (h2 : PosLe k1 c1 k2 c2) :
    PosLe k c k2 c2 := by
  unfold PosLe at *
  omega

theorem drop_eq_cons {α : Type} {l : List α} {k : Nat} {a : α} {r : List α} (d : α)
    (h : l.drop k = a :: r) : k < l.length ∧ l.getD k d = a ∧ l.drop (k + 1) = r := by
  have hk : k < l.length := by
    by_contra hn
    rw [List.drop_eq_nil_of_le (by omega)] at h
    cases h
  refine ⟨hk, ?_, ?_⟩
  · rw [List.getD_eq_getElem _ _ hk]
    have := List.drop_eq_getElem_cons hk
    rw [this] at h
    exact (List.cons.inj h).1
  · have := List.drop_eq_getElem_cons hk
    rw [this] at h
    exact (List.cons.inj h).2

/-- The state in which the first part of nextToken ends: the scanner Lm stands after k1 lines at
a column reached over white space only, either inside the line or at the end of the last line
with the EOF token returned. -/
theorem lineLoop_spec (Q : QCharData) (lines : List (List Nat)) (hs : Short lines) :
    ∀ (f k : Nat) (L : Lexer) (r : Sum (Token × Lexer) Lexer), At lines k L →
    lineLoop Q f L = some r →
    ∃ k1 Lm, At lines k1 Lm ∧ Lm.d_lastTokenType = L.d_lastTokenType ∧
      PosLe k L.d_colNr k1 Lm.d_colNr ∧ Blank Q lines k L.d_colNr k1 Lm.d_colNr ∧
      ((r = Sum.inr Lm ∧ Lm.d_colNr < Lm.d_line.length) ∨
       (r = Sum.inl (token Lm T_EOF 0 []) ∧ k1 = lines.length ∧
         Lm.d_colNr = Lm.d_line.length)) := by
  intro f
  induction f with
  | zero => intro k L r _ h; simp [lineLoop] at h
  | succ f ih =>
    intro k L r hat h
    obtain ⟨hin, hnr, hline, hk, hcol⟩ := hat
    rw [lineLoop] at h
    by_cases hc : L.d_colNr ≥ L.d_line.length
    · rw [if_pos hc] at h
      by_cases he : atEnd L = true
      · rw [if_pos he] at h
        cases h
        refine ⟨k, L, ⟨hin, hnr, hline, hk, hcol⟩, rfl, Or.inr ⟨rfl, le_refl _⟩,
          Blank.blank_refl _ _ _ _, Or.inr ⟨rfl, ?_, by omega⟩⟩
        simp only [atEnd, hin, List.isEmpty_eq_true, List.drop_eq_nil_iff] at he
        omega
      · rw [if_neg he] at h
        simp only [atEnd, hin, List.isEmpty_eq_true] at he
        obtain ⟨a, rest, hd⟩ := List.exists_cons_of_ne_nil he
        obtain ⟨hk1, hget, hdrop⟩ := drop_eq_cons [] hd
        have hnl : nextLine L =
            ⟨some ⟨lines, rest⟩, (L.d_lineNr + 1) % 65536, 0, a, L.d_lastTokenType⟩ := by
          simp [nextLine, hin, hd]
        rw [hnl] at h
        cases hsk : skipWhiteSpace Q f
            ⟨some ⟨lines, rest⟩, (L.d_lineNr + 1) % 65536, 0, a, L.d_lastTokenType⟩ with
        | none => rw [hsk] at h; simp at h
        | some L1 =>
          rw [hsk] at h
          simp only at h
          have hcur : curLine lines (k + 1) = a := by
            unfold curLine
            rw [if_neg (Nat.succ_ne_zero k), Nat.add_sub_cancel]
            exact hget
          have hshort : a.length < 65536 := hcur ▸ curLine_short hs (k + 1)
          obtain ⟨e1, e2, e3⟩ := skipWhiteSpace_spec Q f _ L1 hsk
          obtain ⟨e4, e5⟩ := e3 hshort
          simp only at e4 e5 e2
          have hL1col : L1.d_colNr ≤ a.length := by
            by_contra hn
            have := (e5 (L1.d_colNr - 1) (by omega) (by omega)).1
            omega
          have hat1 : At lines (k + 1) L1 := by
            rw [e1]
            refine ⟨by simp [hdrop], ?_, by simp [hcur], hk1, by simpa using hL1col⟩
            simp only [hnr]
            omega
          obtain ⟨k2, Lm, h1, h2, h3, h4, h5⟩ := ih (k + 1) L1 r hat1 h
          refine ⟨k2, Lm, h1, ?_, ?_, ?_, h5⟩
          · rw [h2, e1]
          · unfold PosLe at h3 ⊢
            omega
          · have hb1 : Blank Q lines k L.d_colNr (k + 1) 0 := by
              intro i j hle hlt hj
              unfold PosLe at hle
              have hi : i = k := by omega
              subst hi
              rw [← hline] at hj
              omega
            have hb2 : Blank Q lines (k + 1) 0 (k + 1) L1.d_colNr := by
              intro i j hle hlt hj
              unfold PosLe at hle
              have hi : i = k + 1 := by omega
              subst hi
              rw [hcur]
              exact (e5 j (by omega) (by omega)).2
            exact (hb1.blank_trans hb2).blank_trans h4
    · rw [if_neg hc] at h
      cases h
      exact ⟨k, L, ⟨hin, hnr, hline, hk, hcol⟩, rfl, Or.inr ⟨rfl, le_refl _⟩,
        Blank.blank_refl _ _ _ _, Or.inl ⟨rfl, by omega⟩⟩

theorem advance_spec (Q : QCharData) (lines : List (List Nat)) (hs : Short lines)
    (f k : Nat) (L : Lexer) (r : Sum (Token × Lexer) Lexer) (hat : At lines k L)
    (h : advance Q f L = some r) :
    ∃ k1 Lm, At lines k1 Lm ∧ Lm.d_lastTokenType = L.d_lastTokenType ∧
      PosLe k L.d_colNr k1 Lm.d_colNr ∧ Blank Q lines k L.d_colNr k1 Lm.d_colNr ∧
      ((r = Sum.inr Lm ∧ Lm.d_colNr < Lm.d_line.length) ∨
       (r = Sum.inl (token Lm T_EOF 0 []) ∧ k1 = lines.length ∧
         Lm.d_colNr = Lm.d_line.length)) := by
  unfold advance at h
  cases hsk : skipWhiteSpace Q f L with
  | none => rw [hsk] at h; simp at h
  | some L1 =>
    rw [hsk] at h
    simp only at h
    obtain ⟨hin, hnr, hline, hk, hcol⟩ := hat
    have hshort : L.d_line.length < 65536 := hline ▸ curLine_short hs k
    obtain ⟨e1, e2, e3⟩ := skipWhiteSpace_spec Q f _ L1 hsk
    obtain ⟨e4, e5⟩ := e3 hshort
    have hL1col : L1.d_colNr ≤ L.d_line.length := by
      by_contra hn
      have := (e5 (L1.d_colNr - 1) (by omega) (by omega)).1
      omega
    have hat1 : At lines k L1 := by
      rw [e1]
      exact ⟨hin, hnr, hline, hk, hL1col⟩
    obtain ⟨k2, Lm, h1, h2, h3, h4, h5⟩ := lineLoop_spec Q lines hs f k L1 r hat1 h
    refine ⟨k2, Lm, h1, ?_, ?_, ?_, h5⟩
    · rw [h2, e1]
    · unfold PosLe at h3 ⊢
      omega
    · have hb : Blank Q lines k L.d_colNr k L1.d_colNr := by
        intro i j hle hlt hj
        unfold PosLe at hle
        have hi : i = k := by omega
        subst hi
        rw [← hline]
        exact (e5 j (by omega) (by omega)).2
      exact hb.blank_trans h4

/-! ## The numeric-literal parser: the consumed length stays inside the text -/

theorem isDigit_zero (Q : QCharData) : isDigit Q 0 = false := by simp [isDigit]

theorem extended_digit_zero (Q : QCharData) : NumberParser.extended_digit Q 0 = false := by
  simp [NumberParser.extended_digit, isDigit]

theorem toLower_zero (Q : QCharData) : toLower Q 0 = 0 := by simp [toLower]

theorem isDigit_ne_zero {Q : QCharData} {c : Nat} (h : isDigit Q c = true) : c ≠ 0 := by
  rintro rfl
  rw [isDigit_zero] at h
  cases h

theorem extended_digit_ne_zero {Q : QCharData} {c : Nat}
    (h : NumberParser.extended_digit Q c = true) : c ≠ 0 := by
  rintro rfl
  rw [extended_digit_zero] at h
  cases h

namespace NumberParser

theorem np_lookAhead_pos (P : NumberParser) (off : Nat) (h : lookAhead P off ≠ 0) :
    P.d_start + off < P.d_str.length := by
  unfold lookAhead at h
  by_contra hn
  rw [if_neg hn] at h
  exact h rfl

theorem Ext.ext_refl (P : NumberParser) : Ext P P := ⟨rfl, rfl, le_refl _, fun h => h⟩

theorem Ext.ext_trans {P P1 P2 : NumberParser} (h1 : Ext P P1) (h2 : Ext P1 P2) : Ext P P2 := by
  obtain ⟨a1, a2, a3, a4⟩ := h1
  obtain ⟨b1, b2, b3, b4⟩ := h2
  refine ⟨by rw [b1, a1], by rw [b2, a2], by omega, ?_⟩
  intro h
  apply b4
  have := a4 h
  rw [a1] at this ⊢
  exact this

/-- Moving one place on over a character that is there. -/
theorem Ext.ext_bump {P P1 : NumberParser} (hs : P1.d_str = P.d_str) (ht : P1.d_start = P.d_start)
    (ho : P1.d_off = P.d_off + 1) (hc : lookAhead P P.d_off ≠ 0) : Ext P P1 := by
  have := np_lookAhead_pos P _ hc
  refine ⟨hs, ht, by omega, fun _ => ?_⟩
  rw [hs, ht, ho]
  omega

theorem Ext.ext_error {P : NumberParser} (msg : String) : Ext P (error P msg).2 :=
  ⟨rfl, rfl, le_refl _, fun h => h⟩

theorem numeralLoop_ext (Q : QCharData) : ∀ (f : Nat) (P : NumberParser)
    (r : Bool × NumberParser), numeralLoop Q f P = some r → Ext P r.2 := by
  intro f
  induction f with
  | zero => intro P r h; simp [numeralLoop] at h
  | succ f ih =>
    intro P r h
    rw [numeralLoop] at h
    simp only at h
    split_ifs at h with h1 h2 h3 h4
    · have hb : Ext P { P with d_off := P.d_off + 1 } :=
        Ext.ext_bump rfl rfl rfl (by rw [h2]; decide)
      have e := ih _ _ h
      have hb2 : Ext { P with d_off := P.d_off + 1 } { P with d_off := P.d_off + 1 + 1 } :=
        Ext.ext_bump rfl rfl rfl (isDigit_ne_zero h3)
      exact hb.ext_trans (hb2.ext_trans e)
    · cases h
      exact (Ext.ext_bump rfl rfl rfl (by rw [h2]; decide) : Ext P { P with d_off := P.d_off + 1 })
    · have e := ih _ _ h
      have hb : Ext P { P with d_off := P.d_off + 1 } :=
        Ext.ext_bump rfl rfl rfl (isDigit_ne_zero h4)
      exact hb.ext_trans e
    · exact ih _ _ h
    · cases h
      exact Ext.ext_refl P

theorem numeral_ext (Q : QCharData) (f : Nat) (P : NumberParser) (r : Bool × NumberParser)
    (h : numeral Q f P = some r) :
    Ext P r.2 ∧ (isDigit Q (lookAhead P P.d_off) = true → P.d_off < r.2.d_off) := by
  unfold numeral at h
  split_ifs at h with h1
  · cases h
    exact ⟨Ext.ext_error _, fun h2 => by rw [h1] at h2; cases h2⟩
  · have h1' : isDigit Q (lookAhead P P.d_off) = true := by simpa using h1
    have hb : Ext P { P with d_off := P.d_off + 1 } :=
      Ext.ext_bump rfl rfl rfl (isDigit_ne_zero h1')
    have he := numeralLoop_ext Q f _ r h
    refine ⟨hb.ext_trans he, fun _ => ?_⟩
    have := he.2.2.1
    simp only at this
    omega

theorem basedNumeralLoop_ext (Q : QCharData) : ∀ (f : Nat) (P : NumberParser)
    (r : Bool × NumberParser), basedNumeralLoop Q f P = some r → Ext P r.2 := by
  intro f
  induction f with
  | zero => intro P r h; simp [basedNumeralLoop] at h
  | succ f ih =>
    intro P r h
    rw [basedNumeralLoop] at h
    simp only at h
    split_ifs at h with h1 h2 h3 h4
    · have hb : Ext P { P with d_off := P.d_off + 1 } :=
        Ext.ext_bump rfl rfl rfl (by rw [h2]; decide)
      have e := ih _ _ h
      have hb2 : Ext { P with d_off := P.d_off + 1 } { P with d_off := P.d_off + 1 + 1 } :=
        Ext.ext_bump rfl rfl rfl (extended_digit_ne_zero h3)
      exact hb.ext_trans (hb2.ext_trans e)
    · cases h
      exact (Ext.ext_bump rfl rfl rfl (by rw [h2]; decide) : Ext P { P with d_off := P.d_off + 1 })
    · have e := ih _ _ h
      have hb : Ext P { P with d_off := P.d_off + 1 } :=
        Ext.ext_bump rfl rfl rfl (extended_digit_ne_zero h4)
      exact hb.ext_trans e
    · exact ih _ _ h
    · cases h
      exact Ext.ext_refl P

theorem basedNumeral_ext (Q : QCharData) (f : Nat) (P : NumberParser)
    (r : Bool × NumberParser) (h : basedNumeral Q f P = some r) : Ext P r.2 := by
  unfold basedNumeral at h
  split_ifs at h with h1
  · cases h
    exact Ext.ext_error _
  · have h1' : extended_digit Q (lookAhead P P.d_off) = true := by simpa using h1
    have hb : Ext P { P with d_off := P.d_off + 1 } :=
      Ext.ext_bump rfl rfl rfl (extended_digit_ne_zero h1')
    exact hb.ext_trans (basedNumeralLoop_ext Q f _ r h)

theorem exponent_ext (Q : QCharData) (f : Nat) (P : NumberParser) (r : Bool × NumberParser)
    (h : exponent Q f P = some r) : Ext P r.2 := by
  unfold exponent at h
  simp only at h
  split_ifs at h with h1 h2 h3
  · have hb : Ext P { P with d_off := P.d_off + 1 } :=
      Ext.ext_bump rfl rfl rfl (by rcases h2 with h2 | h2 <;> rw [h2] <;> decide)
    exact hb.ext_trans (numeral_ext Q f _ r h).1
  · exact (numeral_ext Q f _ r h).1
  · cases h
    exact Ext.ext_refl P
  · cases h
    exact Ext.ext_error _

theorem parseExponent_ext (Q : QCharData) (f : Nat) (P : NumberParser)
    (r : Bool × NumberParser) (h : parseExponent Q f P = some r) : Ext P r.2 := by
  unfold parseExponent at h
  split_ifs at h with h1
  · have hne : lookAhead P P.d_off ≠ 0 := by
      intro h0
      rw [h0, toLower_zero] at h1
      cases h1
    have hb : Ext P { P with d_hasExponent := true, d_off := P.d_off + 1 } :=
      Ext.ext_bump rfl rfl rfl hne
    exact hb.ext_trans (exponent_ext Q f _ r h)
  · cases h
    exact Ext.ext_refl P

end NumberParser

namespace NumberParser

theorem parse_ext (Q : QCharData) (f : Nat) (P0 : NumberParser) (r : Bool × NumberParser)
    (h : parse Q f P0 = some r) :
    Ext { P0 with d_off := 0, d_hasDecimals := false, d_hasExponent := false,
                  d_isBased := false } r.2 ∧
    (isDigit Q (lookAhead P0 0) = true → 1 ≤ r.2.d_off) := by
  unfold parse at h
  simp only at h
  cases hn : numeral Q f
      { P0 with d_off := 0, d_hasDecimals := false, d_hasExponent := false,
                d_isBased := false } with
  | none => rw [hn] at h; simp at h
  | some r1 =>
    obtain ⟨b1, P1⟩ := r1
    obtain ⟨e1, e1'⟩ := numeral_ext Q f _ _ hn
    simp only at e1 e1'
    have hlook : lookAhead
        { P0 with d_off := 0, d_hasDecimals := false, d_hasExponent := false,
                  d_isBased := false } 0 = lookAhead P0 0 := rfl
    rw [hlook] at e1'
    rw [hn] at h
    suffices hs : Ext P1 r.2 by
      refine ⟨e1.ext_trans hs, fun hd => ?_⟩
      have := e1' hd
      have := hs.2.2.1
      omega
    cases b1 with
    | false =>
      simp only at h
      cases h
      exact Ext.ext_refl _
    | true =>
      simp only at h
      split_ifs at h with hh hp
      · have hb : Ext P1 { P1 with d_isBased := true, d_off := P1.d_off + 1 } :=
          Ext.ext_bump rfl rfl rfl (by rw [hh]; decide)
        cases hn2 : basedNumeral Q f { P1 with d_isBased := true, d_off := P1.d_off + 1 } with
        | none => rw [hn2] at h; simp at h
        | some r2 =>
          obtain ⟨b2, P2⟩ := r2
          have e2 := basedNumeral_ext Q f _ _ hn2
          simp only at e2
          rw [hn2] at h
          cases b2 with
          | false =>
            simp only at h
            cases h
            exact hb.ext_trans e2
          | true =>
            simp only at h
            by_cases hp : lookAhead P2 P2.d_off = 46
            · rw [if_pos hp] at h
              have hb3 : Ext P2 { P2 with d_hasDecimals := true, d_off := P2.d_off + 1 } :=
                Ext.ext_bump rfl rfl rfl (by rw [hp]; decide)
              cases hn3 : basedNumeral Q f
                  { P2 with d_hasDecimals := true, d_off := P2.d_off + 1 } with
              | none => rw [hn3] at h; simp at h
              | some r3 =>
                obtain ⟨b3, P3⟩ := r3
                have e3 := basedNumeral_ext Q f _ _ hn3
                simp only at e3
                rw [hn3] at h
                have e03 : Ext P1 P3 := (hb.ext_trans e2).ext_trans (hb3.ext_trans e3)
                cases b3 with
                | false =>
                  simp only at h
                  cases h
                  exact e03
                | true =>
                  simp only at h
                  split_ifs at h with h4
                  · cases h
                    exact e03.ext_trans (Ext.ext_error _)
                  · have h4' : lookAhead P3 P3.d_off = 35 := by simpa using h4
                    have hb4 : Ext P3 { P3 with d_off := P3.d_off + 1 } :=
                      Ext.ext_bump rfl rfl rfl (by rw [h4']; decide)
                    exact e03.ext_trans (hb4.ext_trans (parseExponent_ext Q f _ _ h))
            · rw [if_neg hp] at h
              simp only at h
              have e03 : Ext P1 P2 := hb.ext_trans e2
              split_ifs at h with h4
              · cases h
                exact e03.ext_trans (Ext.ext_error _)
              · have h4' : lookAhead P2 P2.d_off = 35 := by simpa using h4
                have hb4 : Ext P2 { P2 with d_off := P2.d_off + 1 } :=
                  Ext.ext_bump rfl rfl rfl (by rw [h4']; decide)
                exact e03.ext_trans (hb4.ext_trans (parseExponent_ext Q f _ _ h))
      · have hb3 : Ext P1 { P1 with d_hasDecimals := true, d_off := P1.d_off + 1 } :=
          Ext.ext_bump rfl rfl rfl (by rw [hp]; decide)
        cases hn3 : numeral Q f { P1 with d_hasDecimals := true, d_off := P1.d_off + 1 } with
        | none => rw [hn3] at h; simp at h
        | some r3 =>
          obtain ⟨b3, P3⟩ := r3
          have e3 := (numeral_ext Q f _ _ hn3).1
          simp only at e3
          rw [hn3] at h
          cases b3 with
          | false =>
            simp only at h
            cases h
            exact hb3.ext_trans e3
          | true =>
            simp only at h
            exact (hb3.ext_trans e3).ext_trans (parseExponent_ext Q f _ _ h)
      · simp only at h
        exact parseExponent_ext Q f _ _ h

/-- Started at a digit, parse consumes at least one character and stays inside the text,
whether it succeeds or fails. -/
theorem parse_bounds (Q : QCharData) (f : Nat) (str : List Nat) (start : Nat) (ok : Bool)
    (P : NumberParser) (h : parse Q f (new str start) = some (ok, P))
    (hlt : start < str.length) (hd : isDigit Q (str.getD start 0) = true) :
    1 ≤ P.d_off ∧ start + P.d_off ≤ str.length ∧ P.d_str = str ∧ P.d_start = start := by
  obtain ⟨⟨h1, h2, _, h4⟩, h5⟩ := parse_ext Q f _ _ h
  simp only [new] at h1 h2 h4 h5
  have hl : lookAhead (new str start) 0 = str.getD start 0 := by
    simp [lookAhead, new, hlt]
  simp only [new] at hl
  rw [hl] at h5
  have := h4 (by omega)
  rw [h1, h2] at this
  exact ⟨h5 hd, this, h1, h2⟩

end NumberParser

/-! ## The scanner: one token -/

theorem ite_le_of_le {c : Prop} [Decidable c] {a b n : Nat} (ha : a ≤ n) (hb : b ≤ n) :
    (if c then a else b) ≤ n := by
  split_ifs <;> assumption

theorem findReservedWord_le (Q : QCharData) (s : List Nat) : findReservedWord Q s ≤ T_xor := by
  unfold findReservedWord
  repeat' first
    | decide
    | apply ite_le_of_le

theorem isLetterOrNumber_zero (Q : QCharData) : isLetterOrNumber Q 0 = false := by
  simp [isLetterOrNumber]

theorem isLetterOrNumber_of_isLetter {Q : QCharData} {c : Nat} (h : isLetter Q c = true) :
    isLetterOrNumber Q c = true := by
  unfold isLetter at h
  unfold isLetterOrNumber
  split_ifs at h ⊢ with h1
  · simp [h]
  · simp [h]

theorem stringLoop_spec (Q : QCharData) (L : Lexer) : ∀ (f off : Nat)
    (r : Sum (Token × Lexer) Nat), stringLoop Q L f off = some r →
    r = Sum.inl (token L T_Invalid (L.d_line.length - L.d_colNr)
          (qstr "non terminated string")) ∨
    ∃ off1, r = Sum.inr off1 ∧ off ≤ off1 ∧ L.d_colNr + off1 < L.d_line.length ∧
      L.d_line.getD (L.d_colNr + off1) 0 = 34 := by
  intro f
  induction f with
  | zero => intro off r h; simp [stringLoop] at h
  | succ f ih =>
    intro off r h
    rw [stringLoop] at h
    try simp only at h
    split_ifs at h with h1 h2 h3 h4
    · rcases ih _ _ h with h5 | ⟨o, h5, h6, h7⟩
      · exact Or.inl h5
      · exact Or.inr ⟨o, h5, by omega, h7⟩
    · cases h
      obtain ⟨h5, h6⟩ := lookAhead2_pos L off 34 h1 (by decide)
      exact Or.inr ⟨off, rfl, le_refl _, h5, h6⟩
    · rcases ih _ _ h with h5 | ⟨o, h5, h6, h7⟩
      · exact Or.inl h5
      · exact Or.inr ⟨o, h5, by omega, h7⟩
    · cases h
      exact Or.inl rfl
    · exact ih _ _ h

theorem identLoop_spec (Q : QCharData) (L : Lexer) : ∀ (f off off1 : Nat),
    identLoop Q L f off = some off1 →
    off ≤ off1 ∧ (L.d_colNr + off ≤ L.d_line.length → L.d_colNr + off1 ≤ L.d_line.length) ∧
    (∀ j, off ≤ j → j < off1 →
      isLetterOrNumber Q (lookAhead2 L j) = true ∨ lookAhead2 L j = 95) ∧
    isLetterOrNumber Q (lookAhead2 L off1) = false ∧ lookAhead2 L off1 ≠ 95 := by
  intro f
  induction f with
  | zero => intro off off1 h; simp [identLoop] at h
  | succ f ih =>
    intro off off1 h
    rw [identLoop] at h
    try simp only at h
    split_ifs at h with h1
    · cases h
      exact ⟨le_refl _, fun h => h, fun j h2 h3 => absurd h3 (by omega), h1.1, h1.2⟩
    · obtain ⟨e1, e2, e3, e4⟩ := ih _ _ h
      have hch : isLetterOrNumber Q (lookAhead2 L off) = true ∨ lookAhead2 L off = 95 := by
        by_cases h5 : lookAhead2 L off = 95
        · exact Or.inr h5
        · left
          by_contra h6
          exact h1 ⟨by simpa using h6, h5⟩
      have hne : lookAhead2 L off ≠ 0 := by
        intro h0
        rw [h0, isLetterOrNumber_zero] at hch
        rcases hch with h | h <;> cases h
      have hin := (lookAhead2_pos L off _ rfl hne).1
      refine ⟨by omega, fun _ => e2 (by omega), ?_, e4⟩
      intro j hj1 hj2
      by_cases hj : j = off
      · subst hj; exact hch
      · exact e3 j (by omega) hj2

theorem token_fst (L : Lexer) (tt len : Nat) (val : List Nat) :
    (token L tt len val).1 = mkToken tt L.d_lineNr L.d_colNr len val := rfl

theorem token_snd (L : Lexer) (tt len : Nat) (val : List Nat) :
    (token L tt len val).2 =
      { L with d_colNr := (L.d_colNr + len) % 65536, d_lastTokenType := tt % 256 } := rfl

theorem TokenInLine.inLine_ite {L : Lexer} {c : Prop} [Decidable c] {a b : Option (Token × Lexer)}
    (ha : c → TokenInLine L a) (hb : ¬ c → TokenInLine L b) :
    TokenInLine L (if c then a else b) := by
  split_ifs with h
  · exact ha h
  · exact hb h

theorem TokenInLine.inLine_token {L : Lexer} {tt len : Nat} {val : List Nat} (h1 : tt ≠ T_EOF)
    (h2 : tt < 256) (h3 : 1 ≤ len) (h4 : L.d_colNr + len ≤ L.d_line.length) :
    TokenInLine L (some (token L tt len val)) := by
  intro t L1 h
  exact ⟨tt, len, val, (Option.some.inj h).symm, h1, h2, h3, h4⟩

theorem string_inLine (Q : QCharData) (f : Nat) (L : Lexer)
    (hcol : L.d_colNr < L.d_line.length) : TokenInLine L (string Q f L) := by
  intro t L1 h
  unfold string at h
  cases hs : stringLoop Q L f 1 with
  | none => rw [hs] at h; simp at h
  | some r =>
    rw [hs] at h
    rcases stringLoop_spec Q L f 1 r hs with h1 | ⟨o, h1, h2, h3, _⟩
    · subst h1
      simp only at h
      exact ⟨_, _, _, (Option.some.inj h).symm, by decide, by decide, by omega, by omega⟩
    · subst h1
      simp only at h
      exact ⟨_, _, _, (Option.some.inj h).symm, by decide, by decide, by omega, by omega⟩

theorem numeric_inLine (Q : QCharData) (f : Nat) (L : Lexer)
    (hcol : L.d_colNr < L.d_line.length)
    (hd : isDigit Q (L.d_line.getD L.d_colNr 0) = true) : TokenInLine L (numeric Q f L) := by
  intro t L1 h
  unfold numeric at h
  cases hp : NumberParser.parse Q f (NumberParser.new L.d_line L.d_colNr) with
  | none => rw [hp] at h; simp at h
  | some r =>
    obtain ⟨ok, np⟩ := r
    rw [hp] at h
    obtain ⟨b1, b2, _, _⟩ := NumberParser.parse_bounds Q f _ _ ok np hp hcol hd
    simp only at h
    split_ifs at h
    · exact ⟨_, _, _, (Option.some.inj h).symm, by decide, by decide, b1, b2⟩
    · exact ⟨_, _, _, (Option.some.inj h).symm, by decide, by decide, b1, b2⟩

theorem ident_inLine (Q : QCharData) (f : Nat) (L : Lexer)
    (hcol : L.d_colNr < L.d_line.length)
    (hl : isLetter Q (L.d_line.getD L.d_colNr 0) = true) : TokenInLine L (ident Q f L) := by
  intro t L1 h
  unfold ident at h
  cases hi : identLoop Q L f 0 with
  | none => rw [hi] at h; simp at h
  | some off =>
    rw [hi] at h
    simp only at h
    obtain ⟨_, e2, e3, e4, e5⟩ := identLoop_spec Q L f 0 off hi
    have hoff : 1 ≤ off := by
      by_contra hn
      have h0 : off = 0 := by omega
      subst h0
      have hla : lookAhead2 L 0 = L.d_line.getD L.d_colNr 0 := by
        simp [lookAhead2, hcol]
      rw [hla, isLetterOrNumber_of_isLetter hl] at e4
      cases e4
    have hb := e2 (by omega)
    have hfr := findReservedWord_le Q (List.take off (List.drop L.d_colNr L.d_line))
    split_ifs at h with h1 h2
    · exact ⟨_, _, _, (Option.some.inj h).symm, by decide, by decide, hoff, hb⟩
    · refine ⟨_, _, _, (Option.some.inj h).symm, ?_, ?_, hoff, hb⟩
      · simp only [T_xor, T_EOF] at hfr ⊢; omega
      · simp only [T_xor] at hfr; omega
    · exact ⟨_, _, _, (Option.some.inj h).symm, by decide, by decide, hoff, hb⟩

/-- Every token that the second loop of nextToken returns is built by the helper token with a
type other than EOF and a length of at least one that stays inside the line. -/
theorem scanToken_inLine (Q : QCharData) (f : Nat) (L : Lexer)
    (hcol : L.d_colNr < L.d_line.length) : TokenInLine L (scanToken Q f L) := by
  unfold scanToken
  rw [if_pos hcol]
  dsimp only
  repeat' first
    | exact string_inLine Q f L hcol
    | exact numeric_inLine Q f L hcol (by assumption)
    | exact ident_inLine Q f L hcol (by assumption)
    | exact TokenInLine.inLine_token (by decide) (by decide) (by omega) (by omega)
    | exact TokenInLine.inLine_token (by decide) (by decide) (by omega)
        (by have := (lookAhead_pos L 1 _ (by assumption) (by decide)).1; omega)
    | exact TokenInLine.inLine_token (by decide) (by decide) (by omega)
        (by have := (lookAhead_pos L 2 _ (by assumption) (by decide)).1; omega)
    | refine TokenInLine.inLine_ite (fun _ => ?_) (fun _ => ?_)

/-- One call of nextToken on a source with short lines, in terms of positions: the token
starts at a position reached from the old one over white space only, the scanner stands right
behind it, and the token is either EOF of length 0 at the end of the last line or a token of
another type with a length of at least one inside its line. -/
theorem nextToken_step (Q : QCharData) (lines : List (List Nat)) (hs : Short lines)
    (f k : Nat) (L : Lexer) (t : Token) (L1 : Lexer) (hat : At lines k L)
    (h : nextToken Q f L = some (t, L1)) :
    ∃ k1, At lines k1 L1 ∧ t.d_line = k1 % 65536 ∧ PosLe k L.d_colNr k1 t.d_col ∧
      Blank Q lines k L.d_colNr k1 t.d_col ∧ L1.d_colNr = t.d_col + t.d_len ∧
      L1.d_lastTokenType = t.d_type ∧
      ((t.d_type = T_EOF ∧ t.d_len = 0 ∧ k1 = lines.length ∧
          t.d_col = (curLine lines k1).length) ∨
       (t.d_type ≠ T_EOF ∧ 1 ≤ t.d_len ∧ t.d_col + t.d_len ≤ (curLine lines k1).length)) := by
  unfold nextToken at h
  have hin : ¬ L.d_in = none := by rw [hat.1]; simp
  rw [if_neg hin] at h
  cases ha : advance Q f L with
  | none => rw [ha] at h; simp at h
  | some r =>
    rw [ha] at h
    obtain ⟨k1, Lm, hatm, hlast, hle, hbl, hr⟩ := advance_spec Q lines hs f k L r hat ha
    obtain ⟨m1, m2, m3, m4, m5⟩ := hatm
    have hshort : Lm.d_line.length < 65536 := m3 ▸ curLine_short hs k1
    have hc : Lm.d_colNr % 65536 = Lm.d_colNr := Nat.mod_eq_of_lt (by omega)
    rcases hr with ⟨rfl, hlt⟩ | ⟨rfl, hk1, hcol⟩
    · simp only at h
      obtain ⟨tt, len, val, e, e1, e2, e3, e4⟩ := scanToken_inLine Q f Lm hlt t L1 h
      have ht : t = mkToken tt Lm.d_lineNr Lm.d_colNr len val := congrArg Prod.fst e
      have hL : L1 = { Lm with d_colNr := (Lm.d_colNr + len) % 65536,
                               d_lastTokenType := tt % 256 } := congrArg Prod.snd e
      have hlen : len % 65536 = len := Nat.mod_eq_of_lt (by omega)
      have hcl : (Lm.d_colNr + len) % 65536 = Lm.d_colNr + len := Nat.mod_eq_of_lt (by omega)
      have htt : tt % 256 = tt := Nat.mod_eq_of_lt e2
      subst ht hL
      refine ⟨k1, ⟨m1, m2, m3, m4, ?_⟩, ?_, ?_, ?_, ?_, rfl, ?_⟩
      · show (Lm.d_colNr + len) % 65536 ≤ Lm.d_line.length
        rw [hcl]; exact e4
      · show Lm.d_lineNr % 65536 = k1 % 65536
        rw [m2, Nat.mod_mod]
      · show PosLe k L.d_colNr k1 (Lm.d_colNr % 65536)
        rw [hc]; exact hle
      · show Blank Q lines k L.d_colNr k1 (Lm.d_colNr % 65536)
        rw [hc]; exact hbl
      · show (Lm.d_colNr + len) % 65536 = Lm.d_colNr % 65536 + len % 65536
        rw [hcl, hc, hlen]
      · right
        show tt % 256 ≠ T_EOF ∧ 1 ≤ len % 65536 ∧
          Lm.d_colNr % 65536 + len % 65536 ≤ (curLine lines k1).length
        rw [htt, hlen, hc, ← m3]
        exact ⟨e1, e3, e4⟩
    · simp only at h
      have e := (Option.some.inj h).symm
      have ht : t = mkToken T_EOF Lm.d_lineNr Lm.d_colNr 0 [] := congrArg Prod.fst e
      have hL : L1 = { Lm with d_colNr := (Lm.d_colNr + 0) % 65536,
                               d_lastTokenType := T_EOF % 256 } := congrArg Prod.snd e
      subst ht hL
      refine ⟨k1, ⟨m1, m2, m3, m4, ?_⟩, ?_, ?_, ?_, ?_, rfl, ?_⟩
      · show (Lm.d_colNr + 0) % 65536 ≤ Lm.d_line.length
        rw [Nat.add_zero, hc]; exact m5
      · show Lm.d_lineNr % 65536 = k1 % 65536
        rw [m2, Nat.mod_mod]
      · show PosLe k L.d_colNr k1 (Lm.d_colNr % 65536)
        rw [hc]; exact hle
      · show Blank Q lines k L.d_colNr k1 (Lm.d_colNr % 65536)
        rw [hc]; exact hbl
      · show (Lm.d_colNr + 0) % 65536 = Lm.d_colNr % 65536 + 0 % 65536
        rw [Nat.add_zero, hc]
        rfl
      · left
        show T_EOF % 256 = T_EOF ∧ 0 % 65536 = 0 ∧ k1 = lines.length ∧
          Lm.d_colNr % 65536 = (curLine lines k1).length
        rw [hc, ← m3]
        exact ⟨by decide, by decide, hk1, hcol⟩

theorem At.at_attach (lines : List (List Nat)) : At lines 0 (attach lines) := by
  refine ⟨?_, ?_, ?_, ?_, ?_⟩ <;> simp [Lexer.attach, setStream, reset, new, curLine]

/-! ## Token lengths -/

/-- C2 as amended: on a source whose lines are all shorter than 65536 characters, every
token returned by any number of successive nextToken calls has length at least 1 unless it is
EOF, and the EOF token has length 0. -/
theorem token_length_pos (Q : QCharData) (lines : List (List Nat)) (hs : Short lines)
    (f n : Nat) (ts : List Token) (L1 : Lexer)
    (h : calls Q f n (attach lines) = some (ts, L1)) :
    ∀ t ∈ ts, (t.d_type ≠ T_EOF → 1 ≤ t.d_len) ∧ (t.d_type = T_EOF → t.d_len = 0) := by
  have key : ∀ (n k : Nat) (L : Lexer) (ts : List Token) (L1 : Lexer), At lines k L →
      calls Q f n L = some (ts, L1) →
      ∀ t ∈ ts, (t.d_type ≠ T_EOF → 1 ≤ t.d_len) ∧ (t.d_type = T_EOF → t.d_len = 0) := by
    intro n
    induction n with
    | zero =>
      intro k L ts L1 _ h
      simp only [calls, Option.some.injEq, Prod.mk.injEq] at h
      obtain ⟨rfl, _⟩ := h
      simp
    | succ n ih =>
      intro k L ts L1 hat h
      rw [calls] at h
      cases hn : nextToken Q f L with
      | none => rw [hn] at h; simp at h
      | some r =>
        obtain ⟨t, L2⟩ := r
        rw [hn] at h
        simp only at h
        cases hc : calls Q f n L2 with
        | none => rw [hc] at h; simp at h
        | some r2 =>
          obtain ⟨ts2, L3⟩ := r2
          rw [hc] at h
          simp only [Option.some.injEq, Prod.mk.injEq] at h
          obtain ⟨rfl, _⟩ := h
          obtain ⟨k1, hat1, _, _, _, _, _, hcase⟩ := nextToken_step Q lines hs f k L t L2 hat hn
          intro t' ht'
          rcases List.mem_cons.mp ht' with rfl | hmem
          · rcases hcase with ⟨e1, e2, _, _⟩ | ⟨e1, e2, _⟩
            · exact ⟨fun hne => absurd e1 hne, fun _ => e2⟩
            · exact ⟨fun _ => e2, fun he => absurd he e1⟩
          · exact ih k1 L2 ts2 L3 hat1 hc t' hmem
  exact key n 0 _ ts L1 (At.at_attach lines) h

/-- A call of nextToken at the start of a source whose first line opens with two dashes and
is 65536 characters long: the Comment token has length 65536, stored as 0 in d_len. -/
theorem calls_long_comment (Q : QCharData) (rest : List Nat) (h : rest.length = 65534) :
    ∃ t L1, calls Q 2 1 (attach [45 :: 45 :: rest]) = some ([t], L1) ∧
      t.d_type = T_Comment ∧ t.d_len = 0 := by
  simp [calls, nextToken, advance, attach, setStream, reset, new, skipWhiteSpace, lineLoop,
    atEnd, nextLine, scanToken, lookAhead, isSpace, token, mkToken, h]
  decide

/-- C2 as stated fails: at the source whose only line is two dashes followed by 65534
letters x, the first call of nextToken returns a Comment token whose length field is 0. -/
theorem token_length_zero_on_long_comment :
    ∃ t L1, calls asciiData 2 1 (attach [45 :: 45 :: List.replicate 65534 120]) = some ([t], L1) ∧
      t.d_type = T_Comment ∧ t.d_len = 0 :=
  calls_long_comment asciiData _ (List.length_replicate _ _)

/-- C2 as amended, at the source with the single line x. -/
theorem token_length_pos_witness :
    Short [[120]] ∧
    calls asciiData 3 2 (attach [[120]]) =
      some ([mkToken T_Identifier 1 0 1 [120], mkToken T_EOF 1 1 0 []],
            ⟨some ⟨[[120]], []⟩, 1, 1, [120], T_EOF⟩) ∧
    ∀ t ∈ [mkToken T_Identifier 1 0 1 [120], mkToken T_EOF 1 1 0 []],
      (t.d_type ≠ T_EOF → 1 ≤ t.d_len) ∧ (t.d_type = T_EOF → t.d_len = 0) :=
  have hs : Short [[120]] := by simp [Short]
  have hc : calls asciiData 3 2 (attach [[120]]) =
      some ([mkToken T_Identifier 1 0 1 [120], mkToken T_EOF 1 1 0 []],
            ⟨some ⟨[[120]], []⟩, 1, 1, [120], T_EOF⟩) := by decide
  ⟨hs, hc, token_length_pos asciiData [[120]] hs 3 2 _ _ hc⟩

/-! ## Delimiters -/

theorem lineLoop_inr (Q : QCharData) : ∀ (f : Nat) (L Lm : Lexer),
    lineLoop Q f L = some (Sum.inr Lm) → Lm.d_colNr < Lm.d_line.length := by
  intro f
  induction f with
  | zero => intro L Lm h; simp [lineLoop] at h
  | succ f ih =>
    intro L Lm h
    rw [lineLoop] at h
    split_ifs at h with h1 h2
    · cases h
    · cases hs : skipWhiteSpace Q f (nextLine L) with
      | none => rw [hs] at h; simp at h
      | some L1 =>
        rw [hs] at h
        exact ih _ _ h
    · cases h
      omega

theorem advance_inr (Q : QCharData) (f : Nat) (L Lm : Lexer)
    (h : advance Q f L = some (Sum.inr Lm)) : Lm.d_colNr < Lm.d_line.length := by
  unfold advance at h
  cases hs : skipWhiteSpace Q f L with
  | none => rw [hs] at h; simp at h
  | some L1 =>
    rw [hs] at h
    exact lineLoop_inr Q f _ _ h

theorem lookAhead_eq_iff (L : Lexer) (off x : Nat) (h0 : 0 < x) (h1 : x < 255) :
    lookAhead L off = x ↔ L.d_line[L.d_colNr + off]? = some x := by
  unfold lookAhead
  by_cases hc : L.d_colNr + off < L.d_line.length
  · rw [if_pos hc, List.getD_eq_getElem _ _ hc, List.getElem?_eq_getElem hc]
    simp only [Option.some.injEq]
    split_ifs with h2
    · rfl
    · constructor
      · intro h; omega
      · intro h; omega
  · rw [if_neg hc, List.getElem?_eq_none (by omega)]
    constructor
    · intro h; omega
    · intro h; cases h

/-- C6: when the first part of nextToken has brought the scanner to a character that starts
a delimiter, nextToken returns the token whose type and length the table delimiterAt fixes
from that character and the next character of the same line (none at the end of the line). -/
theorem delimiter_lookahead (Q : QCharData) (f : Nat) (L Lm : Lexer) (tt len : Nat)
    (hin : L.d_in ≠ none) (ha : advance Q f L = some (Sum.inr Lm))
    (hd : delimiterAt (Lm.d_line.getD Lm.d_colNr 0) (Lm.d_line[Lm.d_colNr + 1]?)
      = some (tt, len)) :
    nextToken Q f L = some (token Lm tt len []) ∧
    (token Lm tt len []).1.d_type = tt ∧ (token Lm tt len []).1.d_len = len ∧
    (len = 1 ∨ len = 2) := by
  have hcol := advance_inr Q f L Lm ha
  have hla : ∀ x, 0 < x → x < 255 →
      (lookAhead Lm 1 = x ↔ Lm.d_line[Lm.d_colNr + 1]? = some x) :=
    fun x h0 h1 => lookAhead_eq_iff Lm 1 x h0 h1
  have hnt : nextToken Q f L = scanToken Q f Lm := by
    unfold nextToken
    rw [if_neg hin, ha]
  rw [hnt]
  unfold scanToken
  rw [if_pos hcol]
  dsimp only
  generalize Lm.d_line.getD Lm.d_colNr 0 = c at hd
  generalize hn : Lm.d_line[Lm.d_colNr + 1]? = next at hd hla
  have hP : c = 38 ∨ c = 40 ∨ c = 41 ∨ c = 42 ∨ c = 43 ∨ c = 44 ∨ c = 45 ∨ c = 46 ∨ c = 47 ∨
      c = 58 ∨ c = 59 ∨ c = 60 ∨ c = 61 ∨ c = 62 ∨ c = 124 := by
    by_contra hP
    simp only [not_or] at hP
    obtain ⟨h1, h2, h3, h4, h5, h6, h7, h8, h9, h10, h11, h12, h13, h14, h15⟩ := hP
    simp [delimiterAt, oneCharDelimiter, h1, h2, h3, h4, h5, h6, h7, h8, h9, h10, h11, h12,
      h13, h14, h15] at hd
  rcases hP with rfl | rfl | rfl | rfl | rfl | rfl | rfl | rfl | rfl | rfl | rfl | rfl | rfl |
    rfl | rfl <;>
    simp [delimiterAt, oneCharDelimiter] at hd <;>
    (try split_ifs at hd) <;>
    (try simp only [Option.some.injEq, Prod.mk.injEq, reduceCtorEq] at hd) <;>
    (try casesm* _ ∧ _) <;>
    subst_vars <;>
    simp [token, mkToken, hla, *] <;>
    decide

/-- C6 at the line holding a colon and an equals sign: one Assign token of length 2. -/
theorem delimiter_lookahead_witness :
    nextToken asciiData 2 (attach [[58, 61]]) =
      some (token ⟨some ⟨[[58, 61]], []⟩, 1, 0, [58, 61], T_Invalid⟩ T_Assig 2 []) ∧
    (token ⟨some ⟨[[58, 61]], []⟩, 1, 0, [58, 61], T_Invalid⟩ T_Assig 2 []).1.d_type
      = T_Assig ∧
    (token ⟨some ⟨[[58, 61]], []⟩, 1, 0, [58, 61], T_Invalid⟩ T_Assig 2 []).1.d_len = 2 ∧
    ((2 : Nat) = 1 ∨ (2 : Nat) = 2) :=
  delimiter_lookahead asciiData 2 (attach [[58, 61]])
    ⟨some ⟨[[58, 61]], []⟩, 1, 0, [58, 61], T_Invalid⟩ T_Assig 2 (by decide) (by decide)
    (by decide)

/-! ## Attributes -/

theorem lineLoop_last (Q : QCharData) : ∀ (f : Nat) (L : Lexer)
    (r : Sum (Token × Lexer) Lexer), lineLoop Q f L = some r →
    (∀ Lm, r = Sum.inr Lm → Lm.d_lastTokenType = L.d_lastTokenType) ∧
    (∀ p, r = Sum.inl p → ∃ Lm, p = token Lm T_EOF 0 []) := by
  intro f
  induction f with
  | zero => intro L r h; simp [lineLoop] at h
  | succ f ih =>
    intro L r h
    rw [lineLoop] at h
    split_ifs at h with h1 h2
    · cases h
      exact ⟨fun Lm h => (by cases h), fun p h => ⟨L, (Sum.inl.inj h).symm⟩⟩
    · cases hs : skipWhiteSpace Q f (nextLine L) with
      | none => rw [hs] at h; simp at h
      | some L1 =>
        rw [hs] at h
        obtain ⟨e1, e2⟩ := ih _ _ h
        refine ⟨fun Lm hr => ?_, e2⟩
        rw [e1 Lm hr, (skipWhiteSpace_spec Q f _ _ hs).1]
        unfold nextLine
        split <;> rfl
    · cases h
      exact ⟨fun Lm h => (by cases h; rfl), fun p h => (by cases h)⟩

theorem advance_last (Q : QCharData) (f : Nat) (L : Lexer) (r : Sum (Token × Lexer) Lexer)
    (h : advance Q f L = some r) :
    (∀ Lm, r = Sum.inr Lm → Lm.d_lastTokenType = L.d_lastTokenType) ∧
    (∀ p, r = Sum.inl p → ∃ Lm, p = token Lm T_EOF 0 []) := by
  unfold advance at h
  cases hs : skipWhiteSpace Q f L with
  | none => rw [hs] at h; simp at h
  | some L1 =>
    rw [hs] at h
    obtain ⟨e1, e2⟩ := lineLoop_last Q f _ _ h
    refine ⟨fun Lm hr => ?_, e2⟩
    rw [e1 Lm hr, (skipWhiteSpace_spec Q f _ _ hs).1]

/-- Every call of nextToken records the type of the token it returns. -/
theorem nextToken_last (Q : QCharData) (f : Nat) (L : Lexer) (t : Token) (L1 : Lexer)
    (h : nextToken Q f L = some (t, L1)) : L1.d_lastTokenType = t.d_type := by
  unfold nextToken at h
  split_ifs at h with h1
  · cases h
    rfl
  · cases ha : advance Q f L with
    | none => rw [ha] at h; simp at h
    | some r =>
      rw [ha] at h
      cases r with
      | inl p =>
        obtain ⟨Lm, rfl⟩ := (advance_last Q f L _ ha).2 p rfl
        cases h
        rfl
      | inr Lm =>
        simp only at h
        obtain ⟨tt, len, val, e, _⟩ :=
          scanToken_inLine Q f Lm (advance_inr Q f L Lm ha) t L1 h
        cases e
        rfl

theorem string_type (Q : QCharData) (f : Nat) (L : Lexer) (t : Token) (L1 : Lexer)
    (h : string Q f L = some (t, L1)) : t.d_type = T_Invalid ∨ t.d_type = T_String := by
  unfold string at h
  cases hs : stringLoop Q L f 1 with
  | none => rw [hs] at h; simp at h
  | some r =>
    rw [hs] at h
    rcases stringLoop_spec Q L f 1 r hs with h1 | ⟨o, h1, _⟩
    · subst h1
      cases h
      exact Or.inl rfl
    · subst h1
      cases h
      exact Or.inr rfl

theorem numeric_type (Q : QCharData) (f : Nat) (L : Lexer) (t : Token) (L1 : Lexer)
    (h : numeric Q f L = some (t, L1)) : t.d_type = T_Invalid ∨ t.d_type = T_Number := by
  unfold numeric at h
  cases hp : NumberParser.parse Q f (NumberParser.new L.d_line L.d_colNr) with
  | none => rw [hp] at h; simp at h
  | some r =>
    obtain ⟨ok, np⟩ := r
    rw [hp] at h
    simp only at h
    split_ifs at h
    · cases h
      exact Or.inl rfl
    · cases h
      exact Or.inr rfl

theorem ite_ind {α : Type} {P : α → Prop} {c : Prop} [Decidable c] {a b : α}
    (ha : c → P a) (hb : ¬ c → P b) : P (if c then a else b) := by
  split_ifs with h
  · exact ha h
  · exact hb h

/-- A token whose type is a keyword, Identifier or Attribute comes from ident, entered at a
letter. -/
theorem scanToken_ident_of_shape (Q : QCharData) (f : Nat) (L : Lexer) (t : Token)
    (L1 : Lexer) (hcol : L.d_colNr < L.d_line.length) (h : scanToken Q f L = some (t, L1))
    (hshape : isKeyWord t.d_type = true ∨ t.d_type = T_Identifier ∨ t.d_type = T_Attribute) :
    isLetter Q (L.d_line.getD L.d_colNr 0) = true ∧ ident Q f L = some (t, L1) := by
  revert h
  unfold scanToken
  rw [if_pos hcol]
  dsimp only
  repeat' first
    | refine ite_ind (P := fun r => r = some (t, L1) → _) (fun _ => ?_) (fun _ => ?_)
    | (intro h
       exact ⟨by assumption, h⟩)
    | (intro h
       exfalso
       cases h
       revert hshape
       simp only [token, mkToken]
       decide)
    | (intro h
       exfalso
       have e := string_type Q f L t L1 h
       rcases e with e | e <;> rw [e] at hshape <;> revert hshape <;> decide)
    | (intro h
       exfalso
       have e := numeric_type Q f L t L1 h
       rcases e with e | e <;> rw [e] at hshape <;> revert hshape <;> decide)

/-- C9: for two successive calls of nextToken of which the second returns a token of
identifier shape (a keyword type, Identifier or Attribute), the second token is an Attribute
if and only if the first was a Tick. The second token was scanned by ident at a letter, and
its type is Attribute after a Tick whatever its spelling; otherwise it is the keyword type
that findReservedWord answers for the spelling, or Identifier where that is T_Invalid. -/
theorem attribute_iff_after_tick (Q : QCharData) (f0 f : Nat) (L0 : Lexer) (t1 : Token)
    (L1 : Lexer) (t2 : Token) (L2 : Lexer)
    (h1 : nextToken Q f0 L0 = some (t1, L1)) (h2 : nextToken Q f L1 = some (t2, L2))
    (hshape : isKeyWord t2.d_type = true ∨ t2.d_type = T_Identifier ∨
      t2.d_type = T_Attribute) :
    (t2.d_type = T_Attribute ↔ t1.d_type = T_Tick) ∧
    ∃ Lm off, advance Q f L1 = some (Sum.inr Lm) ∧
      isLetter Q (Lm.d_line.getD Lm.d_colNr 0) = true ∧ identLoop Q Lm f 0 = some off ∧
      t2.d_type =
        (if t1.d_type = T_Tick then T_Attribute
         else if findReservedWord Q ((Lm.d_line.drop Lm.d_colNr).take off) ≠ T_Invalid then
           findReservedWord Q ((Lm.d_line.drop Lm.d_colNr).take off)
         else T_Identifier) := by
  have hlast := nextToken_last Q f0 L0 t1 L1 h1
  unfold nextToken at h2
  split_ifs at h2 with hin
  · cases h2
    exfalso
    revert hshape
    simp only [token, mkToken]
    decide
  · cases ha : advance Q f L1 with
    | none => rw [ha] at h2; simp at h2
    | some r =>
      rw [ha] at h2
      cases r with
      | inl p =>
        obtain ⟨Lm, rfl⟩ := (advance_last Q f L1 _ ha).2 p rfl
        cases h2
        exfalso
        revert hshape
        simp only [token, mkToken]
        decide
      | inr Lm =>
        simp only at h2
        have hcol := advance_inr Q f L1 Lm ha
        have hl := (advance_last Q f L1 _ ha).1 Lm rfl
        obtain ⟨hlet, hid⟩ := scanToken_ident_of_shape Q f Lm t2 L2 hcol h2 hshape
        unfold ident at hid
        cases hi : identLoop Q Lm f 0 with
        | none => rw [hi] at hid; simp at hid
        | some off =>
          rw [hi] at hid
          simp only at hid
          have hfr := findReservedWord_le Q (List.take off (List.drop Lm.d_colNr Lm.d_line))
          rw [hl, hlast] at hid
          have key : t2.d_type =
              (if t1.d_type = T_Tick then T_Attribute
               else if findReservedWord Q ((Lm.d_line.drop Lm.d_colNr).take off) ≠ T_Invalid
                 then findReservedWord Q ((Lm.d_line.drop Lm.d_colNr).take off)
               else T_Identifier) := by
            split_ifs at hid ⊢ with a1 a2
            · cases hid; rfl
            · cases hid
              show findReservedWord Q _ % 256 = _
              exact Nat.mod_eq_of_lt (by simp only [T_xor] at hfr; omega)
            · cases hid; rfl
          refine ⟨?_, Lm, off, rfl, hlet, hi, key⟩
          rw [key]
          split_ifs with a1 a2
          · simp [a1]
          · simp only [a1, iff_false]
            simp only [T_xor, T_Attribute] at hfr ⊢
            omega
          · simp only [a1, iff_false]
            decide

/-- C9 at the line holding a tick and the word Range, and at the line holding Range alone:
Tick then Attribute in the first, the keyword range in the second. -/
theorem attribute_iff_after_tick_witness :
    nextToken asciiData 8 (attach [qstr "\x27Range"]) =
      some (mkToken T_Tick 1 0 1 [],
            ⟨some ⟨[qstr "\x27Range"], []⟩, 1, 1, qstr "\x27Range", T_Tick⟩) ∧
    nextToken asciiData 8 ⟨some ⟨[qstr "\x27Range"], []⟩, 1, 1, qstr "\x27Range", T_Tick⟩ =
      some (mkToken T_Attribute 1 1 5 (qstr "Range"),
            ⟨some ⟨[qstr "\x27Range"], []⟩, 1, 6, qstr "\x27Range", T_Attribute⟩) ∧
    ((mkToken T_Attribute 1 1 5 (qstr "Range")).d_type = T_Attribute ↔
      (mkToken T_Tick 1 0 1 []).d_type = T_Tick) ∧
    (nextToken asciiData 8 (attach [qstr "Range"])).map (fun p => p.1.d_type)
      = some T_range :=
  have h1 : nextToken asciiData 8 (attach [qstr "\x27Range"]) =
      some (mkToken T_Tick 1 0 1 [],
            ⟨some ⟨[qstr "\x27Range"], []⟩, 1, 1, qstr "\x27Range", T_Tick⟩) := by decide
  have h2 : nextToken asciiData 8
      ⟨some ⟨[qstr "\x27Range"], []⟩, 1, 1, qstr "\x27Range", T_Tick⟩ =
      some (mkToken T_Attribute 1 1 5 (qstr "Range"),
            ⟨some ⟨[qstr "\x27Range"], []⟩, 1, 6, qstr "\x27Range", T_Attribute⟩) := by
    decide
  ⟨h1, h2, (attribute_iff_after_tick asciiData 8 8 _ _ _ _ _ h1 h2 (by decide)).1, by decide⟩

/-! ## Coverage of the source lines by the token spans -/

theorem skipWhiteSpace_inv (Q : QCharData) : ∀ (f : Nat) (L L1 : Lexer),
    skipWhiteSpace Q f L = some L1 →
    (L.d_colNr ≤ L.d_line.length → L1.d_colNr ≤ L.d_line.length) ∧
    (L.d_colNr < 65536 → L1.d_colNr < 65536) := by
  intro f
  induction f with
  | zero => intro L L1 h; simp [skipWhiteSpace] at h
  | succ f ih =>
    intro L L1 h
    rw [skipWhiteSpace] at h
    split_ifs at h with hc
    · obtain ⟨h1, h2⟩ := ih _ _ h
      have hm : (L.d_colNr + 1) % 65536 ≤ L.d_colNr + 1 := Nat.mod_le _ _
      have hm2 : (L.d_colNr + 1) % 65536 < 65536 := Nat.mod_lt _ (by decide)
      exact ⟨fun _ => h1 (by show (L.d_colNr + 1) % 65536 ≤ L.d_line.length; omega),
        fun _ => h2 hm2⟩
    · cases h
      exact ⟨fun h => h, fun h => h⟩

/-- The lines that the first loop of nextToken leaves behind are shorter than 65536
characters: it leaves a line only when the column, a quint16, is not inside it. -/
theorem lineLoop_reads (Q : QCharData) (lines : List (List Nat)) :
    ∀ (f k : Nat) (L : Lexer) (r : Sum (Token × Lexer) Lexer), At lines k L →
    L.d_colNr < 65536 → lineLoop Q f L = some r →
    ∃ k1 Lm, k ≤ k1 ∧ At lines k1 Lm ∧ Lm.d_colNr < 65536 ∧
      (∀ i, k ≤ i → i < k1 → (curLine lines i).length < 65536) ∧
      (r = Sum.inr Lm ∨
       (r = Sum.inl (token Lm T_EOF 0 []) ∧ k1 = lines.length ∧
         (curLine lines k1).length < 65536)) := by
  intro f
  induction f with
  | zero => intro k L r _ _ h; simp [lineLoop] at h
  | succ f ih =>
    intro k L r hat hlt h
    obtain ⟨hin, hnr, hline, hk, hcol⟩ := hat
    rw [lineLoop] at h
    by_cases hc : L.d_colNr ≥ L.d_line.length
    · rw [if_pos hc] at h
      have hshort : (curLine lines k).length < 65536 := by rw [← hline]; omega
      by_cases he : atEnd L = true
      · rw [if_pos he] at h
        cases h
        refine ⟨k, L, le_refl _, ⟨hin, hnr, hline, hk, hcol⟩, hlt,
          fun i h1 h2 => absurd h2 (by omega), Or.inr ⟨rfl, ?_, hshort⟩⟩
        simp only [atEnd, hin, List.isEmpty_eq_true, List.drop_eq_nil_iff] at he
        omega
      · rw [if_neg he] at h
        simp only [atEnd, hin, List.isEmpty_eq_true] at he
        obtain ⟨a, rest, hd⟩ := List.exists_cons_of_ne_nil he
        obtain ⟨hk1, hget, hdrop⟩ := drop_eq_cons [] hd
        have hnl : nextLine L =
            ⟨some ⟨lines, rest⟩, (L.d_lineNr + 1) % 65536, 0, a, L.d_lastTokenType⟩ := by
          simp [nextLine, hin, hd]
        rw [hnl] at h
        cases hsk : skipWhiteSpace Q f
            ⟨some ⟨lines, rest⟩, (L.d_lineNr + 1) % 65536, 0, a, L.d_lastTokenType⟩ with
        | none => rw [hsk] at h; simp at h
        | some L1 =>
          rw [hsk] at h
          simp only at h
          have hcur : curLine lines (k + 1) = a := by
            unfold curLine
            rw [if_neg (Nat.succ_ne_zero k), Nat.add_sub_cancel]
            exact hget
          obtain ⟨e1, _, _⟩ := skipWhiteSpace_spec Q f _ L1 hsk
          obtain ⟨e2, e3⟩ := skipWhiteSpace_inv Q f _ L1 hsk
          simp only at e2 e3
          have hat1 : At lines (k + 1) L1 := by
            rw [e1]
            refine ⟨by simp [hdrop], ?_, by simp [hcur], hk1, e2 (Nat.zero_le _)⟩
            simp only [hnr]
            omega
          obtain ⟨k2, Lm, h1, h2, h3, h4, h5⟩ :=
            ih (k + 1) L1 r hat1 (e3 (by decide)) h
          refine ⟨k2, Lm, by omega, h2, h3, ?_, h5⟩
          intro i hi1 hi2
          by_cases hik : i = k
          · subst hik; exact hshort
          · exact h4 i (by omega) hi2
    · rw [if_neg hc] at h
      cases h
      exact ⟨k, L, le_refl _, ⟨hin, hnr, hline, hk, hcol⟩, hlt,
        fun i h1 h2 => absurd h2 (by omega), Or.inl rfl⟩

/-- A source whose scan reaches EOF has only lines shorter than 65536 characters: the scan
leaves the line it holds and every later line behind. -/
theorem tokens_short (Q : QCharData) (lines : List (List Nat)) (f : Nat) :
    ∀ (n k : Nat) (L : Lexer) (ts : List Token), At lines k L → L.d_colNr < 65536 →
    tokens Q f n L = some ts →
    ∀ i, k ≤ i → i ≤ lines.length → (curLine lines i).length < 65536 := by
  intro n
  induction n with
  | zero => intro k L ts _ _ h; simp [tokens] at h
  | succ n ih =>
    intro k L ts hat hlt h
    rw [tokens] at h
    cases hn : nextToken Q f L with
    | none => rw [hn] at h; simp at h
    | some p =>
      obtain ⟨t, L1⟩ := p
      rw [hn] at h
      simp only at h
      unfold nextToken at hn
      have hin : ¬ L.d_in = none := by rw [hat.1]; simp
      rw [if_neg hin] at hn
      cases ha : advance Q f L with
      | none => rw [ha] at hn; simp at hn
      | some r =>
        rw [ha] at hn
        unfold advance at ha
        cases hsk : skipWhiteSpace Q f L with
        | none => rw [hsk] at ha; simp at ha
        | some L0 =>
          rw [hsk] at ha
          simp only at ha
          obtain ⟨e1, _, _⟩ := skipWhiteSpace_spec Q f _ L0 hsk
          obtain ⟨e2, e3⟩ := skipWhiteSpace_inv Q f _ L0 hsk
          have hat0 : At lines k L0 := by
            rw [e1]
            exact ⟨hat.1, hat.2.1, hat.2.2.1, hat.2.2.2.1, e2 hat.2.2.2.2⟩
          obtain ⟨k1, Lm, hk1, hatm, hltm, hsh, hr⟩ :=
            lineLoop_reads Q lines f k L0 r hat0 (e3 hlt) ha
          rcases hr with rfl | ⟨rfl, hk1e, hshe⟩
          · simp only at hn
            have hcol := lineLoop_inr Q f _ _ ha
            obtain ⟨tt, len, val, e, e4, e5, e6, e7⟩ := scanToken_inLine Q f Lm hcol t L1 hn
            have ht : t.d_type = tt := by
              have e0 : t = (token Lm tt len val).1 := congrArg Prod.fst e
              rw [e0]
              exact Nat.mod_eq_of_lt e5
            rw [if_neg (by rw [ht]; exact e4)] at h
            cases hts : tokens Q f n L1 with
            | none => rw [hts] at h; simp at h
            | some ts1 =>
              have hL : L1 = { Lm with d_colNr := (Lm.d_colNr + len) % 65536,
                                       d_lastTokenType := tt % 256 } := congrArg Prod.snd e
              have hat1 : At lines k1 L1 := by
                rw [hL]
                refine ⟨hatm.1, hatm.2.1, hatm.2.2.1, hatm.2.2.2.1, ?_⟩
                have := Nat.mod_le (Lm.d_colNr + len) 65536
                show (Lm.d_colNr + len) % 65536 ≤ Lm.d_line.length
                omega
              have hlt1 : L1.d_colNr < 65536 := by
                rw [hL]
                exact Nat.mod_lt _ (by decide)
              have hrest := ih k1 L1 ts1 hat1 hlt1 hts
              intro i hi1 hi2
              by_cases hik : i < k1
              · exact hsh i hi1 hik
              · exact hrest i (by omega) hi2
          · intro i hi1 hi2
            by_cases hik : i < k1
            · exact hsh i hi1 hik
            · have : i = k1 := by omega
              subst this
              exact hshe

theorem short_of_tokens (Q : QCharData) (lines : List (List Nat)) (f n : Nat)
    (ts : List Token) (h : tokens Q f n (attach lines) = some ts) : Short lines := by
  intro l hl
  obtain ⟨i, hi, rfl⟩ := List.getElem_of_mem hl
  have := tokens_short Q lines f n 0 _ ts (At.at_attach lines) (by simp [attach, setStream, reset]) h (i + 1)
    (Nat.zero_le _) (by omega)
  unfold curLine at this
  rw [if_neg (Nat.succ_ne_zero i), Nat.add_sub_cancel, List.getD_eq_getElem _ _ hi] at this
  exact this

theorem tokens_cover (Q : QCharData) (lines : List (List Nat)) (hs : Short lines)
    (hl : lines.length < 65536) (f : Nat) :
    ∀ (n k : Nat) (L : Lexer) (ts : List Token), At lines k L → tokens Q f n L = some ts →
    (∀ t ∈ ts, PosLe k L.d_colNr t.d_line t.d_col ∧ t.d_line ≤ lines.length ∧
      t.d_col + t.d_len ≤ (curLine lines t.d_line).length) ∧
    ts.Pairwise (fun a b => PosLe a.d_line (a.d_col + a.d_len) b.d_line b.d_col) ∧
    (∀ i j, PosLe k L.d_colNr i j → i ≤ lines.length → j < (curLine lines i).length →
      (∀ t ∈ ts, t.d_line = i → ¬ (t.d_col ≤ j ∧ j < t.d_col + t.d_len)) →
      isSpace Q ((curLine lines i).getD j 0) = true) := by
  intro n
  induction n with
  | zero => intro k L ts _ h; simp [tokens] at h
  | succ n ih =>
    intro k L ts hat h
    rw [tokens] at h
    cases hn : nextToken Q f L with
    | none => rw [hn] at h; simp at h
    | some p =>
      obtain ⟨t, L1⟩ := p
      rw [hn] at h
      simp only at h
      obtain ⟨k1, hat1, hline, hle, hbl, hc1, _, hcase⟩ :=
        nextToken_step Q lines hs f k L t L1 hat hn
      have hk1 : k1 ≤ lines.length := hat1.2.2.2.1
      have hline1 : t.d_line = k1 := by rw [hline]; exact Nat.mod_eq_of_lt (by omega)
      rcases hcase with ⟨e1, e2, e3, e4⟩ | ⟨e1, e2, e3⟩
      · rw [if_pos e1] at h
        cases h
        refine ⟨?_, List.pairwise_singleton _ _, ?_⟩
        · intro t' ht'
          rw [List.mem_singleton] at ht'
          subst ht'
          rw [hline1]
          exact ⟨hle, hk1, by omega⟩
        · intro i j hij hi hj _
          apply hbl i j hij _ hj
          by_cases hik : i = k1
          · subst hik
            exact Or.inr ⟨rfl, by omega⟩
          · exact Or.inl (by omega)
      · rw [if_neg e1] at h
        cases hts : tokens Q f n L1 with
        | none => rw [hts] at h; simp at h
        | some ts1 =>
          rw [hts] at h
          cases h
          obtain ⟨ihA, ihB, ihC⟩ := ih k1 L1 ts1 hat1 hts
          refine ⟨?_, ?_, ?_⟩
          · intro t' ht'
            rcases List.mem_cons.mp ht' with rfl | hmem
            · rw [hline1]
              exact ⟨hle, hk1, e3⟩
            · obtain ⟨a1, a2, a3⟩ := ihA t' hmem
              refine ⟨?_, a2, a3⟩
              unfold PosLe at hle a1 ⊢
              omega
          · rw [List.pairwise_cons]
            refine ⟨?_, ihB⟩
            intro t' hmem
            obtain ⟨a1, _, _⟩ := ihA t' hmem
            rw [hline1, ← hc1]
            exact a1
          · intro i j hij hi hj hout
            by_cases hb : i < k1 ∨ (i = k1 ∧ j < t.d_col)
            · exact hbl i j hij hb hj
            · by_cases hin : i = k1 ∧ t.d_col ≤ j ∧ j < t.d_col + t.d_len
              · exfalso
                exact hout t (List.mem_cons_self _ _) (by rw [hline1]; exact hin.1.symm)
                  hin.2
              · apply ihC i j _ hi hj (fun t' ht' => hout t' (List.mem_cons_of_mem _ ht'))
                unfold PosLe at hij ⊢
                omega

/-- C3 as amended: for a source with fewer than 65536 lines whose scan reaches EOF, the
tokens whose line field names a given line have spans that follow one another without
overlap in the order returned, lie inside that line, and leave only white space outside. -/
theorem token_spans_tile_line (Q : QCharData) (lines : List (List Nat)) (f n : Nat)
    (ts : List Token) (hl : lines.length < 65536)
    (h : tokens Q f n (attach lines) = some ts) (i : Nat) (hi : i < lines.length) :
    ((ts.filter (fun t => decide (t.d_line = i + 1))).Pairwise
      (fun a b => a.d_col + a.d_len ≤ b.d_col)) ∧
    (∀ t ∈ ts.filter (fun t => decide (t.d_line = i + 1)),
      t.d_col + t.d_len ≤ (lines.getD i []).length) ∧
    (∀ j, j < (lines.getD i []).length →
      (∀ t ∈ ts.filter (fun t => decide (t.d_line = i + 1)),
        ¬ (t.d_col ≤ j ∧ j < t.d_col + t.d_len)) →
      isSpace Q ((lines.getD i []).getD j 0) = true) := by
  have hs := short_of_tokens Q lines f n ts h
  obtain ⟨hA, hB, hC⟩ := tokens_cover Q lines hs hl f n 0 _ ts (At.at_attach lines) h
  have hcur : curLine lines (i + 1) = lines.getD i [] := by
    unfold curLine
    rw [if_neg (Nat.succ_ne_zero i), Nat.add_sub_cancel]
  refine ⟨?_, ?_, ?_⟩
  · refine List.Pairwise.imp_of_mem ?_ (List.Pairwise.filter _ hB)
    intro a b ha hb hab
    simp only [List.mem_filter, decide_eq_true_eq] at ha hb
    unfold PosLe at hab
    omega
  · intro t ht
    simp only [List.mem_filter, decide_eq_true_eq] at ht
    have := (hA t ht.1).2.2
    rw [ht.2, hcur] at this
    exact this
  · intro j hj hout
    rw [← hcur] at hj ⊢
    apply hC (i + 1) j (Or.inl (Nat.succ_pos i)) (by omega) hj
    intro t ht hti
    exact hout t (by simp only [List.mem_filter, decide_eq_true_eq]; exact ⟨ht, hti⟩)

/-- C3 as amended, at the source with the single line holding a, a space and b. -/
theorem token_spans_tile_line_witness :
    tokens asciiData 8 5 (attach [[97, 32, 98]]) =
      some [mkToken T_Identifier 1 0 1 [97], mkToken T_Identifier 1 2 1 [98],
            mkToken T_EOF 1 3 0 []] ∧
    ([mkToken T_Identifier 1 0 1 [97], mkToken T_Identifier 1 2 1 [98],
      mkToken T_EOF 1 3 0 []].filter (fun t => decide (t.d_line = 0 + 1))).Pairwise
      (fun a b => a.d_col + a.d_len ≤ b.d_col) :=
  have h : tokens asciiData 8 5 (attach [[97, 32, 98]]) =
      some [mkToken T_Identifier 1 0 1 [97], mkToken T_Identifier 1 2 1 [98],
            mkToken T_EOF 1 3 0 []] := by decide
  ⟨h, (token_spans_tile_line asciiData [[97, 32, 98]] 8 5 _ (by decide) h 0 (by decide)).1⟩

/-- Reading m empty lines: the first loop of nextToken passes them one by one. -/
theorem lineLoop_skip_empty (Q : QCharData) (txt rest : List (List Nat)) (last : Nat) :
    ∀ (m f nr : Nat), 1 ≤ f →
    lineLoop Q (m + f) ⟨some ⟨txt, List.replicate m [] ++ rest⟩, nr % 65536, 0, [], last⟩ =
    lineLoop Q f ⟨some ⟨txt, rest⟩, (nr + m) % 65536, 0, [], last⟩ := by
  intro m
  induction m with
  | zero => intro f nr _; simp
  | succ m ih =>
    intro f nr hf
    obtain ⟨g, rfl⟩ : ∃ g, f = g + 1 := ⟨f - 1, by omega⟩
    have e : m + 1 + (g + 1) = (m + (g + 1)) + 1 := by omega
    rw [e, lineLoop]
    have hsk : skipWhiteSpace Q (m + (g + 1))
        ⟨some ⟨txt, List.replicate m [] ++ rest⟩, (nr % 65536 + 1) % 65536, 0, [], last⟩ =
        some ⟨some ⟨txt, List.replicate m [] ++ rest⟩, (nr % 65536 + 1) % 65536, 0, [], last⟩ := by
      have e2 : m + (g + 1) = (m + g) + 1 := by omega
      rw [e2, skipWhiteSpace]
      simp
    have hm : (nr % 65536 + 1) % 65536 = (nr + 1) % 65536 := by omega
    simp only [List.length_nil, ge_iff_le, le_refl, ↓reduceIte, atEnd, List.replicate_succ,
      List.cons_append, List.isEmpty_cons, Bool.false_eq_true, nextLine, List.headD_cons,
      List.tail_cons, hsk]
    rw [hm, ih (g + 1) (nr + 1) hf]
    have e3 : nr + 1 + m = nr + (m + 1) := by omega
    rw [e3]

/-- The token stream of a source with a line x, then m + 1 empty lines, then a line yy. -/
theorem tokens_many_lines (Q : QCharData) (m : Nat) :
    tokens Q (m + 10) 3 (attach ([120] :: (List.replicate (m + 1) [] ++ [[121, 121]]))) =
      some [mkToken T_Identifier 1 0 1 [120],
            mkToken T_Identifier (((2 + m) % 65536 + 1) % 65536) 0 2 [121, 121],
            mkToken T_EOF (((2 + m) % 65536 + 1) % 65536) 2 0 []] := by
  have hx : findReservedWord Q [120] = T_Invalid := rfl
  have hy : findReservedWord Q [121, 121] = T_Invalid := rfl
  have h0 : attach ([120] :: (List.replicate (m + 1) [] ++ [[121, 121]])) =
      ⟨some ⟨[120] :: (List.replicate (m + 1) [] ++ [[121, 121]]),
        [120] :: (List.replicate (m + 1) [] ++ [[121, 121]])⟩, 0, 0, [], T_Invalid⟩ := rfl
  have h1 : ∀ T : List (List Nat), nextToken Q (m + 10)
      ⟨some ⟨T, [120] :: (List.replicate (m + 1) [] ++ [[121, 121]])⟩, 0, 0, [], T_Invalid⟩ =
      some (mkToken T_Identifier 1 0 1 [120],
        ⟨some ⟨T, List.replicate (m + 1) [] ++ [[121, 121]]⟩, 1, 1, [120],
          T_Identifier⟩) := by
    intro T
    simp [nextToken, advance, skipWhiteSpace, lineLoop, atEnd, nextLine, scanToken, ident,
      identLoop, lookAhead2, isSpace, isDigit, isLetter, isLetterOrNumber, token, mkToken, hx]
    decide
  have h2 : ∀ T : List (List Nat), nextToken Q (m + 10)
      ⟨some ⟨T, List.replicate (m + 1) [] ++ [[121, 121]]⟩, 1, 1, [120], T_Identifier⟩ =
      some (mkToken T_Identifier (((2 + m) % 65536 + 1) % 65536) 0 2 [121, 121],
        ⟨some ⟨T, []⟩, ((2 + m) % 65536 + 1) % 65536, 2, [121, 121], T_Identifier⟩) := by
    intro T
    have e10 : m + 10 = (m + 9) + 1 := rfl
    have hsk1 : skipWhiteSpace Q (m + 10)
        ⟨some ⟨T, List.replicate (m + 1) [] ++ [[121, 121]]⟩, 1, 1, [120], T_Identifier⟩ =
        some ⟨some ⟨T, List.replicate (m + 1) [] ++ [[121, 121]]⟩, 1, 1, [120],
          T_Identifier⟩ := by
      simp [skipWhiteSpace]
    have hll : lineLoop Q (m + 10)
        ⟨some ⟨T, List.replicate (m + 1) [] ++ [[121, 121]]⟩, 1, 1, [120], T_Identifier⟩ =
        lineLoop Q (m + 9)
          ⟨some ⟨T, List.replicate m [] ++ [[121, 121]]⟩, 2 % 65536, 0, [], T_Identifier⟩ := by
      rw [e10, lineLoop]
      simp [atEnd, nextLine, skipWhiteSpace, List.replicate_succ]
    have hll2 := lineLoop_skip_empty Q T [[121, 121]] T_Identifier m 9 2 (by decide)
    have hll3 : lineLoop Q 9
        ⟨some ⟨T, [[121, 121]]⟩, (2 + m) % 65536, 0, [], T_Identifier⟩ =
        some (Sum.inr ⟨some ⟨T, []⟩, ((2 + m) % 65536 + 1) % 65536, 0, [121, 121],
          T_Identifier⟩) := by
      simp [lineLoop, atEnd, nextLine, skipWhiteSpace, isSpace]
    have hsc : scanToken Q (m + 10)
        ⟨some ⟨T, []⟩, ((2 + m) % 65536 + 1) % 65536, 0, [121, 121], T_Identifier⟩ =
        some (mkToken T_Identifier (((2 + m) % 65536 + 1) % 65536) 0 2 [121, 121],
          ⟨some ⟨T, []⟩, ((2 + m) % 65536 + 1) % 65536, 2, [121, 121], T_Identifier⟩) := by
      simp [scanToken, ident, identLoop, lookAhead2, isDigit, isLetter, isLetterOrNumber,
        token, mkToken, hy]
      decide
    unfold nextToken advance
    rw [hsk1]
    simp only [reduceCtorEq, ↓reduceIte]
    rw [hll, hll2, hll3]
    exact hsc
  have h3 : ∀ T : List (List Nat), nextToken Q (m + 10)
      ⟨some ⟨T, []⟩, ((2 + m) % 65536 + 1) % 65536, 2, [121, 121], T_Identifier⟩ =
      some (mkToken T_EOF (((2 + m) % 65536 + 1) % 65536) 2 0 [],
        ⟨some ⟨T, []⟩, ((2 + m) % 65536 + 1) % 65536, 2, [121, 121], T_EOF⟩) := by
    intro T
    simp [nextToken, advance, skipWhiteSpace, lineLoop, atEnd, token, mkToken]
    decide
  rw [h0]
  simp only [tokens, h1, h2, h3]
  simp [mkToken, T_Identifier, T_EOF]

/-- C3 as stated fails: in the source with a line x, then 65535 empty lines, then a line
yy, the line number of yy is 65537 and is stored as 1, so the tokens whose line field is 1
are x at columns 0 to 1 and yy at columns 0 to 2, which overlap. -/
theorem token_spans_overlap_after_65536_lines :
    ∃ ts, tokens asciiData (65534 + 10) 3
        (attach ([120] :: (List.replicate (65534 + 1) [] ++ [[121, 121]]))) = some ts ∧
      ¬ (ts.filter (fun t => decide (t.d_line = 0 + 1))).Pairwise
          (fun a b => a.d_col + a.d_len ≤ b.d_col) :=
  ⟨_, tokens_many_lines asciiData 65534, by decide⟩

/-! ## Numeric literals: every literal of the grammar is accepted -/

namespace NumberParser

theorem lookAhead_eq_headD (er s : List Nat) (st off : Nat) (a b c : Bool) (x : Nat) :
    lookAhead ⟨er, s, st, off, a, b, c⟩ x = (s.drop (st + x)).headD 0 := by
  unfold lookAhead
  simp only
  by_cases h : st + x < s.length
  · rw [if_pos h, List.getD_eq_getElem _ _ h, List.drop_eq_getElem_cons h]
    rfl
  · rw [if_neg h, List.drop_eq_nil_of_le (by omega)]
    rfl

theorem drop_succ_of_cons {s : List Nat} {k c : Nat} {r : List Nat}
    (h : s.drop k = c :: r) : s.drop (k + 1) = r := by
  rw [← List.tail_drop, h]
  rfl

theorem isDigit_of_Digit (Q : QCharData) {c : Nat} (h : Digit c) : isDigit Q c = true := by
  unfold Digit at h
  unfold isDigit
  have : c < 128 := by omega
  simp [this, h.1, h.2]

theorem extended_digit_of_ExtendedDigit (Q : QCharData) {c : Nat} (h : ExtendedDigit c) :
    extended_digit Q c = true := by
  unfold extended_digit
  rcases h with h | h | h
  · simp [isDigit_of_Digit Q h]
  · by_cases hd : isDigit Q c = true
    · simp [hd]
    · simp only [hd, Bool.false_eq_true, ↓reduceIte, ite_eq_left_iff]
      intro hn
      exfalso
      omega
  · by_cases hd : isDigit Q c = true
    · simp [hd]
    · simp only [hd, Bool.false_eq_true, ↓reduceIte, ite_eq_left_iff]
      intro hn
      exfalso
      omega

/-- The loop of numeral reads the groups of a numeral up to a character that is neither an
underscore nor a digit. -/
theorem numeralLoop_groups (Q : QCharData) (er s : List Nat) (st : Nat) (a b c : Bool)
    (post : List Nat) (hp1 : post.headD 0 ≠ 95) (hp2 : isDigit Q (post.headD 0) = false) :
    ∀ (t : List Nat), Groups Digit t → ∀ (f off : Nat), s.drop (st + off) = t ++ post →
    t.length + 1 ≤ f →
    numeralLoop Q f ⟨er, s, st, off, a, b, c⟩ =
      some (true, ⟨er, s, st, off + t.length, a, b, c⟩) := by
  intro t ht
  induction ht with
  | nil =>
    intro f off hd hf
    obtain ⟨g, rfl⟩ : ∃ g, f = g + 1 := ⟨f - 1, by omega⟩
    rw [numeralLoop]
    simp only [lookAhead_eq_headD, hd, List.nil_append, hp1, hp2, Bool.false_eq_true, or_self,
      ↓reduceIte, List.length_nil, Nat.add_zero]
  | digit d t hdig _ ih =>
    intro f off hd hf
    obtain ⟨g, rfl⟩ : ∃ g, f = g + 1 := ⟨f - 1, by omega⟩
    have hd1 : s.drop (st + (off + 1)) = t ++ post := drop_succ_of_cons hd
    have hne : d ≠ 95 := by unfold Digit at hdig; omega
    rw [numeralLoop]
    simp only [lookAhead_eq_headD, hd, List.cons_append, List.headD_cons, hne,
      isDigit_of_Digit Q hdig, or_true, ↓reduceIte]
    rw [ih g (off + 1) hd1 (by simp only [List.length_cons] at hf; omega)]
    simp only [List.length_cons, Option.some.injEq, Prod.mk.injEq, true_and, mk.injEq, and_true]
    omega
  | underline d t hdig _ ih =>
    intro f off hd hf
    obtain ⟨g, rfl⟩ : ∃ g, f = g + 1 := ⟨f - 1, by omega⟩
    have hd1 : s.drop (st + (off + 1)) = d :: (t ++ post) := drop_succ_of_cons hd
    have hd2 : s.drop (st + (off + 1 + 1)) = t ++ post := drop_succ_of_cons hd1
    rw [numeralLoop]
    simp only [lookAhead_eq_headD, hd, hd1, List.cons_append, List.headD_cons, true_or,
      ↓reduceIte, isDigit_of_Digit Q hdig]
    rw [ih g (off + 1 + 1) hd2 (by simp only [List.length_cons] at hf; omega)]
    simp only [List.length_cons, Option.some.injEq, Prod.mk.injEq, true_and, mk.injEq, and_true]
    omega

theorem numeral_accepts (Q : QCharData) (er s : List Nat) (st : Nat) (a b c : Bool)
    (n post : List Nat) (hn : Numeral n) (hp1 : post.headD 0 ≠ 95)
    (hp2 : isDigit Q (post.headD 0) = false) (f off : Nat)
    (hd : s.drop (st + off) = n ++ post) (hf : n.length ≤ f) :
    numeral Q f ⟨er, s, st, off, a, b, c⟩ =
      some (true, ⟨er, s, st, off + n.length, a, b, c⟩) := by
  obtain ⟨d, t, rfl, hdig, ht⟩ := hn
  have hd1 : s.drop (st + (off + 1)) = t ++ post := drop_succ_of_cons hd
  unfold numeral
  simp only [lookAhead_eq_headD, hd, List.cons_append, List.headD_cons, isDigit_of_Digit Q hdig,
    Bool.true_eq_false, ↓reduceIte]
  rw [numeralLoop_groups Q er s st a b c post hp1 hp2 t ht f (off + 1) hd1
    (by simp only [List.length_cons] at hf; omega)]
  simp only [List.length_cons, Option.some.injEq, Prod.mk.injEq, true_and, mk.injEq, and_true]
  omega

end NumberParser

namespace NumberParser

theorem ne_underline_of_ExtendedDigit {c : Nat} (h : ExtendedDigit c) : c ≠ 95 := by
  unfold ExtendedDigit Digit at h
  omega

/-- The loop of basedNumeral reads the groups of a based numeral up to a character that is
neither an underscore nor an extended digit. -/
theorem basedNumeralLoop_groups (Q : QCharData) (er s : List Nat) (st : Nat) (a b c : Bool)
    (post : List Nat) (hp1 : post.headD 0 ≠ 95)
    (hp2 : extended_digit Q (post.headD 0) = false) :
    ∀ (t : List Nat), Groups ExtendedDigit t → ∀ (f off : Nat),
    s.drop (st + off) = t ++ post → t.length + 1 ≤ f →
    basedNumeralLoop Q f ⟨er, s, st, off, a, b, c⟩ =
      some (true, ⟨er, s, st, off + t.length, a, b, c⟩) := by
  intro t ht
  induction ht with
  | nil =>
    intro f off hd hf
    obtain ⟨g, rfl⟩ : ∃ g, f = g + 1 := ⟨f - 1, by omega⟩
    rw [basedNumeralLoop]
    simp only [lookAhead_eq_headD, hd, List.nil_append, hp1, hp2, Bool.false_eq_true, or_self,
      ↓reduceIte, List.length_nil, Nat.add_zero]
  | digit d t hdig _ ih =>
    intro f off hd hf
    obtain ⟨g, rfl⟩ : ∃ g, f = g + 1 := ⟨f - 1, by omega⟩
    have hd1 : s.drop (st + (off + 1)) = t ++ post := drop_succ_of_cons hd
    have hne : d ≠ 95 := ne_underline_of_ExtendedDigit hdig
    rw [basedNumeralLoop]
    simp only [lookAhead_eq_headD, hd, List.cons_append, List.headD_cons, hne,
      extended_digit_of_ExtendedDigit Q hdig, or_true, ↓reduceIte]
    rw [ih g (off + 1) hd1 (by simp only [List.length_cons] at hf; omega)]
    simp only [List.length_cons, Option.some.injEq, Prod.mk.injEq, true_and, mk.injEq, and_true]
    omega
  | underline d t hdig _ ih =>
    intro f off hd hf
    obtain ⟨g, rfl⟩ : ∃ g, f = g + 1 := ⟨f - 1, by omega⟩
    have hd1 : s.drop (st + (off + 1)) = d :: (t ++ post) := drop_succ_of_cons hd
    have hd2 : s.drop (st + (off + 1 + 1)) = t ++ post := drop_succ_of_cons hd1
    rw [basedNumeralLoop]
    simp only [lookAhead_eq_headD, hd, hd1, List.cons_append, List.headD_cons, true_or,
      ↓reduceIte, extended_digit_of_ExtendedDigit Q hdig]
    rw [ih g (off + 1 + 1) hd2 (by simp only [List.length_cons] at hf; omega)]
    simp only [List.length_cons, Option.some.injEq, Prod.mk.injEq, true_and, mk.injEq, and_true]
    omega

theorem basedNumeral_accepts (Q : QCharData) (er s : List Nat) (st : Nat) (a b c : Bool)
    (n post : List Nat) (hn : BasedNumeral n) (hp1 : post.headD 0 ≠ 95)
    (hp2 : extended_digit Q (post.headD 0) = false) (f off : Nat)
    (hd : s.drop (st + off) = n ++ post) (hf : n.length ≤ f) :
    basedNumeral Q f ⟨er, s, st, off, a, b, c⟩ =
      some (true, ⟨er, s, st, off + n.length, a, b, c⟩) := by
  obtain ⟨d, t, rfl, hdig, ht⟩ := hn
  have hd1 : s.drop (st + (off + 1)) = t ++ post := drop_succ_of_cons hd
  unfold basedNumeral
  simp only [lookAhead_eq_headD, hd, List.cons_append, List.headD_cons,
    extended_digit_of_ExtendedDigit Q hdig, Bool.true_eq_false, ↓reduceIte]
  rw [basedNumeralLoop_groups Q er s st a b c post hp1 hp2 t ht f (off + 1) hd1
    (by simp only [List.length_cons] at hf; omega)]
  simp only [List.length_cons, Option.some.injEq, Prod.mk.injEq, true_and, mk.injEq, and_true]
  omega

/-- The optional exponent at the end of the text: read where the grammar has one, and
nothing read where the text ends. -/
theorem parseExponent_accepts (Q : QCharData) (er s : List Nat) (st : Nat) (a b c : Bool)
    (e : List Nat) (ex : Bool) (he : (ex = true ∧ Exponent e) ∨ (ex = false ∧ e = []))
    (f off : Nat) (hd : s.drop (st + off) = e) (hf : e.length ≤ f) :
    parseExponent Q f ⟨er, s, st, off, a, b, c⟩ =
      some (true, ⟨er, s, st, off + e.length, a, b || ex, c⟩) := by
  unfold parseExponent
  rcases he with ⟨rfl, e0, sign, n, rfl, he0, hsign, hn⟩ | ⟨rfl, rfl⟩
  · have hl : toLower Q e0 = 101 := by
      rcases he0 with rfl | rfl <;> simp [toLower]
    have hd1 : s.drop (st + (off + 1)) = sign ++ n := drop_succ_of_cons hd
    simp only [lookAhead_eq_headD, hd, List.headD_cons, hl, ↓reduceIte]
    unfold exponent
    simp only [lookAhead_eq_headD, hd1]
    have hstop1 : ([] : List Nat).headD 0 ≠ 95 := by decide
    have hstop2 : isDigit Q (([] : List Nat).headD 0) = false := isDigit_zero Q
    rcases hsign with rfl | rfl | rfl
    · obtain ⟨d, t, rfl, hdig, ht⟩ := hn
      have hdn : d ≠ 43 ∧ d ≠ 45 := by unfold Digit at hdig; omega
      simp only [List.nil_append, List.headD_cons, hdn.1, hdn.2, isDigit_of_Digit Q hdig,
        or_true, or_self, ↓reduceIte]
      rw [numeral_accepts Q er s st a true c (d :: t) [] ⟨d, t, rfl, hdig, ht⟩ hstop1 hstop2
        f (off + 1) (by simpa using hd1) (by simp only [List.length_cons, List.nil_append] at hf ⊢; omega)]
      simp only [List.length_cons, List.nil_append, Bool.or_true, Option.some.injEq,
        Prod.mk.injEq, true_and, mk.injEq, and_true]
      omega
    · have hd2 : s.drop (st + (off + 1 + 1)) = n := drop_succ_of_cons hd1
      simp only [List.cons_append, List.nil_append, List.headD_cons, true_or, ↓reduceIte]
      rw [numeral_accepts Q er s st a true c n [] hn hstop1 hstop2 f (off + 1 + 1)
        (by simpa using hd2) (by simp only [List.length_cons, List.length_append] at hf; omega)]
      simp only [List.length_cons, List.length_append, List.length_nil, Bool.or_true,
        Option.some.injEq, Prod.mk.injEq, true_and, mk.injEq, and_true]
      omega
    · have hd2 : s.drop (st + (off + 1 + 1)) = n := drop_succ_of_cons hd1
      simp only [List.cons_append, List.nil_append, List.headD_cons, true_or, or_true,
        ↓reduceIte]
      rw [numeral_accepts Q er s st a true c n [] hn hstop1 hstop2 f (off + 1 + 1)
        (by simpa using hd2) (by simp only [List.length_cons, List.length_append] at hf; omega)]
      simp only [List.length_cons, List.length_append, List.length_nil, Bool.or_true,
        Option.some.injEq, Prod.mk.injEq, true_and, mk.injEq, and_true]
      omega
  · simp [lookAhead_eq_headD, hd, toLower]

end NumberParser

namespace NumberParser

theorem drop_pre (pre x : List Nat) (k : Nat) :
    (pre ++ x).drop (pre.length + k) = x.drop k := by
  rw [List.drop_append]

theorem exponent_head {e : List Nat} (h : Exponent e) :
    ∃ e0 r, e = e0 :: r ∧ (e0 = 101 ∨ e0 = 69) := by
  obtain ⟨e0, sign, n, rfl, he0, _, _⟩ := h
  exact ⟨e0, _, rfl, he0⟩

/-- The character after a numeral of a literal, where the literal goes on with an optional
exponent: no underscore, no digit, no number sign and no point. -/
theorem stop_at_exponent (Q : QCharData) (e : List Nat) (ex : Bool)
    (he : (ex = true ∧ Exponent e) ∨ (ex = false ∧ e = [])) :
    e.headD 0 ≠ 95 ∧ isDigit Q (e.headD 0) = false ∧ e.headD 0 ≠ 35 ∧ e.headD 0 ≠ 46 := by
  rcases he with ⟨_, h⟩ | ⟨_, rfl⟩
  · obtain ⟨e0, r, rfl, he0⟩ := exponent_head h
    rcases he0 with rfl | rfl <;> simp [isDigit]
  · simp [isDigit]

theorem parse_decimal (Q : QCharData) (pre w : List Nat) (point ex : Bool) (f : Nat)
    (hw : DecimalLiteral w point ex) (hf : w.length ≤ f) :
    parse Q f (new (pre ++ w) pre.length) =
      some (true, ⟨[], pre ++ w, pre.length, w.length, point, ex, false⟩) := by
  obtain ⟨n, frac, e, rfl, hn, hfrac, hex⟩ := hw
  simp only [List.length_append] at hf
  obtain ⟨s1, s2, s3, s4⟩ := stop_at_exponent Q e ex hex
  have hd0 : (pre ++ (n ++ (frac ++ e))).drop (pre.length + 0) = n ++ (frac ++ e) := by
    rw [drop_pre]; rfl
  have hd1 : (pre ++ (n ++ (frac ++ e))).drop (pre.length + (0 + n.length)) = frac ++ e := by
    rw [drop_pre, Nat.zero_add, List.drop_left]
  unfold parse
  simp only [new]
  rcases hfrac with ⟨rfl, m, rfl, hm⟩ | ⟨rfl, rfl⟩
  · simp only [List.cons_append, List.length_cons, Nat.zero_add] at hd0 hd1 hf ⊢
    have e1 := numeral_accepts Q [] (pre ++ (n ++ 46 :: (m ++ e))) pre.length false false
      false n (46 :: (m ++ e)) hn (by simp) (by simp [isDigit]) f 0 hd0 (by omega)
    have hd2 : (pre ++ (n ++ 46 :: (m ++ e))).drop (pre.length + (n.length + 1))
        = m ++ e := drop_succ_of_cons hd1
    have e2 := numeral_accepts Q [] (pre ++ (n ++ 46 :: (m ++ e))) pre.length true false
      false m e hm s1 s2 f (n.length + 1) hd2 (by omega)
    have hd3 : (pre ++ (n ++ 46 :: (m ++ e))).drop
        (pre.length + (n.length + 1 + m.length)) = e := by
      rw [drop_pre, show n.length + 1 + m.length = n.length + (1 + m.length) by omega,
        ← List.drop_drop, List.drop_left, ← List.drop_drop]
      simp
    have e3 := parseExponent_accepts Q [] (pre ++ (n ++ 46 :: (m ++ e))) pre.length true false
      false e ex hex f (n.length + 1 + m.length) hd3 (by omega)
    simp only [Nat.zero_add] at e1
    rw [e1]
    simp only [lookAhead_eq_headD, hd1, List.headD_cons, reduceCtorEq, ↓reduceIte,
      Nat.reduceEqDiff]
    rw [e2]
    try simp only
    rw [e3]
    simp only [List.length_append, List.length_cons, Bool.false_or, Option.some.injEq,
      Prod.mk.injEq, true_and, mk.injEq, and_true]
    omega
  · simp only [List.nil_append, List.length_nil, Nat.zero_add] at hd0 hd1 hf ⊢
    have e1 := numeral_accepts Q [] (pre ++ (n ++ e)) pre.length false false
      false n e hn s1 s2 f 0 hd0 (by omega)
    have e3 := parseExponent_accepts Q [] (pre ++ (n ++ e)) pre.length false false
      false e ex hex f n.length hd1 (by omega)
    rw [e1]
    simp only [lookAhead_eq_headD, Nat.zero_add, hd1, s3, s4, ↓reduceIte]
    rw [e3]
    simp only [List.length_append, Bool.false_or]

theorem drop_add_of_eq {l r : List Nat} {a : Nat} (h : l.drop a = r) (b c : Nat)
    (hc : c = a + b) : l.drop c = r.drop b := by
  subst hc
  rw [← h, List.drop_drop]

theorem parse_based (Q : QCharData) (pre w : List Nat) (point ex : Bool) (f : Nat)
    (hw : BasedLiteral w point ex) (hf : w.length ≤ f) :
    parse Q f (new (pre ++ w) pre.length) =
      some (true, ⟨[], pre ++ w, pre.length, w.length, point, ex, true⟩) := by
  obtain ⟨b, d, frac, e, rfl, hb, hd, hfrac, hex⟩ := hw
  have x35 : extended_digit Q 35 = false := by simp [extended_digit, isDigit]
  have x46 : extended_digit Q 46 = false := by simp [extended_digit, isDigit]
  unfold parse
  simp only [new]
  rcases hfrac with ⟨rfl, m, rfl, hm⟩ | ⟨rfl, rfl⟩
  · simp only [List.cons_append, List.length_cons, List.length_append] at hf ⊢
    have hd0 : (pre ++ (b ++ 35 :: (d ++ 46 :: (m ++ 35 :: e)))).drop (pre.length + 0)
        = b ++ 35 :: (d ++ 46 :: (m ++ 35 :: e)) := by
      rw [drop_pre]; rfl
    have hd1 : (pre ++ (b ++ 35 :: (d ++ 46 :: (m ++ 35 :: e)))).drop (pre.length + b.length)
        = 35 :: (d ++ 46 :: (m ++ 35 :: e)) := by
      rw [drop_pre, List.drop_left]
    have hd2 := drop_succ_of_cons hd1
    have hd3 : (pre ++ (b ++ 35 :: (d ++ 46 :: (m ++ 35 :: e)))).drop
        (pre.length + (b.length + 1 + d.length)) = 46 :: (m ++ 35 :: e) := by
      rw [drop_add_of_eq hd2 d.length _ (by omega), List.drop_left]
    have hd4 := drop_succ_of_cons hd3
    have hd5 : (pre ++ (b ++ 35 :: (d ++ 46 :: (m ++ 35 :: e)))).drop
        (pre.length + (b.length + 1 + d.length + 1 + m.length)) = 35 :: e := by
      rw [drop_add_of_eq hd4 m.length _ (by omega), List.drop_left]
    have hd6 := drop_succ_of_cons hd5
    have e1 := numeral_accepts Q [] (pre ++ (b ++ 35 :: (d ++ 46 :: (m ++ 35 :: e))))
      pre.length false false false b _ hb (by simp) (by simp [isDigit]) f 0 hd0 (by omega)
    have e2 := basedNumeral_accepts Q [] (pre ++ (b ++ 35 :: (d ++ 46 :: (m ++ 35 :: e))))
      pre.length false false true d _ hd (by simp) (by simpa using x46) f (b.length + 1) hd2
      (by omega)
    have e3 := basedNumeral_accepts Q [] (pre ++ (b ++ 35 :: (d ++ 46 :: (m ++ 35 :: e))))
      pre.length true false true m _ hm (by simp) (by simpa using x35) f
      (b.length + 1 + d.length + 1) hd4 (by omega)
    have e4 := parseExponent_accepts Q [] (pre ++ (b ++ 35 :: (d ++ 46 :: (m ++ 35 :: e))))
      pre.length true false true e ex hex f (b.length + 1 + d.length + 1 + m.length + 1) hd6
      (by omega)
    simp only [Nat.zero_add] at e1
    rw [e1]
    simp only [lookAhead_eq_headD, hd1, List.headD_cons, ↓reduceIte]
    rw [e2]
    simp only [lookAhead_eq_headD, hd3, List.headD_cons, ↓reduceIte]
    rw [e3]
    simp only [lookAhead_eq_headD, hd5, List.headD_cons, ne_eq, not_true_eq_false, ↓reduceIte]
    rw [e4]
    simp only [Bool.false_or, Option.some.injEq, Prod.mk.injEq, true_and, mk.injEq, and_true]
    omega
  · simp only [List.nil_append, List.length_nil, List.length_cons, List.length_append] at hf ⊢
    have hd0 : (pre ++ (b ++ 35 :: (d ++ 35 :: e))).drop (pre.length + 0)
        = b ++ 35 :: (d ++ 35 :: e) := by
      rw [drop_pre]; rfl
    have hd1 : (pre ++ (b ++ 35 :: (d ++ 35 :: e))).drop (pre.length + b.length)
        = 35 :: (d ++ 35 :: e) := by
      rw [drop_pre, List.drop_left]
    have hd2 := drop_succ_of_cons hd1
    have hd3 : (pre ++ (b ++ 35 :: (d ++ 35 :: e))).drop
        (pre.length + (b.length + 1 + d.length)) = 35 :: e := by
      rw [drop_add_of_eq hd2 d.length _ (by omega), List.drop_left]
    have hd4 := drop_succ_of_cons hd3
    have e1 := numeral_accepts Q [] (pre ++ (b ++ 35 :: (d ++ 35 :: e)))
      pre.length false false false b _ hb (by simp) (by simp [isDigit]) f 0 hd0 (by omega)
    have e2 := basedNumeral_accepts Q [] (pre ++ (b ++ 35 :: (d ++ 35 :: e)))
      pre.length false false true d _ hd (by simp) (by simpa using x35) f (b.length + 1) hd2
      (by omega)
    have e4 := parseExponent_accepts Q [] (pre ++ (b ++ 35 :: (d ++ 35 :: e)))
      pre.length false false true e ex hex f (b.length + 1 + d.length + 1) hd4 (by omega)
    simp only [Nat.zero_add] at e1
    rw [e1]
    simp only [lookAhead_eq_headD, hd1, List.headD_cons, ↓reduceIte]
    rw [e2]
    simp only [lookAhead_eq_headD, hd3, List.headD_cons, ne_eq, not_true_eq_false, ↓reduceIte,
      Nat.reduceEqDiff]
    rw [e4]
    simp only [Bool.false_or, Option.some.injEq, Prod.mk.injEq, true_and, mk.injEq, and_true]
    omega

end NumberParser

theorem advance_stay (Q : QCharData) (f : Nat) (L : Lexer) (hf : 1 ≤ f)
    (hcol : L.d_colNr < L.d_line.length)
    (hns : isSpace Q (L.d_line.getD L.d_colNr 0) = false) :
    advance Q f L = some (Sum.inr L) := by
  obtain ⟨g, rfl⟩ : ∃ g, f = g + 1 := ⟨f - 1, by omega⟩
  unfold advance
  rw [skipWhiteSpace]
  simp only [hns, Bool.false_eq_true, and_false, ↓reduceIte]
  rw [lineLoop]
  rw [if_neg (by omega)]

theorem scanToken_digit (Q : QCharData) (f : Nat) (L : Lexer)
    (hcol : L.d_colNr < L.d_line.length) (hd : Digit (L.d_line.getD L.d_colNr 0)) :
    scanToken Q f L = numeric Q f L := by
  unfold scanToken
  rw [if_pos hcol]
  dsimp only
  have hdig := NumberParser.isDigit_of_Digit Q hd
  generalize L.d_line.getD L.d_colNr 0 = c at hd hdig
  unfold Digit at hd
  iterate 17 rw [if_neg (by omega)]
  rw [if_pos hdig]

theorem isSpace_of_Digit (Q : QCharData) {c : Nat} (h : Digit c) : isSpace Q c = false := by
  unfold Digit at h
  unfold isSpace
  have h1 : c < 128 := by omega
  have h2 : c ≠ 32 := by omega
  have h3 : ¬ (9 ≤ c ∧ c ≤ 13) := by omega
  simp [h1, h2]
  omega

theorem literal_head {w : List Nat} {point ex based : Bool}
    (hw : (based = false ∧ DecimalLiteral w point ex) ∨
      (based = true ∧ BasedLiteral w point ex)) :
    ∃ d r, w = d :: r ∧ Digit d := by
  rcases hw with ⟨_, n, frac, e, rfl, ⟨d, t, rfl, hd, _⟩, _⟩ |
    ⟨_, b, d', frac, e, rfl, ⟨d, t, rfl, hd, _⟩, _⟩
  · exact ⟨d, _, rfl, hd⟩
  · exact ⟨d, _, rfl, hd⟩

theorem parse_literal (Q : QCharData) (pre w : List Nat) (point ex based : Bool) (f : Nat)
    (hf : w.length ≤ f)
    (hw : (based = false ∧ DecimalLiteral w point ex) ∨
      (based = true ∧ BasedLiteral w point ex)) :
    NumberParser.parse Q f (NumberParser.new (pre ++ w) pre.length) =
      some (true, ⟨[], pre ++ w, pre.length, w.length, point, ex, based⟩) := by
  rcases hw with ⟨rfl, h⟩ | ⟨rfl, h⟩
  · exact NumberParser.parse_decimal Q pre w point ex f h hf
  · exact NumberParser.parse_based Q pre w point ex f h hf

/-- At a literal of the grammar that ends the line, nextToken returns what the helper token
builds for a Number of the length of the literal with the literal as text. -/
theorem nextToken_literal (Q : QCharData) (pre w : List Nat) (point ex based : Bool) (f : Nat)
    (hf : w.length ≤ f)
    (hw : (based = false ∧ DecimalLiteral w point ex) ∨
      (based = true ∧ BasedLiteral w point ex))
    (L : Lexer) (hin : L.d_in ≠ none) (hline : L.d_line = pre ++ w)
    (hc : L.d_colNr = pre.length) :
    nextToken Q f L = some (token L T_Number w.length w) := by
  obtain ⟨d, r, rfl, hd⟩ := literal_head hw
  have hcol : L.d_colNr < L.d_line.length := by
    rw [hline, hc]; simp
  have hch : L.d_line.getD L.d_colNr 0 = d := by
    rw [hline, hc, List.getD_eq_getElem?_getD, List.getElem?_append_right (le_refl _),
      Nat.sub_self]
    simp
  have hf1 : 1 ≤ f := by simp only [List.length_cons] at hf; omega
  unfold nextToken
  rw [if_neg hin, advance_stay Q f L hf1 hcol (by rw [hch]; exact isSpace_of_Digit Q hd)]
  try simp only
  rw [scanToken_digit Q f L hcol (by rw [hch]; exact hd)]
  unfold numeric
  rw [hline, hc, parse_literal Q pre (d :: r) point ex based f hf hw]
  simp

theorem not_mem_groups {dig : Nat → Prop} {t : List Nat} (h : Groups dig t) (x : Nat)
    (hx : ¬ dig x) (hx2 : x ≠ 95) : x ∉ t := by
  induction h with
  | nil => simp
  | digit d t hd _ ih =>
    simp only [List.mem_cons, not_or]
    exact ⟨fun h => hx (h ▸ hd), ih⟩
  | underline d t hd _ ih =>
    simp only [List.mem_cons, not_or]
    exact ⟨hx2, fun h => hx (h ▸ hd), ih⟩

theorem not_mem_numeral {n : List Nat} (h : Numeral n) (x : Nat) (hx : ¬ Digit x)
    (hx2 : x ≠ 95) : x ∉ n := by
  obtain ⟨d, t, rfl, hd, ht⟩ := h
  simp only [List.mem_cons, not_or]
  exact ⟨fun h => hx (h ▸ hd), not_mem_groups ht x hx hx2⟩

theorem not_mem_basedNumeral {n : List Nat} (h : BasedNumeral n) (x : Nat)
    (hx : ¬ ExtendedDigit x) (hx2 : x ≠ 95) : x ∉ n := by
  obtain ⟨d, t, rfl, hd, ht⟩ := h
  simp only [List.mem_cons, not_or]
  exact ⟨fun h => hx (h ▸ hd), not_mem_groups ht x hx hx2⟩

theorem not_mem_exponent {e : List Nat} {ex : Bool}
    (h : (ex = true ∧ Exponent e) ∨ (ex = false ∧ e = [])) (x : Nat) (hx : x = 46 ∨ x = 35) :
    x ∉ e := by
  have hnd : ¬ Digit x := by unfold Digit; omega
  rcases h with ⟨_, e0, sign, n, rfl, he0, hs, hn⟩ | ⟨_, rfl⟩
  · have := not_mem_numeral hn x hnd (by omega)
    simp only [List.mem_cons, List.mem_append, not_or]
    refine ⟨by omega, ?_, this⟩
    rcases hs with rfl | rfl | rfl <;> simp <;> omega
  · simp

theorem literal_marks {w : List Nat} {point ex based : Bool}
    (hw : (based = false ∧ DecimalLiteral w point ex) ∨
      (based = true ∧ BasedLiteral w point ex)) :
    (point = true ↔ 46 ∈ w) ∧ (based = true ↔ 35 ∈ w) := by
  have d46 : ¬ Digit 46 := by unfold Digit; omega
  have d35 : ¬ Digit 35 := by unfold Digit; omega
  have x46 : ¬ ExtendedDigit 46 := by unfold ExtendedDigit Digit; omega
  have x35 : ¬ ExtendedDigit 35 := by unfold ExtendedDigit Digit; omega
  rcases hw with ⟨rfl, n, frac, e, rfl, hn, hfrac, hex⟩ |
    ⟨rfl, b, d, frac, e, rfl, hb, hd, hfrac, hex⟩
  · have n46 := not_mem_numeral hn 46 d46 (by decide)
    have n35 := not_mem_numeral hn 35 d35 (by decide)
    have e46 := not_mem_exponent hex 46 (Or.inl rfl)
    have e35 := not_mem_exponent hex 35 (Or.inr rfl)
    rcases hfrac with ⟨rfl, m, rfl, hm⟩ | ⟨rfl, rfl⟩
    · have m35 := not_mem_numeral hm 35 d35 (by decide)
      simp [n35, e35, m35]
    · simp [n46, n35, e46, e35]
  · have b46 := not_mem_numeral hb 46 d46 (by decide)
    have c46 := not_mem_basedNumeral hd 46 x46 (by decide)
    have e46 := not_mem_exponent hex 46 (Or.inl rfl)
    rcases hfrac with ⟨rfl, m, rfl, hm⟩ | ⟨rfl, rfl⟩
    · simp
    · simp [b46, c46, e46]

/-! ### The claim -/

/-- C10 as amended: for every literal w of the grammar (decimal or based, point and ex
telling whether the derivation has a fraction and an exponent) that ends its line, parse
succeeds with consumed length |w|, isBased true exactly for a based literal, hasDecimals
equal to point and hasExponent equal to ex; point holds exactly when w contains a point and
based exactly when w contains a number sign; and where the line is shorter than 65536
characters nextToken returns a Number token of length |w| with text w. -/
theorem numeric_literal_complete (Q : QCharData) (pre w : List Nat) (point ex based : Bool)
    (f : Nat) (hf : w.length ≤ f)
    (hw : (based = false ∧ DecimalLiteral w point ex) ∨
      (based = true ∧ BasedLiteral w point ex)) :
    NumberParser.parse Q f (NumberParser.new (pre ++ w) pre.length) =
      some (true, ⟨[], pre ++ w, pre.length, w.length, point, ex, based⟩) ∧
    (point = true ↔ 46 ∈ w) ∧ (based = true ↔ 35 ∈ w) ∧
    ∀ L : Lexer, L.d_in ≠ none → L.d_line = pre ++ w → L.d_colNr = pre.length →
      (pre ++ w).length < 65536 →
      ∃ t L1, nextToken Q f L = some (t, L1) ∧ t.d_type = T_Number ∧ t.d_col = pre.length ∧
        t.d_len = w.length ∧ t.d_val = w := by
  refine ⟨parse_literal Q pre w point ex based f hf hw, (literal_marks hw).1,
    (literal_marks hw).2, ?_⟩
  intro L hin hline hc hlen
  refine ⟨_, _, nextToken_literal Q pre w point ex based f hf hw L hin hline hc, rfl, ?_, ?_,
    rfl⟩
  · show L.d_colNr % 65536 = pre.length
    rw [hc]
    simp only [List.length_append] at hlen
    exact Nat.mod_eq_of_lt (by omega)
  · show w.length % 65536 = w.length
    simp only [List.length_append] at hlen
    exact Nat.mod_eq_of_lt (by omega)

/-- C10 as amended, at the literal 1.0E+3 on a line of its own, together with the other two
literals that the claim names: 123_456 and 16#FF#. -/
theorem numeric_literal_complete_witness :
    NumberParser.parse asciiData 6 (NumberParser.new ([] ++ qstr "1.0E+3") 0) =
      some (true, ⟨[], [] ++ qstr "1.0E+3", 0, 6, true, true, false⟩) ∧
    NumberParser.parse asciiData 7 (NumberParser.new (qstr "123_456") 0) =
      some (true, ⟨[], qstr "123_456", 0, 7, false, false, false⟩) ∧
    NumberParser.parse asciiData 6 (NumberParser.new (qstr "16#FF#") 0) =
      some (true, ⟨[], qstr "16#FF#", 0, 6, false, false, true⟩) :=
  have hw : DecimalLiteral (qstr "1.0E+3") true true :=
    ⟨[49], [46, 48], [69, 43, 51], rfl,
      ⟨49, [], rfl, ⟨by decide, by decide⟩, Groups.nil⟩,
      Or.inl ⟨rfl, [48], rfl, ⟨48, [], rfl, ⟨by decide, by decide⟩, Groups.nil⟩⟩,
      Or.inl ⟨rfl, 69, [43], [51], rfl, Or.inr rfl, Or.inr (Or.inl rfl),
        ⟨51, [], rfl, ⟨by decide, by decide⟩, Groups.nil⟩⟩⟩
  ⟨(numeric_literal_complete asciiData [] (qstr "1.0E+3") true true false 6 (by decide)
      (Or.inl ⟨rfl, hw⟩)).1, by decide, by decide⟩

/-- The first part of the first nextToken call on a source with one line that starts with a
character other than white space: the line is read and the scanner stands at its start. -/
theorem advance_attach_single (Q : QCharData) (f : Nat) (w : List Nat) (hf : 2 ≤ f)
    (hlen : 1 ≤ w.length) (hw0 : isSpace Q (w.getD 0 0) = false) :
    advance Q f (attach [w]) = some (Sum.inr ⟨some ⟨[w], []⟩, 1, 0, w, T_Invalid⟩) := by
  obtain ⟨g, rfl⟩ : ∃ g, f = g + 1 + 1 := ⟨f - 2, by omega⟩
  unfold advance
  simp only [attach, setStream, reset, new, Option.map_some']
  rw [skipWhiteSpace]
  simp only [List.length_nil, Nat.lt_irrefl, false_and, ↓reduceIte]
  rw [lineLoop]
  simp only [List.length_nil, ge_iff_le, le_refl, ↓reduceIte, atEnd, List.isEmpty_cons,
    Bool.false_eq_true, nextLine, List.headD_cons, List.tail_cons]
  rw [skipWhiteSpace]
  simp only [hw0, Bool.false_eq_true, and_false, ↓reduceIte, Nat.zero_add, Nat.reduceMod]
  rw [lineLoop]
  rw [if_neg (by simp only [ge_iff_le, not_le]; omega)]

theorem nextToken_attach_single (Q : QCharData) (f : Nat) (w : List Nat) (hf : 2 ≤ f)
    (hlen : 1 ≤ w.length) (hw0 : isSpace Q (w.getD 0 0) = false) :
    nextToken Q f (attach [w]) = nextToken Q f ⟨some ⟨[w], []⟩, 1, 0, w, T_Invalid⟩ := by
  unfold nextToken
  rw [if_neg (by simp [attach, setStream, reset]), if_neg (by simp),
    advance_attach_single Q f w hf hlen hw0,
    advance_stay Q f ⟨some ⟨[w], []⟩, 1, 0, w, T_Invalid⟩ (by omega) hlen hw0]

theorem groups_replicate (n : Nat) : Groups Digit (List.replicate n 49) := by
  induction n with
  | zero => exact Groups.nil
  | succ n ih => exact Groups.digit 49 _ ⟨by decide, by decide⟩ ih

/-- A line of n + 1 digits 1 is a decimal literal, and the first call of nextToken on it
returns what the helper token builds for a Number of length n + 1. -/
theorem nextToken_ones (Q : QCharData) (n : Nat) (f : Nat) (hf : n + 1 ≤ f) (hf2 : 2 ≤ f) :
    DecimalLiteral (List.replicate (n + 1) 49) false false ∧
    nextToken Q f (attach [List.replicate (n + 1) 49]) =
      some (token ⟨some ⟨[List.replicate (n + 1) 49], []⟩, 1, 0, List.replicate (n + 1) 49,
        T_Invalid⟩ T_Number (n + 1) (List.replicate (n + 1) 49)) := by
  have hw : DecimalLiteral (List.replicate (n + 1) 49) false false :=
    ⟨List.replicate (n + 1) 49, [], [], by simp,
      ⟨49, List.replicate n 49, rfl, ⟨by decide, by decide⟩, groups_replicate n⟩,
      Or.inr ⟨rfl, rfl⟩, Or.inr ⟨rfl, rfl⟩⟩
  refine ⟨hw, ?_⟩
  have hlen : (List.replicate (n + 1) 49).length = n + 1 := List.length_replicate _ _
  have h1 := nextToken_literal Q [] (List.replicate (n + 1) 49) false false false f
    (by rw [hlen]; exact hf) (Or.inl ⟨rfl, hw⟩)
    ⟨some ⟨[List.replicate (n + 1) 49], []⟩, 1, 0, List.replicate (n + 1) 49, T_Invalid⟩
    (by simp) rfl rfl
  rw [nextToken_attach_single Q f _ hf2 (by rw [hlen]; omega)
    (by show isSpace Q ((List.replicate (n + 1) 49).getD 0 0) = false; rfl), h1, hlen]

/-- C10 as stated fails: a line of 65536 digits 1 is a decimal literal that ends its line,
and the Number token returned for it has the length field 0, not 65536. -/
theorem number_token_length_wraps :
    DecimalLiteral (List.replicate (65535 + 1) 49) false false ∧
    ∃ t L1, nextToken asciiData 65536 (attach [List.replicate (65535 + 1) 49]) = some (t, L1) ∧
      t.d_type = T_Number ∧ t.d_len = 0 :=
  ⟨(nextToken_ones asciiData 65535 65536 (by decide) (by decide)).1, _, _,
    (nextToken_ones asciiData 65535 65536 (by decide) (by decide)).2, rfl, rfl⟩

/-! ## String literals -/

theorem lookAhead2_eq_headD (L : Lexer) (off : Nat) :
    lookAhead2 L off = (L.d_line.drop (L.d_colNr + off)).headD 0 := by
  unfold lookAhead2
  by_cases h : L.d_colNr + off < L.d_line.length
  · rw [if_pos h, List.getD_eq_getElem _ _ h, List.drop_eq_getElem_cons h]
    rfl
  · rw [if_neg h, List.drop_eq_nil_of_le (by omega)]
    rfl

theorem lookAhead_eq_quote (L : Lexer) (off : Nat) :
    lookAhead L off = 34 ↔ (L.d_line.drop (L.d_colNr + off)).headD 0 = 34 := by
  rw [lookAhead_eq_iff L off 34 (by decide) (by decide)]
  by_cases h : L.d_colNr + off < L.d_line.length
  · rw [List.getElem?_eq_getElem h, List.drop_eq_getElem_cons h]
    simp only [Option.some.injEq, List.headD_cons]
  · rw [List.getElem?_eq_none (by omega), List.drop_eq_nil_of_le (by omega)]
    simp

theorem isPrint_zero (Q : QCharData) : isPrint Q 0 = false := by simp [isPrint]

/-- The loop of string runs through a body to its closing quote. -/
theorem stringLoop_body (Q : QCharData) (L : Lexer) (post : List Nat)
    (hp : post.headD 0 ≠ 34) :
    ∀ (body dec : List Nat), StringBody Q body dec → ∀ (f off : Nat),
    L.d_line.drop (L.d_colNr + off) = body ++ 34 :: post → body.length + 1 ≤ f →
    stringLoop Q L f off = some (Sum.inr (off + body.length)) := by
  intro body dec hb
  induction hb with
  | nil =>
    intro f off hd hf
    obtain ⟨g, rfl⟩ : ∃ g, f = g + 1 := ⟨f - 1, by omega⟩
    have hd1 : L.d_line.drop (L.d_colNr + (off + 1)) = post :=
      NumberParser.drop_succ_of_cons hd
    have hq : ¬ lookAhead L (off + 1) = 34 := by
      rw [lookAhead_eq_quote, hd1]; exact hp
    rw [stringLoop]
    simp only [lookAhead2_eq_headD, hd, List.nil_append, List.headD_cons, ↓reduceIte, hq,
      List.length_nil, Nat.add_zero]
  | char c b d hc hpr _ ih =>
    intro f off hd hf
    obtain ⟨g, rfl⟩ : ∃ g, f = g + 1 := ⟨f - 1, by omega⟩
    have hd1 : L.d_line.drop (L.d_colNr + (off + 1)) = b ++ 34 :: post :=
      NumberParser.drop_succ_of_cons hd
    rw [stringLoop]
    simp only [lookAhead2_eq_headD, hd, List.cons_append, List.headD_cons, hc, ↓reduceIte, hpr]
    rw [ih g (off + 1) hd1 (by simp only [List.length_cons] at hf; omega)]
    simp only [List.length_cons, Option.some.injEq, Sum.inr.injEq]
    omega
  | quote b d _ ih =>
    intro f off hd hf
    obtain ⟨g, rfl⟩ : ∃ g, f = g + 1 := ⟨f - 1, by omega⟩
    have hd1 : L.d_line.drop (L.d_colNr + (off + 1)) = 34 :: (b ++ 34 :: post) :=
      NumberParser.drop_succ_of_cons hd
    have hd2 : L.d_line.drop (L.d_colNr + (off + 2)) = b ++ 34 :: post :=
      NumberParser.drop_succ_of_cons hd1
    have hq : lookAhead L (off + 1) = 34 := by
      rw [lookAhead_eq_quote, hd1]; rfl
    rw [stringLoop]
    simp only [lookAhead2_eq_headD, hd, List.cons_append, List.headD_cons, ↓reduceIte, hq]
    rw [ih g (off + 2) hd2 (by simp only [List.length_cons] at hf; omega)]
    simp only [List.length_cons, Option.some.injEq, Sum.inr.injEq]
    omega

/-- The loop of string runs through an unclosed rest to the end of the line or to a null
character and returns the Invalid token there. -/
theorem stringLoop_open (Q : QCharData) (L : Lexer) :
    ∀ (r : List Nat), OpenString Q r → ∀ (f off : Nat),
    L.d_line.drop (L.d_colNr + off) = r → r.length + 1 ≤ f →
    stringLoop Q L f off =
      some (Sum.inl (token L T_Invalid (L.d_line.length - L.d_colNr)
        (qstr "non terminated string"))) := by
  intro r hr
  induction hr with
  | eol =>
    intro f off hd hf
    obtain ⟨g, rfl⟩ : ∃ g, f = g + 1 := ⟨f - 1, by omega⟩
    rw [stringLoop]
    simp [lookAhead2_eq_headD, hd, isPrint_zero, isNull]
  | nul r =>
    intro f off hd hf
    obtain ⟨g, rfl⟩ : ∃ g, f = g + 1 := ⟨f - 1, by omega⟩
    rw [stringLoop]
    simp [lookAhead2_eq_headD, hd, isPrint_zero, isNull]
  | char c r hc hpr _ ih =>
    intro f off hd hf
    obtain ⟨g, rfl⟩ : ∃ g, f = g + 1 := ⟨f - 1, by omega⟩
    have hd1 : L.d_line.drop (L.d_colNr + (off + 1)) = r :=
      NumberParser.drop_succ_of_cons hd
    rw [stringLoop]
    simp only [lookAhead2_eq_headD, hd, List.headD_cons, hc, ↓reduceIte, hpr]
    exact ih g (off + 1) hd1 (by simp only [List.length_cons] at hf; omega)
  | quote r _ ih =>
    intro f off hd hf
    obtain ⟨g, rfl⟩ : ∃ g, f = g + 1 := ⟨f - 1, by omega⟩
    have hd1 : L.d_line.drop (L.d_colNr + (off + 1)) = 34 :: r :=
      NumberParser.drop_succ_of_cons hd
    have hd2 : L.d_line.drop (L.d_colNr + (off + 2)) = r :=
      NumberParser.drop_succ_of_cons hd1
    have hq : lookAhead L (off + 1) = 34 := by
      rw [lookAhead_eq_quote, hd1]; rfl
    rw [stringLoop]
    simp only [lookAhead2_eq_headD, hd, List.headD_cons, ↓reduceIte, hq]
    exact ih g (off + 2) hd2 (by simp only [List.length_cons] at hf; omega)

theorem replaceQuotes_body (Q : QCharData) (body dec : List Nat) (h : StringBody Q body dec) :
    replaceQuotes body = dec := by
  induction h with
  | nil => rfl
  | char c b d hc _ _ ih =>
    have : replaceQuotes (c :: b) = c :: replaceQuotes b := by
      rw [replaceQuotes]
      intro r hr
      exact absurd hr hc
    rw [this, ih]
  | quote b d _ ih => rw [replaceQuotes, ih]

theorem scanToken_quote (Q : QCharData) (f : Nat) (L : Lexer)
    (hcol : L.d_colNr < L.d_line.length) (hq : L.d_line.getD L.d_colNr 0 = 34) :
    scanToken Q f L = string Q f L := by
  unfold scanToken
  rw [if_pos hcol]
  dsimp only
  rw [hq]
  simp

theorem nextToken_at_quote (Q : QCharData) (f : Nat) (L : Lexer) (pre r : List Nat)
    (hf : 1 ≤ f) (hin : L.d_in ≠ none) (hline : L.d_line = pre ++ 34 :: r)
    (hc : L.d_colNr = pre.length) : nextToken Q f L = string Q f L := by
  have hcol : L.d_colNr < L.d_line.length := by
    rw [hline, hc]; simp
  have hch : L.d_line.getD L.d_colNr 0 = 34 := by
    rw [hline, hc, List.getD_eq_getElem?_getD, List.getElem?_append_right (le_refl _),
      Nat.sub_self]
    simp
  unfold nextToken
  rw [if_neg hin, advance_stay Q f L hf hcol (by rw [hch]; rfl)]
  exact scanToken_quote Q f L hcol hch

theorem drop_after_quote (pre r : List Nat) :
    (pre ++ 34 :: r).drop (pre.length + 1) = r := by
  rw [List.drop_append]
  rfl

/-- At a string literal with a body that a lone double quote closes, nextToken returns what
the helper token builds for a String of the length of the body plus 2 with the decoded text. -/
theorem nextToken_string_body (Q : QCharData) (f : Nat) (pre body dec post : List Nat)
    (L : Lexer) (hin : L.d_in ≠ none) (hline : L.d_line = pre ++ 34 :: (body ++ 34 :: post))
    (hc : L.d_colNr = pre.length) (hb : StringBody Q body dec) (hp : post.headD 0 ≠ 34)
    (hf : body.length + 1 ≤ f) :
    nextToken Q f L = some (token L T_String (1 + body.length + 1) dec) := by
  have hd : L.d_line.drop (L.d_colNr + 1) = body ++ 34 :: post := by
    rw [hline, hc, drop_after_quote]
  rw [nextToken_at_quote Q f L pre _ (by omega) hin hline hc]
  unfold string
  rw [stringLoop_body Q L post hp body dec hb f 1 hd hf]
  simp only [hd, Nat.add_sub_cancel_left, List.take_left', replaceQuotes_body Q body dec hb]

/-- C7 as amended: on a line shorter than 65536 characters that holds, at the current
column, a double quote, a body of printable characters in which every double quote occurs
as a doubled pair, and a lone closing double quote, nextToken returns a String token whose
length is the body length plus 2 and whose text is the body with every doubled quote folded
to one. -/
theorem string_token_decoded (Q : QCharData) (f : Nat) (pre body dec post : List Nat)
    (L : Lexer) (hin : L.d_in ≠ none) (hline : L.d_line = pre ++ 34 :: (body ++ 34 :: post))
    (hc : L.d_colNr = pre.length) (hb : StringBody Q body dec) (hp : post.headD 0 ≠ 34)
    (hlen : L.d_line.length < 65536) (hf : body.length + 1 ≤ f) :
    ∃ t L1, nextToken Q f L = some (t, L1) ∧ t.d_type = T_String ∧ t.d_col = pre.length ∧
      t.d_len = body.length + 2 ∧ t.d_val = dec := by
  refine ⟨_, _, nextToken_string_body Q f pre body dec post L hin hline hc hb hp hf, rfl,
    ?_, ?_, rfl⟩
  · show L.d_colNr % 65536 = pre.length
    rw [hline] at hlen
    simp only [List.length_append, List.length_cons] at hlen
    rw [hc]
    exact Nat.mod_eq_of_lt (by omega)
  · show (1 + body.length + 1) % 65536 = body.length + 2
    rw [hline] at hlen
    simp only [List.length_append, List.length_cons] at hlen
    rw [Nat.mod_eq_of_lt (by omega)]
    omega

/-- C7 as amended, at the literal with body a, two double quotes, b on a line of its own:
length 6 and text a, double quote, b; together with the other two literals that the claim
names, four double quotes and two double quotes. -/
theorem string_token_decoded_witness :
    (∃ t L1, nextToken asciiData 5
        ⟨some ⟨[[34, 97, 34, 34, 98, 34]], []⟩, 1, 0, [] ++ 34 :: ([97, 34, 34, 98] ++ 34 :: []),
          T_Invalid⟩ = some (t, L1) ∧
      t.d_type = T_String ∧ t.d_col = 0 ∧ t.d_len = 4 + 2 ∧ t.d_val = [97, 34, 98]) ∧
    (nextToken asciiData 5 (attach [[34, 34, 34, 34]])).map (fun p => (p.1.d_len, p.1.d_val))
      = some (4, [34]) ∧
    (nextToken asciiData 5 (attach [[34, 34]])).map (fun p => (p.1.d_len, p.1.d_val))
      = some (2, []) :=
  ⟨string_token_decoded asciiData 5 [] [97, 34, 34, 98] [97, 34, 98] []
      ⟨some ⟨[[34, 97, 34, 34, 98, 34]], []⟩, 1, 0, [] ++ 34 :: ([97, 34, 34, 98] ++ 34 :: []),
        T_Invalid⟩ (by simp) rfl rfl
      (StringBody.char 97 _ _ (by decide) rfl
        (StringBody.quote _ _ (StringBody.char 98 _ _ (by decide) rfl StringBody.nil)))
      (by decide) (by decide) (by decide),
    by decide, by decide⟩

theorem stringBody_replicate (Q : QCharData) (n : Nat) :
    StringBody Q (List.replicate n 97) (List.replicate n 97) := by
  induction n with
  | zero => exact StringBody.nil
  | succ n ih => exact StringBody.char 97 _ _ (by decide) rfl ih

theorem nextToken_long_string (Q : QCharData) (n f : Nat) (hf : n + 2 ≤ f) :
    nextToken Q f (attach [34 :: (List.replicate n 97 ++ [34])]) =
      some (token ⟨some ⟨[34 :: (List.replicate n 97 ++ [34])], []⟩, 1, 0,
        34 :: (List.replicate n 97 ++ [34]), T_Invalid⟩ T_String (1 + n + 1)
        (List.replicate n 97)) := by
  have h := nextToken_string_body Q f [] (List.replicate n 97) (List.replicate n 97) []
    ⟨some ⟨[34 :: (List.replicate n 97 ++ [34])], []⟩, 1, 0,
      34 :: (List.replicate n 97 ++ [34]), T_Invalid⟩ (Option.some_ne_none _) rfl rfl
    (stringBody_replicate Q n) (by decide) (by rw [List.length_replicate]; omega)
  rw [List.length_replicate] at h
  rw [nextToken_attach_single Q f (34 :: (List.replicate n 97 ++ [34])) (by omega)
    (Nat.succ_le_succ (Nat.zero_le _)) rfl]
  exact h

/-- C7 as stated fails in two ways: with a tab as body nextToken never returns, whatever the
iteration budget, and with a body of 65534 letters a the String token has length field 0
where the body length plus 2 is 65536. -/
theorem string_token_counterexample :
    (∀ fuel, nextToken asciiData fuel (attach [[34, 9, 34]]) = none) ∧
    ∃ t L1, nextToken asciiData 65536 (attach [34 :: (List.replicate 65534 97 ++ [34])])
        = some (t, L1) ∧ t.d_type = T_String ∧ t.d_len = 0 :=
  ⟨nextToken_tab_in_closed_string_never_returns asciiData, _, _,
    nextToken_long_string asciiData 65534 65536 (by decide), rfl, rfl⟩

/-- At an opening double quote that nothing closes, nextToken returns what the helper token
builds for an Invalid token over the rest of the line. -/
theorem nextToken_open_string (Q : QCharData) (f : Nat) (pre r : List Nat) (L : Lexer)
    (hin : L.d_in ≠ none) (hline : L.d_line = pre ++ 34 :: r) (hc : L.d_colNr = pre.length)
    (hr : OpenString Q r) (hf : r.length + 1 ≤ f) :
    nextToken Q f L = some (token L T_Invalid (L.d_line.length - L.d_colNr)
      (qstr "non terminated string")) := by
  have hd : L.d_line.drop (L.d_colNr + 1) = r := by
    rw [hline, hc, drop_after_quote]
  rw [nextToken_at_quote Q f L pre _ (by omega) hin hline hc]
  unfold string
  rw [stringLoop_open Q L r hr f 1 hd hf]

/-- C8 as amended: on a line shorter than 65536 characters that holds, at the current
column, a double quote followed up to the end of the line (or to a null character) only by
printable characters other than the double quote and by doubled double quotes, nextToken
returns an Invalid token with the text non terminated string whose length is the whole rest
of the line, and leaves the column at the end of the line. -/
theorem open_string_invalid (Q : QCharData) (f : Nat) (pre r : List Nat) (L : Lexer)
    (hin : L.d_in ≠ none) (hline : L.d_line = pre ++ 34 :: r) (hc : L.d_colNr = pre.length)
    (hr : OpenString Q r) (hlen : L.d_line.length < 65536) (hf : r.length + 1 ≤ f) :
    ∃ t L1, nextToken Q f L = some (t, L1) ∧ t.d_type = T_Invalid ∧
      t.d_val = qstr "non terminated string" ∧ t.d_col = pre.length ∧
      t.d_len = L.d_line.length - pre.length ∧ L1.d_colNr = L.d_line.length ∧
      L1.d_line = L.d_line := by
  have hle : pre.length < L.d_line.length := by rw [hline]; simp
  refine ⟨_, _, nextToken_open_string Q f pre r L hin hline hc hr hf, rfl, rfl, ?_, ?_, ?_,
    rfl⟩
  · show L.d_colNr % 65536 = pre.length
    rw [hc]
    exact Nat.mod_eq_of_lt (by omega)
  · show (L.d_line.length - L.d_colNr) % 65536 = L.d_line.length - pre.length
    rw [hc]
    exact Nat.mod_eq_of_lt (by omega)
  · show (L.d_colNr + (L.d_line.length - L.d_colNr)) % 65536 = L.d_line.length
    rw [hc, Nat.add_sub_cancel' (by omega)]
    exact Nat.mod_eq_of_lt hlen

/-- C8 as amended, at the line holding a double quote and the letters a, b, c. -/
theorem open_string_invalid_witness :
    ∃ t L1, nextToken asciiData 5
        ⟨some ⟨[[34, 97, 98, 99]], []⟩, 1, 0, [] ++ 34 :: [97, 98, 99], T_Invalid⟩
        = some (t, L1) ∧
      t.d_type = T_Invalid ∧ t.d_val = qstr "non terminated string" ∧ t.d_col = 0 ∧
      t.d_len = 4 - 0 ∧ L1.d_colNr = 4 ∧ L1.d_line = [] ++ 34 :: [97, 98, 99] :=
  open_string_invalid asciiData 5 [] [97, 98, 99]
    ⟨some ⟨[[34, 97, 98, 99]], []⟩, 1, 0, [] ++ 34 :: [97, 98, 99], T_Invalid⟩ (by simp)
    rfl rfl
    (OpenString.char 97 _ (by decide) rfl (OpenString.char 98 _ (by decide) rfl
      (OpenString.char 99 _ (by decide) rfl OpenString.eol)))
    (by decide) (by decide)

theorem openString_replicate (Q : QCharData) (n : Nat) :
    OpenString Q (List.replicate n 97) := by
  induction n with
  | zero => exact OpenString.eol
  | succ n ih => exact OpenString.char 97 _ (by decide) rfl ih

theorem nextToken_long_open_string (Q : QCharData) (n f : Nat) (hf : n + 2 ≤ f) :
    nextToken Q f (attach [34 :: List.replicate n 97]) =
      some (token ⟨some ⟨[34 :: List.replicate n 97], []⟩, 1, 0,
        34 :: List.replicate n 97, T_Invalid⟩ T_Invalid (n + 1)
        (qstr "non terminated string")) := by
  have h := nextToken_open_string Q f [] (List.replicate n 97)
    ⟨some ⟨[34 :: List.replicate n 97], []⟩, 1, 0, 34 :: List.replicate n 97, T_Invalid⟩
    (Option.some_ne_none _) rfl rfl (openString_replicate Q n)
    (by rw [List.length_replicate]; omega)
  rw [nextToken_attach_single Q f (34 :: List.replicate n 97) (by omega)
    (Nat.succ_le_succ (Nat.zero_le _)) rfl]
  rw [h]
  simp only [List.length_cons, List.length_replicate, Nat.sub_zero]

/-- C8 as stated fails in two ways: with a tab behind the opening quote nextToken never
returns, whatever the iteration budget, and on a line of 65536 characters the Invalid token
has length field 0 where the rest of the line is 65536 characters long. -/
theorem open_string_counterexample :
    (∀ fuel, nextToken asciiData fuel (attach [[34, 97, 9]]) = none) ∧
    ∃ t L1, nextToken asciiData 65537 (attach [34 :: List.replicate 65535 97])
        = some (t, L1) ∧ t.d_type = T_Invalid ∧ t.d_len = 0 :=
  ⟨nextToken_tab_in_open_string_never_returns asciiData, _, _,
    nextToken_long_open_string asciiData 65535 65537 (by decide), rfl, rfl⟩

/-! ## Token names and categories -/

theorem isDelimiter_iff (t : Nat) : isDelimiter t = true ↔ 74 ≤ t ∧ t ≤ 99 := by
  unfold isDelimiter
  simp [T_Colon, T_Box]

theorem isKeyWord_iff (t : Nat) : isKeyWord t = true ↔ 1 ≤ t ∧ t ≤ 73 := by
  unfold isKeyWord
  simp [T_abort, T_xor]

theorem s_tokenName_length : s_tokenName.length = 107 := by rfl

/-- The glyph switch decides tokenName for a delimiter asked as a symbol; in every other case
the table s_tokenName does, and above T_EOF the answer is the question mark. -/
theorem tokenName_eq (t : Nat) (b : Bool) :
    tokenName t b =
      if t ≤ T_EOF then
        if b = true ∧ isDelimiter t = true then (tokenGlyph t).getD (s_tokenName.getD t "")
        else s_tokenName.getD t ""
      else "?" := by
  by_cases h : t ≤ T_EOF
  · by_cases hd : b = true ∧ isDelimiter t = true
    · obtain ⟨rfl, hd⟩ := hd
      rw [isDelimiter_iff] at hd
      obtain ⟨h1, h2⟩ := hd
      interval_cases t <;> rfl
    · rw [if_pos h, if_neg hd]
      unfold tokenName
      rw [if_pos h, if_neg (by simpa using hd)]
  · rw [if_neg h]
    unfold tokenName
    rw [if_neg h]

/-- C16: for each of the 26 delimiter types tokenName answers the glyph when asked for the
symbol and the mnemonic name otherwise; for every other type the flag has no effect; Invalid
and every value above T_EOF are answered with the question mark; a type up to T_EOF indexes
the table s_tokenName inside its 107 entries; and every delimiter type has a case in the
glyph switch, so the default branch with the assertion is never taken. -/
theorem tokenName_total_symbol_aware :
    delimiterNames.map (fun p => p.1) = List.range' T_Colon 26 ∧
    (∀ t, isDelimiter t = true ↔ t ∈ delimiterNames.map (fun p => p.1)) ∧
    (∀ p ∈ delimiterNames, tokenName p.1 true = p.2.1 ∧ tokenName p.1 false = p.2.2) ∧
    (∀ t, isDelimiter t = false → tokenName t true = tokenName t false) ∧
    (∀ t b, T_EOF < t → tokenName t b = "?") ∧
    (∀ b, tokenName T_Invalid b = "?") ∧
    (∀ t, t ≤ T_EOF → t < s_tokenName.length) ∧
    (∀ t, isDelimiter t = true → ∃ g, tokenGlyph t = some g ∧ tokenName t true = g) := by
  refine ⟨by decide, ?_, by decide, ?_, ?_, ?_, ?_, ?_⟩
  · intro t
    have e : delimiterNames.map (fun p => p.1) = List.range' T_Colon 26 := by decide
    rw [e, isDelimiter_iff, List.mem_range']
    constructor
    · rintro ⟨h1, h2⟩
      exact ⟨t - 74, by omega, by simp only [T_Colon]; omega⟩
    · rintro ⟨i, hi, rfl⟩
      simp only [T_Colon]
      omega
  · intro t ht
    rw [tokenName_eq, tokenName_eq]
    simp [ht]
  · intro t b ht
    rw [tokenName_eq, if_neg (by omega)]
  · intro b
    cases b <;> rfl
  · intro t ht
    rw [s_tokenName_length]
    simp only [T_EOF] at ht
    omega
  · intro t hd
    rw [isDelimiter_iff] at hd
    obtain ⟨h1, h2⟩ := hd
    interval_cases t <;> exact ⟨_, rfl, rfl⟩

/-- C17: the table s_tokenName has 107 entries, one for each enumerator from T_Invalid = 0
to T_EOF = 106; the vocabulary is in alphabetical order and its i-th word has the ordinal i,
from abort = 1 to xor = 73, with tokenName answering the word; the ordinals 74 to 99 are the
delimiters from Colon to Box in the order of the enumeration; and the ordinals 100 to 106 are
named Number, Character, String, Identifier, Attribute, Comment and EOF. -/
theorem name_table_aligned :
    s_tokenName.length = 107 ∧ T_Invalid = 0 ∧ T_EOF = 106 ∧
    reservedWords.length = 73 ∧
    (reservedWords.map qstr).Pairwise (fun a b => a < b) ∧
    keywordTypes = List.range' 1 73 ∧ T_abort = 1 ∧ T_xor = 73 ∧
    keywordTypes.map (fun t => tokenName t false) = reservedWords ∧
    (∀ i, i < 73 → tokenName (i + 1) false = reservedWords.getD i "" ∧
      tokenName (i + 1) true = reservedWords.getD i "") ∧
    delimiterNames.map (fun p => p.1) = List.range' 74 26 ∧
    (List.range' 74 26).map (fun t => tokenName t false) =
      delimiterNames.map (fun p => p.2.2) ∧
    [T_Number, T_Character, T_String, T_Identifier, T_Attribute, T_Comment, T_EOF] =
      List.range' 100 7 ∧
    (List.range' 100 7).map (fun t => tokenName t false) =
      ["Number", "Character", "String", "Identifier", "Attribute", "Comment", "EOF"] := by
  refine ⟨by rfl, by rfl, by rfl, by rfl, by decide, by rfl, by rfl, by rfl, by rfl, ?_, by rfl,
    by rfl, by rfl, by rfl⟩
  intro i hi
  interval_cases i <;> exact ⟨rfl, rfl⟩

theorem tokenName_above (t : Nat) (b : Bool) (h : T_EOF < t) : tokenName t b = "?" := by
  unfold tokenName
  rw [if_neg (by omega)]

/-- C18: isKeyWord holds exactly for the types whose tokenName is a word of the vocabulary,
which are the 73 types from T_abort to T_xor; isDelimiter holds exactly for the 26 types from
T_Colon to T_Box; isNumber holds exactly for T_Number; no type satisfies two of the three
predicates; and none holds for Invalid, Character, String, Identifier, Attribute, Comment,
EOF or a value above T_EOF. -/
theorem category_predicates :
    (∀ t, isKeyWord t = true ↔ tokenName t false ∈ reservedWords) ∧
    (∀ t, isKeyWord t = true ↔ t ∈ List.range' T_abort 73) ∧
    (∀ t, isDelimiter t = true ↔ t ∈ List.range' T_Colon 26) ∧
    List.range' T_Colon 26 = delimiterNames.map (fun p => p.1) ∧
    (∀ t, isNumber t = true ↔ t = T_Number) ∧
    (∀ t, ¬ (isKeyWord t = true ∧ isDelimiter t = true) ∧
      ¬ (isKeyWord t = true ∧ isNumber t = true) ∧
      ¬ (isDelimiter t = true ∧ isNumber t = true)) ∧
    (∀ t, t = T_Invalid ∨ t = T_Character ∨ t = T_String ∨ t = T_Identifier ∨
        t = T_Attribute ∨ t = T_Comment ∨ t = T_EOF ∨ T_EOF < t →
      isKeyWord t = false ∧ isDelimiter t = false ∧ isNumber t = false) := by
  have hn : ∀ t, isNumber t = true ↔ t = 100 := by
    intro t
    unfold isNumber
    simp [T_Number]
  refine ⟨?_, ?_, ?_, by rfl, hn, ?_, ?_⟩
  · intro t
    rw [isKeyWord_iff]
    by_cases h : t ≤ 106
    · interval_cases t <;> decide
    · rw [tokenName_above t false (by simp only [T_EOF]; omega)]
      constructor
      · intro h1; omega
      · intro h1; exact absurd h1 (by decide)
  · intro t
    rw [isKeyWord_iff, List.mem_range']
    simp only [T_abort]
    constructor
    · rintro ⟨h1, h2⟩; exact ⟨t - 1, by omega, by omega⟩
    · rintro ⟨i, hi, rfl⟩; omega
  · intro t
    rw [isDelimiter_iff, List.mem_range']
    simp only [T_Colon]
    constructor
    · rintro ⟨h1, h2⟩; exact ⟨t - 74, by omega, by omega⟩
    · rintro ⟨i, hi, rfl⟩; omega
  · intro t
    rw [isKeyWord_iff, isDelimiter_iff, hn]
    omega
  · intro t ht
    have h1 := isKeyWord_iff t
    have h2 := isDelimiter_iff t
    have h3 := hn t
    simp only [T_Invalid, T_Character, T_String, T_Identifier, T_Attribute, T_Comment,
      T_EOF] at ht
    refine ⟨?_, ?_, ?_⟩
    · rw [← Bool.not_eq_true, h1]; omega
    · rw [← Bool.not_eq_true, h2]; omega
    · rw [← Bool.not_eq_true, h3]; omega

theorem isAda83KeyWord_iff (t : Nat) :
    isAda83KeyWord t = true ↔
      isKeyWord t = true ∧ t ≠ T_abstract ∧ t ≠ T_aliased ∧ t ≠ T_protected ∧
        t ≠ T_requeue ∧ t ≠ T_tagged ∧ t ≠ T_until ∧ t ≠ T_interface ∧ t ≠ T_overriding ∧
        t ≠ T_synchronized ∧ t ≠ T_some := by
  rw [isKeyWord_iff]
  by_cases h : t ≤ 73
  · interval_cases t <;> decide
  · constructor
    · intro h1
      exfalso
      have hm : t ∈ ada83Cases := List.mem_of_elem_eq_true h1
      have hall : ∀ y ∈ ada83Cases, y ≤ 73 := by decide
      exact h (hall t hm)
    · intro h1; omega

/-- C19: each version predicate implies the next; the types that isAda95KeyWord adds to
isAda83KeyWord are exactly abstract, aliased, protected, requeue, tagged and until; the ones
that isAda05KeyWord adds are exactly interface, overriding and synchronized; and the one that
isAda12KeyWord adds is exactly some. -/
theorem version_predicates_cumulative :
    (∀ t, (isAda83KeyWord t = true → isAda95KeyWord t = true) ∧
      (isAda95KeyWord t = true → isAda05KeyWord t = true) ∧
      (isAda05KeyWord t = true → isAda12KeyWord t = true)) ∧
    (∀ t, (isAda95KeyWord t = true ∧ isAda83KeyWord t = false) ↔
      t ∈ [T_abstract, T_aliased, T_protected, T_requeue, T_tagged, T_until]) ∧
    (∀ t, (isAda05KeyWord t = true ∧ isAda95KeyWord t = false) ↔
      t ∈ [T_interface, T_overriding, T_synchronized]) ∧
    (∀ t, (isAda12KeyWord t = true ∧ isAda05KeyWord t = false) ↔ t = T_some) := by
  have h95 : ∀ t, isAda95KeyWord t = true ↔
      (t ∈ [T_abstract, T_aliased, T_protected, T_requeue, T_tagged, T_until] ∨
        isAda83KeyWord t = true) := by
    intro t
    unfold isAda95KeyWord
    by_cases h : t = T_abstract ∨ t = T_aliased ∨ t = T_protected ∨ t = T_requeue ∨
        t = T_tagged ∨ t = T_until
    · rw [if_pos h]; simp [h]
    · rw [if_neg h]; simp [h]
  have h05 : ∀ t, isAda05KeyWord t = true ↔
      (t ∈ [T_interface, T_overriding, T_synchronized] ∨ isAda95KeyWord t = true) := by
    intro t
    unfold isAda05KeyWord
    by_cases h : t = T_interface ∨ t = T_overriding ∨ t = T_synchronized
    · rw [if_pos h]; simp [h]
    · rw [if_neg h]; simp [h]
  have h12 : ∀ t, isAda12KeyWord t = true ↔ (t = T_some ∨ isAda05KeyWord t = true) := by
    intro t
    unfold isAda12KeyWord
    by_cases h : t = T_some
    · rw [if_pos h]; simp [h]
    · rw [if_neg h]; simp [h]
  refine ⟨fun t => ⟨fun h => (h95 t).2 (Or.inr h), fun h => (h05 t).2 (Or.inr h),
    fun h => (h12 t).2 (Or.inr h)⟩, ?_, ?_, ?_⟩
  · intro t
    rw [← Bool.not_eq_true, h95, isAda83KeyWord_iff]
    simp only [List.mem_cons, List.mem_singleton, List.not_mem_nil, or_false, isKeyWord_iff,
      T_abstract, T_aliased, T_protected, T_requeue, T_tagged, T_until, T_interface,
      T_overriding, T_synchronized, T_some]
    omega
  · intro t
    rw [← Bool.not_eq_true, h05, h95, isAda83KeyWord_iff]
    simp only [List.mem_cons, List.mem_singleton, List.not_mem_nil, or_false, isKeyWord_iff,
      T_abstract, T_aliased, T_protected, T_requeue, T_tagged, T_until, T_interface,
      T_overriding, T_synchronized, T_some]
    omega
  · intro t
    rw [← Bool.not_eq_true, h12, h05, h95, isAda83KeyWord_iff]
    simp only [List.mem_cons, List.mem_singleton, List.not_mem_nil, or_false, isKeyWord_iff,
      T_abstract, T_aliased, T_protected, T_requeue, T_tagged, T_until, T_interface,
      T_overriding, T_synchronized, T_some]
    omega

/-! ## A scanner without a source -/

theorem calls_without_source (Q : QCharData) (fuel : Nat) :
    ∀ (n : Nat) (L : Lexer), L.d_in = none → L.d_lineNr = 0 → L.d_colNr = 0 →
      ∃ L1, calls Q fuel n L = some (List.replicate n (mkToken T_EOF 0 0 0 []), L1) ∧
        L1.d_in = none := by
  intro n
  induction n with
  | zero => intro L h _ _; exact ⟨L, rfl, h⟩
  | succ n ih =>
    intro L h hl hc
    obtain ⟨L1, e, h1⟩ := ih (token L T_EOF 0 []).2 h hl (by
      show (L.d_colNr + 0) % 65536 = 0
      rw [hc])
    refine ⟨L1, ?_, h1⟩
    rw [calls]
    unfold nextToken
    rw [if_pos h]
    simp only [e, List.replicate_succ]
    simp [token, hl, hc]

/-- C20: on a freshly constructed scanner, and on any scanner after setStream with a null
source, any number n of successive nextToken calls returns n EOF tokens of length 0, whatever
the iteration budget. -/
theorem nextToken_without_source (Q : QCharData) (fuel n : Nat) (L : Lexer) :
    (∃ L1, calls Q fuel n new = some (List.replicate n (mkToken T_EOF 0 0 0 []), L1)) ∧
    (∃ L1, calls Q fuel n (setStream L none) =
      some (List.replicate n (mkToken T_EOF 0 0 0 []), L1)) ∧
    (mkToken T_EOF 0 0 0 []).d_type = T_EOF ∧ (mkToken T_EOF 0 0 0 []).d_len = 0 := by
  obtain ⟨L1, e1, _⟩ := calls_without_source Q fuel n new rfl rfl rfl
  obtain ⟨L2, e2, _⟩ := calls_without_source Q fuel n (setStream L none) rfl rfl rfl
  exact ⟨⟨L1, e1⟩, ⟨L2, e2⟩, rfl, rfl⟩

/-! ## A complete line -/

/-- C15: on the source with the single line that declares X, the calls of nextToken return
Identifier X at column 2, Colon at column 4, Identifier Integer at column 6 with length 7,
Assig at column 14 with length 2, Number 10 at column 17 with length 2, Semicolon at column
19, Comment with the text behind the two dashes at column 21 with length 10, all on line 1,
and then EOF. -/
theorem end_to_end_line (Q : QCharData) :
    tokens Q 40 8 (attach [qstr "  X : Integer := 10; -- comment"]) =
      some [mkToken T_Identifier 1 2 1 (qstr "X"), mkToken T_Colon 1 4 1 [],
        mkToken T_Identifier 1 6 7 (qstr "Integer"), mkToken T_Assig 1 14 2 [],
        mkToken T_Number 1 17 2 (qstr "10"), mkToken T_Semicolon 1 19 1 [],
        mkToken T_Comment 1 21 10 (qstr " comment"), mkToken T_EOF 1 31 0 []] := by
  rfl

/-! ## Numeric literals: the errors of the based branch -/

/-- C12 as stated fails: parsing 16#FG# fails, and the message is not the one for a missing
extended digit. -/
theorem parse_16FG_message_differs :
    ∃ P, NumberParser.parse asciiData 8 (NumberParser.new (qstr "16#FG#") 0) = some (false, P) ∧
      P.d_error ≠ qstr "expecting extended digit" :=
  ⟨_, rfl, by decide⟩

/-- C12 as amended: parsing 16#FG# fails after the four characters 16#F with the message
expecting #, the based numeral having ended before G, and the scanner returns an Invalid
token of length 4 that carries this message. -/
theorem parse_16FG_expects_hash (Q : QCharData) :
    NumberParser.parse Q 8 (NumberParser.new (qstr "16#FG#") 0) =
      some (false, ⟨qstr "expecting #", qstr "16#FG#", 0, 4, false, false, true⟩) ∧
    ∃ L1, nextToken Q 8 (attach [qstr "16#FG#"]) =
      some (mkToken T_Invalid 1 0 4 (qstr "expecting #"), L1) :=
  ⟨rfl, _, rfl⟩

namespace NumberParser

theorem parse_missing_hash_plain (Q : QCharData) (f : Nat) (pre b d rest : List Nat)
    (hb : Numeral b) (hd : BasedNumeral d)
    (h1 : rest.headD 0 ≠ 35) (h2 : extended_digit Q (rest.headD 0) = false)
    (h3 : rest.headD 0 ≠ 95) (h4 : rest.headD 0 ≠ 46)
    (hf : b.length + 1 + d.length ≤ f) :
    parse Q f (new (pre ++ (b ++ 35 :: (d ++ rest))) pre.length) =
      some (false, ⟨qstr "expecting #", pre ++ (b ++ 35 :: (d ++ rest)), pre.length,
        b.length + 1 + d.length, false, false, true⟩) := by
  unfold parse
  simp only [new]
  have hd0 : (pre ++ (b ++ 35 :: (d ++ rest))).drop (pre.length + 0)
      = b ++ 35 :: (d ++ rest) := by
    rw [drop_pre]; rfl
  have hd1 : (pre ++ (b ++ 35 :: (d ++ rest))).drop (pre.length + b.length)
      = 35 :: (d ++ rest) := by
    rw [drop_pre, List.drop_left]
  have hd2 := drop_succ_of_cons hd1
  have hd3 : (pre ++ (b ++ 35 :: (d ++ rest))).drop
      (pre.length + (b.length + 1 + d.length)) = rest := by
    rw [drop_add_of_eq hd2 d.length _ (by omega), List.drop_left]
  have e1 := numeral_accepts Q [] (pre ++ (b ++ 35 :: (d ++ rest)))
    pre.length false false false b _ hb (by simp) (by simp [isDigit]) f 0 hd0 (by omega)
  have e2 := basedNumeral_accepts Q [] (pre ++ (b ++ 35 :: (d ++ rest)))
    pre.length false false true d _ hd h3 h2 f (b.length + 1) hd2 (by omega)
  simp only [Nat.zero_add] at e1
  rw [e1]
  simp only [lookAhead_eq_headD, hd1, List.headD_cons, ↓reduceIte]
  rw [e2]
  simp only [lookAhead_eq_headD, hd3, h4, h1, ne_eq, not_false_eq_true, ↓reduceIte]
  rfl

theorem parse_missing_hash_point (Q : QCharData) (f : Nat) (pre b d m rest : List Nat)
    (hb : Numeral b) (hd : BasedNumeral d) (hm : BasedNumeral m)
    (h1 : rest.headD 0 ≠ 35) (h2 : extended_digit Q (rest.headD 0) = false)
    (h3 : rest.headD 0 ≠ 95)
    (hf : b.length + 1 + d.length + 1 + m.length ≤ f) :
    parse Q f (new (pre ++ (b ++ 35 :: (d ++ 46 :: (m ++ rest)))) pre.length) =
      some (false, ⟨qstr "expecting #", pre ++ (b ++ 35 :: (d ++ 46 :: (m ++ rest))),
        pre.length, b.length + 1 + d.length + 1 + m.length, true, false, true⟩) := by
  have x46 : extended_digit Q 46 = false := by simp [extended_digit, isDigit]
  unfold parse
  simp only [new]
  have hd0 : (pre ++ (b ++ 35 :: (d ++ 46 :: (m ++ rest)))).drop (pre.length + 0)
      = b ++ 35 :: (d ++ 46 :: (m ++ rest)) := by
    rw [drop_pre]; rfl
  have hd1 : (pre ++ (b ++ 35 :: (d ++ 46 :: (m ++ rest)))).drop (pre.length + b.length)
      = 35 :: (d ++ 46 :: (m ++ rest)) := by
    rw [drop_pre, List.drop_left]
  have hd2 := drop_succ_of_cons hd1
  have hd3 : (pre ++ (b ++ 35 :: (d ++ 46 :: (m ++ rest)))).drop
      (pre.length + (b.length + 1 + d.length)) = 46 :: (m ++ rest) := by
    rw [drop_add_of_eq hd2 d.length _ (by omega), List.drop_left]
  have hd4 := drop_succ_of_cons hd3
  have hd5 : (pre ++ (b ++ 35 :: (d ++ 46 :: (m ++ rest)))).drop
      (pre.length + (b.length + 1 + d.length + 1 + m.length)) = rest := by
    rw [drop_add_of_eq hd4 m.length _ (by omega), List.drop_left]
  have e1 := numeral_accepts Q [] (pre ++ (b ++ 35 :: (d ++ 46 :: (m ++ rest))))
    pre.length false false false b _ hb (by simp) (by simp [isDigit]) f 0 hd0 (by omega)
  have e2 := basedNumeral_accepts Q [] (pre ++ (b ++ 35 :: (d ++ 46 :: (m ++ rest))))
    pre.length false false true d _ hd (by simp) (by simpa using x46) f (b.length + 1) hd2
    (by omega)
  have e3 := basedNumeral_accepts Q [] (pre ++ (b ++ 35 :: (d ++ 46 :: (m ++ rest))))
    pre.length true false true m _ hm h3 h2 f (b.length + 1 + d.length + 1) hd4 (by omega)
  simp only [Nat.zero_add] at e1
  rw [e1]
  simp only [lookAhead_eq_headD, hd1, List.headD_cons, ↓reduceIte]
  rw [e2]
  simp only [lookAhead_eq_headD, hd3, List.headD_cons, ↓reduceIte]
  rw [e3]
  simp only [lookAhead_eq_headD, hd5, h1, ne_eq, not_false_eq_true, ↓reduceIte]
  rfl

end NumberParser

/-- C13: for a text that holds, from the start offset on, a numeral, a number sign, a based
numeral and optionally a point with a based numeral, followed by the end of the line or by a
character that is no number sign, no underscore, not accepted by extended_digit and, where
the point is absent, no point, parse fails with the message expecting # and the consumed
length is the length of that part. The end of the line reads as the null character, as in
lookAhead. -/
theorem missing_closing_hash (Q : QCharData) (f : Nat) (pre b d frac rest : List Nat)
    (hb : Numeral b) (hd : BasedNumeral d)
    (hfrac : frac = [] ∨ ∃ m, frac = 46 :: m ∧ BasedNumeral m)
    (h1 : rest.headD 0 ≠ 35) (h2 : NumberParser.extended_digit Q (rest.headD 0) = false)
    (h3 : rest.headD 0 ≠ 95) (h4 : frac = [] → rest.headD 0 ≠ 46)
    (hf : (b ++ 35 :: (d ++ frac)).length ≤ f) :
    NumberParser.parse Q f (NumberParser.new (pre ++ (b ++ 35 :: (d ++ (frac ++ rest))))
        pre.length) =
      some (false, ⟨qstr "expecting #", pre ++ (b ++ 35 :: (d ++ (frac ++ rest))), pre.length,
        (b ++ 35 :: (d ++ frac)).length, decide (frac ≠ []), false, true⟩) := by
  rcases hfrac with rfl | ⟨m, rfl, hm⟩
  · simp only [List.append_nil, List.length_append, List.length_cons, List.nil_append] at hf ⊢
    rw [NumberParser.parse_missing_hash_plain Q f pre b d rest hb hd h1 h2 h3 (h4 rfl)
      (by omega)]
    simp
    omega
  · simp only [List.length_append, List.length_cons, List.cons_append] at hf ⊢
    rw [NumberParser.parse_missing_hash_point Q f pre b d m rest hb hd hm h1 h2 h3 (by omega)]
    simp
    omega

/-- C13 at the texts 16#FF, where the line ends, and 16#F.A!, where a character follows. -/
theorem missing_closing_hash_witness :
    NumberParser.parse asciiData 5 (NumberParser.new ([] ++ (qstr "16" ++ 35 :: (qstr "FF" ++
        ([] ++ [])))) 0) =
      some (false, ⟨qstr "expecting #", qstr "16#FF", 0, 5, false, false, true⟩) ∧
    NumberParser.parse asciiData 6 (NumberParser.new ([] ++ (qstr "16" ++ 35 :: (qstr "F" ++
        (qstr ".A" ++ qstr "!")))) 0) =
      some (false, ⟨qstr "expecting #", qstr "16#F.A!", 0, 6, true, false, true⟩) :=
  have h16 : Numeral (qstr "16") :=
    ⟨49, [54], rfl, ⟨by decide, by decide⟩,
      Groups.digit 54 [] ⟨by decide, by decide⟩ Groups.nil⟩
  have hF : ExtendedDigit 70 := Or.inr (Or.inr ⟨by decide, by decide⟩)
  have hA : ExtendedDigit 65 := Or.inr (Or.inr ⟨by decide, by decide⟩)
  ⟨missing_closing_hash asciiData 5 [] (qstr "16") (qstr "FF") [] [] h16
      ⟨70, [70], rfl, hF, Groups.digit 70 [] hF Groups.nil⟩
      (Or.inl rfl) (by decide) (by decide) (by decide) (fun _ => by decide) (by decide),
    missing_closing_hash asciiData 6 [] (qstr "16") (qstr "F") (qstr ".A") (qstr "!") h16
      ⟨70, [], rfl, hF, Groups.nil⟩
      (Or.inr ⟨[65], rfl, 65, [], rfl, hA, Groups.nil⟩)
      (by decide) (by decide) (by decide) (fun h => by cases h) (by decide)⟩

/-! ## Numeric literals: what parse accepts is a literal -/

namespace NumberParser

theorem drop_of_headD {s : List Nat} {k c : Nat} (h : (s.drop k).headD 0 = c) (hc : c ≠ 0) :
    s.drop k = c :: s.drop (k + 1) := by
  cases hd : s.drop k with
  | nil => rw [hd] at h; exact absurd h.symm hc
  | cons a r =>
    rw [hd] at h
    simp only [List.headD_cons] at h
    rw [drop_succ_of_cons hd, h]

/-- What the loop of numeral has read when it answers true is a sequence of groups. -/
theorem numeralLoop_sound (Q : QCharData) (er s : List Nat) (st : Nat) (a b c : Bool) :
    ∀ (f off : Nat) (P1 : NumberParser),
    numeralLoop Q f ⟨er, s, st, off, a, b, c⟩ = some (true, P1) →
    ∃ t post, s.drop (st + off) = t ++ post ∧ Groups (ReadsDigit Q) t ∧
      P1 = ⟨er, s, st, off + t.length, a, b, c⟩ := by
  intro f
  induction f with
  | zero => intro off P1 h; simp [numeralLoop] at h
  | succ f ih =>
    intro off P1 h
    rw [numeralLoop] at h
    simp only [lookAhead_eq_headD] at h
    by_cases h95 : (s.drop (st + off)).headD 0 = 95
    · simp only [h95, true_or, ↓reduceIte] at h
      by_cases hdg : isDigit Q ((s.drop (st + (off + 1))).headD 0) = true
      · rw [if_pos hdg] at h
        obtain ⟨t, post, hd, ht, rfl⟩ := ih _ _ h
        have e1 := drop_of_headD h95 (by decide)
        have e2 := drop_of_headD (rfl : (s.drop (st + (off + 1))).headD 0 = _)
          (isDigit_ne_zero hdg)
        refine ⟨95 :: (s.drop (st + (off + 1))).headD 0 :: t, post, ?_,
          Groups.underline _ _ hdg ht, ?_⟩
        · rw [e1, show st + off + 1 = st + (off + 1) by omega, e2,
            show st + (off + 1) + 1 = st + (off + 1 + 1) by omega, hd]
          rfl
        · simp only [List.length_cons, mk.injEq, true_and, and_true]
          omega
      · rw [if_neg hdg] at h
        simp [error] at h
    · by_cases hdg : isDigit Q ((s.drop (st + off)).headD 0) = true
      · simp only [h95, hdg, or_true, ↓reduceIte] at h
        obtain ⟨t, post, hd, ht, rfl⟩ := ih _ _ h
        have e1 := drop_of_headD (rfl : (s.drop (st + off)).headD 0 = _) (isDigit_ne_zero hdg)
        refine ⟨(s.drop (st + off)).headD 0 :: t, post, ?_, Groups.digit _ _ hdg ht, ?_⟩
        · rw [e1, show st + off + 1 = st + (off + 1) by omega, hd]
          rfl
        · simp only [List.length_cons, mk.injEq, true_and, and_true]
          omega
      · simp only [h95, hdg, or_self, ↓reduceIte, Option.some.injEq, Prod.mk.injEq,
          true_and, Bool.false_eq_true] at h
        exact ⟨[], s.drop (st + off), rfl, Groups.nil, by rw [← h]; rfl⟩

theorem numeral_sound (Q : QCharData) (er s : List Nat) (st : Nat) (a b c : Bool)
    (f off : Nat) (P1 : NumberParser)
    (h : numeral Q f ⟨er, s, st, off, a, b, c⟩ = some (true, P1)) :
    ∃ n post, s.drop (st + off) = n ++ post ∧ NumeralOf (ReadsDigit Q) n ∧
      P1 = ⟨er, s, st, off + n.length, a, b, c⟩ := by
  unfold numeral at h
  simp only [lookAhead_eq_headD] at h
  by_cases hdg : isDigit Q ((s.drop (st + off)).headD 0) = true
  · rw [if_neg (by rw [hdg]; decide)] at h
    obtain ⟨t, post, hd, ht, rfl⟩ := numeralLoop_sound Q er s st a b c f _ _ h
    have e1 := drop_of_headD (rfl : (s.drop (st + off)).headD 0 = _) (isDigit_ne_zero hdg)
    refine ⟨(s.drop (st + off)).headD 0 :: t, post, ?_, ⟨_, _, rfl, hdg, ht⟩, ?_⟩
    · rw [e1, show st + off + 1 = st + (off + 1) by omega, hd]
      rfl
    · simp only [List.length_cons, mk.injEq, true_and, and_true]
      omega
  · rw [if_pos (by simpa using hdg)] at h
    simp [error] at h

/-- What the loop of basedNumeral has read when it answers true is a sequence of groups. -/
theorem basedNumeralLoop_sound (Q : QCharData) (er s : List Nat) (st : Nat) (a b c : Bool) :
    ∀ (f off : Nat) (P1 : NumberParser),
    basedNumeralLoop Q f ⟨er, s, st, off, a, b, c⟩ = some (true, P1) →
    ∃ t post, s.drop (st + off) = t ++ post ∧ Groups (ReadsExtendedDigit Q) t ∧
      P1 = ⟨er, s, st, off + t.length, a, b, c⟩ := by
  intro f
  induction f with
  | zero => intro off P1 h; simp [basedNumeralLoop] at h
  | succ f ih =>
    intro off P1 h
    rw [basedNumeralLoop] at h
    simp only [lookAhead_eq_headD] at h
    by_cases h95 : (s.drop (st + off)).headD 0 = 95
    · simp only [h95, true_or, ↓reduceIte] at h
      by_cases hdg : extended_digit Q ((s.drop (st + (off + 1))).headD 0) = true
      · rw [if_pos hdg] at h
        obtain ⟨t, post, hd, ht, rfl⟩ := ih _ _ h
        have e1 := drop_of_headD h95 (by decide)
        have e2 := drop_of_headD (rfl : (s.drop (st + (off + 1))).headD 0 = _)
          (extended_digit_ne_zero hdg)
        refine ⟨95 :: (s.drop (st + (off + 1))).headD 0 :: t, post, ?_,
          Groups.underline _ _ hdg ht, ?_⟩
        · rw [e1, show st + off + 1 = st + (off + 1) by omega, e2,
            show st + (off + 1) + 1 = st + (off + 1 + 1) by omega, hd]
          rfl
        · simp only [List.length_cons, mk.injEq, true_and, and_true]
          omega
      · rw [if_neg hdg] at h
        simp [error] at h
    · by_cases hdg : extended_digit Q ((s.drop (st + off)).headD 0) = true
      · simp only [h95, hdg, or_true, ↓reduceIte] at h
        obtain ⟨t, post, hd, ht, rfl⟩ := ih _ _ h
        have e1 := drop_of_headD (rfl : (s.drop (st + off)).headD 0 = _)
          (extended_digit_ne_zero hdg)
        refine ⟨(s.drop (st + off)).headD 0 :: t, post, ?_, Groups.digit _ _ hdg ht, ?_⟩
        · rw [e1, show st + off + 1 = st + (off + 1) by omega, hd]
          rfl
        · simp only [List.length_cons, mk.injEq, true_and, and_true]
          omega
      · simp only [h95, hdg, or_self, ↓reduceIte, Option.some.injEq, Prod.mk.injEq,
          true_and, Bool.false_eq_true] at h
        exact ⟨[], s.drop (st + off), rfl, Groups.nil, by rw [← h]; rfl⟩

theorem basedNumeral_sound (Q : QCharData) (er s : List Nat) (st : Nat) (a b c : Bool)
    (f off : Nat) (P1 : NumberParser)
    (h : basedNumeral Q f ⟨er, s, st, off, a, b, c⟩ = some (true, P1)) :
    ∃ n post, s.drop (st + off) = n ++ post ∧ NumeralOf (ReadsExtendedDigit Q) n ∧
      P1 = ⟨er, s, st, off + n.length, a, b, c⟩ := by
  unfold basedNumeral at h
  simp only [lookAhead_eq_headD] at h
  by_cases hdg : extended_digit Q ((s.drop (st + off)).headD 0) = true
  · rw [if_neg (by rw [hdg]; decide)] at h
    obtain ⟨t, post, hd, ht, rfl⟩ := basedNumeralLoop_sound Q er s st a b c f _ _ h
    have e1 := drop_of_headD (rfl : (s.drop (st + off)).headD 0 = _)
      (extended_digit_ne_zero hdg)
    refine ⟨(s.drop (st + off)).headD 0 :: t, post, ?_, ⟨_, _, rfl, hdg, ht⟩, ?_⟩
    · rw [e1, show st + off + 1 = st + (off + 1) by omega, hd]
      rfl
    · simp only [List.length_cons, mk.injEq, true_and, and_true]
      omega
  · rw [if_pos (by simpa using hdg)] at h
    simp [error] at h

end NumberParser

namespace NumberParser

theorem toLower_ne_zero {Q : QCharData} {c : Nat} (h : toLower Q c = 101) : c ≠ 0 := by
  rintro rfl
  rw [toLower_zero] at h
  cases h

theorem cons_of_drop_headD {s : List Nat} {k c : Nat} {post r : List Nat}
    (hp : s.drop k = post) (h : post.headD 0 = c) (hc : c ≠ 0) (hr : s.drop (k + 1) = r) :
    post = c :: r := by
  have := drop_of_headD (s := s) (k := k) (c := c) (by rw [hp]; exact h) hc
  rw [hp, hr] at this
  exact this

theorem exponent_sound (Q : QCharData) (er s : List Nat) (st : Nat) (a b c : Bool)
    (f off : Nat) (P1 : NumberParser)
    (h : exponent Q f ⟨er, s, st, off, a, b, c⟩ = some (true, P1)) :
    ∃ sign n post, s.drop (st + off) = sign ++ (n ++ post) ∧
      (sign = [] ∨ sign = [43] ∨ sign = [45]) ∧ NumeralOf (ReadsDigit Q) n ∧
      P1 = ⟨er, s, st, off + (sign ++ n).length, a, b, c⟩ := by
  unfold exponent at h
  simp only [lookAhead_eq_headD] at h
  by_cases hs : (s.drop (st + off)).headD 0 = 43 ∨ (s.drop (st + off)).headD 0 = 45
  · have hcond : (s.drop (st + off)).headD 0 = 43 ∨ (s.drop (st + off)).headD 0 = 45 ∨
        isDigit Q ((s.drop (st + off)).headD 0) = true := by
      rcases hs with hs | hs
      · exact Or.inl hs
      · exact Or.inr (Or.inl hs)
    rw [if_pos hcond, if_pos hs] at h
    obtain ⟨n, post, hd, hn, rfl⟩ := numeral_sound Q er s st a b c f _ _ h
    have e1 : s.drop (st + off) = (s.drop (st + off)).headD 0 :: s.drop (st + off + 1) :=
      drop_of_headD rfl (by rcases hs with hs | hs <;> rw [hs] <;> decide)
    refine ⟨[(s.drop (st + off)).headD 0], n, post, ?_, ?_, hn, ?_⟩
    · rw [e1, show st + off + 1 = st + (off + 1) by omega, hd]
      simp
    · rcases hs with hs | hs
      · exact Or.inr (Or.inl (by rw [hs]))
      · exact Or.inr (Or.inr (by rw [hs]))
    · simp only [List.singleton_append, List.length_cons, mk.injEq, true_and, and_true]
      omega
  · by_cases hdg : isDigit Q ((s.drop (st + off)).headD 0) = true
    · rw [if_pos (Or.inr (Or.inr hdg)), if_neg hs, if_pos hdg] at h
      obtain ⟨n, post, hd, hn, rfl⟩ := numeral_sound Q er s st a b c f _ _ h
      exact ⟨[], n, post, hd, Or.inl rfl, hn, rfl⟩
    · rw [if_neg (by
        intro hc
        rcases hc with hc | hc | hc
        · exact hs (Or.inl hc)
        · exact hs (Or.inr hc)
        · exact hdg hc)] at h
      simp [error] at h

theorem parseExponent_sound (Q : QCharData) (er s : List Nat) (st : Nat) (a b c : Bool)
    (f off : Nat) (P1 : NumberParser)
    (h : parseExponent Q f ⟨er, s, st, off, a, b, c⟩ = some (true, P1)) :
    ∃ e post ex, s.drop (st + off) = e ++ post ∧
      ((ex = true ∧ ExponentOf (ReadsDigit Q) (ReadsMarker Q) e) ∨ (ex = false ∧ e = [])) ∧
      P1 = ⟨er, s, st, off + e.length, a, b || ex, c⟩ := by
  unfold parseExponent at h
  simp only [lookAhead_eq_headD] at h
  by_cases hm : toLower Q ((s.drop (st + off)).headD 0) = 101
  · rw [if_pos hm] at h
    obtain ⟨sign, n, post, hd, hsign, hn, rfl⟩ := exponent_sound Q er s st a true c f _ _ h
    have e1 := drop_of_headD (rfl : (s.drop (st + off)).headD 0 = _) (toLower_ne_zero hm)
    refine ⟨(s.drop (st + off)).headD 0 :: (sign ++ n), post, true, ?_,
      Or.inl ⟨rfl, _, sign, n, rfl, hm, hsign, hn⟩, ?_⟩
    · rw [e1, show st + off + 1 = st + (off + 1) by omega, hd]
      simp
    · simp only [List.length_cons, Bool.or_true, mk.injEq, true_and, and_true]
      omega
  · rw [if_neg hm] at h
    simp only [Option.some.injEq, Prod.mk.injEq, true_and] at h
    exact ⟨[], s.drop (st + off), false, rfl, Or.inr ⟨rfl, rfl⟩, by rw [← h]; simp⟩

/-- What parse has consumed when it answers true is a decimal literal or a based literal over
the characters that the parser reads as digits, extended digits and exponent marker; the
flags tell which, and whether the point and the exponent are there. -/
theorem parse_reads_literal (Q : QCharData) (f : Nat) (str : List Nat) (start : Nat)
    (P : NumberParser) (h : parse Q f (new str start) = some (true, P)) :
    ∃ w post point ex based, str.drop start = w ++ post ∧
      P = ⟨[], str, start, w.length, point, ex, based⟩ ∧
      ((based = false ∧ DecimalOf (ReadsDigit Q) (ReadsMarker Q) w point ex) ∨
       (based = true ∧
        BasedOf (ReadsDigit Q) (ReadsExtendedDigit Q) (ReadsMarker Q) w point ex)) := by
  unfold parse at h
  simp only [new] at h
  cases hn : numeral Q f ⟨[], str, start, 0, false, false, false⟩ with
  | none => rw [hn] at h; simp at h
  | some r1 =>
    obtain ⟨b1, P1⟩ := r1
    rw [hn] at h
    cases b1 with
    | false => simp at h
    | true =>
      obtain ⟨n, post1, hd1, hnum, rfl⟩ := numeral_sound Q _ _ _ _ _ _ f _ _ hn
      simp only [Nat.add_zero, Nat.zero_add] at hd1
      simp only [Nat.zero_add, lookAhead_eq_headD] at h
      have hpost1 : str.drop (start + n.length) = post1 := by
        rw [← List.drop_drop, hd1, List.drop_left]
      rw [hpost1] at h
      by_cases h35 : post1.headD 0 = 35
      · rw [if_pos h35] at h
        cases hb : basedNumeral Q f ⟨[], str, start, n.length + 1, false, false, true⟩ with
        | none => rw [hb] at h; simp at h
        | some r2 =>
          obtain ⟨b2, P2⟩ := r2
          rw [hb] at h
          cases b2 with
          | false => simp at h
          | true =>
            obtain ⟨d, post2, hd2, hdn, rfl⟩ := basedNumeral_sound Q _ _ _ _ _ _ f _ _ hb
            have e35 : post1 = 35 :: (d ++ post2) := by
              exact cons_of_drop_headD hpost1 h35 (by decide) (by rw [← hd2]; congr 1)
            have hpost2 : str.drop (start + (n.length + 1 + d.length)) = post2 := by
              rw [drop_add_of_eq hd2 d.length _ (by omega), List.drop_left]
            simp only [lookAhead_eq_headD, hpost2] at h
            by_cases h46 : post2.headD 0 = 46
            · rw [if_pos h46] at h
              cases hb3 : basedNumeral Q f
                  ⟨[], str, start, n.length + 1 + d.length + 1, true, false, true⟩ with
              | none => rw [hb3] at h; simp at h
              | some r3 =>
                obtain ⟨b3, P3⟩ := r3
                rw [hb3] at h
                cases b3 with
                | false => simp at h
                | true =>
                  obtain ⟨m, post3, hd3, hmn, rfl⟩ :=
                    basedNumeral_sound Q _ _ _ _ _ _ f _ _ hb3
                  have e46 : post2 = 46 :: (m ++ post3) := by
                    exact cons_of_drop_headD hpost2 h46 (by decide) (by rw [← hd3]; congr 1)
                  have hpost3 : str.drop (start + (n.length + 1 + d.length + 1 + m.length))
                      = post3 := by
                    rw [drop_add_of_eq hd3 m.length _ (by omega), List.drop_left]
                  simp only [lookAhead_eq_headD, hpost3] at h
                  by_cases h35b : post3.headD 0 = 35
                  · rw [if_neg (by simpa using h35b)] at h
                    obtain ⟨e, post4, ex, hd4, hex, rfl⟩ :=
                      parseExponent_sound Q _ _ _ _ _ _ f _ _ h
                    have e35b : post3 = 35 :: (e ++ post4) := by
                      exact cons_of_drop_headD hpost3 h35b (by decide) (by rw [← hd4]; congr 1)
                    refine ⟨n ++ (35 :: (d ++ ((46 :: m) ++ (35 :: e)))), post4, true, ex,
                      true, ?_, ?_, Or.inr ⟨rfl, n, d, 46 :: m, e, rfl, hnum, hdn,
                        Or.inl ⟨rfl, m, rfl, hmn⟩, hex⟩⟩
                    · rw [hd1, e35, e46, e35b]
                      simp
                    · simp only [List.length_append, List.length_cons, Bool.false_or,
                        mk.injEq, true_and, and_true]
                      omega
                  · rw [if_pos (by simpa using h35b)] at h
                    simp [error] at h
            · rw [if_neg h46] at h
              simp only at h
              by_cases h35b : post2.headD 0 = 35
              · rw [if_neg (by simpa [lookAhead_eq_headD, hpost2] using h35b)] at h
                obtain ⟨e, post4, ex, hd4, hex, rfl⟩ :=
                  parseExponent_sound Q _ _ _ _ _ _ f _ _ h
                have e35b : post2 = 35 :: (e ++ post4) := by
                  exact cons_of_drop_headD hpost2 h35b (by decide) (by rw [← hd4]; congr 1)
                refine ⟨n ++ (35 :: (d ++ ([] ++ (35 :: e)))), post4, false, ex,
                  true, ?_, ?_, Or.inr ⟨rfl, n, d, [], e, rfl, hnum, hdn,
                    Or.inr ⟨rfl, rfl⟩, hex⟩⟩
                · rw [hd1, e35, e35b]
                  simp
                · simp only [List.length_append, List.length_cons, Bool.false_or,
                    List.nil_append, mk.injEq, true_and, and_true]
                  omega
              · rw [if_pos (by simpa [lookAhead_eq_headD, hpost2] using h35b)] at h
                simp [error] at h
      · rw [if_neg h35] at h
        by_cases h46 : post1.headD 0 = 46
        · rw [if_pos h46] at h
          cases hb3 : numeral Q f ⟨[], str, start, n.length + 1, true, false, false⟩ with
          | none => rw [hb3] at h; simp at h
          | some r3 =>
            obtain ⟨b3, P3⟩ := r3
            rw [hb3] at h
            cases b3 with
            | false => simp at h
            | true =>
              obtain ⟨m, post3, hd3, hmn, rfl⟩ := numeral_sound Q _ _ _ _ _ _ f _ _ hb3
              have e46 : post1 = 46 :: (m ++ post3) := by
                exact cons_of_drop_headD hpost1 h46 (by decide) (by rw [← hd3]; congr 1)
              simp only at h
              obtain ⟨e, post4, ex, hd4, hex, rfl⟩ :=
                parseExponent_sound Q _ _ _ _ _ _ f _ _ h
              have hpost3 : str.drop (start + (n.length + 1 + m.length)) = post3 := by
                rw [drop_add_of_eq hd3 m.length _ (by omega), List.drop_left]
              rw [hpost3] at hd4
              refine ⟨n ++ ((46 :: m) ++ e), post4, true, ex, false, ?_, ?_,
                Or.inl ⟨rfl, n, 46 :: m, e, rfl, hnum, Or.inl ⟨rfl, m, rfl, hmn⟩, hex⟩⟩
              · rw [hd1, e46, hd4]
                simp
              · simp only [List.length_append, List.length_cons, Bool.false_or,
                  mk.injEq, true_and, and_true]
                omega
        · rw [if_neg h46] at h
          simp only at h
          obtain ⟨e, post4, ex, hd4, hex, rfl⟩ := parseExponent_sound Q _ _ _ _ _ _ f _ _ h
          rw [hpost1] at hd4
          refine ⟨n ++ ([] ++ e), post4, false, ex, false, ?_, ?_,
            Or.inl ⟨rfl, n, [], e, rfl, hnum, Or.inr ⟨rfl, rfl⟩, hex⟩⟩
          · rw [hd1, hd4]
            simp
          · simp only [List.length_append, List.nil_append, Bool.false_or,
              mk.injEq, true_and, and_true]

end NumberParser

theorem Groups.groups_restrict {dig dig2 : Nat → Prop} {t : List Nat} (h : Groups dig t)
    (hm : ∀ c ∈ t, dig c → dig2 c) : Groups dig2 t := by
  induction h with
  | nil => exact Groups.nil
  | digit d t hd _ ih =>
    exact Groups.digit d t (hm d (List.mem_cons_self _ _) hd)
      (ih fun c hc => hm c (List.mem_cons_of_mem _ hc))
  | underline d t hd _ ih =>
    exact Groups.underline d t
      (hm d (List.mem_cons_of_mem _ (List.mem_cons_self _ _)) hd)
      (ih fun c hc => hm c (List.mem_cons_of_mem _ (List.mem_cons_of_mem _ hc)))

theorem NumeralOf.numeral_restrict {dig dig2 : Nat → Prop} {w : List Nat}
    (h : NumeralOf dig w) (hm : ∀ c ∈ w, dig c → dig2 c) : NumeralOf dig2 w := by
  obtain ⟨d, t, rfl, hd, ht⟩ := h
  exact ⟨d, t, rfl, hm d (List.mem_cons_self _ _) hd,
    ht.groups_restrict fun c hc => hm c (List.mem_cons_of_mem _ hc)⟩

theorem numeral_of_NumeralOf {w : List Nat} (h : NumeralOf Digit w) : Numeral w := h

theorem basedNumeral_of_NumeralOf {w : List Nat} (h : NumeralOf ExtendedDigit w) :
    BasedNumeral w := h

theorem ExtendedDigit_of_reads (Q : QCharData) {c : Nat}
    (hd : isDigit Q c = true → Digit c) (h : ReadsExtendedDigit Q c) : ExtendedDigit c := by
  unfold ReadsExtendedDigit NumberParser.extended_digit at h
  by_cases hdg : isDigit Q c = true
  · exact Or.inl (hd hdg)
  · rw [if_neg hdg] at h
    split_ifs at h with hl
    unfold ExtendedDigit
    omega

theorem exponent_of_reads (Q : QCharData) {e : List Nat} {ex : Bool}
    (hd : ∀ c ∈ e, isDigit Q c = true → Digit c)
    (he : ∀ c ∈ e, toLower Q c = 101 → c = 101 ∨ c = 69)
    (h : (ex = true ∧ ExponentOf (ReadsDigit Q) (ReadsMarker Q) e) ∨ (ex = false ∧ e = [])) :
    (ex = true ∧ Exponent e) ∨ (ex = false ∧ e = []) := by
  rcases h with ⟨hx, e0, sign, n, rfl, hm, hs, hn⟩ | h
  · refine Or.inl ⟨hx, e0, sign, n, rfl, he e0 (List.mem_cons_self _ _) hm, hs, ?_⟩
    exact hn.numeral_restrict fun c hc =>
      hd c (List.mem_cons_of_mem _ (List.mem_append_right _ hc))
  · exact Or.inr h

/-- A literal over the character classes of the parser is a literal of the grammar when its
digits are among 0 to 9 and its exponent marker is e or E. -/
theorem literal_of_reads (Q : QCharData) {w : List Nat} {point ex based : Bool}
    (hd : ∀ c ∈ w, isDigit Q c = true → Digit c)
    (he : ∀ c ∈ w, toLower Q c = 101 → c = 101 ∨ c = 69)
    (h : (based = false ∧ DecimalOf (ReadsDigit Q) (ReadsMarker Q) w point ex) ∨
      (based = true ∧
        BasedOf (ReadsDigit Q) (ReadsExtendedDigit Q) (ReadsMarker Q) w point ex)) :
    (based = false ∧ DecimalLiteral w point ex) ∨ (based = true ∧ BasedLiteral w point ex) := by
  rcases h with ⟨hb, n, frac, e, rfl, hn, hfrac, hex⟩ | ⟨hb, b, d, frac, e, rfl, hn, hdn, hfrac, hex⟩
  · refine Or.inl ⟨hb, n, frac, e, rfl, ?_, ?_, ?_⟩
    · exact hn.numeral_restrict fun c hc => hd c (List.mem_append_left _ hc)
    · rcases hfrac with ⟨hp, m, rfl, hm⟩ | hfrac
      · refine Or.inl ⟨hp, m, rfl, hm.numeral_restrict fun c hc => hd c ?_⟩
        exact List.mem_append_right _ (List.mem_append_left _ (List.mem_cons_of_mem _ hc))
      · exact Or.inr hfrac
    · exact exponent_of_reads Q
        (fun c hc => hd c (List.mem_append_right _ (List.mem_append_right _ hc)))
        (fun c hc => he c (List.mem_append_right _ (List.mem_append_right _ hc))) hex
  · have hmem_d : ∀ c ∈ d, c ∈ b ++ 35 :: (d ++ (frac ++ 35 :: e)) := fun c hc =>
      List.mem_append_right _ (List.mem_cons_of_mem _ (List.mem_append_left _ hc))
    have hmem_f : ∀ c ∈ frac, c ∈ b ++ 35 :: (d ++ (frac ++ 35 :: e)) := fun c hc =>
      List.mem_append_right _ (List.mem_cons_of_mem _
        (List.mem_append_right _ (List.mem_append_left _ hc)))
    have hmem_e : ∀ c ∈ e, c ∈ b ++ 35 :: (d ++ (frac ++ 35 :: e)) := fun c hc =>
      List.mem_append_right _ (List.mem_cons_of_mem _
        (List.mem_append_right _ (List.mem_append_right _ (List.mem_cons_of_mem _ hc))))
    refine Or.inr ⟨hb, b, d, frac, e, rfl, ?_, ?_, ?_, ?_⟩
    · exact hn.numeral_restrict fun c hc => hd c (List.mem_append_left _ hc)
    · exact hdn.numeral_restrict fun c hc h =>
        ExtendedDigit_of_reads Q (hd c (hmem_d c hc)) h
    · rcases hfrac with ⟨hp, m, rfl, hm⟩ | hfrac
      · refine Or.inl ⟨hp, m, rfl, hm.numeral_restrict fun c hc h => ?_⟩
        exact ExtendedDigit_of_reads Q (hd c (hmem_f c (List.mem_cons_of_mem _ hc))) h
      · exact Or.inr hfrac
    · exact exponent_of_reads Q (fun c hc => hd c (hmem_e c hc))
        (fun c hc => he c (hmem_e c hc)) hex

/-- C11 as amended: on a text in which QChar::isDigit accepts no character besides 0 to 9
and only e and E lower-case to e (every ASCII text is one), when parse answers true the
consumed span lies inside the text and is a decimal literal, or a based literal, of the
grammar; isBased tells which, hasDecimals whether it has a point and hasExponent whether it
has an exponent. -/
theorem parse_sound (Q : QCharData) (f : Nat) (str : List Nat) (start : Nat)
    (P : NumberParser)
    (hd : ∀ c ∈ str, isDigit Q c = true → Digit c)
    (he : ∀ c ∈ str, toLower Q c = 101 → c = 101 ∨ c = 69)
    (h : NumberParser.parse Q f (NumberParser.new str start) = some (true, P)) :
    start + P.d_off ≤ str.length ∧
    ((P.d_isBased = false ∧
        DecimalLiteral ((str.drop start).take P.d_off) P.d_hasDecimals P.d_hasExponent) ∨
     (P.d_isBased = true ∧
        BasedLiteral ((str.drop start).take P.d_off) P.d_hasDecimals P.d_hasExponent)) := by
  obtain ⟨w, post, point, ex, based, hw, rfl, hlit⟩ :=
    NumberParser.parse_reads_literal Q f str start P h
  have hmem : ∀ c ∈ w, c ∈ str := fun c hc =>
    List.mem_of_mem_drop (hw ▸ List.mem_append_left _ hc)
  have hlen : (str.drop start).length = w.length + post.length := by
    rw [hw, List.length_append]
  have hw1 : 1 ≤ w.length := by
    rcases hlit with ⟨_, n, frac, e, rfl, ⟨d, t, rfl, _, _⟩, _, _⟩ |
      ⟨_, b, d, frac, e, rfl, ⟨d0, t, rfl, _, _⟩, _, _, _⟩ <;> simp
  rw [List.length_drop] at hlen
  refine ⟨by simp only; omega, ?_⟩
  simp only [hw, List.take_left']
  exact literal_of_reads Q (fun c hc => hd c (hmem c hc)) (fun c hc => he c (hmem c hc)) hlit

theorem Digit_of_isDigit_asciiData {c : Nat} (h : isDigit asciiData c = true) : Digit c := by
  unfold isDigit asciiData at h
  unfold Digit
  split_ifs at h with hc
  simpa using h

theorem marker_of_toLower_asciiData {c : Nat} (h : toLower asciiData c = 101) :
    c = 101 ∨ c = 69 := by
  unfold toLower asciiData at h
  split_ifs at h with hc hu
  · right; omega
  · left; exact h
  · left; exact h

/-- C11 as amended, at the text 16#FF#E2 read from its start. -/
theorem parse_sound_witness :
    NumberParser.parse asciiData 9 (NumberParser.new (qstr "16#FF#E2") 0) =
      some (true, ⟨[], qstr "16#FF#E2", 0, 8, false, true, true⟩) ∧
    BasedLiteral (qstr "16#FF#E2") false true :=
  have h : NumberParser.parse asciiData 9 (NumberParser.new (qstr "16#FF#E2") 0) =
      some (true, ⟨[], qstr "16#FF#E2", 0, 8, false, true, true⟩) := by decide
  ⟨h, ((parse_sound asciiData 9 (qstr "16#FF#E2") 0 _ (fun _ _ => Digit_of_isDigit_asciiData)
    (fun _ _ => marker_of_toLower_asciiData) h).2.resolve_left
    (by simp)).2⟩

theorem not_mem_literal {w : List Nat} {point ex : Bool}
    (hw : DecimalLiteral w point ex ∨ BasedLiteral w point ex) (x : Nat) (hx : 128 ≤ x) :
    x ∉ w := by
  have hnd : ¬ Digit x := by unfold Digit; omega
  have hne : ¬ ExtendedDigit x := by unfold ExtendedDigit Digit; omega
  have hexp : ∀ {e : List Nat} {ex : Bool},
      ((ex = true ∧ Exponent e) ∨ (ex = false ∧ e = [])) → x ∉ e := by
    intro e ex h
    rcases h with ⟨_, e0, sign, n, rfl, he0, hs, hn⟩ | ⟨_, rfl⟩
    · have := not_mem_numeral hn x hnd (by omega)
      simp only [List.mem_cons, List.mem_append, not_or]
      refine ⟨by omega, ?_, this⟩
      rcases hs with rfl | rfl | rfl <;> simp <;> omega
    · simp
  rcases hw with ⟨n, frac, e, rfl, hn, hfrac, hex⟩ |
    ⟨b, d, frac, e, rfl, hb, hd, hfrac, hex⟩
  · simp only [List.mem_append, not_or]
    refine ⟨not_mem_numeral hn x hnd (by omega), ?_, hexp hex⟩
    rcases hfrac with ⟨_, m, rfl, hm⟩ | ⟨_, rfl⟩
    · simp only [List.mem_cons, not_or]
      exact ⟨by omega, not_mem_numeral hm x hnd (by omega)⟩
    · simp
  · simp only [List.mem_append, List.mem_cons, not_or]
    refine ⟨not_mem_numeral hb x hnd (by omega), by omega,
      not_mem_basedNumeral hd x hne (by omega), ?_, by omega, hexp hex⟩
    rcases hfrac with ⟨_, m, rfl, hm⟩ | ⟨_, rfl⟩
    · simp only [List.mem_cons, not_or]
      exact ⟨by omega, not_mem_basedNumeral hm x hne (by omega)⟩
    · simp

/-- C11 as stated fails: with the Arabic-Indic digit one (U+0661) behind the digit 1, parse
answers true with consumed length 2, and the consumed span is no literal of the grammar,
whose digits are 0 to 9. -/
theorem parse_accepts_arabic_indic_digit :
    NumberParser.parse arabicIndicData 3 (NumberParser.new [49, 1633] 0) =
      some (true, ⟨[], [49, 1633], 0, 2, false, false, false⟩) ∧
    ¬ ∃ point ex, DecimalLiteral (([49, 1633].drop 0).take 2) point ex ∨
      BasedLiteral (([49, 1633].drop 0).take 2) point ex := by
  refine ⟨by decide, ?_⟩
  rintro ⟨point, ex, h⟩
  exact not_mem_literal h 1633 (by decide) (by decide)

/-! ## Numeric literals: underscores -/

theorem groups_underline {dig : Nat → Prop} (h95 : ¬ dig 95) {t : List Nat}
    (h : Groups dig t) : ∀ d, dig d → ∀ l2 r, t = l2 ++ 95 :: r →
    ∃ l1 a c r1, d :: l2 = l1 ++ [a] ∧ r = c :: r1 ∧ dig a ∧ dig c := by
  induction h with
  | nil => intro d _ l2 r e; simp at e
  | digit d2 t hd2 _ ih =>
    intro d hd l2 r e
    cases l2 with
    | nil =>
      simp only [List.nil_append, List.cons.injEq] at e
      exact absurd (e.1 ▸ hd2) h95
    | cons x l3 =>
      simp only [List.cons_append, List.cons.injEq] at e
      obtain ⟨rfl, rfl⟩ := e
      obtain ⟨l1, a, c, r1, e1, e2, ha, hc⟩ := ih d2 hd2 l3 r rfl
      exact ⟨d :: l1, a, c, r1, by rw [e1]; rfl, e2, ha, hc⟩
  | underline d2 t hd2 _ ih =>
    intro d hd l2 r e
    cases l2 with
    | nil =>
      simp only [List.nil_append, List.cons.injEq, true_and] at e
      exact ⟨[], d, d2, t, rfl, e.symm, hd, hd2⟩
    | cons x l3 =>
      simp only [List.cons_append, List.cons.injEq] at e
      obtain ⟨rfl, e⟩ := e
      cases l3 with
      | nil =>
        simp only [List.nil_append, List.cons.injEq] at e
        exact absurd (e.1 ▸ hd2) h95
      | cons y l4 =>
        simp only [List.cons_append, List.cons.injEq] at e
        obtain ⟨rfl, rfl⟩ := e
        obtain ⟨l1, a, c, r1, e1, e2, ha, hc⟩ := ih d2 hd2 l4 r rfl
        exact ⟨d :: 95 :: l1, a, c, r1, by rw [e1]; rfl, e2, ha, hc⟩

theorem numeral_underline {dig : Nat → Prop} (h95 : ¬ dig 95) {n : List Nat}
    (h : NumeralOf dig n) (l r : List Nat) (e : n = l ++ 95 :: r) :
    ∃ l1 a c r1, l = l1 ++ [a] ∧ r = c :: r1 ∧ dig a ∧ dig c := by
  obtain ⟨d, t, rfl, hd, ht⟩ := h
  cases l with
  | nil =>
    simp only [List.nil_append, List.cons.injEq] at e
    exact absurd (e.1 ▸ hd) h95
  | cons x l2 =>
    simp only [List.cons_append, List.cons.injEq] at e
    obtain ⟨rfl, rfl⟩ := e
    exact groups_underline h95 ht d hd l2 r rfl

theorem not_mem_numeralOf {dig : Nat → Prop} {n : List Nat} (h : NumeralOf dig n) (x : Nat)
    (hx : ¬ dig x) (hx2 : x ≠ 95) : x ∉ n := by
  obtain ⟨d, t, rfl, hd, ht⟩ := h
  simp only [List.mem_cons, not_or]
  exact ⟨fun h => hx (h ▸ hd), not_mem_groups ht x hx hx2⟩

theorem readsDigit_95 (Q : QCharData) : ¬ ReadsDigit Q 95 := by
  simp [ReadsDigit, isDigit]

theorem readsDigit_35 (Q : QCharData) : ¬ ReadsDigit Q 35 := by
  simp [ReadsDigit, isDigit]

theorem readsExtendedDigit_95 (Q : QCharData) : ¬ ReadsExtendedDigit Q 95 := by
  simp [ReadsExtendedDigit, NumberParser.extended_digit, isDigit]

theorem readsExtendedDigit_35 (Q : QCharData) : ¬ ReadsExtendedDigit Q 35 := by
  simp [ReadsExtendedDigit, NumberParser.extended_digit, isDigit]

theorem readsExtendedDigit_of_readsDigit {Q : QCharData} {c : Nat} (h : ReadsDigit Q c) :
    ReadsExtendedDigit Q c := by
  unfold ReadsDigit at h
  simp [ReadsExtendedDigit, NumberParser.extended_digit, h]

theorem UnderlinesOk.ok_nil (Q : QCharData) (k : Nat) : UnderlinesOk Q k [] := by
  intro l r e
  simp at e

theorem UnderlinesOk.ok_single (Q : QCharData) (k : Nat) {x : Nat} (hx : x ≠ 95) :
    UnderlinesOk Q k [x] := by
  intro l r e
  cases l with
  | nil =>
    simp only [List.nil_append, List.cons.injEq] at e
    exact absurd e.1 hx
  | cons y l2 =>
    simp only [List.cons_append, List.cons.injEq] at e
    have := e.2
    simp at this

theorem UnderlinesOk.ok_append {Q : QCharData} {k : Nat} {u v : List Nat}
    (hu : UnderlinesOk Q k u) (hv : UnderlinesOk Q (k + u.count 35) v) :
    UnderlinesOk Q k (u ++ v) := by
  intro l r e
  rw [List.append_eq_append_iff] at e
  rcases e with ⟨a1, rfl, e2⟩ | ⟨c1, e1, e2⟩
  · obtain ⟨l1, a, c, r1, h1, h2, h3⟩ := hv a1 r e2
    refine ⟨u ++ l1, a, c, r1, by rw [h1, List.append_assoc], h2, ?_⟩
    rw [List.count_append, ← Nat.add_assoc]
    exact h3
  · cases c1 with
    | nil =>
      simp only [List.append_nil, List.nil_append] at e1 e2
      subst e1
      obtain ⟨l1, a, c, r1, h1, h2, h3⟩ := hv [] r e2.symm
      simp at h1
    | cons y c2 =>
      simp only [List.cons_append, List.cons.injEq] at e2
      obtain ⟨rfl, rfl⟩ := e2
      obtain ⟨l1, a, c, r1, h1, h2, h3⟩ := hu l c2 e1
      exact ⟨l1, a, c, r1 ++ v, h1, by rw [h2]; rfl, h3⟩

theorem UnderlinesOk.ok_numeral {Q : QCharData} {k : Nat} {n : List Nat}
    (h : NumeralOf (ReadsDigit Q) n) (hk : k ≠ 1) : UnderlinesOk Q k n := by
  intro l r e
  obtain ⟨l1, a, c, r1, h1, h2, ha, hc⟩ := numeral_underline (readsDigit_95 Q) h l r e
  have h35 : l.count 35 = 0 := List.count_eq_zero.2 fun hm =>
    not_mem_numeralOf h 35 (readsDigit_35 Q) (by decide) (e ▸ List.mem_append_left _ hm)
  refine ⟨l1, a, c, r1, h1, h2, ?_⟩
  rw [h35, Nat.add_zero, if_neg hk]
  exact ⟨ha, hc⟩

theorem UnderlinesOk.ok_basedNumeral {Q : QCharData} {n : List Nat}
    (h : NumeralOf (ReadsExtendedDigit Q) n) : UnderlinesOk Q 1 n := by
  intro l r e
  obtain ⟨l1, a, c, r1, h1, h2, ha, hc⟩ :=
    numeral_underline (readsExtendedDigit_95 Q) h l r e
  have h35 : l.count 35 = 0 := List.count_eq_zero.2 fun hm =>
    not_mem_numeralOf h 35 (readsExtendedDigit_35 Q) (by decide)
      (e ▸ List.mem_append_left _ hm)
  refine ⟨l1, a, c, r1, h1, h2, ?_⟩
  rw [h35, Nat.add_zero, if_pos rfl]
  exact ⟨ha, hc⟩

theorem count_numeralOf_digit {Q : QCharData} {n : List Nat}
    (h : NumeralOf (ReadsDigit Q) n) : n.count 35 = 0 :=
  List.count_eq_zero.2 (not_mem_numeralOf h 35 (readsDigit_35 Q) (by decide))

theorem count_numeralOf_extended {Q : QCharData} {n : List Nat}
    (h : NumeralOf (ReadsExtendedDigit Q) n) : n.count 35 = 0 :=
  List.count_eq_zero.2 (not_mem_numeralOf h 35 (readsExtendedDigit_35 Q) (by decide))

theorem UnderlinesOk.ok_exponent {Q : QCharData} {k : Nat} {e : List Nat} {ex : Bool}
    (h : (ex = true ∧ ExponentOf (ReadsDigit Q) (ReadsMarker Q) e) ∨ (ex = false ∧ e = []))
    (hk : k ≠ 1) : UnderlinesOk Q k e := by
  rcases h with ⟨_, e0, sign, n, rfl, hm, hs, hn⟩ | ⟨_, rfl⟩
  · have he0 : e0 ≠ 95 := by
      rintro rfl
      simp [ReadsMarker, toLower] at hm
    have he35 : e0 ≠ 35 := by
      rintro rfl
      simp [ReadsMarker, toLower] at hm
    have hc0 : [e0].count 35 = 0 :=
      List.count_eq_zero.2 fun h => he35 (List.mem_singleton.1 h).symm
    have hsign : UnderlinesOk Q k sign ∧ sign.count 35 = 0 := by
      rcases hs with rfl | rfl | rfl
      · exact ⟨UnderlinesOk.ok_nil Q k, rfl⟩
      · exact ⟨UnderlinesOk.ok_single Q k (by decide), by decide⟩
      · exact ⟨UnderlinesOk.ok_single Q k (by decide), by decide⟩
    have h1 : UnderlinesOk Q k ([e0] ++ (sign ++ n)) := by
      refine UnderlinesOk.ok_append (UnderlinesOk.ok_single Q k he0) ?_
      rw [hc0, Nat.add_zero]
      refine UnderlinesOk.ok_append hsign.1 ?_
      rw [hsign.2, Nat.add_zero]
      exact UnderlinesOk.ok_numeral hn hk
    exact h1
  · exact UnderlinesOk.ok_nil Q k

/-- In a literal over the character classes of the parser every underscore stands between
two digits, or between two extended digits inside the based numeral. -/
theorem UnderlinesOk.ok_literal {Q : QCharData} {w : List Nat} {point ex based : Bool}
    (h : (based = false ∧ DecimalOf (ReadsDigit Q) (ReadsMarker Q) w point ex) ∨
      (based = true ∧
        BasedOf (ReadsDigit Q) (ReadsExtendedDigit Q) (ReadsMarker Q) w point ex)) :
    UnderlinesOk Q 0 w := by
  rcases h with ⟨_, n, frac, e, rfl, hn, hfrac, hex⟩ |
    ⟨_, b, d, frac, e, rfl, hb, hd, hfrac, hex⟩
  · refine UnderlinesOk.ok_append (UnderlinesOk.ok_numeral hn (by decide)) ?_
    rw [count_numeralOf_digit hn]
    rcases hfrac with ⟨_, m, rfl, hm⟩ | ⟨_, rfl⟩
    · have h1 : UnderlinesOk Q 0 ([46] ++ m) :=
        UnderlinesOk.ok_append (UnderlinesOk.ok_single Q 0 (by decide))
          (UnderlinesOk.ok_numeral hm (by decide))
      refine UnderlinesOk.ok_append h1 ?_
      have hc : (46 :: m).count 35 = 0 := by
        rw [List.count_cons_of_ne (by decide), count_numeralOf_digit hm]
      rw [hc]
      exact UnderlinesOk.ok_exponent hex (by decide)
    · exact UnderlinesOk.ok_exponent hex (by decide)
  · refine UnderlinesOk.ok_append (UnderlinesOk.ok_numeral hb (by decide)) ?_
    rw [count_numeralOf_digit hb]
    have hfr : UnderlinesOk Q 1 frac ∧ frac.count 35 = 0 := by
      rcases hfrac with ⟨_, m, rfl, hm⟩ | ⟨_, rfl⟩
      · have h1 : UnderlinesOk Q 1 ([46] ++ m) :=
          UnderlinesOk.ok_append (UnderlinesOk.ok_single Q 1 (by decide))
            (UnderlinesOk.ok_basedNumeral hm)
        refine ⟨h1, ?_⟩
        rw [List.count_cons_of_ne (by decide), count_numeralOf_extended hm]
      · exact ⟨UnderlinesOk.ok_nil Q 1, rfl⟩
    have h2 : UnderlinesOk Q (0 + 0) ([35] ++ (d ++ (frac ++ ([35] ++ e)))) := by
      refine UnderlinesOk.ok_append (UnderlinesOk.ok_single Q _ (by decide)) ?_
      refine UnderlinesOk.ok_append (UnderlinesOk.ok_basedNumeral hd) ?_
      rw [count_numeralOf_extended hd]
      refine UnderlinesOk.ok_append hfr.1 ?_
      rw [hfr.2]
      refine UnderlinesOk.ok_append (UnderlinesOk.ok_single Q _ (by decide)) ?_
      exact UnderlinesOk.ok_exponent hex (by decide)
    exact h2

namespace NumberParser

/-- The loop of numeral, at groups of digits followed by an underscore that no digit follows,
answers false with the message expecting digit, the offset standing behind the underscore. -/
theorem numeralLoop_underline_fails (Q : QCharData) (er s : List Nat) (st : Nat)
    (a b c : Bool) (post : List Nat) (hp : isDigit Q (post.headD 0) = false) :
    ∀ (t : List Nat), Groups Digit t → ∀ (f off : Nat),
    s.drop (st + off) = t ++ 95 :: post → t.length + 1 ≤ f →
    numeralLoop Q f ⟨er, s, st, off, a, b, c⟩ =
      some (false, ⟨qstr "expecting digit", s, st, off + t.length + 1, a, b, c⟩) := by
  intro t ht
  induction ht with
  | nil =>
    intro f off hd hf
    obtain ⟨g, rfl⟩ : ∃ g, f = g + 1 := ⟨f - 1, by omega⟩
    have hd1 : s.drop (st + (off + 1)) = post := drop_succ_of_cons hd
    rw [numeralLoop]
    simp only [lookAhead_eq_headD, hd, hd1, List.nil_append, List.headD_cons, true_or,
      ↓reduceIte, hp, Bool.false_eq_true, error, List.length_nil, Nat.add_zero]
  | digit d t hdig _ ih =>
    intro f off hd hf
    obtain ⟨g, rfl⟩ : ∃ g, f = g + 1 := ⟨f - 1, by omega⟩
    have hd1 : s.drop (st + (off + 1)) = t ++ 95 :: post := drop_succ_of_cons hd
    have hne : d ≠ 95 := by unfold Digit at hdig; omega
    rw [numeralLoop]
    simp only [lookAhead_eq_headD, hd, List.cons_append, List.headD_cons, hne,
      isDigit_of_Digit Q hdig, or_true, ↓reduceIte]
    rw [ih g (off + 1) hd1 (by simp only [List.length_cons] at hf; omega)]
    simp only [List.length_cons, Option.some.injEq, Prod.mk.injEq, true_and, mk.injEq, and_true]
    omega
  | underline d t hdig _ ih =>
    intro f off hd hf
    obtain ⟨g, rfl⟩ : ∃ g, f = g + 1 := ⟨f - 1, by omega⟩
    have hd1 : s.drop (st + (off + 1)) = d :: (t ++ 95 :: post) := drop_succ_of_cons hd
    have hd2 : s.drop (st + (off + 1 + 1)) = t ++ 95 :: post := drop_succ_of_cons hd1
    rw [numeralLoop]
    simp only [lookAhead_eq_headD, hd, hd1, List.cons_append, List.headD_cons, true_or,
      ↓reduceIte, isDigit_of_Digit Q hdig]
    rw [ih g (off + 1 + 1) hd2 (by simp only [List.length_cons] at hf; omega)]
    simp only [List.length_cons, Option.some.injEq, Prod.mk.injEq, true_and, mk.injEq, and_true]
    omega

theorem numeral_underline_fails (Q : QCharData) (er s : List Nat) (st : Nat) (a b c : Bool)
    (n post : List Nat) (hn : Numeral n) (hp : isDigit Q (post.headD 0) = false) (f off : Nat)
    (hd : s.drop (st + off) = n ++ 95 :: post) (hf : n.length ≤ f) :
    numeral Q f ⟨er, s, st, off, a, b, c⟩ =
      some (false, ⟨qstr "expecting digit", s, st, off + n.length + 1, a, b, c⟩) := by
  obtain ⟨d, t, rfl, hdig, ht⟩ := hn
  have hd1 : s.drop (st + (off + 1)) = t ++ 95 :: post := drop_succ_of_cons hd
  unfold numeral
  simp only [lookAhead_eq_headD, hd, List.cons_append, List.headD_cons, isDigit_of_Digit Q hdig,
    Bool.true_eq_false, ↓reduceIte]
  rw [numeralLoop_underline_fails Q er s st a b c post hp t ht f (off + 1) hd1
    (by simp only [List.length_cons] at hf; omega)]
  simp only [List.length_cons, Option.some.injEq, Prod.mk.injEq, true_and, mk.injEq, and_true]
  omega

/-- At a marker, an optional sign and a digit, the optional exponent of parse comes down to
numeral at the digit, with hasExponent set. -/
theorem parseExponent_to_numeral (Q : QCharData) (er s : List Nat) (st : Nat) (a b c : Bool)
    (e : Nat) (sign x : List Nat) (he : e = 101 ∨ e = 69)
    (hs : sign = [] ∨ sign = [43] ∨ sign = [45]) (hx : isDigit Q (x.headD 0) = true)
    (f off : Nat) (hd : s.drop (st + off) = e :: (sign ++ x)) :
    parseExponent Q f ⟨er, s, st, off, a, b, c⟩ =
      numeral Q f ⟨er, s, st, off + 1 + sign.length, a, true, c⟩ := by
  have hl : toLower Q e = 101 := by
    rcases he with rfl | rfl <;> simp [toLower]
  have hd1 : s.drop (st + (off + 1)) = sign ++ x := drop_succ_of_cons hd
  unfold parseExponent
  simp only [lookAhead_eq_headD, hd, List.headD_cons, hl, ↓reduceIte]
  unfold exponent
  simp only [lookAhead_eq_headD, hd1]
  rcases hs with rfl | rfl | rfl
  · have h43 : x.headD 0 ≠ 43 := by
      intro h; rw [h] at hx; simp [isDigit] at hx
    have h45 : x.headD 0 ≠ 45 := by
      intro h; rw [h] at hx; simp [isDigit] at hx
    simp only [List.nil_append, h43, h45, hx, or_true, or_self, ↓reduceIte, List.length_nil,
      Nat.add_zero]
  · simp only [List.cons_append, List.nil_append, List.headD_cons, true_or, ↓reduceIte,
      List.length_cons, List.length_nil]
  · simp only [List.cons_append, List.nil_append, List.headD_cons, true_or, or_true,
      ↓reduceIte, List.length_cons, List.length_nil]

end NumberParser

namespace NumberParser

theorem parse_fails_at_start (Q : QCharData) (f : Nat) (str : List Nat) (start : Nat)
    (P : NumberParser)
    (h : numeral Q f ⟨[], str, start, 0, false, false, false⟩ = some (false, P)) :
    parse Q f (new str start) = some (false, P) := by
  unfold parse
  simp only [new]
  rw [h]

theorem parse_fails_behind_point (Q : QCharData) (f : Nat) (pre n x : List Nat)
    (P : NumberParser) (hn : Numeral n) (hf : n.length ≤ f)
    (h : numeral Q f ⟨[], pre ++ (n ++ 46 :: x), pre.length, n.length + 1, true, false, false⟩
      = some (false, P)) :
    parse Q f (new (pre ++ (n ++ 46 :: x)) pre.length) = some (false, P) := by
  have hd0 : (pre ++ (n ++ 46 :: x)).drop (pre.length + 0) = n ++ 46 :: x := by
    rw [drop_pre]; rfl
  have hd1 : (pre ++ (n ++ 46 :: x)).drop (pre.length + n.length) = 46 :: x := by
    rw [drop_pre, List.drop_left]
  have e1 := numeral_accepts Q [] (pre ++ (n ++ 46 :: x)) pre.length false false
    false n (46 :: x) hn (by simp) (by simp [isDigit]) f 0 hd0 hf
  unfold parse
  simp only [new]
  rw [e1]
  simp only [lookAhead_eq_headD, Nat.zero_add, hd1, List.headD_cons, reduceCtorEq, ↓reduceIte,
    Nat.reduceEqDiff]
  rw [h]

/-- Over a decimal literal without exponent, parse comes down to its optional exponent. -/
theorem parse_decimal_mantissa (Q : QCharData) (f : Nat) (pre w post : List Nat)
    (point : Bool) (hw : DecimalLiteral w point false) (hf : w.length ≤ f)
    (h1 : post.headD 0 ≠ 95) (h2 : isDigit Q (post.headD 0) = false)
    (h3 : post.headD 0 ≠ 35) (h4 : post.headD 0 ≠ 46) :
    parse Q f (new (pre ++ (w ++ post)) pre.length) =
      parseExponent Q f ⟨[], pre ++ (w ++ post), pre.length, w.length, point, false, false⟩ := by
  obtain ⟨n, frac, e, rfl, hn, hfrac, hex⟩ := hw
  rcases hex with ⟨hc, _⟩ | ⟨_, rfl⟩
  · cases hc
  simp only [List.length_append, List.append_nil, List.length_nil, Nat.add_zero] at hf ⊢
  unfold parse
  simp only [new]
  rcases hfrac with ⟨rfl, m, rfl, hm⟩ | ⟨rfl, rfl⟩
  · simp only [List.cons_append, List.length_cons, List.append_assoc] at hf ⊢
    have hd0 : (pre ++ (n ++ 46 :: (m ++ post))).drop (pre.length + 0)
        = n ++ 46 :: (m ++ post) := by
      rw [drop_pre]; rfl
    have hd1 : (pre ++ (n ++ 46 :: (m ++ post))).drop (pre.length + n.length)
        = 46 :: (m ++ post) := by
      rw [drop_pre, List.drop_left]
    have hd2 := drop_succ_of_cons hd1
    have e1 := numeral_accepts Q [] (pre ++ (n ++ 46 :: (m ++ post))) pre.length false false
      false n (46 :: (m ++ post)) hn (by simp) (by simp [isDigit]) f 0 hd0 (by omega)
    have e2 := numeral_accepts Q [] (pre ++ (n ++ 46 :: (m ++ post))) pre.length true false
      false m post hm h1 h2 f (n.length + 1) hd2 (by omega)
    rw [e1]
    simp only [lookAhead_eq_headD, Nat.zero_add, hd1, List.headD_cons, reduceCtorEq,
      ↓reduceIte, Nat.reduceEqDiff]
    rw [e2]
    simp only
    rw [show n.length + 1 + m.length = n.length + (m.length + 1) by omega]
  · simp only [List.nil_append, List.append_nil, List.length_nil, Nat.add_zero] at hf ⊢
    have hd0 : (pre ++ (n ++ post)).drop (pre.length + 0) = n ++ post := by
      rw [drop_pre]; rfl
    have hd1 : (pre ++ (n ++ post)).drop (pre.length + n.length) = post := by
      rw [drop_pre, List.drop_left]
    have e1 := numeral_accepts Q [] (pre ++ (n ++ post)) pre.length false false
      false n post hn h1 h2 f 0 hd0 (by omega)
    rw [e1]
    simp only [lookAhead_eq_headD, Nat.zero_add, hd1, h3, h4, ↓reduceIte]

/-- Over a based literal without exponent, parse comes down to its optional exponent. -/
theorem parse_based_mantissa (Q : QCharData) (f : Nat) (pre w post : List Nat)
    (point : Bool) (hw : BasedLiteral w point false) (hf : w.length ≤ f) :
    parse Q f (new (pre ++ (w ++ post)) pre.length) =
      parseExponent Q f ⟨[], pre ++ (w ++ post), pre.length, w.length, point, false, true⟩ := by
  obtain ⟨b, d, frac, e, rfl, hb, hd, hfrac, hex⟩ := hw
  rcases hex with ⟨hc, _⟩ | ⟨_, rfl⟩
  · cases hc
  have x35 : extended_digit Q 35 = false := by simp [extended_digit, isDigit]
  have x46 : extended_digit Q 46 = false := by simp [extended_digit, isDigit]
  unfold parse
  simp only [new]
  rcases hfrac with ⟨rfl, m, rfl, hm⟩ | ⟨rfl, rfl⟩
  · simp only [List.cons_append, List.length_cons, List.length_append, List.append_assoc,
      List.length_nil, List.nil_append] at hf ⊢
    have hd0 : (pre ++ (b ++ 35 :: (d ++ 46 :: (m ++ 35 :: post)))).drop (pre.length + 0)
        = b ++ 35 :: (d ++ 46 :: (m ++ 35 :: post)) := by
      rw [drop_pre]; rfl
    have hd1 : (pre ++ (b ++ 35 :: (d ++ 46 :: (m ++ 35 :: post)))).drop
        (pre.length + b.length) = 35 :: (d ++ 46 :: (m ++ 35 :: post)) := by
      rw [drop_pre, List.drop_left]
    have hd2 := drop_succ_of_cons hd1
    have hd3 : (pre ++ (b ++ 35 :: (d ++ 46 :: (m ++ 35 :: post)))).drop
        (pre.length + (b.length + 1 + d.length)) = 46 :: (m ++ 35 :: post) := by
      rw [drop_add_of_eq hd2 d.length _ (by omega), List.drop_left]
    have hd4 := drop_succ_of_cons hd3
    have hd5 : (pre ++ (b ++ 35 :: (d ++ 46 :: (m ++ 35 :: post)))).drop
        (pre.length + (b.length + 1 + d.length + 1 + m.length)) = 35 :: post := by
      rw [drop_add_of_eq hd4 m.length _ (by omega), List.drop_left]
    have e1 := numeral_accepts Q [] (pre ++ (b ++ 35 :: (d ++ 46 :: (m ++ 35 :: post))))
      pre.length false false false b _ hb (by simp) (by simp [isDigit]) f 0 hd0 (by omega)
    have e2 := basedNumeral_accepts Q [] (pre ++ (b ++ 35 :: (d ++ 46 :: (m ++ 35 :: post))))
      pre.length false false true d _ hd (by simp) (by simpa using x46) f (b.length + 1) hd2
      (by omega)
    have e3 := basedNumeral_accepts Q [] (pre ++ (b ++ 35 :: (d ++ 46 :: (m ++ 35 :: post))))
      pre.length true false true m _ hm (by simp) (by simpa using x35) f
      (b.length + 1 + d.length + 1) hd4 (by omega)
    simp only [Nat.zero_add] at e1
    rw [e1]
    simp only [lookAhead_eq_headD, hd1, List.headD_cons, ↓reduceIte]
    rw [e2]
    simp only [lookAhead_eq_headD, hd3, List.headD_cons, ↓reduceIte]
    rw [e3]
    simp only [lookAhead_eq_headD, hd5, List.headD_cons, ne_eq, not_true_eq_false, ↓reduceIte]
    congr 2
    omega
  · simp only [List.nil_append, List.length_nil, List.length_cons, List.length_append,
      List.append_assoc, List.cons_append] at hf ⊢
    have hd0 : (pre ++ (b ++ 35 :: (d ++ 35 :: post))).drop (pre.length + 0)
        = b ++ 35 :: (d ++ 35 :: post) := by
      rw [drop_pre]; rfl
    have hd1 : (pre ++ (b ++ 35 :: (d ++ 35 :: post))).drop (pre.length + b.length)
        = 35 :: (d ++ 35 :: post) := by
      rw [drop_pre, List.drop_left]
    have hd2 := drop_succ_of_cons hd1
    have hd3 : (pre ++ (b ++ 35 :: (d ++ 35 :: post))).drop
        (pre.length + (b.length + 1 + d.length)) = 35 :: post := by
      rw [drop_add_of_eq hd2 d.length _ (by omega), List.drop_left]
    have e1 := numeral_accepts Q [] (pre ++ (b ++ 35 :: (d ++ 35 :: post)))
      pre.length false false false b _ hb (by simp) (by simp [isDigit]) f 0 hd0 (by omega)
    have e2 := basedNumeral_accepts Q [] (pre ++ (b ++ 35 :: (d ++ 35 :: post)))
      pre.length false false true d _ hd (by simp) (by simpa using x35) f (b.length + 1) hd2
      (by omega)
    simp only [Nat.zero_add] at e1
    rw [e1]
    simp only [lookAhead_eq_headD, hd1, List.headD_cons, ↓reduceIte]
    rw [e2]
    simp only [lookAhead_eq_headD, hd3, List.headD_cons, ne_eq, not_true_eq_false, ↓reduceIte,
      Nat.reduceEqDiff]
    congr 2
    omega

end NumberParser

theorem numeral_head_digit (Q : QCharData) {n : List Nat} (hn : Numeral n) (rest : List Nat) :
    isDigit Q ((n ++ rest).headD 0) = true := by
  obtain ⟨d, t, rfl, hd, _⟩ := hn
  exact NumberParser.isDigit_of_Digit Q hd

theorem parse_fails_at_site (Q : QCharData) (f : Nat) (pre lead n rest : List Nat)
    (hsite : NumeralSite lead) (hn : Numeral n) (hrest : isDigit Q (rest.headD 0) = false)
    (hf : (lead ++ n).length + 1 ≤ f) :
    ∃ P, NumberParser.parse Q f
        (NumberParser.new (pre ++ (lead ++ (n ++ 95 :: rest))) pre.length) = some (false, P) ∧
      P.d_error = qstr "expecting digit" ∧ P.d_off = (lead ++ n).length + 1 := by
  simp only [List.length_append] at hf
  rcases hsite with rfl | ⟨m, hm, rfl⟩ | ⟨w, point, e, sign, hw, he, hs, rfl⟩
  · refine ⟨_, NumberParser.parse_fails_at_start Q f _ _ _
      (NumberParser.numeral_underline_fails Q [] _ pre.length false false false n rest hn hrest
        f 0 ?_ (by omega)), rfl, ?_⟩
    · rw [NumberParser.drop_pre]
      rfl
    · simp
  · simp only [List.length_append, List.length_cons, List.length_nil] at hf
    have hstr : pre ++ (m ++ [46] ++ (n ++ 95 :: rest)) = pre ++ (m ++ 46 :: (n ++ 95 :: rest)) := by
      simp
    rw [hstr]
    refine ⟨_, NumberParser.parse_fails_behind_point Q f pre m _ _ hm (by omega)
      (NumberParser.numeral_underline_fails Q [] _ pre.length true false false n rest hn hrest
        f (m.length + 1) ?_ (by omega)), rfl, ?_⟩
    · have e : m ++ 46 :: (n ++ 95 :: rest) = (m ++ [46]) ++ (n ++ 95 :: rest) := by simp
      rw [NumberParser.drop_pre, e, show m.length + 1 = (m ++ [46]).length by simp,
        List.drop_left]
    · simp
      omega
  · simp only [List.length_append, List.length_cons] at hf
    have hstr : pre ++ (w ++ e :: sign ++ (n ++ 95 :: rest)) =
        pre ++ (w ++ e :: (sign ++ (n ++ 95 :: rest))) := by simp
    rw [hstr]
    have he95 : e ≠ 95 := by omega
    have hed : isDigit Q e = false := by
      rcases he with rfl | rfl <;> simp [isDigit]
    have hd0 : (pre ++ (w ++ e :: (sign ++ (n ++ 95 :: rest)))).drop (pre.length + w.length) =
        e :: (sign ++ (n ++ 95 :: rest)) := by
      rw [NumberParser.drop_pre, List.drop_left]
    have hd1 : (pre ++ (w ++ e :: (sign ++ (n ++ 95 :: rest)))).drop
        (pre.length + (w.length + 1 + sign.length)) = n ++ 95 :: rest := by
      rw [NumberParser.drop_add_of_eq (NumberParser.drop_succ_of_cons hd0) sign.length _
        (by omega), List.drop_left]
    have hnum := NumberParser.numeral_underline_fails Q []
      (pre ++ (w ++ e :: (sign ++ (n ++ 95 :: rest)))) pre.length
    have hexp := fun a c => NumberParser.parseExponent_to_numeral Q []
      (pre ++ (w ++ e :: (sign ++ (n ++ 95 :: rest)))) pre.length a false c e sign
      (n ++ 95 :: rest) he hs (numeral_head_digit Q hn _) f w.length hd0
    rcases hw with hw | hw
    · refine ⟨⟨qstr "expecting digit", pre ++ (w ++ e :: (sign ++ (n ++ 95 :: rest))),
        pre.length, w.length + 1 + sign.length + n.length + 1, point, true, false⟩, ?_, rfl, ?_⟩
      · rw [NumberParser.parse_decimal_mantissa Q f pre w _ point hw (by omega)
          (by simpa using he95) (by simpa using hed) (by simp; omega) (by simp; omega),
          hexp point false]
        exact hnum point true false n rest hn hrest f _ hd1 (by omega)
      · simp; omega
    · refine ⟨⟨qstr "expecting digit", pre ++ (w ++ e :: (sign ++ (n ++ 95 :: rest))),
        pre.length, w.length + 1 + sign.length + n.length + 1, point, true, true⟩, ?_, rfl, ?_⟩
      · rw [NumberParser.parse_based_mantissa Q f pre w _ point hw (by omega),
          hexp point true]
        exact hnum point true true n rest hn hrest f _ hd1 (by omega)
      · simp; omega

/-- C14: when parse answers true, every underscore of the consumed span has a character
before it and one behind it in the span, and isDigit accepts both, or extended_digit does
where the underscore stands inside the based numeral, that is behind exactly one number
sign; and where a numeral of a literal (at its start, behind the point of a decimal literal,
or in an exponent) is followed by an underscore that no character accepted by isDigit
follows, parse answers false with the message expecting digit and the consumed length ends
right behind that underscore. -/
theorem underscore_rule (Q : QCharData) (f : Nat) :
    (∀ (str : List Nat) (start : Nat) (P : NumberParser),
      NumberParser.parse Q f (NumberParser.new str start) = some (true, P) →
      ∀ l r, (str.drop start).take P.d_off = l ++ 95 :: r →
        ∃ l1 a c r1, l = l1 ++ [a] ∧ r = c :: r1 ∧
          (if l.count 35 = 1 then
            NumberParser.extended_digit Q a = true ∧ NumberParser.extended_digit Q c = true
           else isDigit Q a = true ∧ isDigit Q c = true)) ∧
    (∀ (pre lead n rest : List Nat), NumeralSite lead → Numeral n →
      isDigit Q (rest.headD 0) = false → (lead ++ n).length + 1 ≤ f →
      ∃ P, NumberParser.parse Q f
          (NumberParser.new (pre ++ (lead ++ (n ++ 95 :: rest))) pre.length) = some (false, P) ∧
        P.d_error = qstr "expecting digit" ∧ P.d_off = (lead ++ n).length + 1) := by
  refine ⟨?_, fun pre lead n rest hsite hn hrest hf =>
    parse_fails_at_site Q f pre lead n rest hsite hn hrest hf⟩
  intro str start P h l r e
  obtain ⟨w, post, point, ex, based, hw, rfl, hlit⟩ :=
    NumberParser.parse_reads_literal Q f str start P h
  simp only [hw, List.take_left'] at e
  obtain ⟨l1, a, c, r1, h1, h2, h3⟩ := UnderlinesOk.ok_literal hlit l r e
  rw [Nat.zero_add] at h3
  exact ⟨l1, a, c, r1, h1, h2, h3⟩

/-- C14 at the texts 1__2 and 1_, which fail behind the first underscore, at 1.5_ and 1E2_x,
which fail behind the underscore of the fraction and of the exponent, and at 16#F_F#, which
parse accepts. -/
theorem underscore_rule_witness :
    (∃ P, NumberParser.parse asciiData 4
        (NumberParser.new ([] ++ ([] ++ (qstr "1" ++ 95 :: qstr "_2"))) 0) = some (false, P) ∧
      P.d_error = qstr "expecting digit" ∧ P.d_off = ([] ++ qstr "1").length + 1) ∧
    (∃ P, NumberParser.parse asciiData 4
        (NumberParser.new ([] ++ ([] ++ (qstr "1" ++ 95 :: []))) 0) = some (false, P) ∧
      P.d_error = qstr "expecting digit" ∧ P.d_off = ([] ++ qstr "1").length + 1) ∧
    NumberParser.parse asciiData 5 (NumberParser.new (qstr "1.5_") 0) =
      some (false, ⟨qstr "expecting digit", qstr "1.5_", 0, 4, true, false, false⟩) ∧
    NumberParser.parse asciiData 6 (NumberParser.new (qstr "1E2_x") 0) =
      some (false, ⟨qstr "expecting digit", qstr "1E2_x", 0, 4, false, true, false⟩) ∧
    NumberParser.parse asciiData 8 (NumberParser.new (qstr "16#F_F#") 0) =
      some (true, ⟨[], qstr "16#F_F#", 0, 7, false, false, true⟩) :=
  have h1 : Numeral (qstr "1") := ⟨49, [], rfl, ⟨by decide, by decide⟩, Groups.nil⟩
  ⟨(underscore_rule asciiData 4).2 [] [] (qstr "1") (qstr "_2") (Or.inl rfl) h1 (by decide)
      (by decide),
    (underscore_rule asciiData 4).2 [] [] (qstr "1") [] (Or.inl rfl) h1 (by decide)
      (by decide),
    by decide, by decide, by decide⟩

/-! ## Reset -/

theorem reset_of_text {L L1 : Lexer}
    (h : L1.d_in.map (fun s => s.text) = L.d_in.map (fun s => s.text)) : reset L1 = reset L := by
  unfold reset
  have e : ∀ M : Lexer, M.d_in.map (fun s => ({ s with rest := s.text } : TextStream)) =
      (M.d_in.map (fun s => s.text)).map (fun x => (⟨x, x⟩ : TextStream)) := by
    intro M
    cases M.d_in <;> rfl
  rw [e L1, e L, h]

theorem reset_reset (L : Lexer) : reset (reset L) = reset L := by
  unfold reset
  cases L.d_in <;> rfl

theorem skipWhiteSpace_source (Q : QCharData) (f : Nat) (L L1 : Lexer)
    (h : skipWhiteSpace Q f L = some L1) : L1.d_in = L.d_in := by
  have := (skipWhiteSpace_spec Q f L L1 h).1
  rw [this]

theorem nextLine_text (L : Lexer) :
    (nextLine L).d_in.map (fun s => s.text) = L.d_in.map (fun s => s.text) := by
  unfold nextLine
  cases h : L.d_in <;> simp [h]

theorem lineLoop_text (Q : QCharData) : ∀ (f : Nat) (L : Lexer)
    (r : Sum (Token × Lexer) Lexer), lineLoop Q f L = some r →
    ∃ Lm, Lm.d_in.map (fun s => s.text) = L.d_in.map (fun s => s.text) ∧
      (r = Sum.inr Lm ∨ r = Sum.inl (token Lm T_EOF 0 [])) := by
  intro f
  induction f with
  | zero => intro L r h; simp [lineLoop] at h
  | succ f ih =>
    intro L r h
    rw [lineLoop] at h
    by_cases hc : L.d_colNr ≥ L.d_line.length
    · rw [if_pos hc] at h
      by_cases he : atEnd L = true
      · rw [if_pos he] at h
        exact ⟨L, rfl, Or.inr (Option.some.inj h).symm⟩
      · rw [if_neg he] at h
        cases hs : skipWhiteSpace Q f (nextLine L) with
        | none => rw [hs] at h; simp at h
        | some L2 =>
          rw [hs] at h
          obtain ⟨Lm, e, hr⟩ := ih L2 r h
          refine ⟨Lm, ?_, hr⟩
          rw [e, skipWhiteSpace_source Q f _ _ hs, nextLine_text]
    · rw [if_neg hc] at h
      exact ⟨L, rfl, Or.inl (Option.some.inj h).symm⟩

theorem scanToken_source (Q : QCharData) (f : Nat) (L : Lexer) (t : Token) (L1 : Lexer)
    (h : scanToken Q f L = some (t, L1)) : L1.d_in = L.d_in := by
  by_cases hcol : L.d_colNr < L.d_line.length
  · obtain ⟨tt, len, val, e, _⟩ := scanToken_inLine Q f L hcol t L1 h
    have := congrArg Prod.snd e
    simp only [token] at this
    rw [this]
  · unfold scanToken at h
    rw [if_neg hcol] at h
    simp only [Option.some.injEq, Prod.mk.injEq] at h
    rw [← h.2]

theorem nextToken_text (Q : QCharData) (f : Nat) (L : Lexer) (t : Token) (L1 : Lexer)
    (h : nextToken Q f L = some (t, L1)) :
    L1.d_in.map (fun s => s.text) = L.d_in.map (fun s => s.text) := by
  unfold nextToken at h
  by_cases hin : L.d_in = none
  · rw [if_pos hin] at h
    simp only [token, Option.some.injEq, Prod.mk.injEq] at h
    rw [← h.2]
  · rw [if_neg hin] at h
    unfold advance at h
    cases hs : skipWhiteSpace Q f L with
    | none => rw [hs] at h; simp at h
    | some L2 =>
      rw [hs] at h
      simp only at h
      cases hl : lineLoop Q f L2 with
      | none => rw [hl] at h; simp at h
      | some r =>
        rw [hl] at h
        obtain ⟨Lm, e, hr⟩ := lineLoop_text Q f L2 r hl
        rw [skipWhiteSpace_source Q f L L2 hs] at e
        rcases hr with rfl | rfl
        · simp only at h
          rw [scanToken_source Q f Lm t L1 h, e]
        · simp only [token, Option.some.injEq, Prod.mk.injEq] at h
          rw [← h.2]
          exact e

theorem calls_text (Q : QCharData) (f : Nat) : ∀ (n : Nat) (L : Lexer) (ts : List Token)
    (L1 : Lexer), calls Q f n L = some (ts, L1) →
    L1.d_in.map (fun s => s.text) = L.d_in.map (fun s => s.text) := by
  intro n
  induction n with
  | zero =>
    intro L ts L1 h
    simp only [calls, Option.some.injEq, Prod.mk.injEq] at h
    rw [h.2]
  | succ n ih =>
    intro L ts L1 h
    rw [calls] at h
    cases hn : nextToken Q f L with
    | none => rw [hn] at h; simp at h
    | some r =>
      obtain ⟨t, L2⟩ := r
      rw [hn] at h
      simp only at h
      cases hc : calls Q f n L2 with
      | none => rw [hc] at h; simp at h
      | some r2 =>
        obtain ⟨ts2, L3⟩ := r2
        rw [hc] at h
        simp only [Option.some.injEq, Prod.mk.injEq] at h
        rw [← h.2, ih L2 ts2 L3 hc, nextToken_text Q f L t L2 hn]

/-- C21: after any number of nextToken calls on an attached source, reset leaves the scanner
in the state of the freshly attached source: the source at its start, line number 0, column
0, an empty line buffer and the last token type Invalid. A second reset changes nothing, for
any scanner, and the calls after the reset return what the calls from the start return. -/
theorem reset_restores (Q : QCharData) (f n : Nat) (lines : List (List Nat))
    (ts : List Token) (L1 : Lexer) (h : calls Q f n (attach lines) = some (ts, L1)) :
    reset L1 = attach lines ∧
    attach lines = ⟨some ⟨lines, lines⟩, 0, 0, [], T_Invalid⟩ ∧
    (∀ L : Lexer, reset (reset L) = reset L) ∧
    (∀ g m, calls Q g m (reset L1) = calls Q g m (attach lines)) ∧
    (∀ g m, tokens Q g m (reset L1) = tokens Q g m (attach lines)) := by
  have e : reset L1 = attach lines := by
    rw [reset_of_text (calls_text Q f n _ ts L1 h)]
    rfl
  exact ⟨e, rfl, reset_reset, fun g m => by rw [e], fun g m => by rw [e]⟩

/-- C21 at the source with the lines x and y, after two calls. -/
theorem reset_restores_witness :
    calls asciiData 4 2 (attach [[120], [121]]) =
      some ([mkToken T_Identifier 1 0 1 [120], mkToken T_Identifier 2 0 1 [121]],
        ⟨some ⟨[[120], [121]], []⟩, 2, 1, [121], T_Identifier⟩) ∧
    reset (⟨some ⟨[[120], [121]], []⟩, 2, 1, [121], T_Identifier⟩ : Lexer) =
      attach [[120], [121]] :=
  have h : calls asciiData 4 2 (attach [[120], [121]]) =
      some ([mkToken T_Identifier 1 0 1 [120], mkToken T_Identifier 2 0 1 [121]],
        ⟨some ⟨[[120], [121]], []⟩, 2, 1, [121], T_Identifier⟩) := by decide
  ⟨h, (reset_restores asciiData 4 2 [[120], [121]] _ _ h).1⟩

/-! ## The single branches of the second loop of nextToken -/

theorem nextToken_of_advance (Q : QCharData) (f : Nat) (L Lm : Lexer) (hin : L.d_in ≠ none)
    (ha : advance Q f L = some (Sum.inr Lm)) : nextToken Q f L = scanToken Q f Lm := by
  unfold nextToken
  rw [if_neg hin, ha]

theorem scanToken_tick (Q : QCharData) (f : Nat) (L : Lexer)
    (hcol : L.d_colNr < L.d_line.length) (hc : L.d_line.getD L.d_colNr 0 = 39) :
    scanToken Q f L =
      if lookAhead L 2 = 39 then
        some (token L T_Character 3 ((L.d_line.drop (L.d_colNr + 1)).take 1))
      else some (token L T_Tick 1 []) := by
  unfold scanToken
  rw [if_pos hcol]
  dsimp only
  rw [hc]
  simp

theorem scanToken_minus (Q : QCharData) (f : Nat) (L : Lexer)
    (hcol : L.d_colNr < L.d_line.length) (hc : L.d_line.getD L.d_colNr 0 = 45) :
    scanToken Q f L =
      if lookAhead L 1 = 45 then
        some (token L T_Comment (L.d_line.length - L.d_colNr) (L.d_line.drop (L.d_colNr + 2)))
      else some (token L T_Minus 1 []) := by
  unfold scanToken
  rw [if_pos hcol]
  dsimp only
  rw [hc]
  simp

theorem scanToken_letter (Q : QCharData) (f : Nat) (L : Lexer)
    (hcol : L.d_colNr < L.d_line.length)
    (hl : isLetter Q (L.d_line.getD L.d_colNr 0) = true) :
    scanToken Q f L = ident Q f L := by
  have hd : isDigit Q (L.d_line.getD L.d_colNr 0) = false := by
    cases h : isDigit Q (L.d_line.getD L.d_colNr 0) with
    | false => rfl
    | true =>
      exfalso
      revert hl h
      unfold isLetter isDigit
      split_ifs with hc
      · simp only [Bool.or_eq_true, Bool.and_eq_true, decide_eq_true_eq]
        omega
      · intro hl h
        rw [Q.digit_not_letter _ h] at hl
        cases hl
  unfold scanToken
  rw [if_pos hcol]
  dsimp only
  generalize L.d_line.getD L.d_colNr 0 = c at hl hd
  have hne : ∀ x, x < 65 → c ≠ x := by
    intro x hx hcx
    subst hcx
    revert hl
    unfold isLetter
    have : c < 128 := by omega
    simp only [this, ↓reduceIte, Bool.or_eq_true, Bool.and_eq_true, decide_eq_true_eq]
    omega
  have h124 : c ≠ 124 := by
    intro hcx
    subst hcx
    revert hl
    unfold isLetter
    simp
  rw [if_neg (hne 38 (by decide)), if_neg (hne 40 (by decide)), if_neg (hne 41 (by decide)),
    if_neg (hne 42 (by decide)), if_neg (hne 43 (by decide)), if_neg (hne 44 (by decide)),
    if_neg (hne 45 (by decide)), if_neg (hne 46 (by decide)), if_neg (hne 47 (by decide)),
    if_neg (hne 58 (by decide)), if_neg (hne 59 (by decide)), if_neg (hne 60 (by decide)),
    if_neg (hne 61 (by decide)), if_neg (hne 62 (by decide)), if_neg h124,
    if_neg (hne 39 (by decide)), if_neg (hne 34 (by decide)),
    if_neg (by rw [hd]; decide), if_pos hl]

theorem scanToken_other (Q : QCharData) (f : Nat) (L : Lexer)
    (hcol : L.d_colNr < L.d_line.length)
    (h1 : oneCharDelimiter (L.d_line.getD L.d_colNr 0) = none)
    (h2 : L.d_line.getD L.d_colNr 0 ≠ 39) (h3 : L.d_line.getD L.d_colNr 0 ≠ 34)
    (h4 : isDigit Q (L.d_line.getD L.d_colNr 0) = false)
    (h5 : isLetter Q (L.d_line.getD L.d_colNr 0) = false) :
    scanToken Q f L =
      some (token L T_Invalid 1
        (qstr "unexpected character " ++ [39, L.d_line.getD L.d_colNr 0, 39])) := by
  unfold scanToken
  rw [if_pos hcol]
  dsimp only
  generalize L.d_line.getD L.d_colNr 0 = c at h1 h2 h3 h4 h5
  have hP : ¬ (c = 38 ∨ c = 40 ∨ c = 41 ∨ c = 42 ∨ c = 43 ∨ c = 44 ∨ c = 45 ∨ c = 46 ∨
      c = 47 ∨ c = 58 ∨ c = 59 ∨ c = 60 ∨ c = 61 ∨ c = 62 ∨ c = 124) := by
    intro hP
    rcases hP with rfl | rfl | rfl | rfl | rfl | rfl | rfl | rfl | rfl | rfl | rfl | rfl |
      rfl | rfl | rfl <;> simp [oneCharDelimiter] at h1
  simp only [not_or] at hP
  obtain ⟨p1, p2, p3, p4, p5, p6, p7, p8, p9, p10, p11, p12, p13, p14, p15⟩ := hP
  rw [if_neg p1, if_neg p2, if_neg p3, if_neg p4, if_neg p5, if_neg p6, if_neg p7, if_neg p8,
    if_neg p9, if_neg p10, if_neg p11, if_neg p12, if_neg p13, if_neg p14, if_neg p15,
    if_neg h2, if_neg h3, if_neg (by rw [h4]; decide), if_neg (by rw [h5]; decide)]

/-! ## Character literals -/

/-- C22: when the first part of nextToken has brought the scanner to a tick, nextToken
returns a Character token of length 3 whose text is the character one place on where the
character two places on in the same line is a tick, and the Tick delimiter of length 1 with
no text in every other case. -/
theorem character_or_tick (Q : QCharData) (f : Nat) (L Lm : Lexer) (hin : L.d_in ≠ none)
    (ha : advance Q f L = some (Sum.inr Lm)) (hc : Lm.d_line.getD Lm.d_colNr 0 = 39) :
    ∃ t L1, nextToken Q f L = some (t, L1) ∧
      (Lm.d_line[Lm.d_colNr + 2]? = some 39 →
        t.d_type = T_Character ∧ t.d_len = 3 ∧
        t.d_val = [Lm.d_line.getD (Lm.d_colNr + 1) 0]) ∧
      (Lm.d_line[Lm.d_colNr + 2]? ≠ some 39 →
        t.d_type = T_Tick ∧ t.d_len = 1 ∧ t.d_val = []) ∧
      (t.d_type = T_Character ↔ Lm.d_line[Lm.d_colNr + 2]? = some 39) := by
  have hcol := advance_inr Q f L Lm ha
  rw [nextToken_of_advance Q f L Lm hin ha, scanToken_tick Q f Lm hcol hc]
  by_cases h2 : Lm.d_line[Lm.d_colNr + 2]? = some 39
  · rw [if_pos ((lookAhead_eq_iff Lm 2 39 (by decide) (by decide)).2 h2)]
    have hlt : Lm.d_colNr + 2 < Lm.d_line.length := by
      by_contra hn
      rw [List.getElem?_eq_none (by omega)] at h2
      cases h2
    have hval : (Lm.d_line.drop (Lm.d_colNr + 1)).take 1 =
        [Lm.d_line.getD (Lm.d_colNr + 1) 0] := by
      have hlt1 : Lm.d_colNr + 1 < Lm.d_line.length := by omega
      rw [List.drop_eq_getElem_cons hlt1, List.take_succ_cons, List.take_zero,
        List.getD_eq_getElem Lm.d_line 0 hlt1]
    refine ⟨_, _, rfl, fun _ => ⟨rfl, rfl, hval⟩, fun hn => absurd h2 hn, ?_⟩
    exact ⟨fun _ => h2, fun _ => rfl⟩
  · rw [if_neg (fun h => h2 ((lookAhead_eq_iff Lm 2 39 (by decide) (by decide)).1 h))]
    refine ⟨_, _, rfl, fun h => absurd h h2, fun _ => ⟨rfl, rfl, rfl⟩, ?_⟩
    constructor
    · intro h
      have h3 : (78 : Nat) = 101 := h
      omega
    · intro h
      exact absurd h h2

/-- C22 at the lines that hold a tick, a tick and a tick, where the enclosed character is a
tick itself, and a tick behind which the line ends. -/
theorem character_or_tick_witness :
    (∃ t L1, nextToken asciiData 2 (attach [[39, 39, 39]]) = some (t, L1) ∧
      ([39, 39, 39][0 + 2]? = some 39 →
        t.d_type = T_Character ∧ t.d_len = 3 ∧ t.d_val = [[39, 39, 39].getD (0 + 1) 0]) ∧
      ([39, 39, 39][0 + 2]? ≠ some 39 → t.d_type = T_Tick ∧ t.d_len = 1 ∧ t.d_val = []) ∧
      (t.d_type = T_Character ↔ [39, 39, 39][0 + 2]? = some 39)) ∧
    nextToken asciiData 2 (attach [[39]]) =
      some (mkToken T_Tick 1 0 1 [], ⟨some ⟨[[39]], []⟩, 1, 1, [39], T_Tick⟩) ∧
    nextToken asciiData 2 (attach [[39, 34, 39]]) =
      some (mkToken T_Character 1 0 3 [34],
        ⟨some ⟨[[39, 34, 39]], []⟩, 1, 3, [39, 34, 39], T_Character⟩) :=
  ⟨character_or_tick asciiData 2 (attach [[39, 39, 39]])
      ⟨some ⟨[[39, 39, 39]], []⟩, 1, 0, [39, 39, 39], T_Invalid⟩ (by decide) (by decide)
      (by decide),
    by decide, by decide⟩

/-! ## Unexpected characters -/

/-- C25 as amended: when the first part of nextToken has brought the scanner, in a line
shorter than 65536 characters, to a character that starts no delimiter and is no tick, no
double quote, no digit and no letter, nextToken returns an Invalid token of length 1 whose
text is unexpected character followed by that character between ticks, and leaves the
scanner at the following column of the same line. -/
theorem unexpected_character (Q : QCharData) (f : Nat) (L Lm : Lexer) (hin : L.d_in ≠ none)
    (ha : advance Q f L = some (Sum.inr Lm))
    (h1 : oneCharDelimiter (Lm.d_line.getD Lm.d_colNr 0) = none)
    (h2 : Lm.d_line.getD Lm.d_colNr 0 ≠ 39) (h3 : Lm.d_line.getD Lm.d_colNr 0 ≠ 34)
    (h4 : isDigit Q (Lm.d_line.getD Lm.d_colNr 0) = false)
    (h5 : isLetter Q (Lm.d_line.getD Lm.d_colNr 0) = false)
    (hlen : Lm.d_line.length < 65536) :
    ∃ t L1, nextToken Q f L = some (t, L1) ∧ t.d_type = T_Invalid ∧ t.d_len = 1 ∧
      t.d_val = qstr "unexpected character " ++ [39, Lm.d_line.getD Lm.d_colNr 0, 39] ∧
      t.d_col = Lm.d_colNr ∧ L1.d_colNr = Lm.d_colNr + 1 ∧ L1.d_line = Lm.d_line ∧
      L1.d_lineNr = Lm.d_lineNr ∧ L1.d_in = Lm.d_in := by
  have hcol := advance_inr Q f L Lm ha
  rw [nextToken_of_advance Q f L Lm hin ha, scanToken_other Q f Lm hcol h1 h2 h3 h4 h5]
  refine ⟨_, _, rfl, rfl, rfl, rfl, ?_, ?_, rfl, rfl, rfl⟩
  · show Lm.d_colNr % 65536 = Lm.d_colNr
    exact Nat.mod_eq_of_lt (by omega)
  · show (Lm.d_colNr + 1) % 65536 = Lm.d_colNr + 1
    exact Nat.mod_eq_of_lt (by omega)

/-- C25 as amended, at the line that holds a, a space and a dollar sign, after the token a;
and the tokens for an underscore, a number sign and an exclamation mark. -/
theorem unexpected_character_witness :
    (∃ t L1, nextToken asciiData 3 ⟨some ⟨[[97, 32, 36]], []⟩, 1, 1, [97, 32, 36], T_Identifier⟩
        = some (t, L1) ∧ t.d_type = T_Invalid ∧ t.d_len = 1 ∧
      t.d_val = qstr "unexpected character " ++ [39, [97, 32, 36].getD 2 0, 39] ∧
      t.d_col = 2 ∧ L1.d_colNr = 2 + 1 ∧ L1.d_line = [97, 32, 36] ∧ L1.d_lineNr = 1 ∧
      L1.d_in = some ⟨[[97, 32, 36]], []⟩) ∧
    (tokens asciiData 3 4 (attach [qstr "_#!"])).map (fun ts => ts.map (fun t => t.d_val)) =
      some [qstr "unexpected character \x27_\x27", qstr "unexpected character \x27#\x27",
        qstr "unexpected character \x27!\x27", []] :=
  ⟨unexpected_character asciiData 3
      ⟨some ⟨[[97, 32, 36]], []⟩, 1, 1, [97, 32, 36], T_Identifier⟩
      ⟨some ⟨[[97, 32, 36]], []⟩, 1, 2, [97, 32, 36], T_Identifier⟩
      (by decide) (by decide) (by decide) (by decide) (by decide) (by decide) (by decide)
      (by decide),
    by decide⟩

/-- In a line that opens with n spaces, skipWhiteSpace brings the column from any place in
them to the character behind them. -/
theorem skipWhiteSpace_pad (Q : QCharData) (L : Lexer) (n : Nat) (tail : List Nat)
    (hline : L.d_line = List.replicate n 32 ++ tail) (hn : n < 65536)
    (ht : isSpace Q (tail.headD 0) = false) :
    ∀ (m j f : Nat), j + m = n → m + 1 ≤ f →
    skipWhiteSpace Q f { L with d_colNr := j } = some { L with d_colNr := n } := by
  intro m
  induction m with
  | zero =>
    intro j f hj hf
    obtain ⟨g, rfl⟩ : ∃ g, f = g + 1 := ⟨f - 1, by omega⟩
    have hjn : j = n := by omega
    subst hjn
    rw [skipWhiteSpace]
    have hc : L.d_line.getD j 0 = tail.headD 0 := by
      rw [hline, List.getD_eq_getElem?_getD, List.getElem?_append_right (by simp)]
      cases tail <;> simp
    simp only [hc, ht, Bool.false_eq_true, and_false, ↓reduceIte]
  | succ m ih =>
    intro j f hj hf
    obtain ⟨g, rfl⟩ : ∃ g, f = g + 1 := ⟨f - 1, by omega⟩
    rw [skipWhiteSpace]
    have hlt : j < L.d_line.length := by
      rw [hline, List.length_append, List.length_replicate]
      omega
    have hc : L.d_line.getD j 0 = 32 := by
      have hjn : j < n := by omega
      rw [hline, List.getD_eq_getElem?_getD,
        List.getElem?_append_left (by rw [List.length_replicate]; exact hjn),
        List.getElem?_replicate, if_pos hjn]
      rfl
    have hsp : isSpace Q 32 = true := by simp [isSpace]
    simp only [hlt, hc, hsp, and_self, ↓reduceIte]
    rw [Nat.mod_eq_of_lt (by omega)]
    exact ih (j + 1) g (by omega) (by omega)

/-- The first part of the first nextToken call on a source with one line that opens with n
spaces: the line is read and the scanner stands behind the spaces. -/
theorem advance_pad (Q : QCharData) (n : Nat) (tail : List Nat) (f : Nat) (hn : n < 65536)
    (ht : isSpace Q (tail.headD 0) = false) (ht1 : 1 ≤ tail.length) (hf : n + 3 ≤ f) :
    advance Q f (attach [List.replicate n 32 ++ tail]) =
      some (Sum.inr ⟨some ⟨[List.replicate n 32 ++ tail], []⟩, 1, n,
        List.replicate n 32 ++ tail, T_Invalid⟩) := by
  obtain ⟨g, rfl⟩ : ∃ g, f = g + 1 + 1 := ⟨f - 2, by omega⟩
  unfold advance
  simp only [attach, setStream, reset, new, Option.map_some']
  rw [skipWhiteSpace]
  simp only [List.length_nil, Nat.lt_irrefl, false_and, ↓reduceIte]
  rw [lineLoop]
  simp only [List.length_nil, ge_iff_le, le_refl, ↓reduceIte, atEnd, List.isEmpty_cons,
    Bool.false_eq_true, nextLine, List.headD_cons, List.tail_cons]
  have hs := skipWhiteSpace_pad Q
    ⟨some ⟨[List.replicate n 32 ++ tail], []⟩, 1, 0, List.replicate n 32 ++ tail, T_Invalid⟩
    n tail rfl hn ht n 0 (g + 1) (by omega) (by omega)
  simp only at hs
  simp only [Nat.zero_add, Nat.reduceMod]
  rw [hs]
  simp only
  rw [lineLoop]
  rw [if_neg (by
    simp only [List.length_append, List.length_replicate, ge_iff_le, not_le]
    omega)]

theorem nextToken_pad (Q : QCharData) (n : Nat) (tail : List Nat) (f : Nat) (hn : n < 65536)
    (ht : isSpace Q (tail.headD 0) = false) (ht1 : 1 ≤ tail.length) (hf : n + 3 ≤ f) :
    nextToken Q f (attach [List.replicate n 32 ++ tail]) =
      scanToken Q f ⟨some ⟨[List.replicate n 32 ++ tail], []⟩, 1, n,
        List.replicate n 32 ++ tail, T_Invalid⟩ :=
  nextToken_of_advance Q f _ _ (by simp [attach, setStream, reset])
    (advance_pad Q n tail f hn ht ht1 hf)

theorem getD_pad (n : Nat) (tail : List Nat) :
    (List.replicate n 32 ++ tail).getD n 0 = tail.headD 0 := by
  rw [List.getD_eq_getElem?_getD, List.getElem?_append_right (by simp)]
  cases tail <;> simp

/-- The first token of a source with one line that holds n spaces and the character c, where
c starts no delimiter and is no tick, double quote, digit, letter or white space. -/
theorem nextToken_pad_other (Q : QCharData) (n c : Nat) (f : Nat) (hn : n < 65536)
    (hf : n + 3 ≤ f) (h0 : isSpace Q c = false)
    (h1 : oneCharDelimiter c = none) (h2 : c ≠ 39) (h3 : c ≠ 34)
    (h4 : isDigit Q c = false) (h5 : isLetter Q c = false) :
    nextToken Q f (attach [List.replicate n 32 ++ [c]]) =
      some (token ⟨some ⟨[List.replicate n 32 ++ [c]], []⟩, 1, n,
        List.replicate n 32 ++ [c], T_Invalid⟩ T_Invalid 1
          (qstr "unexpected character " ++ [39, c, 39])) := by
  have hg : (List.replicate n 32 ++ [c]).getD n 0 = c := getD_pad n [c]
  rw [nextToken_pad Q n [c] f hn h0 (by simp) hf,
    scanToken_other Q f _ (by simp) (by simp only [hg]; exact h1)
      (by simp only [hg]; exact h2) (by simp only [hg]; exact h3)
      (by simp only [hg]; exact h4) (by simp only [hg]; exact h5)]
  simp only [hg]

/-- C25 as stated fails: in the line that holds 65535 spaces and a dollar sign, the Invalid
token for the dollar sign stands at column 65535, and the scanner is left at column 0, not
at the following column 65536. -/
theorem unexpected_character_column_wraps :
    ∃ t L1, nextToken asciiData 65538 (attach [List.replicate 65535 32 ++ [36]]) =
        some (t, L1) ∧
      t.d_type = T_Invalid ∧ t.d_col = 65535 ∧ t.d_len = 1 ∧ L1.d_colNr = 0 :=
  ⟨_, _, nextToken_pad_other asciiData 65535 36 65538 (by decide) (by decide) (by decide)
    (by decide) (by decide) (by decide) (by decide) (by decide), rfl, rfl, rfl, rfl⟩

/-! ## Comments -/

/-- C23 as amended: on a source whose lines are all shorter than 65536 characters, when the
first part of nextToken has brought the scanner to a dash, nextToken returns a token that
starts there. If the next character of the line is a dash too, it is a Comment token whose
length is the whole remainder of the line and whose text is the line behind the two dashes;
the scanner is left at the end of that line, and whatever a following call returns is either
EOF or a token of a later line. Otherwise it is the Minus delimiter of length 1. -/
theorem comment_to_line_end (Q : QCharData) (lines : List (List Nat)) (hs : Short lines)
    (f k : Nat) (L Lm : Lexer) (hat : At lines k L)
    (ha : advance Q f L = some (Sum.inr Lm))
    (hc : Lm.d_line.getD Lm.d_colNr 0 = 45) :
    ∃ k1 t L1, At lines k1 Lm ∧ nextToken Q f L = some (t, L1) ∧ t.d_col = Lm.d_colNr ∧
      t.d_line = k1 % 65536 ∧
      (Lm.d_line[Lm.d_colNr + 1]? = some 45 →
        t.d_type = T_Comment ∧ t.d_len = Lm.d_line.length - Lm.d_colNr ∧
        t.d_val = Lm.d_line.drop (Lm.d_colNr + 2) ∧ L1.d_line = Lm.d_line ∧
        L1.d_colNr = Lm.d_line.length ∧
        ∀ f2 t2 L2, nextToken Q f2 L1 = some (t2, L2) →
          t2.d_type = T_EOF ∨ ∃ k2, k1 < k2 ∧ At lines k2 L2 ∧ t2.d_line = k2 % 65536) ∧
      (Lm.d_line[Lm.d_colNr + 1]? ≠ some 45 →
        t.d_type = T_Minus ∧ t.d_len = 1 ∧ t.d_val = [] ∧ L1.d_colNr = Lm.d_colNr + 1) := by
  have hin : L.d_in ≠ none := by rw [hat.1]; simp
  obtain ⟨k1, Lm1, hatm, _, _, _, hr⟩ := advance_spec Q lines hs f k L _ hat ha
  have hLm : Lm1 = Lm := by
    rcases hr with ⟨e, _⟩ | ⟨e, _⟩
    · exact (Sum.inr.inj e).symm
    · cases e
  subst hLm
  have hcol := advance_inr Q f L Lm1 ha
  have hshort : Lm1.d_line.length < 65536 := hatm.2.2.1 ▸ curLine_short hs k1
  have hmod : Lm1.d_colNr % 65536 = Lm1.d_colNr := Nat.mod_eq_of_lt (by omega)
  have hnr : Lm1.d_lineNr % 65536 = k1 % 65536 := by rw [hatm.2.1, Nat.mod_mod]
  have hnt := nextToken_of_advance Q f L Lm1 hin ha
  rw [scanToken_minus Q f Lm1 hcol hc] at hnt
  have hla := lookAhead_eq_iff Lm1 1 45 (by decide) (by decide)
  by_cases h45 : Lm1.d_line[Lm1.d_colNr + 1]? = some 45
  · rw [if_pos (hla.2 h45)] at hnt
    refine ⟨k1, _, _, hatm, hnt, hmod, hnr, fun _ => ⟨rfl, ?_, rfl, rfl, ?_, ?_⟩,
      fun h => absurd h45 h⟩
    · show (Lm1.d_line.length - Lm1.d_colNr) % 65536 = Lm1.d_line.length - Lm1.d_colNr
      exact Nat.mod_eq_of_lt (by omega)
    · show (Lm1.d_colNr + (Lm1.d_line.length - Lm1.d_colNr)) % 65536 = Lm1.d_line.length
      rw [Nat.add_sub_cancel' (Nat.le_of_lt hcol)]
      exact Nat.mod_eq_of_lt hshort
    · intro f2 t2 L2 h2
      have hcolend : (Lm1.d_colNr + (Lm1.d_line.length - Lm1.d_colNr)) % 65536
          = Lm1.d_line.length := by
        rw [Nat.add_sub_cancel' (Nat.le_of_lt hcol)]
        exact Nat.mod_eq_of_lt hshort
      have hat1 : At lines k1 (token Lm1 T_Comment (Lm1.d_line.length - Lm1.d_colNr)
          (Lm1.d_line.drop (Lm1.d_colNr + 2))).2 := by
        refine ⟨hatm.1, hatm.2.1, hatm.2.2.1, hatm.2.2.2.1, ?_⟩
        show (Lm1.d_colNr + (Lm1.d_line.length - Lm1.d_colNr)) % 65536 ≤ Lm1.d_line.length
        rw [hcolend]
      obtain ⟨k2, hat2, hl2, hle, _, _, _, hcase⟩ :=
        nextToken_step Q lines hs f2 k1 _ t2 L2 hat1 h2
      rcases hcase with ⟨e, _⟩ | ⟨_, e1, e2⟩
      · exact Or.inl e
      · right
        refine ⟨k2, ?_, hat2, hl2⟩
        rcases hle with hlt | ⟨e3, e4⟩
        · exact hlt
        · exfalso
          subst e3
          have e5 : (Lm1.d_colNr + (Lm1.d_line.length - Lm1.d_colNr)) % 65536 ≤ t2.d_col := e4
          rw [hcolend, hatm.2.2.1] at e5
          omega
  · have hne : ¬ lookAhead Lm1 1 = 45 := fun h => h45 (hla.1 h)
    rw [if_neg hne] at hnt
    refine ⟨k1, _, _, hatm, hnt, hmod, hnr, fun h => absurd h h45, fun _ => ⟨rfl, rfl, rfl, ?_⟩⟩
    show (Lm1.d_colNr + 1) % 65536 = Lm1.d_colNr + 1
    exact Nat.mod_eq_of_lt (by omega)

/-- C23 as amended, at the source with the lines a -- b and c, after the token a. -/
theorem comment_to_line_end_witness :
    Short [qstr "a -- b", qstr "c"] ∧
    ∃ k1 t L1, At [qstr "a -- b", qstr "c"] k1
        ⟨some ⟨[qstr "a -- b", qstr "c"], [qstr "c"]⟩, 1, 2, qstr "a -- b", T_Identifier⟩ ∧
      nextToken asciiData 3
        ⟨some ⟨[qstr "a -- b", qstr "c"], [qstr "c"]⟩, 1, 1, qstr "a -- b", T_Identifier⟩
          = some (t, L1) ∧ t.d_col = 2 ∧ t.d_line = k1 % 65536 ∧
      ((qstr "a -- b")[2 + 1]? = some 45 →
        t.d_type = T_Comment ∧ t.d_len = (qstr "a -- b").length - 2 ∧
        t.d_val = (qstr "a -- b").drop (2 + 2) ∧ L1.d_line = qstr "a -- b" ∧
        L1.d_colNr = (qstr "a -- b").length ∧
        ∀ f2 t2 L2, nextToken asciiData f2 L1 = some (t2, L2) →
          t2.d_type = T_EOF ∨
          ∃ k2, k1 < k2 ∧ At [qstr "a -- b", qstr "c"] k2 L2 ∧ t2.d_line = k2 % 65536) ∧
      ((qstr "a -- b")[2 + 1]? ≠ some 45 →
        t.d_type = T_Minus ∧ t.d_len = 1 ∧ t.d_val = [] ∧ L1.d_colNr = 2 + 1) :=
  ⟨by simp [Short, qstr],
   comment_to_line_end asciiData [qstr "a -- b", qstr "c"] (by simp [Short, qstr]) 3 1
    ⟨some ⟨[qstr "a -- b", qstr "c"], [qstr "c"]⟩, 1, 1, qstr "a -- b", T_Identifier⟩
    ⟨some ⟨[qstr "a -- b", qstr "c"], [qstr "c"]⟩, 1, 2, qstr "a -- b", T_Identifier⟩
    ⟨rfl, rfl, rfl, by decide, by decide⟩ (by decide) (by decide)⟩

/-- The first two calls of nextToken on a source whose only line is two dashes and n more
characters, where n + 2 is a multiple of 65536: both return the same Comment token. -/
theorem nextToken_comment_twice (Q : QCharData) (rest : List Nat) (n : Nat)
    (h : rest.length = n) (hn : (n + 2) % 65536 = 0) :
    nextToken Q 2 (attach [45 :: 45 :: rest]) =
      some (mkToken T_Comment 1 0 0 rest,
        ⟨some ⟨[45 :: 45 :: rest], []⟩, 1, 0, 45 :: 45 :: rest, T_Comment⟩) ∧
    nextToken Q 2 ⟨some ⟨[45 :: 45 :: rest], []⟩, 1, 0, 45 :: 45 :: rest, T_Comment⟩ =
      some (mkToken T_Comment 1 0 0 rest,
        ⟨some ⟨[45 :: 45 :: rest], []⟩, 1, 0, 45 :: 45 :: rest, T_Comment⟩) := by
  have hns : isSpace Q 45 = false := by simp [isSpace]
  have hscan : ∀ tt, scanToken Q 2
      ⟨some ⟨[45 :: 45 :: rest], []⟩, 1, 0, 45 :: 45 :: rest, tt⟩ =
      some (mkToken T_Comment 1 0 0 rest,
        ⟨some ⟨[45 :: 45 :: rest], []⟩, 1, 0, 45 :: 45 :: rest, T_Comment⟩) := by
    intro tt
    rw [scanToken_minus Q 2 ⟨some ⟨[45 :: 45 :: rest], []⟩, 1, 0, 45 :: 45 :: rest, tt⟩
      (Nat.succ_pos _) rfl]
    have hla : lookAhead ⟨some ⟨[45 :: 45 :: rest], []⟩, 1, 0, 45 :: 45 :: rest, tt⟩ 1 = 45 := by
      simp [lookAhead]
    rw [if_pos hla]
    have hlen : (45 :: 45 :: rest).length - 0 = n + 2 := by
      simp only [List.length_cons, h, Nat.sub_zero]
    simp only [token, hlen, mkToken, Nat.zero_add, hn, List.drop_succ_cons, List.drop_zero]
    rfl
  constructor
  · rw [nextToken_attach_single Q 2 (45 :: 45 :: rest) (le_refl _) (Nat.succ_pos _) hns,
      nextToken_of_advance Q 2 ⟨some ⟨[45 :: 45 :: rest], []⟩, 1, 0, 45 :: 45 :: rest, T_Invalid⟩
        _ (Option.some_ne_none _)
        (advance_stay Q 2 _ (by decide) (Nat.succ_pos _) hns)]
    exact hscan _
  · rw [nextToken_of_advance Q 2 ⟨some ⟨[45 :: 45 :: rest], []⟩, 1, 0, 45 :: 45 :: rest, T_Comment⟩
        _ (Option.some_ne_none _)
        (advance_stay Q 2 _ (by decide) (Nat.succ_pos _) hns)]
    exact hscan _

/-- C23 as stated fails: on the line that holds two dashes and 65534 letters x, the Comment
token has the length field 0, not the 65536 characters of the line, the scanner stays at
column 0, and the following call returns the same Comment token of the same line again. -/
theorem comment_returned_again_on_long_line :
    ∃ t L1, nextToken asciiData 2 (attach [45 :: 45 :: List.replicate 65534 120])
        = some (t, L1) ∧
      t.d_type = T_Comment ∧ t.d_len = 0 ∧ L1.d_colNr = 0 ∧
      nextToken asciiData 2 L1 = some (t, L1) :=
  ⟨_, _, (nextToken_comment_twice asciiData _ 65534 (List.length_replicate _ _) (by decide)).1,
    rfl, rfl, rfl,
    (nextToken_comment_twice asciiData _ 65534 (List.length_replicate _ _) (by decide)).2⟩

/-! ## Identifiers -/

/-- The loop of ident leaves with an offset when the fuel covers the rest of the line. -/
theorem identLoop_total (Q : QCharData) (L : Lexer) : ∀ (f off : Nat),
    L.d_line.length - (L.d_colNr + off) + 1 ≤ f → ∃ off1, identLoop Q L f off = some off1 := by
  intro f
  induction f with
  | zero => intro off h; omega
  | succ g ih =>
    intro off h
    rw [identLoop]
    split_ifs with h1
    · exact ⟨off, rfl⟩
    · have hne : lookAhead2 L off ≠ 0 := by
        intro h0
        apply h1
        rw [h0]
        exact ⟨isLetterOrNumber_zero Q, by decide⟩
      have hin := (lookAhead2_pos L off _ rfl hne).1
      exact ih (off + 1) (by omega)

theorem findReservedWord_xx (Q : QCharData) (rest : List Nat) :
    findReservedWord Q (120 :: 120 :: rest) = T_Invalid := by
  simp [findReservedWord, isCase, at_, check, checkLoop, toLower, cstrAt, qstr]

/-- C24 as amended: when the first part of nextToken has brought the scanner, in a line
shorter than 65536 characters, to a letter, nextToken returns a token that starts there and
whose span is the longest run of underscores and of characters that isLetterOrNumber accepts
(below 128 these are the letters and the digits); when the previous token was not a Tick its
type is the answer of findReservedWord on the span if that is not Invalid, and Identifier
otherwise. -/
theorem identifier_maximal (Q : QCharData) (f : Nat) (L Lm : Lexer) (hin : L.d_in ≠ none)
    (ha : advance Q f L = some (Sum.inr Lm))
    (hl : isLetter Q (Lm.d_line.getD Lm.d_colNr 0) = true)
    (hlen : Lm.d_line.length < 65536) (hf : Lm.d_line.length - Lm.d_colNr + 1 ≤ f) :
    ∃ n t L1, nextToken Q f L = some (t, L1) ∧ t.d_col = Lm.d_colNr ∧ t.d_len = n ∧
      1 ≤ n ∧ Lm.d_colNr + n ≤ Lm.d_line.length ∧ L1.d_colNr = Lm.d_colNr + n ∧
      (∀ j, j < n → isLetterOrNumber Q (Lm.d_line.getD (Lm.d_colNr + j) 0) = true ∨
        Lm.d_line.getD (Lm.d_colNr + j) 0 = 95) ∧
      (Lm.d_colNr + n < Lm.d_line.length →
        isLetterOrNumber Q (Lm.d_line.getD (Lm.d_colNr + n) 0) = false ∧
        Lm.d_line.getD (Lm.d_colNr + n) 0 ≠ 95) ∧
      (L.d_lastTokenType ≠ T_Tick →
        t.d_type =
          if findReservedWord Q ((Lm.d_line.drop Lm.d_colNr).take n) ≠ T_Invalid
          then findReservedWord Q ((Lm.d_line.drop Lm.d_colNr).take n) else T_Identifier) ∧
      (∀ c, c < 128 →
        (isLetterOrNumber Q c = true ↔ isLetter Q c = true ∨ isDigit Q c = true)) := by
  have hcol := advance_inr Q f L Lm ha
  have hlast := (advance_last Q f L _ ha).1 Lm rfl
  obtain ⟨n, hn⟩ := identLoop_total Q Lm f 0 (by rw [Nat.add_zero]; exact hf)
  obtain ⟨_, e2, e3, e4, e5⟩ := identLoop_spec Q Lm f 0 n hn
  have hb := e2 (by omega)
  have hla : ∀ j, Lm.d_colNr + j < Lm.d_line.length →
      lookAhead2 Lm j = Lm.d_line.getD (Lm.d_colNr + j) 0 := by
    intro j hj
    simp [lookAhead2, hj]
  have hn1 : 1 ≤ n := by
    by_contra hc
    have h0 : n = 0 := by omega
    subst h0
    rw [hla 0 (by omega), Nat.add_zero, isLetterOrNumber_of_isLetter hl] at e4
    cases e4
  have hnt : nextToken Q f L = ident Q f Lm := by
    rw [nextToken_of_advance Q f L Lm hin ha, scanToken_letter Q f Lm hcol hl]
  have hm1 : Lm.d_colNr % 65536 = Lm.d_colNr := Nat.mod_eq_of_lt (by omega)
  have hm2 : n % 65536 = n := Nat.mod_eq_of_lt (by omega)
  have hm3 : (Lm.d_colNr + n) % 65536 = Lm.d_colNr + n := Nat.mod_eq_of_lt (by omega)
  have hfr := findReservedWord_le Q ((Lm.d_line.drop Lm.d_colNr).take n)
  have hres : ∃ tt val, ident Q f Lm = some (token Lm tt n val) ∧
      (Lm.d_lastTokenType ≠ T_Tick → tt % 256 =
        if findReservedWord Q ((Lm.d_line.drop Lm.d_colNr).take n) ≠ T_Invalid
        then findReservedWord Q ((Lm.d_line.drop Lm.d_colNr).take n) else T_Identifier) := by
    unfold ident
    rw [hn]
    dsimp only
    by_cases h1 : Lm.d_lastTokenType = T_Tick
    · rw [if_pos h1]
      exact ⟨_, _, rfl, fun h => absurd h1 h⟩
    · rw [if_neg h1]
      by_cases h2 : findReservedWord Q ((Lm.d_line.drop Lm.d_colNr).take n) ≠ T_Invalid
      · rw [if_pos h2]
        refine ⟨_, _, rfl, fun _ => ?_⟩
        rw [if_pos h2]
        apply Nat.mod_eq_of_lt
        simp only [T_xor] at hfr
        omega
      · rw [if_neg h2]
        refine ⟨_, _, rfl, fun _ => ?_⟩
        rw [if_neg h2]
        rfl
  obtain ⟨tt, val, hid, hty⟩ := hres
  refine ⟨n, _, _, hnt.trans hid, hm1, hm2, hn1, hb, hm3, ?_, ?_, ?_, ?_⟩
  · intro j hj
    have := e3 j (Nat.zero_le _) hj
    rw [hla j (by omega)] at this
    exact this
  · intro hlt
    rw [hla n hlt] at e4 e5
    exact ⟨e4, e5⟩
  · intro h
    exact hty (by rw [hlast]; exact h)
  · intro c hc
    unfold isLetterOrNumber isLetter isDigit
    simp only [hc, ↓reduceIte, Bool.or_eq_true]

/-- C24 as amended, at the line that holds x, a space and End_1 followed by a semicolon,
after the token x. -/
theorem identifier_maximal_witness :
    ∃ n t L1, nextToken asciiData 8
        ⟨some ⟨[qstr "x End_1;"], []⟩, 1, 1, qstr "x End_1;", T_Identifier⟩ = some (t, L1) ∧
      t.d_col = 2 ∧ t.d_len = n ∧ 1 ≤ n ∧ 2 + n ≤ (qstr "x End_1;").length ∧
      L1.d_colNr = 2 + n ∧
      (∀ j, j < n → isLetterOrNumber asciiData ((qstr "x End_1;").getD (2 + j) 0) = true ∨
        (qstr "x End_1;").getD (2 + j) 0 = 95) ∧
      (2 + n < (qstr "x End_1;").length →
        isLetterOrNumber asciiData ((qstr "x End_1;").getD (2 + n) 0) = false ∧
        (qstr "x End_1;").getD (2 + n) 0 ≠ 95) ∧
      (T_Identifier ≠ T_Tick →
        t.d_type =
          if findReservedWord asciiData (((qstr "x End_1;").drop 2).take n) ≠ T_Invalid
          then findReservedWord asciiData (((qstr "x End_1;").drop 2).take n)
          else T_Identifier) ∧
      (∀ c, c < 128 →
        (isLetterOrNumber asciiData c = true ↔
          isLetter asciiData c = true ∨ isDigit asciiData c = true)) :=
  identifier_maximal asciiData 8
    ⟨some ⟨[qstr "x End_1;"], []⟩, 1, 1, qstr "x End_1;", T_Identifier⟩
    ⟨some ⟨[qstr "x End_1;"], []⟩, 1, 2, qstr "x End_1;", T_Identifier⟩
    (by decide) (by decide) (by decide) (by decide) (by decide)

/-- The first token of a source whose only line is n + 2 letters x. -/
theorem nextToken_xs (Q : QCharData) (n f : Nat) (hf : n + 3 ≤ f) :
    nextToken Q f (attach [List.replicate (n + 2) 120]) =
      some (token ⟨some ⟨[List.replicate (n + 2) 120], []⟩, 1, 0, List.replicate (n + 2) 120,
        T_Invalid⟩ T_Identifier (n + 2) (List.replicate (n + 2) 120)) := by
  have hlen : (List.replicate (n + 2) 120).length = n + 2 := List.length_replicate _ _
  have hns : isSpace Q ((List.replicate (n + 2) 120).getD 0 0) = false := rfl
  have hlet : isLetter Q 120 = true := rfl
  have hlon : isLetterOrNumber Q 120 = true := rfl
  generalize hL : (⟨some ⟨[List.replicate (n + 2) 120], []⟩, 1, 0, List.replicate (n + 2) 120,
    T_Invalid⟩ : Lexer) = Lm
  have hline : Lm.d_line = List.replicate (n + 2) 120 := by rw [← hL]
  have hc0 : Lm.d_colNr = 0 := by rw [← hL]
  have hlt : Lm.d_lastTokenType = T_Invalid := by rw [← hL]
  have hcol : Lm.d_colNr < Lm.d_line.length := by rw [hc0, hline, hlen]; omega
  have hget : ∀ j, j < n + 2 → Lm.d_line.getD (Lm.d_colNr + j) 0 = 120 := by
    intro j hj
    rw [hc0, hline, Nat.zero_add, List.getD_eq_getElem?_getD, List.getElem?_replicate,
      if_pos hj]
    rfl
  have hget0 : Lm.d_line.getD Lm.d_colNr 0 = 120 := hget 0 (by omega)
  rw [nextToken_attach_single Q f _ (by omega) (by rw [hlen]; omega) hns, hL,
    nextToken_of_advance Q f Lm Lm (by rw [← hL]; exact Option.some_ne_none _)
      (advance_stay Q f Lm (by omega) hcol (by rw [hget0]; rfl)),
    scanToken_letter Q f Lm hcol (by rw [hget0]; exact hlet)]
  obtain ⟨m, hm⟩ := identLoop_total Q Lm f 0 (by rw [hline, hlen, hc0]; omega)
  obtain ⟨_, e2, e3, e4, e5⟩ := identLoop_spec Q Lm f 0 m hm
  have hb := e2 (by omega)
  have hmn : m = n + 2 := by
    rw [hline, hlen, hc0] at hb
    by_contra hne
    have hlt2 : m < n + 2 := by omega
    have hla : lookAhead2 Lm m = 120 := by
      unfold lookAhead2
      rw [if_pos (by rw [hline, hlen, hc0]; omega), hget m hlt2]
    rw [hla, hlon] at e4
    cases e4
  subst hmn
  unfold ident
  rw [hm]
  dsimp only
  have hspan : (Lm.d_line.drop Lm.d_colNr).take (n + 2) = List.replicate (n + 2) 120 := by
    rw [hc0, hline, List.drop_zero, List.take_of_length_le (by rw [hlen])]
  rw [hspan, if_neg (by rw [hlt]; decide)]
  have hfr : findReservedWord Q (List.replicate (n + 2) 120) = T_Invalid :=
    findReservedWord_xx Q (List.replicate n 120)
  rw [hfr, if_neg (by simp)]

/-- C24 as stated fails: on the line of 65536 letters x the Identifier token has the length
field 0 and the scanner stays at column 0, while the run of letters is 65536 long. -/
theorem identifier_length_wraps :
    ∃ t L1, nextToken asciiData 65537 (attach [List.replicate (65534 + 2) 120])
        = some (t, L1) ∧
      t.d_type = T_Identifier ∧ t.d_len = 0 ∧ L1.d_colNr = 0 ∧
      t.d_val = List.replicate (65534 + 2) 120 :=
  ⟨_, _, nextToken_xs asciiData 65534 65537 (by decide), rfl, rfl, rfl, rfl⟩

/-- Above 127 isLetterOrNumber accepts more than letters and decimal digits: with the
superscript two of category No behind a letter x, ident reads both as one Identifier. -/
theorem ident_reads_superscript_two :
    tokens superscriptData 4 3 (attach [[120, 178]]) =
      some [mkToken T_Identifier 1 0 2 [120, 178], mkToken T_EOF 1 2 0 []] ∧
    isLetter superscriptData 178 = false ∧ isDigit superscriptData 178 = false := by
  decide

/-! ## Diagnostics of Invalid tokens -/

namespace NumberParser

theorem error_told (P : NumberParser) (m : String)
    (hm : qstr m ∈ numericMessages) (e : List Nat) :
    ((error P m).1 = false → (error P m).2.d_error ∈ numericMessages) ∧
    ((error P m).1 = true → (error P m).2.d_error = e) :=
  ⟨fun _ => hm, fun h => (by cases h)⟩

/-- After a failure of the loop of numeral one of the four messages is stored, after a
success the stored message is the one from before. -/
theorem numeralLoop_told (Q : QCharData) : ∀ (f : Nat) (P : NumberParser)
    (r : Bool × NumberParser), numeralLoop Q f P = some r →
    (r.1 = false → r.2.d_error ∈ numericMessages) ∧ (r.1 = true → r.2.d_error = P.d_error) := by
  intro f
  induction f with
  | zero => intro P r h; simp [numeralLoop] at h
  | succ f ih =>
    intro P r h
    rw [numeralLoop] at h
    simp only at h
    split_ifs at h
    · have e := ih _ _ h
      exact ⟨e.1, e.2⟩
    · cases h
      exact error_told _ _ (by decide) _
    · have e := ih _ _ h
      exact ⟨e.1, e.2⟩
    · exact ih _ _ h
    · cases h
      exact ⟨fun h => (by cases h), fun _ => rfl⟩

theorem numeral_told (Q : QCharData) (f : Nat) (P : NumberParser) (r : Bool × NumberParser)
    (h : numeral Q f P = some r) :
    (r.1 = false → r.2.d_error ∈ numericMessages) ∧ (r.1 = true → r.2.d_error = P.d_error) := by
  unfold numeral at h
  split_ifs at h
  · cases h
    exact error_told _ _ (by decide) _
  · have e := numeralLoop_told Q f _ r h
    exact ⟨e.1, e.2⟩

theorem basedNumeralLoop_told (Q : QCharData) : ∀ (f : Nat) (P : NumberParser)
    (r : Bool × NumberParser), basedNumeralLoop Q f P = some r →
    (r.1 = false → r.2.d_error ∈ numericMessages) ∧ (r.1 = true → r.2.d_error = P.d_error) := by
  intro f
  induction f with
  | zero => intro P r h; simp [basedNumeralLoop] at h
  | succ f ih =>
    intro P r h
    rw [basedNumeralLoop] at h
    simp only at h
    split_ifs at h
    · have e := ih _ _ h
      exact ⟨e.1, e.2⟩
    · cases h
      exact error_told _ _ (by decide) _
    · have e := ih _ _ h
      exact ⟨e.1, e.2⟩
    · exact ih _ _ h
    · cases h
      exact ⟨fun h => (by cases h), fun _ => rfl⟩

theorem basedNumeral_told (Q : QCharData) (f : Nat) (P : NumberParser)
    (r : Bool × NumberParser) (h : basedNumeral Q f P = some r) :
    (r.1 = false → r.2.d_error ∈ numericMessages) ∧ (r.1 = true → r.2.d_error = P.d_error) := by
  unfold basedNumeral at h
  split_ifs at h
  · cases h
    exact error_told _ _ (by decide) _
  · have e := basedNumeralLoop_told Q f _ r h
    exact ⟨e.1, e.2⟩

theorem exponent_told (Q : QCharData) (f : Nat) (P : NumberParser) (r : Bool × NumberParser)
    (h : exponent Q f P = some r) :
    (r.1 = false → r.2.d_error ∈ numericMessages) ∧ (r.1 = true → r.2.d_error = P.d_error) := by
  unfold exponent at h
  simp only at h
  split_ifs at h
  · have e := numeral_told Q f _ r h
    exact ⟨e.1, e.2⟩
  · exact numeral_told Q f _ r h
  · cases h
    exact ⟨fun h => (by cases h), fun _ => rfl⟩
  · cases h
    exact error_told _ _ (by decide) _

theorem parseExponent_told (Q : QCharData) (f : Nat) (P : NumberParser)
    (r : Bool × NumberParser) (h : parseExponent Q f P = some r) :
    (r.1 = false → r.2.d_error ∈ numericMessages) ∧ (r.1 = true → r.2.d_error = P.d_error) := by
  unfold parseExponent at h
  split_ifs at h
  · have e := exponent_told Q f _ r h
    exact ⟨e.1, e.2⟩
  · cases h
    exact ⟨fun h => (by cases h), fun _ => rfl⟩

/-- The answer of parse: false with one of the four messages stored, or true with the
message the parser held before. -/
theorem parse_told (Q : QCharData) (f : Nat) (P0 : NumberParser) (r : Bool × NumberParser)
    (h : parse Q f P0 = some r) :
    (r.1 = false → r.2.d_error ∈ numericMessages) ∧
    (r.1 = true → r.2.d_error = P0.d_error) := by
  unfold parse at h
  simp only at h
  cases h1 : numeral Q f
      { P0 with d_off := 0, d_hasDecimals := false, d_hasExponent := false,
                d_isBased := false } with
  | none => rw [h1] at h; simp at h
  | some r1 =>
    obtain ⟨ok1, P1⟩ := r1
    have t1 := numeral_told Q f _ _ h1
    rw [h1] at h
    cases ok1 with
    | false =>
      simp only [Option.some.injEq] at h
      subst h
      exact ⟨fun _ => t1.1 rfl, fun h => (by cases h)⟩
    | true =>
      have e1 : P1.d_error = P0.d_error := t1.2 rfl
      simp only at h
      by_cases h35 : lookAhead P1 P1.d_off = 35
      · rw [if_pos h35] at h
        cases h2 : basedNumeral Q f { P1 with d_isBased := true, d_off := P1.d_off + 1 } with
        | none => rw [h2] at h; simp at h
        | some r2 =>
          obtain ⟨ok2, P2⟩ := r2
          have t2 := basedNumeral_told Q f _ _ h2
          rw [h2] at h
          cases ok2 with
          | false =>
            simp only [Option.some.injEq] at h
            subst h
            exact ⟨fun _ => t2.1 rfl, fun h => (by cases h)⟩
          | true =>
            have e2 : P2.d_error = P0.d_error := (t2.2 rfl).trans e1
            simp only at h
            have key : ∀ P3 : NumberParser, P3.d_error = P0.d_error →
                (if lookAhead P3 P3.d_off ≠ 35 then some (error P3 "expecting #")
                 else parseExponent Q f { P3 with d_off := P3.d_off + 1 }) = some r →
                (r.1 = false → r.2.d_error ∈ numericMessages) ∧
                (r.1 = true → r.2.d_error = P0.d_error) := by
              intro P3 e3 h3
              split_ifs at h3
              · cases h3
                exact error_told _ _ (by decide) _
              · have e := parseExponent_told Q f _ r h3
                exact ⟨e.1, fun h => (e.2 h).trans e3⟩
            by_cases h46 : lookAhead P2 P2.d_off = 46
            · rw [if_pos h46] at h
              cases h3 : basedNumeral Q f
                  { P2 with d_hasDecimals := true, d_off := P2.d_off + 1 } with
              | none => rw [h3] at h; simp at h
              | some r3 =>
                obtain ⟨ok3, P3⟩ := r3
                have t3 := basedNumeral_told Q f _ _ h3
                rw [h3] at h
                cases ok3 with
                | false =>
                  simp only [Option.some.injEq] at h
                  subst h
                  exact ⟨fun _ => t3.1 rfl, fun h => (by cases h)⟩
                | true =>
                  simp only at h
                  exact key P3 ((t3.2 rfl).trans e2) h
            · rw [if_neg h46] at h
              simp only at h
              exact key P2 e2 h
      · rw [if_neg h35] at h
        by_cases h46 : lookAhead P1 P1.d_off = 46
        · rw [if_pos h46] at h
          cases h3 : numeral Q f { P1 with d_hasDecimals := true, d_off := P1.d_off + 1 } with
          | none => rw [h3] at h; simp at h
          | some r3 =>
            obtain ⟨ok3, P3⟩ := r3
            have t3 := numeral_told Q f _ _ h3
            rw [h3] at h
            cases ok3 with
            | false =>
              simp only [Option.some.injEq] at h
              subst h
              exact ⟨fun _ => t3.1 rfl, fun h => (by cases h)⟩
            | true =>
              simp only at h
              have e := parseExponent_told Q f _ r h
              exact ⟨e.1, fun h => (e.2 h).trans ((t3.2 rfl).trans e1)⟩
        · rw [if_neg h46] at h
          simp only at h
          have e := parseExponent_told Q f _ r h
          exact ⟨e.1, fun h => (e.2 h).trans e1⟩

end NumberParser

theorem string_invalid (Q : QCharData) (f : Nat) (L : Lexer) (t : Token) (L1 : Lexer)
    (h : string Q f L = some (t, L1)) (ht : t.d_type = T_Invalid) :
    t.d_val = qstr "non terminated string" := by
  unfold string at h
  cases hs : stringLoop Q L f 1 with
  | none => rw [hs] at h; simp at h
  | some r =>
    rw [hs] at h
    rcases stringLoop_spec Q L f 1 r hs with h1 | ⟨o, h1, _⟩
    · subst h1
      cases h
      rfl
    · subst h1
      cases h
      cases ht

theorem numeric_invalid (Q : QCharData) (f : Nat) (L : Lexer) (t : Token) (L1 : Lexer)
    (h : numeric Q f L = some (t, L1)) (ht : t.d_type = T_Invalid) :
    t.d_val ∈ numericMessages := by
  unfold numeric at h
  cases hp : NumberParser.parse Q f (NumberParser.new L.d_line L.d_colNr) with
  | none => rw [hp] at h; simp at h
  | some r =>
    obtain ⟨ok, np⟩ := r
    have e := NumberParser.parse_told Q f _ _ hp
    rw [hp] at h
    simp only at h
    split_ifs at h with hok
    · cases h
      exact e.1 hok
    · cases h
      cases ht

theorem ident_not_invalid (Q : QCharData) (f : Nat) (L : Lexer) (t : Token) (L1 : Lexer)
    (h : ident Q f L = some (t, L1)) : t.d_type ≠ T_Invalid := by
  unfold ident at h
  cases hi : identLoop Q L f 0 with
  | none => rw [hi] at h; simp at h
  | some off =>
    rw [hi] at h
    simp only at h
    have hfr := findReservedWord_le Q (List.take off (List.drop L.d_colNr L.d_line))
    split_ifs at h with h1 h2
    · cases h
      exact (by decide : T_Attribute % 256 ≠ T_Invalid)
    · cases h
      show findReservedWord Q (List.take off (List.drop L.d_colNr L.d_line)) % 256 ≠ T_Invalid
      simp only [T_xor, T_Invalid] at hfr h2 ⊢
      omega
    · cases h
      exact (by decide : T_Identifier % 256 ≠ T_Invalid)

/-- The text of an Invalid token that the second loop of nextToken returns. -/
theorem scanToken_invalid (Q : QCharData) (f : Nat) (L : Lexer) (t : Token) (L1 : Lexer)
    (hcol : L.d_colNr < L.d_line.length) (h : scanToken Q f L = some (t, L1))
    (ht : t.d_type = T_Invalid) :
    t.d_val = qstr "non terminated string" ∨
    t.d_val = qstr "unexpected character " ++ [39, L.d_line.getD L.d_colNr 0, 39] ∨
    t.d_val ∈ numericMessages := by
  revert h
  unfold scanToken
  rw [if_pos hcol]
  dsimp only
  repeat' first
    | refine ite_ind (P := fun r => r = some (t, L1) → _) (fun _ => ?_) (fun _ => ?_)
    | (intro h
       exact Or.inl (string_invalid Q f L t L1 h ht))
    | (intro h
       exact Or.inr (Or.inr (numeric_invalid Q f L t L1 h ht)))
    | (intro h
       exact absurd ht (ident_not_invalid Q f L t L1 h))
    | (intro h
       cases h
       exact Or.inr (Or.inl rfl))
    | (intro h
       exfalso
       cases h
       revert ht
       simp only [token, mkToken]
       decide)

/-- C26: every Invalid token that nextToken returns has a text that is not empty and is non
terminated string, or unexpected character followed by a character of the line between
ticks, or one of the four messages of NumberParser; a fresh NumberParser answers false from
parse exactly when one of the four messages is stored afterwards, and stores none when it
answers true. The last part shows each of the six texts in a token stream. -/
theorem invalid_carries_diagnostic (Q : QCharData) :
    (∀ f L t L1, nextToken Q f L = some (t, L1) → t.d_type = T_Invalid →
      t.d_val ≠ [] ∧
      (t.d_val = qstr "non terminated string" ∨
       (∃ ch, ch ∈ L1.d_line ∧ t.d_val = qstr "unexpected character " ++ [39, ch, 39]) ∨
       t.d_val ∈ numericMessages)) ∧
    (∀ f str start ok P,
      NumberParser.parse Q f (NumberParser.new str start) = some (ok, P) →
      (ok = false ↔ P.d_error ∈ numericMessages) ∧ (ok = true → P.d_error = [])) ∧
    (tokens Q 20 30 (attach [qstr "1_", qstr "16#G", qstr "16#F", qstr "1Ex", qstr "$",
        qstr "\"ab"])).map (fun ts => (ts.filter (fun t => t.d_type == T_Invalid)).map
          (fun t => t.d_val)) =
      some [qstr "expecting digit", qstr "expecting extended digit", qstr "expecting #",
        qstr "expecting plus, minus or digit", qstr "unexpected character \x27$\x27",
        qstr "non terminated string"] := by
  refine ⟨?_, ?_, rfl⟩
  · intro f L t L1 h ht
    have key : t.d_val = qstr "non terminated string" ∨
        (∃ ch, ch ∈ L1.d_line ∧ t.d_val = qstr "unexpected character " ++ [39, ch, 39]) ∨
        t.d_val ∈ numericMessages := by
      unfold nextToken at h
      split_ifs at h with hin
      · cases h
        cases ht
      · cases ha : advance Q f L with
        | none => rw [ha] at h; simp at h
        | some r =>
          rw [ha] at h
          cases r with
          | inl p =>
            obtain ⟨Lm, rfl⟩ := (advance_last Q f L _ ha).2 p rfl
            cases h
            cases ht
          | inr Lm =>
            simp only at h
            have hcol := advance_inr Q f L Lm ha
            obtain ⟨tt, len, val, e, _⟩ := scanToken_inLine Q f Lm hcol t L1 h
            have hline : L1.d_line = Lm.d_line := by
              have := congrArg Prod.snd e
              simp only [token] at this
              rw [this]
            rcases scanToken_invalid Q f Lm t L1 hcol h ht with e1 | e1 | e1
            · exact Or.inl e1
            · refine Or.inr (Or.inl ⟨Lm.d_line.getD Lm.d_colNr 0, ?_, e1⟩)
              rw [hline, List.getD_eq_getElem _ _ hcol]
              exact List.getElem_mem _
            · exact Or.inr (Or.inr e1)
    refine ⟨?_, key⟩
    rcases key with e | ⟨ch, _, e⟩ | e
    · rw [e]; decide
    · rw [e]; simp [qstr]
    · intro h0
      rw [h0] at e
      revert e
      decide
  · intro f str start ok P h
    have e := NumberParser.parse_told Q f _ _ h
    simp only [NumberParser.new] at e
    refine ⟨⟨e.1, fun hm => ?_⟩, e.2⟩
    cases ok with
    | false => rfl
    | true =>
      exfalso
      rw [e.2 rfl] at hm
      revert hm
      decide

/-! ## Token positions -/

theorem lineLoop_nonspace (Q : QCharData) : ∀ (f : Nat) (L Lm : Lexer),
    lineLoop Q f L = some (Sum.inr Lm) →
    (L.d_colNr < L.d_line.length → isSpace Q (L.d_line.getD L.d_colNr 0) = false) →
    isSpace Q (Lm.d_line.getD Lm.d_colNr 0) = false := by
  intro f
  induction f with
  | zero => intro L Lm h; simp [lineLoop] at h
  | succ f ih =>
    intro L Lm h h0
    rw [lineLoop] at h
    split_ifs at h with h1 h2
    · cases h
    · cases hs : skipWhiteSpace Q f (nextLine L) with
      | none => rw [hs] at h; simp at h
      | some L1 =>
        rw [hs] at h
        obtain ⟨e1, e2, _⟩ := skipWhiteSpace_spec Q f _ L1 hs
        refine ih _ _ h (fun hlt => ?_)
        have hline : L1.d_line = (nextLine L).d_line := by rw [e1]
        rw [hline] at hlt ⊢
        cases hb : isSpace Q ((nextLine L).d_line.getD L1.d_colNr 0) with
        | false => rfl
        | true => exact absurd ⟨hlt, hb⟩ e2
    · cases h
      exact h0 (by omega)

/-- The first part of nextToken stops at a character that is no white space. -/
theorem advance_nonspace (Q : QCharData) (f : Nat) (L Lm : Lexer)
    (h : advance Q f L = some (Sum.inr Lm)) :
    isSpace Q (Lm.d_line.getD Lm.d_colNr 0) = false := by
  unfold advance at h
  cases hs : skipWhiteSpace Q f L with
  | none => rw [hs] at h; simp at h
  | some L1 =>
    rw [hs] at h
    obtain ⟨e1, e2, _⟩ := skipWhiteSpace_spec Q f _ L1 hs
    refine lineLoop_nonspace Q f _ _ h (fun hlt => ?_)
    have hline : L1.d_line = L.d_line := by rw [e1]
    rw [hline] at hlt ⊢
    cases hb : isSpace Q (L.d_line.getD L1.d_colNr 0) with
    | false => rfl
    | true => exact absurd ⟨hlt, hb⟩ e2

/-- On a source with short lines a token other than EOF starts at a character of the line
buffer that is no white space. -/
theorem nextToken_start (Q : QCharData) (lines : List (List Nat)) (hs : Short lines)
    (f k : Nat) (L : Lexer) (t : Token) (L1 : Lexer) (hat : At lines k L)
    (h : nextToken Q f L = some (t, L1)) (hne : t.d_type ≠ T_EOF) :
    isSpace Q (L1.d_line.getD t.d_col 0) = false := by
  unfold nextToken at h
  have hin : ¬ L.d_in = none := by rw [hat.1]; simp
  rw [if_neg hin] at h
  cases ha : advance Q f L with
  | none => rw [ha] at h; simp at h
  | some r =>
    rw [ha] at h
    cases r with
    | inl p =>
      obtain ⟨Lm, rfl⟩ := (advance_last Q f L _ ha).2 p rfl
      cases h
      exact absurd rfl hne
    | inr Lm =>
      simp only at h
      obtain ⟨k1, Lm1, hatm, _, _, _, hr⟩ := advance_spec Q lines hs f k L _ hat ha
      have hLm : Lm1 = Lm := by
        rcases hr with ⟨e, _⟩ | ⟨e, _⟩
        · exact (Sum.inr.inj e).symm
        · cases e
      subst hLm
      have hcol := advance_inr Q f L Lm1 ha
      have hshort : Lm1.d_line.length < 65536 := hatm.2.2.1 ▸ curLine_short hs k1
      obtain ⟨tt, len, val, e, _⟩ := scanToken_inLine Q f Lm1 hcol t L1 h
      have e1 : t = mkToken tt Lm1.d_lineNr Lm1.d_colNr len val := congrArg Prod.fst e
      have e2 : L1 = { Lm1 with d_colNr := (Lm1.d_colNr + len) % 65536,
                                d_lastTokenType := tt % 256 } := congrArg Prod.snd e
      have hc : t.d_col = Lm1.d_colNr := by
        rw [e1]
        exact Nat.mod_eq_of_lt (by omega)
      have hl : L1.d_line = Lm1.d_line := by rw [e2]
      rw [hc, hl]
      exact advance_nonspace Q f L Lm1 ha

/-- Positions of the tokens of successive calls from a scanner that has read k lines. -/
theorem calls_positions (Q : QCharData) (lines : List (List Nat)) (hs : Short lines)
    (hl : lines.length < 65536) (f : Nat) :
    ∀ (n k : Nat) (L : Lexer) (ts : List Token) (Ln : Lexer), At lines k L →
      calls Q f n L = some (ts, Ln) →
      (∀ t ∈ ts, PosLe k L.d_colNr t.d_line t.d_col) ∧
      ts.Pairwise (fun a b => a.d_type ≠ T_EOF →
        a.d_line < b.d_line ∨ (a.d_line = b.d_line ∧ a.d_col < b.d_col)) := by
  intro n
  induction n with
  | zero =>
    intro k L ts Ln _ h
    simp only [calls, Option.some.injEq, Prod.mk.injEq] at h
    obtain ⟨rfl, _⟩ := h
    simp
  | succ n ih =>
    intro k L ts Ln hat h
    rw [calls] at h
    cases hn : nextToken Q f L with
    | none => rw [hn] at h; simp at h
    | some r =>
      obtain ⟨t, L2⟩ := r
      rw [hn] at h
      simp only at h
      cases hc : calls Q f n L2 with
      | none => rw [hc] at h; simp at h
      | some r2 =>
        obtain ⟨ts2, L3⟩ := r2
        rw [hc] at h
        simp only [Option.some.injEq, Prod.mk.injEq] at h
        obtain ⟨rfl, _⟩ := h
        obtain ⟨k1, hat1, hline, hle, _, hcol, _, hcase⟩ :=
          nextToken_step Q lines hs f k L t L2 hat hn
        have hk1 : k1 % 65536 = k1 := Nat.mod_eq_of_lt (by have := hat1.2.2.2.1; omega)
        rw [hk1] at hline
        obtain ⟨ih1, ih2⟩ := ih k1 L2 ts2 L3 hat1 hc
        constructor
        · intro t' ht'
          rcases List.mem_cons.mp ht' with rfl | hmem
          · rw [hline]; exact hle
          · have := ih1 t' hmem
            unfold PosLe at this hle ⊢
            omega
        · refine List.pairwise_cons.2 ⟨fun t' hmem hne => ?_, ih2⟩
          have := ih1 t' hmem
          unfold PosLe at this
          rcases hcase with ⟨e, _⟩ | ⟨_, e1, _⟩
          · exact absurd e hne
          · omega

/-- C27 as amended: on a source of fewer than 65536 lines that are all shorter than 65536
characters, every token other than EOF has as line field the 1-based index of the line the
scanner holds when it returns the token, counting every line, and as column the offset of
a character of that line that is no white space; in the tokens of successive calls from
the start, each token other than EOF stands strictly before every later token, by line
first and column second. -/
theorem positions_ordered (Q : QCharData) (lines : List (List Nat)) (hs : Short lines)
    (hl : lines.length < 65536) :
    (∀ f k L t L1, At lines k L → nextToken Q f L = some (t, L1) → t.d_type ≠ T_EOF →
      1 ≤ t.d_line ∧ t.d_line ≤ lines.length ∧ k ≤ t.d_line ∧ At lines t.d_line L1 ∧
      L1.d_line = lines.getD (t.d_line - 1) [] ∧ t.d_col < L1.d_line.length ∧
      isSpace Q (L1.d_line.getD t.d_col 0) = false) ∧
    (∀ f n ts Ln, calls Q f n (attach lines) = some (ts, Ln) →
      ts.Pairwise (fun a b => a.d_type ≠ T_EOF →
        a.d_line < b.d_line ∨ (a.d_line = b.d_line ∧ a.d_col < b.d_col))) := by
  constructor
  · intro f k L t L1 hat h hne
    obtain ⟨k1, hat1, hline, hle, _, _, _, hcase⟩ := nextToken_step Q lines hs f k L t L1 hat h
    have hk1 : k1 % 65536 = k1 := Nat.mod_eq_of_lt (by have := hat1.2.2.2.1; omega)
    rw [hk1] at hline
    subst hline
    rcases hcase with ⟨e, _⟩ | ⟨_, e1, e2⟩
    · exact absurd e hne
    · have h0 : t.d_line ≠ 0 := by
        intro h0
        rw [h0] at e2
        simp [curLine] at e2
        omega
      have hcur : curLine lines t.d_line = lines.getD (t.d_line - 1) [] := by
        unfold curLine
        rw [if_neg h0]
      have hk : k ≤ t.d_line := by
        unfold PosLe at hle
        omega
      refine ⟨by omega, hat1.2.2.2.1, hk, hat1, ?_, ?_,
        nextToken_start Q lines hs f k L t L1 hat h hne⟩
      · rw [hat1.2.2.1, hcur]
      · rw [hat1.2.2.1]
        omega
  · intro f n ts Ln h
    exact (calls_positions Q lines hs hl f n 0 _ ts Ln (At.at_attach lines) h).2

/-- C27 as amended, at the source with the lines a b, an empty line, and two spaces
before c. -/
theorem positions_ordered_witness :
    Short [qstr "a b", [], qstr "  c"] ∧
    calls asciiData 5 4 (attach [qstr "a b", [], qstr "  c"]) =
      some ([mkToken T_Identifier 1 0 1 [97], mkToken T_Identifier 1 2 1 [98],
             mkToken T_Identifier 3 2 1 [99], mkToken T_EOF 3 3 0 []],
            ⟨some ⟨[qstr "a b", [], qstr "  c"], []⟩, 3, 3, qstr "  c", T_EOF⟩) ∧
    [mkToken T_Identifier 1 0 1 [97], mkToken T_Identifier 1 2 1 [98],
      mkToken T_Identifier 3 2 1 [99], mkToken T_EOF 3 3 0 []].Pairwise
        (fun a b => a.d_type ≠ T_EOF →
          a.d_line < b.d_line ∨ (a.d_line = b.d_line ∧ a.d_col < b.d_col)) :=
  have hs : Short [qstr "a b", [], qstr "  c"] := by simp [Short, qstr]
  have hc : calls asciiData 5 4 (attach [qstr "a b", [], qstr "  c"]) =
      some ([mkToken T_Identifier 1 0 1 [97], mkToken T_Identifier 1 2 1 [98],
             mkToken T_Identifier 3 2 1 [99], mkToken T_EOF 3 3 0 []],
            ⟨some ⟨[qstr "a b", [], qstr "  c"], []⟩, 3, 3, qstr "  c", T_EOF⟩) := by decide
  ⟨hs, hc, (positions_ordered asciiData [qstr "a b", [], qstr "  c"] hs (by decide)).2
    5 4 _ _ hc⟩

/-- C27 as stated fails: in the source with a line x, then 65535 empty lines, then a line
yy, the token yy is read from line 65537 but carries the line field 1, and the positions of
x and yy are both line 1, column 0, so they do not increase. -/
theorem line_field_wraps_after_65536_lines :
    ∃ a b c, tokens asciiData (65534 + 10) 3
        (attach ([120] :: (List.replicate (65534 + 1) [] ++ [[121, 121]]))) = some [a, b, c] ∧
      a.d_type = T_Identifier ∧ b.d_type = T_Identifier ∧ b.d_val = [121, 121] ∧
      a.d_line = 1 ∧ b.d_line = 1 ∧ a.d_col = 0 ∧ b.d_col = 0 :=
  ⟨_, _, _, tokens_many_lines asciiData 65534, rfl, rfl, rfl, rfl, rfl, rfl, rfl⟩

/-! ## Token text -/

/-- The types of the tokens of ident, with the text that goes with each. -/
theorem ident_text (Q : QCharData) (f : Nat) (L : Lexer) (t : Token) (L1 : Lexer)
    (h : ident Q f L = some (t, L1)) :
    ∃ off, identLoop Q L f 0 = some off ∧ t.d_col = L.d_colNr % 65536 ∧
      t.d_len = off % 65536 ∧ L1.d_line = L.d_line ∧
      ((isKeyWord t.d_type = true ∧ t.d_val = []) ∨
       ((t.d_type = T_Identifier ∨ t.d_type = T_Attribute) ∧
         t.d_val = (L.d_line.drop L.d_colNr).take off)) := by
  unfold ident at h
  cases hi : identLoop Q L f 0 with
  | none => rw [hi] at h; simp at h
  | some off =>
    rw [hi] at h
    simp only at h
    have hfr := findReservedWord_le Q (List.take off (List.drop L.d_colNr L.d_line))
    split_ifs at h with h1 h2
    · cases h
      exact ⟨off, rfl, rfl, rfl, rfl, Or.inr ⟨Or.inr rfl, rfl⟩⟩
    · cases h
      refine ⟨off, rfl, rfl, rfl, rfl, Or.inl ⟨?_, rfl⟩⟩
      show isKeyWord (findReservedWord Q (List.take off (List.drop L.d_colNr L.d_line)) % 256)
        = true
      have hm : findReservedWord Q (List.take off (List.drop L.d_colNr L.d_line)) % 256 =
          findReservedWord Q (List.take off (List.drop L.d_colNr L.d_line)) :=
        Nat.mod_eq_of_lt (by simp only [T_xor] at hfr; omega)
      rw [hm]
      unfold isKeyWord
      simp only [T_abort, T_xor, T_Invalid, ge_iff_le, Bool.and_eq_true, decide_eq_true_eq]
        at hfr h2 ⊢
      omega
    · cases h
      exact ⟨off, rfl, rfl, rfl, rfl, Or.inr ⟨Or.inl rfl, rfl⟩⟩

/-- A Number token comes from numeric, entered at a digit. -/
theorem scanToken_number_of_type (Q : QCharData) (f : Nat) (L : Lexer) (t : Token)
    (L1 : Lexer) (hcol : L.d_colNr < L.d_line.length) (h : scanToken Q f L = some (t, L1))
    (ht : t.d_type = T_Number) :
    isDigit Q (L.d_line.getD L.d_colNr 0) = true ∧ numeric Q f L = some (t, L1) := by
  revert h
  unfold scanToken
  rw [if_pos hcol]
  dsimp only
  repeat' first
    | refine ite_ind (P := fun r => r = some (t, L1) → _) (fun _ => ?_) (fun _ => ?_)
    | (intro h
       exact ⟨by assumption, h⟩)
    | (intro h
       exfalso
       cases h
       revert ht
       simp only [token, mkToken]
       decide)
    | (intro h
       exfalso
       have e := string_type Q f L t L1 h
       rcases e with e | e <;> rw [e] at ht <;> revert ht <;> decide)
    | (intro h
       exfalso
       obtain ⟨_, _, _, _, _, e⟩ := ident_text Q f L t L1 h
       rcases e with ⟨e, _⟩ | ⟨e | e, _⟩ <;> rw [ht] at e <;> revert e <;> decide)

/-- A token of a keyword or delimiter type has no text. -/
theorem scanToken_plain (Q : QCharData) (f : Nat) (L : Lexer) (t : Token)
    (L1 : Lexer) (hcol : L.d_colNr < L.d_line.length) (h : scanToken Q f L = some (t, L1))
    (ht : isKeyWord t.d_type = true ∨ isDelimiter t.d_type = true ∨ t.d_type = T_EOF) :
    t.d_val = [] := by
  revert h
  unfold scanToken
  rw [if_pos hcol]
  dsimp only
  repeat' first
    | refine ite_ind (P := fun r => r = some (t, L1) → _) (fun _ => ?_) (fun _ => ?_)
    | (intro h
       cases h
       rfl)
    | (intro h
       exfalso
       cases h
       revert ht
       simp only [token, mkToken]
       decide)
    | (intro h
       exfalso
       have e := string_type Q f L t L1 h
       rcases e with e | e <;> rw [e] at ht <;> revert ht <;> decide)
    | (intro h
       exfalso
       have e := numeric_type Q f L t L1 h
       rcases e with e | e <;> rw [e] at ht <;> revert ht <;> decide)
    | (intro h
       obtain ⟨_, _, _, _, _, e⟩ := ident_text Q f L t L1 h
       rcases e with ⟨_, e⟩ | ⟨e | e, _⟩
       · exact e
       · exfalso; rw [e] at ht; revert ht; decide
       · exfalso; rw [e] at ht; revert ht; decide)

/-- In a line shorter than 65536 characters the text of a Number, Identifier or Attribute
token is its span. -/
theorem scanToken_span (Q : QCharData) (f : Nat) (L : Lexer) (t : Token)
    (L1 : Lexer) (hcol : L.d_colNr < L.d_line.length) (hlen : L.d_line.length < 65536)
    (h : scanToken Q f L = some (t, L1))
    (ht : t.d_type = T_Number ∨ t.d_type = T_Identifier ∨ t.d_type = T_Attribute) :
    L1.d_line = L.d_line ∧ t.d_val = (L.d_line.drop t.d_col).take t.d_len := by
  have hm : L.d_colNr % 65536 = L.d_colNr := Nat.mod_eq_of_lt (by omega)
  rcases ht with ht | ht
  · obtain ⟨hd, hnum⟩ := scanToken_number_of_type Q f L t L1 hcol h ht
    unfold numeric at hnum
    cases hp : NumberParser.parse Q f (NumberParser.new L.d_line L.d_colNr) with
    | none => rw [hp] at hnum; simp at hnum
    | some r =>
      obtain ⟨ok, np⟩ := r
      rw [hp] at hnum
      obtain ⟨b1, b2, _, _⟩ := NumberParser.parse_bounds Q f _ _ ok np hp hcol hd
      simp only at hnum
      split_ifs at hnum with hok
      · cases hnum
        cases ht
      · cases hnum
        refine ⟨rfl, ?_⟩
        show List.take np.d_off (List.drop L.d_colNr L.d_line) =
          List.take (np.d_off % 65536) (List.drop (L.d_colNr % 65536) L.d_line)
        rw [hm, Nat.mod_eq_of_lt (by omega)]
  · have hshape : isKeyWord t.d_type = true ∨ t.d_type = T_Identifier ∨ t.d_type = T_Attribute :=
      Or.inr ht
    obtain ⟨_, hid⟩ := scanToken_ident_of_shape Q f L t L1 hcol h hshape
    obtain ⟨off, hloop, e1, e2, e3, e4⟩ := ident_text Q f L t L1 hid
    obtain ⟨_, b2, _⟩ := identLoop_spec Q L f 0 off hloop
    have hb := b2 (by omega)
    refine ⟨e3, ?_⟩
    rcases e4 with ⟨e, _⟩ | ⟨_, e⟩
    · exfalso
      rcases ht with ht | ht <;> rw [ht] at e <;> revert e <;> decide
    · rw [e, e1, e2, hm, Nat.mod_eq_of_lt (by omega)]

/-- C28 as amended: keyword, delimiter and EOF tokens always have empty text; a Number,
Identifier or Attribute token that is returned with the scanner in a line shorter than
65536 characters has as text exactly the characters of that line from the column of the
token over its length, unchanged. The last part shows the texts in a token stream. -/
theorem token_text_by_type (Q : QCharData) :
    (∀ f L t L1, nextToken Q f L = some (t, L1) →
      (isKeyWord t.d_type = true ∨ isDelimiter t.d_type = true ∨ t.d_type = T_EOF) →
      t.d_val = []) ∧
    (∀ f L t L1, nextToken Q f L = some (t, L1) → L1.d_line.length < 65536 →
      (t.d_type = T_Number ∨ t.d_type = T_Identifier ∨ t.d_type = T_Attribute) →
      t.d_val = (L1.d_line.drop t.d_col).take t.d_len) ∧
    (tokens Q 20 10 (attach [qstr "Ab\x27Cd 1E3 IF;"])).map
        (fun ts => ts.map (fun t => (t.d_type, t.d_val))) =
      some [(T_Identifier, qstr "Ab"), (T_Tick, []), (T_Attribute, qstr "Cd"),
        (T_Number, qstr "1E3"), (T_if, []), (T_Semicolon, []), (T_EOF, [])] := by
  refine ⟨?_, ?_, rfl⟩
  · intro f L t L1 h ht
    unfold nextToken at h
    split_ifs at h with hin
    · cases h
      rfl
    · cases ha : advance Q f L with
      | none => rw [ha] at h; simp at h
      | some r =>
        rw [ha] at h
        cases r with
        | inl p =>
          obtain ⟨Lm, rfl⟩ := (advance_last Q f L _ ha).2 p rfl
          cases h
          rfl
        | inr Lm =>
          exact scanToken_plain Q f Lm t L1 (advance_inr Q f L Lm ha) h ht
  · intro f L t L1 h hlen ht
    unfold nextToken at h
    split_ifs at h with hin
    · cases h
      exfalso
      revert ht
      simp only [token, mkToken]
      decide
    · cases ha : advance Q f L with
      | none => rw [ha] at h; simp at h
      | some r =>
        rw [ha] at h
        cases r with
        | inl p =>
          obtain ⟨Lm, rfl⟩ := (advance_last Q f L _ ha).2 p rfl
          cases h
          exfalso
          revert ht
          simp only [token, mkToken]
          decide
        | inr Lm =>
          simp only at h
          have hcol := advance_inr Q f L Lm ha
          obtain ⟨tt, len, val, e, _⟩ := scanToken_inLine Q f Lm hcol t L1 h
          have hline : L1.d_line = Lm.d_line := by
            have := congrArg Prod.snd e
            simp only [token] at this
            rw [this]
          rw [hline] at hlen ⊢
          exact (scanToken_span Q f Lm t L1 hcol hlen h ht).2

/-- C28 as stated fails: on the line of 65536 digits 1 the text of the Number token is the
whole line, while its length field is 0, so the characters from its column over its length
are none. -/
theorem number_text_is_not_span :
    ∃ t L1, nextToken asciiData 65536 (attach [List.replicate (65535 + 1) 49]) = some (t, L1) ∧
      t.d_type = T_Number ∧ t.d_len = 0 ∧ t.d_val.length = 65536 ∧
      ((L1.d_line.drop t.d_col).take t.d_len).length = 0 :=
  ⟨_, _, (nextToken_ones asciiData 65535 65536 (by decide) (by decide)).2, rfl, rfl,
    List.length_replicate _ _, rfl⟩

/-! ## The state after a call -/

theorem scanToken_semicolon (Q : QCharData) (f : Nat) (L : Lexer)
    (hcol : L.d_colNr < L.d_line.length) (hc : L.d_line.getD L.d_colNr 0 = 59) :
    scanToken Q f L = some (token L T_Semicolon 1 []) := by
  unfold scanToken
  rw [if_pos hcol]
  dsimp only
  rw [hc]
  simp

/-- C29 as amended: on a source whose lines are all shorter than 65536 characters, after
nextToken returns a token t the column of the scanner is t.column + t.length, its line
number is t.line, its line buffer is the line of the source that the scanner has read last
and holds the span of t, and its last token type is t.type; the helper token leaves stream,
line number and line buffer unchanged, sets the column to the old column plus len as a
16-bit number and the last token type to tt as an 8-bit number. -/
theorem state_after_call (Q : QCharData) (lines : List (List Nat)) (hs : Short lines) :
    (∀ f k L t L1, At lines k L → nextToken Q f L = some (t, L1) →
      L1.d_colNr = t.d_col + t.d_len ∧ L1.d_lineNr = t.d_line ∧
      L1.d_lastTokenType = t.d_type ∧ t.d_col + t.d_len ≤ L1.d_line.length ∧
      ∃ k1, At lines k1 L1 ∧ k ≤ k1 ∧ L1.d_line = curLine lines k1 ∧
        t.d_line = k1 % 65536) ∧
    (∀ (L : Lexer) (tt len : Nat) (val : List Nat),
      (token L tt len val).2.d_in = L.d_in ∧ (token L tt len val).2.d_lineNr = L.d_lineNr ∧
      (token L tt len val).2.d_line = L.d_line ∧
      (token L tt len val).2.d_colNr = (L.d_colNr + len) % 65536 ∧
      (token L tt len val).2.d_lastTokenType = tt % 256 ∧
      (L.d_colNr + len < 65536 → (token L tt len val).2.d_colNr = L.d_colNr + len) ∧
      (tt < 256 → (token L tt len val).2.d_lastTokenType = tt)) := by
  constructor
  · intro f k L t L1 hat h
    obtain ⟨k1, hat1, hline, hle, _, hcol, hlast, hcase⟩ :=
      nextToken_step Q lines hs f k L t L1 hat h
    have hk : k ≤ k1 := by
      unfold PosLe at hle
      omega
    refine ⟨hcol, by rw [hat1.2.1, hline], hlast, ?_, k1, hat1, hk, hat1.2.2.1, hline⟩
    rw [hat1.2.2.1]
    rcases hcase with ⟨_, e2, _, e4⟩ | ⟨_, _, e3⟩
    · omega
    · exact e3
  · intro L tt len val
    exact ⟨rfl, rfl, rfl, rfl, rfl, fun h => Nat.mod_eq_of_lt h, fun h => Nat.mod_eq_of_lt h⟩

/-- C29 as amended, at the source with the line a b, after the token a. -/
theorem state_after_call_witness :
    Short [qstr "a b"] ∧
    nextToken asciiData 3 ⟨some ⟨[qstr "a b"], []⟩, 1, 1, qstr "a b", T_Identifier⟩ =
      some (mkToken T_Identifier 1 2 1 [98],
        ⟨some ⟨[qstr "a b"], []⟩, 1, 3, qstr "a b", T_Identifier⟩) ∧
    ((3 : Nat) = (mkToken T_Identifier 1 2 1 [98]).d_col + (mkToken T_Identifier 1 2 1 [98]).d_len ∧
      (1 : Nat) = (mkToken T_Identifier 1 2 1 [98]).d_line ∧
      T_Identifier = (mkToken T_Identifier 1 2 1 [98]).d_type ∧
      (mkToken T_Identifier 1 2 1 [98]).d_col + (mkToken T_Identifier 1 2 1 [98]).d_len
        ≤ (qstr "a b").length ∧
      ∃ k1, At [qstr "a b"] k1 ⟨some ⟨[qstr "a b"], []⟩, 1, 3, qstr "a b", T_Identifier⟩ ∧
        1 ≤ k1 ∧ qstr "a b" = curLine [qstr "a b"] k1 ∧
        (mkToken T_Identifier 1 2 1 [98]).d_line = k1 % 65536) :=
  have hs : Short [qstr "a b"] := by simp [Short, qstr]
  ⟨hs, by decide,
    (state_after_call asciiData [qstr "a b"] hs).1 3 1
      ⟨some ⟨[qstr "a b"], []⟩, 1, 1, qstr "a b", T_Identifier⟩
      (mkToken T_Identifier 1 2 1 [98])
      ⟨some ⟨[qstr "a b"], []⟩, 1, 3, qstr "a b", T_Identifier⟩
      ⟨rfl, rfl, rfl, by decide, by decide⟩ (by decide)⟩

/-- The first token of a source whose only line is n spaces and a semicolon. -/
theorem nextToken_pad_semicolon (Q : QCharData) (n : Nat) (f : Nat) (hn : n < 65536)
    (hf : n + 3 ≤ f) :
    nextToken Q f (attach [List.replicate n 32 ++ [59]]) =
      some (token ⟨some ⟨[List.replicate n 32 ++ [59]], []⟩, 1, n,
        List.replicate n 32 ++ [59], T_Invalid⟩ T_Semicolon 1 []) := by
  have hg : (List.replicate n 32 ++ [59]).getD n 0 = 59 := getD_pad n [59]
  rw [nextToken_pad Q n [59] f hn (by simp [isSpace]) (by simp) hf,
    scanToken_semicolon Q f _ (by simp) hg]

/-- C29 as stated fails: in the line that holds 65535 spaces and a semicolon, the Semicolon
token stands at column 65535 with length 1, and the scanner is afterwards at column 0, not
at column 65536. -/
theorem column_wraps_after_semicolon :
    ∃ t L1, nextToken asciiData 65538 (attach [List.replicate 65535 32 ++ [59]])
        = some (t, L1) ∧
      t.d_type = T_Semicolon ∧ t.d_col = 65535 ∧ t.d_len = 1 ∧ L1.d_colNr = 0 :=
  ⟨_, _, nextToken_pad_semicolon asciiData 65535 65538 (by decide) (by decide),
    rfl, rfl, rfl, rfl⟩

/-! ## Termination -/

namespace NumberParser

/-- The loop of numeral answers when the fuel covers the rest of the text. -/
theorem numeralLoop_total (Q : QCharData) : ∀ (f : Nat) (P : NumberParser),
    P.d_str.length - (P.d_start + P.d_off) + 1 ≤ f → ∃ r, numeralLoop Q f P = some r := by
  intro f
  induction f with
  | zero => intro P h; omega
  | succ g ih =>
    intro P h
    rw [numeralLoop]
    simp only
    split_ifs with h1 h2 h3 h4
    · have hp1 := np_lookAhead_pos P P.d_off (by rw [h2]; decide)
      have hp2 := np_lookAhead_pos { P with d_off := P.d_off + 1 } (P.d_off + 1)
        (isDigit_ne_zero h3)
      simp only at hp2
      exact ih _ (by simp only; omega)
    · exact ⟨_, rfl⟩
    · have hp1 := np_lookAhead_pos P P.d_off (isDigit_ne_zero h4)
      exact ih _ (by simp only; omega)
    · exfalso
      rcases h1 with h1 | h1
      · exact h2 h1
      · exact h4 h1
    · exact ⟨_, rfl⟩

theorem numeral_total (Q : QCharData) (f : Nat) (P : NumberParser)
    (h : P.d_str.length + 1 ≤ f) : ∃ r, numeral Q f P = some r := by
  unfold numeral
  split_ifs
  · exact ⟨_, rfl⟩
  · exact numeralLoop_total Q f _ (by simp only; omega)

/-- The loop of basedNumeral answers when the fuel covers the rest of the text. -/
theorem basedNumeralLoop_total (Q : QCharData) : ∀ (f : Nat) (P : NumberParser),
    P.d_str.length - (P.d_start + P.d_off) + 1 ≤ f →
    ∃ r, basedNumeralLoop Q f P = some r := by
  intro f
  induction f with
  | zero => intro P h; omega
  | succ g ih =>
    intro P h
    rw [basedNumeralLoop]
    simp only
    split_ifs with h1 h2 h3 h4
    · have hp1 := np_lookAhead_pos P P.d_off (by rw [h2]; decide)
      have hp2 := np_lookAhead_pos { P with d_off := P.d_off + 1 } (P.d_off + 1)
        (extended_digit_ne_zero h3)
      simp only at hp2
      exact ih _ (by simp only; omega)
    · exact ⟨_, rfl⟩
    · have hp1 := np_lookAhead_pos P P.d_off (extended_digit_ne_zero h4)
      exact ih _ (by simp only; omega)
    · exfalso
      rcases h1 with h1 | h1
      · exact h2 h1
      · exact h4 h1
    · exact ⟨_, rfl⟩

theorem basedNumeral_total (Q : QCharData) (f : Nat) (P : NumberParser)
    (h : P.d_str.length + 1 ≤ f) : ∃ r, basedNumeral Q f P = some r := by
  unfold basedNumeral
  split_ifs
  · exact ⟨_, rfl⟩
  · exact basedNumeralLoop_total Q f _ (by simp only; omega)

theorem exponent_total (Q : QCharData) (f : Nat) (P : NumberParser)
    (h : P.d_str.length + 1 ≤ f) : ∃ r, exponent Q f P = some r := by
  unfold exponent
  simp only
  split_ifs
  · exact numeral_total Q f _ h
  · exact numeral_total Q f _ h
  · exact ⟨_, rfl⟩
  · exact ⟨_, rfl⟩

theorem parseExponent_total (Q : QCharData) (f : Nat) (P : NumberParser)
    (h : P.d_str.length + 1 ≤ f) : ∃ r, parseExponent Q f P = some r := by
  unfold parseExponent
  split_ifs
  · exact exponent_total Q f _ h
  · exact ⟨_, rfl⟩

/-- With fuel beyond the length of the text, parse answers. -/
theorem parse_total (Q : QCharData) (f : Nat) (P0 : NumberParser)
    (h : P0.d_str.length + 1 ≤ f) : ∃ r, parse Q f P0 = some r := by
  unfold parse
  simp only
  obtain ⟨r1, h1⟩ := numeral_total Q f
    { P0 with d_off := 0, d_hasDecimals := false, d_hasExponent := false, d_isBased := false }
    h
  obtain ⟨ok1, P1⟩ := r1
  have s1 : P1.d_str = P0.d_str := (numeral_ext Q f _ _ h1).1.1
  rw [h1]
  cases ok1 with
  | false => exact ⟨_, rfl⟩
  | true =>
    simp only
    by_cases h35 : lookAhead P1 P1.d_off = 35
    · rw [if_pos h35]
      obtain ⟨r2, h2⟩ := basedNumeral_total Q f
        { P1 with d_isBased := true, d_off := P1.d_off + 1 } (by simp only; rw [s1]; exact h)
      obtain ⟨ok2, P2⟩ := r2
      have s2 : P2.d_str = P0.d_str := ((basedNumeral_ext Q f _ _ h2).1).trans s1
      rw [h2]
      cases ok2 with
      | false => exact ⟨_, rfl⟩
      | true =>
        simp only
        have key : ∀ P3 : NumberParser, P3.d_str = P0.d_str →
            ∃ r, (if lookAhead P3 P3.d_off ≠ 35 then some (error P3 "expecting #")
              else parseExponent Q f { P3 with d_off := P3.d_off + 1 }) = some r := by
          intro P3 s3
          split_ifs
          · exact ⟨_, rfl⟩
          · exact parseExponent_total Q f _ (by simp only; rw [s3]; exact h)
        by_cases h46 : lookAhead P2 P2.d_off = 46
        · rw [if_pos h46]
          obtain ⟨r3, h3⟩ := basedNumeral_total Q f
            { P2 with d_hasDecimals := true, d_off := P2.d_off + 1 }
            (by simp only; rw [s2]; exact h)
          obtain ⟨ok3, P3⟩ := r3
          have s3 : P3.d_str = P0.d_str := ((basedNumeral_ext Q f _ _ h3).1).trans s2
          rw [h3]
          cases ok3 with
          | false => exact ⟨_, rfl⟩
          | true => exact key P3 s3
        · rw [if_neg h46]
          exact key P2 s2
    · rw [if_neg h35]
      by_cases h46 : lookAhead P1 P1.d_off = 46
      · rw [if_pos h46]
        obtain ⟨r3, h3⟩ := numeral_total Q f
          { P1 with d_hasDecimals := true, d_off := P1.d_off + 1 }
          (by simp only; rw [s1]; exact h)
        obtain ⟨ok3, P3⟩ := r3
        have s3 : P3.d_str = P0.d_str := ((numeral_ext Q f _ _ h3).1.1).trans s1
        rw [h3]
        cases ok3 with
        | false => exact ⟨_, rfl⟩
        | true => exact parseExponent_total Q f _ (by rw [s3]; exact h)
      · rw [if_neg h46]
        exact parseExponent_total Q f _ (by rw [s1]; exact h)

end NumberParser

theorem numeric_total (Q : QCharData) (f : Nat) (L : Lexer) (h : L.d_line.length + 1 ≤ f) :
    ∃ r, numeric Q f L = some r := by
  unfold numeric
  obtain ⟨r, hr⟩ := NumberParser.parse_total Q f (NumberParser.new L.d_line L.d_colNr) h
  obtain ⟨ok, np⟩ := r
  rw [hr]
  simp only
  split_ifs
  · exact ⟨_, rfl⟩
  · exact ⟨_, rfl⟩

theorem ident_total (Q : QCharData) (f : Nat) (L : Lexer) (h : L.d_line.length + 1 ≤ f) :
    ∃ r, ident Q f L = some r := by
  unfold ident
  obtain ⟨off, ho⟩ := identLoop_total Q L f 0 (by omega)
  rw [ho]
  simp only
  split_ifs
  · exact ⟨_, rfl⟩
  · exact ⟨_, rfl⟩
  · exact ⟨_, rfl⟩

/-- The loop of string answers when every character of the line behind the current column is
printable or null and the fuel covers the rest of the line. -/
theorem stringLoop_total (Q : QCharData) (L : Lexer)
    (hsafe : ∀ j, L.d_colNr < j → j < L.d_line.length →
      isPrint Q (L.d_line.getD j 0) = true ∨ L.d_line.getD j 0 = 0) :
    ∀ (f off : Nat), 1 ≤ off → L.d_line.length - (L.d_colNr + off) + 1 ≤ f →
    ∃ r, stringLoop Q L f off = some r := by
  intro f
  induction f with
  | zero => intro off _ h; omega
  | succ g ih =>
    intro off ho h
    rw [stringLoop]
    split_ifs with h1 h2 h3 h4
    · have hp := (lookAhead_pos L (off + 1) 34 h2 (by decide)).1
      exact ih (off + 2) (by omega) (by omega)
    · exact ⟨_, rfl⟩
    · have hne : lookAhead2 L off ≠ 0 := by
        intro h0
        rw [h0, isPrint_zero] at h3
        cases h3
      have hp := (lookAhead2_pos L off _ rfl hne).1
      exact ih (off + 1) (by omega) (by omega)
    · exact ⟨_, rfl⟩
    · exfalso
      have hne : lookAhead2 L off ≠ 0 := by
        intro h0
        rw [h0] at h4
        exact h4 rfl
      obtain ⟨hp, hg⟩ := lookAhead2_pos L off _ rfl hne
      rcases hsafe (L.d_colNr + off) (by omega) hp with e | e
      · rw [hg] at e
        exact h3 e
      · rw [hg] at e
        exact hne e

theorem string_total (Q : QCharData) (f : Nat) (L : Lexer)
    (hsafe : ∀ j, L.d_colNr < j → j < L.d_line.length →
      isPrint Q (L.d_line.getD j 0) = true ∨ L.d_line.getD j 0 = 0)
    (h : L.d_line.length + 1 ≤ f) : ∃ r, string Q f L = some r := by
  unfold string
  obtain ⟨r, hr⟩ := stringLoop_total Q L hsafe f 1 (le_refl _) (by omega)
  rw [hr]
  cases r with
  | inl p => exact ⟨_, rfl⟩
  | inr off => exact ⟨_, rfl⟩

/-- The second loop of nextToken answers when a double quote at the current column has only
printable or null characters behind it and the fuel is beyond the length of the line. -/
theorem scanToken_total (Q : QCharData) (f : Nat) (L : Lexer)
    (hsafe : L.d_line.getD L.d_colNr 0 = 34 → ∀ j, L.d_colNr < j → j < L.d_line.length →
      isPrint Q (L.d_line.getD j 0) = true ∨ L.d_line.getD j 0 = 0)
    (h : L.d_line.length + 1 ≤ f) : ∃ r, scanToken Q f L = some r := by
  unfold scanToken
  by_cases hcol : L.d_colNr < L.d_line.length
  · rw [if_pos hcol]
    dsimp only
    repeat' first
      | refine ite_ind (P := fun r => ∃ x, r = some x) (fun _ => ?_) (fun _ => ?_)
      | exact ⟨_, rfl⟩
      | exact string_total Q f L (hsafe (by assumption)) h
      | exact numeric_total Q f L h
      | exact ident_total Q f L h
  · rw [if_neg hcol]
    exact ⟨_, rfl⟩

/-- In a line shorter than 65536 characters skipWhiteSpace answers when the fuel covers the
rest of the line. -/
theorem skipWhiteSpace_total (Q : QCharData) : ∀ (f : Nat) (L : Lexer),
    L.d_line.length < 65536 → L.d_line.length - L.d_colNr + 1 ≤ f →
    ∃ L1, skipWhiteSpace Q f L = some L1 := by
  intro f
  induction f with
  | zero => intro L _ h; omega
  | succ g ih =>
    intro L hlen h
    rw [skipWhiteSpace]
    split_ifs with h1
    · have hm : (L.d_colNr + 1) % 65536 = L.d_colNr + 1 := Nat.mod_eq_of_lt (by omega)
      exact ih _ hlen (by simp only [hm]; omega)
    · exact ⟨_, rfl⟩

/-- On a source with short lines the scanner skipWhiteSpace answers still stands in the
line it stood in. -/
theorem At.at_skip {Q : QCharData} {lines : List (List Nat)} (hs : Short lines) {k f : Nat}
    {L L1 : Lexer} (hat : At lines k L) (h : skipWhiteSpace Q f L = some L1) :
    At lines k L1 := by
  obtain ⟨hin, hnr, hline, hk, hcol⟩ := hat
  have hshort : L.d_line.length < 65536 := hline ▸ curLine_short hs k
  obtain ⟨e1, _, e3⟩ := skipWhiteSpace_spec Q f _ L1 h
  obtain ⟨_, e5⟩ := e3 hshort
  have hL1col : L1.d_colNr ≤ L.d_line.length := by
    by_contra hn
    have := (e5 (L1.d_colNr - 1) (by omega) (by omega)).1
    omega
  rw [e1]
  exact ⟨hin, hnr, hline, hk, hL1col⟩

/-- Reading the next line of a source that is not at its end. -/
theorem At.at_nextLine {lines : List (List Nat)} {k : Nat} {L : Lexer} (hat : At lines k L)
    (he : ¬ atEnd L = true) : At lines (k + 1) (nextLine L) := by
  obtain ⟨hin, hnr, hline, hk, hcol⟩ := hat
  simp only [atEnd, hin, List.isEmpty_eq_true] at he
  obtain ⟨a, rest, hd⟩ := List.exists_cons_of_ne_nil he
  obtain ⟨hk1, hget, hdrop⟩ := drop_eq_cons [] hd
  have hnl : nextLine L =
      ⟨some ⟨lines, rest⟩, (L.d_lineNr + 1) % 65536, 0, a, L.d_lastTokenType⟩ := by
    simp [nextLine, hin, hd]
  have hcur : curLine lines (k + 1) = a := by
    unfold curLine
    rw [if_neg (Nat.succ_ne_zero k), Nat.add_sub_cancel]
    exact hget
  rw [hnl]
  refine ⟨by simp [hdrop], ?_, by simp [hcur], hk1, Nat.zero_le _⟩
  simp only [hnr]
  omega

/-- On a source with short lines the first loop of nextToken answers when the fuel covers
the lines still to read and one line of the greatest length. -/
theorem lineLoop_total (Q : QCharData) (lines : List (List Nat)) (hs : Short lines) :
    ∀ (f k : Nat) (L : Lexer), At lines k L → lines.length - k + 65537 ≤ f →
    ∃ r, lineLoop Q f L = some r := by
  intro f
  induction f with
  | zero => intro k L _ h; omega
  | succ g ih =>
    intro k L hat h
    rw [lineLoop]
    split_ifs with h1 h2
    · exact ⟨_, rfl⟩
    · have hat1 := hat.at_nextLine h2
      have hk1 := hat1.2.2.2.1
      have hshort : (nextLine L).d_line.length < 65536 :=
        hat1.2.2.1 ▸ curLine_short hs (k + 1)
      obtain ⟨L1, hsk⟩ := skipWhiteSpace_total Q g (nextLine L) hshort (by omega)
      rw [hsk]
      exact ih (k + 1) L1 (hat1.at_skip hs hsk) (by omega)
    · exact ⟨_, rfl⟩

theorem advance_total (Q : QCharData) (lines : List (List Nat)) (hs : Short lines)
    (f k : Nat) (L : Lexer) (hat : At lines k L) (hf : lines.length + 65538 ≤ f) :
    ∃ r, advance Q f L = some r := by
  unfold advance
  have hshort : L.d_line.length < 65536 := hat.2.2.1 ▸ curLine_short hs k
  obtain ⟨L1, hsk⟩ := skipWhiteSpace_total Q f L hshort (by omega)
  rw [hsk]
  exact lineLoop_total Q lines hs f k L1 (hat.at_skip hs hsk) (by omega)

theorem curLine_safe {Q : QCharData} {lines : List (List Nat)} (hq : QuoteSafe Q lines)
    (k : Nat) : ∀ i j, i < j → j < (curLine lines k).length → (curLine lines k).getD i 0 = 34 →
    isPrint Q ((curLine lines k).getD j 0) = true ∨ (curLine lines k).getD j 0 = 0 := by
  unfold curLine
  split_ifs with h
  · intro i j _ hj
    simp at hj
  · by_cases hk : k - 1 < lines.length
    · rw [List.getD_eq_getElem _ _ hk]
      exact hq _ (List.getElem_mem _)
    · rw [List.getD_eq_default _ _ (by omega)]
      intro i j _ hj
      simp at hj

/-- On a source with short lines in which only printable or null characters stand behind a
double quote, nextToken answers from every scanner that stands in the source, given fuel
beyond the number of lines plus 65537. -/
theorem nextToken_total (Q : QCharData) (lines : List (List Nat)) (hs : Short lines)
    (hq : QuoteSafe Q lines) (f k : Nat) (L : Lexer) (hat : At lines k L)
    (hf : lines.length + 65538 ≤ f) : ∃ t L1, nextToken Q f L = some (t, L1) := by
  obtain ⟨r, ha⟩ := advance_total Q lines hs f k L hat hf
  have hin : ¬ L.d_in = none := by rw [hat.1]; simp
  unfold nextToken
  rw [if_neg hin, ha]
  cases r with
  | inl p => exact ⟨p.1, p.2, rfl⟩
  | inr Lm =>
    obtain ⟨k1, Lm1, hatm, _, _, _, hr⟩ := advance_spec Q lines hs f k L _ hat ha
    have hLm : Lm1 = Lm := by
      rcases hr with ⟨e, _⟩ | ⟨e, _⟩
      · exact (Sum.inr.inj e).symm
      · cases e
    subst hLm
    have hshort : Lm1.d_line.length < 65536 := hatm.2.2.1 ▸ curLine_short hs k1
    have hsafe := curLine_safe hq k1
    rw [← hatm.2.2.1] at hsafe
    obtain ⟨r, hr⟩ := scanToken_total Q f Lm1
      (fun h34 j hj1 hj2 => hsafe Lm1.d_colNr j hj1 hj2 h34) (by omega)
    exact ⟨r.1, r.2, hr⟩

theorem calls_total (Q : QCharData) (lines : List (List Nat)) (hs : Short lines)
    (hq : QuoteSafe Q lines) (f : Nat) (hf : lines.length + 65538 ≤ f) :
    ∀ (n k : Nat) (L : Lexer), At lines k L →
    ∃ ts Ln, calls Q f n L = some (ts, Ln) ∧ ts.length = n := by
  intro n
  induction n with
  | zero => intro k L _; exact ⟨[], L, rfl, rfl⟩
  | succ n ih =>
    intro k L hat
    obtain ⟨t, L1, h⟩ := nextToken_total Q lines hs hq f k L hat hf
    obtain ⟨k1, hat1, _⟩ := nextToken_step Q lines hs f k L t L1 hat h
    obtain ⟨ts, Ln, hc, hl⟩ := ih k1 L1 hat1
    refine ⟨t :: ts, Ln, ?_, by simp [hl]⟩
    rw [calls, h]
    simp only
    rw [hc]

/-- C30 as amended: on a source whose lines are all shorter than 65536 characters and hold
only printable or null characters behind a double quote, with fuel beyond the number of
lines plus 65537, every nextToken call from a scanner that stands in the source returns,
and what it returns is EOF or a token of length at least 1 that lies in a later line or in
the current line at or behind the column of the scanner, which is then moved behind the
token; any number of successive calls from the start return. One iteration of the loop of
string returns or goes on at a greater offset where the character read is a double quote,
printable or null, and goes on at the same offset, for ever, where it is none of these. -/
theorem nextToken_terminates (Q : QCharData) (lines : List (List Nat)) (hs : Short lines)
    (hq : QuoteSafe Q lines) (f : Nat) (hf : lines.length + 65538 ≤ f) :
    (∀ k L, At lines k L → ∃ t L1 k1, nextToken Q f L = some (t, L1) ∧ At lines k1 L1 ∧
      (t.d_type = T_EOF ∨
       (1 ≤ t.d_len ∧ L1.d_colNr = t.d_col + t.d_len ∧
         (k < k1 ∨ (k1 = k ∧ L.d_colNr ≤ t.d_col))))) ∧
    (∀ n, ∃ ts Ln, calls Q f n (attach lines) = some (ts, Ln) ∧ ts.length = n) ∧
    (∀ (L : Lexer) (g off : Nat),
      ((lookAhead2 L off = 34 ∨ isPrint Q (lookAhead2 L off) = true ∨ lookAhead2 L off = 0) →
        (∃ r, stringLoop Q L (g + 1) off = some r) ∨
        ∃ off1, off < off1 ∧ stringLoop Q L (g + 1) off = stringLoop Q L g off1) ∧
      (lookAhead2 L off ≠ 34 → isPrint Q (lookAhead2 L off) = false → lookAhead2 L off ≠ 0 →
        stringLoop Q L (g + 1) off = stringLoop Q L g off ∧
        ∀ fuel, stringLoop Q L fuel off = none)) := by
  refine ⟨?_, ?_, ?_⟩
  · intro k L hat
    obtain ⟨t, L1, h⟩ := nextToken_total Q lines hs hq f k L hat hf
    obtain ⟨k1, hat1, _, hle, _, hcol, _, hcase⟩ := nextToken_step Q lines hs f k L t L1 hat h
    refine ⟨t, L1, k1, h, hat1, ?_⟩
    rcases hcase with ⟨e, _⟩ | ⟨_, e1, _⟩
    · exact Or.inl e
    · right
      refine ⟨e1, hcol, ?_⟩
      unfold PosLe at hle
      omega
  · intro n
    exact calls_total Q lines hs hq f hf n 0 _ (At.at_attach lines)
  · intro L g off
    constructor
    · intro h
      rw [stringLoop]
      split_ifs with h1 h2 h3 h4
      · exact Or.inr ⟨off + 2, by omega, rfl⟩
      · exact Or.inl ⟨_, rfl⟩
      · exact Or.inr ⟨off + 1, by omega, rfl⟩
      · exact Or.inl ⟨_, rfl⟩
      · exfalso
        rcases h with h | h | h
        · exact h1 h
        · exact h3 h
        · rw [h] at h4
          exact h4 rfl
    · intro h1 h2 h3
      have hn : isNull (lookAhead2 L off) = false := by
        simp [isNull, h3]
      refine ⟨?_, stringLoop_stuck Q L off h1 h2 hn⟩
      rw [stringLoop]
      simp [h1, h2, hn]

/-- C30 as amended, at the source with the line that holds x, a space and a string. -/
theorem nextToken_terminates_witness :
    Short [qstr "x \"a\""] ∧ QuoteSafe asciiData [qstr "x \"a\""] ∧
    (∀ k L, At [qstr "x \"a\""] k L → ∃ t L1 k1,
      nextToken asciiData 65539 L = some (t, L1) ∧ At [qstr "x \"a\""] k1 L1 ∧
      (t.d_type = T_EOF ∨
       (1 ≤ t.d_len ∧ L1.d_colNr = t.d_col + t.d_len ∧
         (k < k1 ∨ (k1 = k ∧ L.d_colNr ≤ t.d_col))))) ∧
    (∀ n, ∃ ts Ln, calls asciiData 65539 n (attach [qstr "x \"a\""]) = some (ts, Ln) ∧
      ts.length = n) :=
  have hs : Short [qstr "x \"a\""] := by simp [Short, qstr]
  have hq : QuoteSafe asciiData [qstr "x \"a\""] := by
    intro l hl i j hij hj h34
    rw [List.mem_singleton] at hl
    subst hl
    have hj5 : j < 5 := hj
    interval_cases j <;> decide
  ⟨hs, hq, (nextToken_terminates asciiData [qstr "x \"a\""] hs hq 65539 (by decide)).1,
    (nextToken_terminates asciiData [qstr "x \"a\""] hs hq 65539 (by decide)).2.1⟩

/-- In a line of 65536 spaces skipWhiteSpace never answers: the column wraps to 0 behind
the last space. -/
theorem skipWhiteSpace_spin (Q : QCharData) (n : Nat) (hn : n = 65536) :
    ∀ (fuel : Nat) (L : Lexer), L.d_line = List.replicate n 32 → L.d_colNr < n →
    skipWhiteSpace Q fuel L = none := by
  intro fuel
  induction fuel with
  | zero => intro L _ _; rfl
  | succ g ih =>
    intro L hline hcol
    rw [skipWhiteSpace]
    have hlt : L.d_colNr < L.d_line.length := by rw [hline, List.length_replicate]; exact hcol
    have hc : L.d_line.getD L.d_colNr 0 = 32 := by
      rw [hline, List.getD_eq_getElem?_getD, List.getElem?_replicate, if_pos hcol]
      rfl
    have hsp : isSpace Q 32 = true := rfl
    rw [if_pos ⟨hlt, by rw [hc]; exact hsp⟩]
    exact ih _ hline (by
      show (L.d_colNr + 1) % 65536 < n
      rw [hn]
      exact Nat.mod_lt _ (by decide))

theorem nextToken_spaces_never_returns (Q : QCharData) (n : Nat) (hn : n = 65536)
    (fuel : Nat) : nextToken Q fuel (attach [List.replicate n 32]) = none := by
  unfold nextToken
  rw [if_neg (by simp [attach, setStream, reset])]
  unfold advance
  cases fuel with
  | zero => rfl
  | succ g =>
    simp only [attach, setStream, reset, new, Option.map_some']
    rw [skipWhiteSpace]
    simp only [List.length_nil, Nat.lt_irrefl, false_and, ↓reduceIte]
    rw [lineLoop]
    simp only [List.length_nil, ge_iff_le, le_refl, ↓reduceIte, atEnd, List.isEmpty_cons,
      Bool.false_eq_true, nextLine, List.headD_cons, List.tail_cons]
    rw [skipWhiteSpace_spin Q n hn g _ rfl (by rw [hn]; decide)]

theorem quoteSafe_spaces (Q : QCharData) (n : Nat) : QuoteSafe Q [List.replicate n 32] := by
  intro l hl i j hij hj h34
  rw [List.mem_singleton] at hl
  subst hl
  exfalso
  rw [List.length_replicate] at hj
  rw [List.getD_eq_getElem?_getD, List.getElem?_replicate, if_pos (by omega)] at h34
  cases h34

/-- C30 as stated fails: the source whose only line is 65536 spaces holds no double quote
at all, and the first call of nextToken does not return, whatever the iteration budget:
skipWhiteSpace wraps the 16-bit column to 0 behind the last space and starts again. -/
theorem nextToken_never_returns_on_65536_spaces :
    QuoteSafe asciiData [List.replicate 65536 32] ∧
    ∀ fuel, nextToken asciiData fuel (attach [List.replicate 65536 32]) = none :=
  ⟨quoteSafe_spaces asciiData 65536,
    fun fuel => nextToken_spaces_never_returns asciiData 65536 rfl fuel⟩

/-! ## A point without a fraction -/

/-- The answer of parse at a numeral and a point that no digit follows. -/
theorem parse_numeral_dot (Q : QCharData) (f : Nat) (pre n x : List Nat) (hn : Numeral n)
    (hx : isDigit Q (x.headD 0) = false) (hf : n.length ≤ f) :
    NumberParser.parse Q f (NumberParser.new (pre ++ (n ++ 46 :: x)) pre.length) =
      some (false, ⟨qstr "expecting digit", pre ++ (n ++ 46 :: x), pre.length, n.length + 1,
        true, false, false⟩) := by
  apply NumberParser.parse_fails_behind_point Q f pre n x _ hn hf
  unfold NumberParser.numeral
  have hd : (pre ++ (n ++ 46 :: x)).drop (pre.length + (n.length + 1)) = x := by
    rw [NumberParser.drop_pre]
    have e : n ++ 46 :: x = (n ++ [46]) ++ x := by simp
    rw [e, List.drop_left' (by simp)]
  rw [NumberParser.lookAhead_eq_headD, hd, if_pos hx]
  rfl

/-- At a numeral and a point that no digit follows, nextToken returns what the helper token
builds for an Invalid token over the numeral and the point. -/
theorem nextToken_numeral_dot (Q : QCharData) (f : Nat) (pre n x : List Nat) (hn : Numeral n)
    (hx : isDigit Q (x.headD 0) = false) (hf : n.length ≤ f)
    (L : Lexer) (hin : L.d_in ≠ none) (hline : L.d_line = pre ++ (n ++ 46 :: x))
    (hc : L.d_colNr = pre.length) :
    nextToken Q f L = some (token L T_Invalid (n.length + 1) (qstr "expecting digit")) := by
  obtain ⟨d, r, rfl, hd, _⟩ := hn
  have hcol : L.d_colNr < L.d_line.length := by
    rw [hline, hc]; simp
  have hch : L.d_line.getD L.d_colNr 0 = d := by
    rw [hline, hc, List.getD_eq_getElem?_getD, List.getElem?_append_right (le_refl _),
      Nat.sub_self]
    simp
  have hf1 : 1 ≤ f := by simp only [List.length_cons] at hf; omega
  unfold nextToken
  rw [if_neg hin, advance_stay Q f L hf1 hcol (by rw [hch]; exact isSpace_of_Digit Q hd)]
  try simp only
  rw [scanToken_digit Q f L hcol (by rw [hch]; exact hd)]
  unfold numeric
  rw [hline, hc, parse_numeral_dot Q f pre (d :: r) x ⟨d, r, rfl, hd, by assumption⟩ hx hf]
  simp

/-- C31 as amended: for every numeral n of the grammar, on a text that holds n, a point and
then the end of the line or a character that is no digit, parse fails with the message
expecting digit and the consumed length |n| + 1, with hasDecimals set; and where the line is
shorter than 65536 characters nextToken returns an Invalid token with that message over the
numeral and the point, and the scanner stands right behind the point. -/
theorem numeral_dot_rejected (Q : QCharData) (f : Nat) (pre n x : List Nat) (hn : Numeral n)
    (hx : isDigit Q (x.headD 0) = false) (hf : n.length ≤ f) :
    NumberParser.parse Q f (NumberParser.new (pre ++ (n ++ 46 :: x)) pre.length) =
      some (false, ⟨qstr "expecting digit", pre ++ (n ++ 46 :: x), pre.length, n.length + 1,
        true, false, false⟩) ∧
    ∀ L : Lexer, L.d_in ≠ none → L.d_line = pre ++ (n ++ 46 :: x) → L.d_colNr = pre.length →
      (pre ++ (n ++ 46 :: x)).length < 65536 →
      ∃ t L1, nextToken Q f L = some (t, L1) ∧ t.d_type = T_Invalid ∧ t.d_col = pre.length ∧
        t.d_len = n.length + 1 ∧ t.d_val = qstr "expecting digit" ∧
        L1.d_colNr = pre.length + (n.length + 1) := by
  refine ⟨parse_numeral_dot Q f pre n x hn hx hf, ?_⟩
  intro L hin hline hc hlen
  simp only [List.length_append, List.length_cons] at hlen
  refine ⟨_, _, nextToken_numeral_dot Q f pre n x hn hx hf L hin hline hc, rfl, ?_, ?_, rfl, ?_⟩
  · show L.d_colNr % 65536 = pre.length
    rw [hc]
    exact Nat.mod_eq_of_lt (by omega)
  · show (n.length + 1) % 65536 = n.length + 1
    exact Nat.mod_eq_of_lt (by omega)
  · show (L.d_colNr + (n.length + 1)) % 65536 = pre.length + (n.length + 1)
    rw [hc]
    exact Nat.mod_eq_of_lt (by omega)

/-- C31 as amended, at the range 1..10: parse fails behind the first point, and the tokens of
the line are an Invalid token of length 2, a Dot and the Number 10. -/
theorem numeral_dot_rejected_witness :
    NumberParser.parse asciiData 2 (NumberParser.new ([] ++ ([49] ++ 46 :: qstr ".10")) 0) =
      some (false, ⟨qstr "expecting digit", [] ++ ([49] ++ 46 :: qstr ".10"), 0, 1 + 1,
        true, false, false⟩) ∧
    tokens asciiData 6 5 (attach [qstr "1..10"]) =
      some [mkToken T_Invalid 1 0 2 (qstr "expecting digit"), mkToken T_Dot 1 2 1 [],
        mkToken T_Number 1 3 2 (qstr "10"), mkToken T_EOF 1 5 0 []] :=
  ⟨(numeral_dot_rejected asciiData 2 [] [49] (qstr ".10")
      ⟨49, [], rfl, ⟨by decide, by decide⟩, Groups.nil⟩ (by decide) (by decide)).1,
    by decide⟩

/-- The first token of a source whose only line is m + 1 digits 1 and a point. -/
theorem nextToken_ones_dot (Q : QCharData) (m f : Nat) (hf : m + 2 ≤ f) :
    nextToken Q f (attach [List.replicate (m + 1) 49 ++ [46]]) =
      some (token ⟨some ⟨[List.replicate (m + 1) 49 ++ [46]], []⟩, 1, 0,
        List.replicate (m + 1) 49 ++ [46], T_Invalid⟩ T_Invalid (m + 1 + 1)
          (qstr "expecting digit")) := by
  have hlen : (List.replicate (m + 1) 49).length = m + 1 := List.length_replicate _ _
  have hn : Numeral (List.replicate (m + 1) 49) :=
    ⟨49, List.replicate m 49, rfl, ⟨by decide, by decide⟩, groups_replicate m⟩
  have h1 := nextToken_numeral_dot Q f [] (List.replicate (m + 1) 49) [] hn
    (isDigit_zero Q) (by rw [hlen]; omega)
    ⟨some ⟨[List.replicate (m + 1) 49 ++ [46]], []⟩, 1, 0,
      List.replicate (m + 1) 49 ++ [46], T_Invalid⟩
    (Option.some_ne_none _) rfl rfl
  rw [hlen] at h1
  rw [nextToken_attach_single Q f _ (by omega)
    (by rw [List.length_append, hlen]; omega)
    (by show isSpace Q ((List.replicate (m + 1) 49 ++ [46]).getD 0 0) = false; rfl), h1]

/-- C31 as stated fails: for the numeral of 65535 digits 1 followed by a point, the Invalid
token has the length field 0, so it does not cover the numeral and the point. -/
theorem numeral_dot_token_length_wraps :
    ∃ t L1, nextToken asciiData 65536 (attach [List.replicate (65534 + 1) 49 ++ [46]])
        = some (t, L1) ∧
      t.d_type = T_Invalid ∧ t.d_val = qstr "expecting digit" ∧ t.d_len = 0 ∧
      L1.d_colNr = 0 :=
  ⟨_, _, nextToken_ones_dot asciiData 65534 65536 (by decide), rfl, rfl, rfl, rfl⟩

/-! ## Based literals with any base -/

/-- C32: for every numeral b and every based numeral d of the grammar, parse accepts the
text b#d# with isBased set, without a point and without an exponent, whatever the value of b
and whatever extended digits d holds. -/
theorem base_not_validated (Q : QCharData) (f : Nat) (pre b d : List Nat) (hb : Numeral b)
    (hd : BasedNumeral d) (hf : b.length + d.length + 2 ≤ f) :
    NumberParser.parse Q f (NumberParser.new (pre ++ (b ++ 35 :: (d ++ [35]))) pre.length) =
      some (true, ⟨[], pre ++ (b ++ 35 :: (d ++ [35])), pre.length, b.length + d.length + 2,
        false, false, true⟩) := by
  have hw : BasedLiteral (b ++ 35 :: (d ++ [35])) false false :=
    ⟨b, d, [], [], rfl, hb, hd, Or.inr ⟨rfl, rfl⟩, Or.inr ⟨rfl, rfl⟩⟩
  have hlen : (b ++ 35 :: (d ++ [35])).length = b.length + d.length + 2 := by
    simp only [List.length_append, List.length_cons, List.length_nil]
    omega
  have h := NumberParser.parse_based Q pre _ false false f hw (by rw [hlen]; exact hf)
  rw [hlen] at h
  exact h

/-- C32 at the texts 99#FF#, whose base is above 16, 1#0#, whose base is below 2, and 2#F#,
whose digit is not less than the base; the scanner returns a Number token for each. -/
theorem base_not_validated_witness :
    NumberParser.parse asciiData 6 (NumberParser.new ([] ++ (qstr "99" ++ 35 :: (qstr "FF" ++ [35])))
        0) =
      some (true, ⟨[], [] ++ (qstr "99" ++ 35 :: (qstr "FF" ++ [35])), 0, 2 + 2 + 2,
        false, false, true⟩) ∧
    NumberParser.parse asciiData 4 (NumberParser.new (qstr "1#0#") 0) =
      some (true, ⟨[], qstr "1#0#", 0, 4, false, false, true⟩) ∧
    NumberParser.parse asciiData 4 (NumberParser.new (qstr "2#F#") 0) =
      some (true, ⟨[], qstr "2#F#", 0, 4, false, false, true⟩) ∧
    tokens asciiData 8 3 (attach [qstr "99#FF#"]) =
      some [mkToken T_Number 1 0 6 (qstr "99#FF#"), mkToken T_EOF 1 6 0 []] :=
  ⟨base_not_validated asciiData 6 [] (qstr "99") (qstr "FF")
      ⟨57, [57], rfl, ⟨by decide, by decide⟩,
        Groups.digit 57 [] ⟨by decide, by decide⟩ Groups.nil⟩
      ⟨70, [70], rfl, Or.inr (Or.inr ⟨by decide, by decide⟩),
        Groups.digit 70 [] (Or.inr (Or.inr ⟨by decide, by decide⟩)) Groups.nil⟩
      (by decide),
    by decide, by decide, by decide⟩

/-! ## The keyword range and the delimiter glyphs -/

/-- C35: isAda12KeyWord and isKeyWord agree on every type value; the 73 values between 0 and
255 that isAda12KeyWord accepts are the keyword types from T_abort to T_xor, each listed in
one of the four version predicates. -/
theorem ada12_is_keyword_range :
    (∀ t, isAda12KeyWord t = isKeyWord t) ∧
    (∀ t, isAda12KeyWord t = true ↔ isKeyWord t = true) ∧
    (List.range 256).filter isAda12KeyWord = List.range' T_abort 73 ∧
    (∀ t, isKeyWord t = true ↔
      isAda83KeyWord t = true ∨
      t ∈ [T_abstract, T_aliased, T_protected, T_requeue, T_tagged, T_until] ∨
      t ∈ [T_interface, T_overriding, T_synchronized] ∨ t = T_some) := by
  have h1 : ∀ t, isAda12KeyWord t = isKeyWord t := by
    intro t
    by_cases h : t ≤ 73
    · interval_cases t <;> rfl
    · have hk : isKeyWord t = false := by
        cases hb : isKeyWord t with
        | false => rfl
        | true => exact absurd ((isKeyWord_iff t).1 hb).2 h
      have h83 : isAda83KeyWord t = false := by
        cases hb : isAda83KeyWord t with
        | false => rfl
        | true =>
          have := ((isAda83KeyWord_iff t).1 hb).1
          rw [hk] at this
          cases this
      rw [hk]
      unfold isAda12KeyWord isAda05KeyWord isAda95KeyWord
      rw [h83]
      simp only [T_some, T_interface, T_overriding, T_synchronized, T_abstract, T_aliased,
        T_protected, T_requeue, T_tagged, T_until]
      repeat' rw [if_neg (by omega)]
  refine ⟨h1, fun t => by rw [h1 t], by decide, ?_⟩
  intro t
  rw [isKeyWord_iff]
  by_cases h : t ≤ 73
  · interval_cases t <;> decide
  · constructor
    · intro hk
      omega
    · intro hk
      exfalso
      rcases hk with hk | hk | hk | hk
      · have := ((isAda83KeyWord_iff t).1 hk).1
        rw [isKeyWord_iff] at this
        omega
      · have hall : ∀ y ∈ [T_abstract, T_aliased, T_protected, T_requeue, T_tagged, T_until],
            y ≤ 73 := by decide
        exact h (hall t hk)
      · have hall : ∀ y ∈ [T_interface, T_overriding, T_synchronized], y ≤ 73 := by decide
        exact h (hall t hk)
      · rw [hk] at h
        exact h (by decide)

/-- C34: for each of the 26 delimiter types, the token stream of a source whose only line is
the glyph that tokenName answers for the type is one token of that type at column 0 of line
1, as long as the glyph and without text, followed by EOF. -/
theorem delimiter_glyph_round_trip (Q : QCharData) :
    (∀ d, isDelimiter d = true →
      tokens Q 4 3 (attach [qstr (tokenName d true)]) =
        some [mkToken d 1 0 (tokenName d true).length [],
          mkToken T_EOF 1 (tokenName d true).length 0 []]) ∧
    (List.range 256).filter isDelimiter = List.range' T_Colon 26 ∧
    ∀ d, isDelimiter d = true →
      1 ≤ (tokenName d true).length ∧ (tokenName d true).length ≤ 2 := by
  refine ⟨?_, by decide, ?_⟩
  · intro d hd
    obtain ⟨h1, h2⟩ := (isDelimiter_iff d).1 hd
    interval_cases d <;> rfl
  · intro d hd
    obtain ⟨h1, h2⟩ := (isDelimiter_iff d).1 hd
    interval_cases d <;> decide

/-! ## The formats of the highlighter -/

/-- The format that pickFormat selects depends on the type of the token only. -/
theorem pickFormat_eq (t : Token) :
    Highlighter.pickFormat t =
      if t.d_type = T_Comment then Format.commentFormat
      else if t.d_type = T_String ∨ t.d_type = T_Character then Format.stringFormat
      else if t.d_type = T_Number then Format.numberFormat
      else if 74 ≤ t.d_type ∧ t.d_type ≤ 99 then Format.delimiterFormat
      else if 1 ≤ t.d_type ∧ t.d_type ≤ 73 then Format.keyWordFormat
      else if t.d_type = T_Identifier then Format.identFormat
      else if t.d_type = T_Attribute then Format.attrFormat
      else Format.invalidFormat := by
  unfold Highlighter.pickFormat Token.isComment Token.isString Token.isNumber Token.isDelimiter
    Token.isKeyWord Token.isIdent Token.isAttr Lexer.isNumber
  simp only [beq_iff_eq, Bool.or_eq_true, isDelimiter_iff, isKeyWord_iff]
  split_ifs <;> first | rfl | (exfalso; tauto)

theorem firstFormat_eq (t : Token) : firstFormat t = Highlighter.pickFormat t := by
  unfold firstFormat formatTests Highlighter.pickFormat
  simp only [List.find?]
  by_cases h1 : t.isComment = true
  · simp [h1]
  by_cases h2 : t.isString = true
  · simp [h1, h2]
  by_cases h3 : t.d_type = T_Character
  · have h3b : (t.d_type == T_Character) = true := beq_iff_eq.2 h3
    simp [h1, h2, h3, h3b]
  have h3b : (t.d_type == T_Character) = false := beq_false_of_ne h3
  by_cases h4 : t.isNumber = true
  · simp [h1, h2, h3, h3b, h4]
  by_cases h5 : t.isDelimiter = true
  · simp [h1, h2, h3, h3b, h4, h5]
  by_cases h6 : t.isKeyWord = true
  · simp [h1, h2, h3, h3b, h4, h5, h6]
  by_cases h7 : t.isIdent = true
  · simp [h1, h2, h3, h3b, h4, h5, h6, h7]
  by_cases h8 : t.isAttr = true
  · simp [h1, h2, h3, h3b, h4, h5, h6, h7, h8]
  · simp [h1, h2, h3, h3b, h4, h5, h6, h7, h8]

/-- The calls of setFormat in the loop of highlightBlock are those that go with the tokens
of the stream other than EOF, in order. -/
theorem highlightLoop_tokens (Q : QCharData) (f : Nat) : ∀ (n : Nat) (L0 : Lexer) (t : Token)
    (L1 : Lexer), nextToken Q f L0 = some (t, L1) →
    (Highlighter.highlightLoop Q f n t L1).map Prod.fst =
      (tokens Q f n L0).map (fun ts => (ts.filter (fun t => !t.isEof)).map formatCallOf) := by
  intro n
  induction n with
  | zero => intro L0 t L1 _; rfl
  | succ n ih =>
    intro L0 t L1 h
    rw [Highlighter.highlightLoop, tokens, h]
    simp only
    by_cases he : t.d_type = T_EOF
    · have he2 : t.isEof = true := by simp [Token.isEof, he]
      rw [if_pos he2, if_pos he]
      simp [he2]
    · have he2 : ¬ t.isEof = true := by simp [Token.isEof, he]
      rw [if_neg he2, if_neg he]
      cases hn : nextToken Q f L1 with
      | none =>
        have ht : tokens Q f n L1 = none := by
          cases n with
          | zero => rfl
          | succ m => rw [tokens, hn]
        rw [ht]
        rfl
      | some r =>
        obtain ⟨t1, L2⟩ := r
        have e := ih L1 t1 L2 hn
        simp only
        cases hl : Highlighter.highlightLoop Q f n t1 L2 with
        | none =>
          rw [hl] at e
          cases ht : tokens Q f n L1 with
          | none => rfl
          | some ts => rw [ht] at e; cases e
        | some r2 =>
          obtain ⟨cs, L3⟩ := r2
          rw [hl] at e
          cases ht : tokens Q f n L1 with
          | none => rw [ht] at e; cases e
          | some ts =>
            rw [ht] at e
            simp only [Option.map_some', Option.some.injEq] at e ⊢
            rw [e]
            simp [he2, formatCallOf]

/-- C38: the format of a token is that of the first test it passes in the order comment,
string or character, character, number, delimiter, keyword, identifier, attribute, and the
invalid format if it passes none; by type, the comment format goes to Comment, the string
format to String and Character, the number format to Number, the delimiter format to the 26
delimiter types, the keyword format to the 73 keyword types, the identifier format to
Identifier, the attribute format to Attribute and the invalid format to every other type; the
character format is selected for no token; and highlightBlock calls setFormat once for each
token of the block other than EOF, in order, with the start and length of the token, the
selected format and the type of the token as property. The last part shows a block with a
Character and an Invalid token. -/
theorem format_selection :
    (∀ t, Highlighter.pickFormat t = firstFormat t) ∧
    (∀ t, Highlighter.pickFormat t ≠ Format.charFormat) ∧
    (∀ t, t.d_type = T_Character → Highlighter.pickFormat t = Format.stringFormat) ∧
    (∀ t, (Highlighter.pickFormat t = Format.commentFormat ↔ t.d_type = T_Comment) ∧
      (Highlighter.pickFormat t = Format.stringFormat ↔
        t.d_type = T_String ∨ t.d_type = T_Character) ∧
      (Highlighter.pickFormat t = Format.numberFormat ↔ t.d_type = T_Number) ∧
      (Highlighter.pickFormat t = Format.delimiterFormat ↔ isDelimiter t.d_type = true) ∧
      (Highlighter.pickFormat t = Format.keyWordFormat ↔ isKeyWord t.d_type = true) ∧
      (Highlighter.pickFormat t = Format.identFormat ↔ t.d_type = T_Identifier) ∧
      (Highlighter.pickFormat t = Format.attrFormat ↔ t.d_type = T_Attribute) ∧
      (Highlighter.pickFormat t = Format.invalidFormat ↔
        t.d_type = T_Invalid ∨ t.d_type = T_EOF ∨ T_EOF < t.d_type)) ∧
    (∀ Q f n d_lex text,
      (Highlighter.highlightBlock Q f n d_lex text).map Prod.fst =
        (tokens Q f n (setStream d_lex
            (some ⟨Highlighter.blockLines text, Highlighter.blockLines text⟩))).map
          (fun ts => (ts.filter (fun t => !t.isEof)).map formatCallOf)) ∧
    (Highlighter.highlightBlock asciiData 12 8 Lexer.new (qstr "c := \x27a\x27; $")).map
        Prod.fst =
      some [⟨0, 1, Format.identFormat, T_Identifier⟩, ⟨2, 2, Format.delimiterFormat, T_Assig⟩,
        ⟨5, 3, Format.stringFormat, T_Character⟩, ⟨8, 1, Format.delimiterFormat, T_Semicolon⟩,
        ⟨10, 1, Format.invalidFormat, T_Invalid⟩] := by
  refine ⟨fun t => (firstFormat_eq t).symm, ?_, ?_, ?_, ?_, by decide⟩
  · intro t
    rw [pickFormat_eq]
    split_ifs <;> decide
  · intro t h
    rw [pickFormat_eq, h]
    rfl
  · intro t
    rw [pickFormat_eq, isDelimiter_iff, isKeyWord_iff]
    simp only [T_Comment, T_String, T_Character, T_Number, T_Identifier, T_Attribute,
      T_Invalid, T_EOF]
    refine ⟨?_, ?_, ?_, ?_, ?_, ?_, ?_, ?_⟩ <;>
      (split_ifs <;> simp only [reduceCtorEq, false_iff, true_iff] <;> omega)
  · intro Q f n d_lex text
    unfold Highlighter.highlightBlock
    simp only
    cases hn : nextToken Q f (setStream d_lex
        (some ⟨Highlighter.blockLines text, Highlighter.blockLines text⟩)) with
    | none =>
      have ht : tokens Q f n (setStream d_lex
          (some ⟨Highlighter.blockLines text, Highlighter.blockLines text⟩)) = none := by
        cases n with
        | zero => rfl
        | succ m => rw [tokens, hn]
      rw [ht]
      rfl
    | some r =>
      obtain ⟨t, L1⟩ := r
      have e := highlightLoop_tokens Q f n _ t L1 hn
      simp only
      rw [← e]
      cases Highlighter.highlightLoop Q f n t L1 with
      | none => rfl
      | some r2 => rfl

/-! ## The end of the source -/

theorem skipWhiteSpace_col_lt (Q : QCharData) : ∀ (f : Nat) (L L1 : Lexer),
    skipWhiteSpace Q f L = some L1 → L.d_colNr < 65536 → L1.d_colNr < 65536 := by
  intro f
  induction f with
  | zero => intro L L1 h; simp [skipWhiteSpace] at h
  | succ f ih =>
    intro L L1 h hc
    rw [skipWhiteSpace] at h
    split_ifs at h with h1
    · exact ih _ _ h (Nat.mod_lt _ (by decide))
    · cases h
      exact hc

/-- The EOF token of the first loop of nextToken is built at the end of the line held, with
the source at its end. -/
theorem lineLoop_eof (Q : QCharData) : ∀ (f : Nat) (L : Lexer) (p : Token × Lexer),
    lineLoop Q f L = some (Sum.inl p) → L.d_colNr < 65536 →
    ∃ Lm, p = token Lm T_EOF 0 [] ∧ Lm.d_line.length ≤ Lm.d_colNr ∧ atEnd Lm = true ∧
      Lm.d_colNr < 65536 := by
  intro f
  induction f with
  | zero => intro L p h; simp [lineLoop] at h
  | succ f ih =>
    intro L p h hc
    rw [lineLoop] at h
    split_ifs at h with h1 h2
    · cases h
      exact ⟨L, rfl, h1, h2, hc⟩
    · cases hs : skipWhiteSpace Q f (nextLine L) with
      | none => rw [hs] at h; simp at h
      | some L1 =>
        rw [hs] at h
        refine ih _ _ h (skipWhiteSpace_col_lt Q f _ _ hs ?_)
        unfold nextLine
        split <;> exact (by decide : (0 : Nat) < 65536)
    · cases h

/-- A call of nextToken on the scanner that the EOF token left returns the same token and
leaves the scanner as it is. -/
theorem nextToken_eof_again (Q : QCharData) (Lm : Lexer) (hc : Lm.d_colNr < 65536)
    (hend : Lm.d_in = none ∨ (Lm.d_line.length ≤ Lm.d_colNr ∧ atEnd Lm = true))
    (g : Nat) (hg : 1 ≤ g) :
    nextToken Q g (token Lm T_EOF 0 []).2 = some (token Lm T_EOF 0 []) := by
  obtain ⟨g, rfl⟩ : ∃ g1, g = g1 + 1 := ⟨g - 1, by omega⟩
  have hm : (Lm.d_colNr + 0) % 65536 = Lm.d_colNr := by
    rw [Nat.add_zero]
    exact Nat.mod_eq_of_lt hc
  have hst : (token Lm T_EOF 0 []).2 = { Lm with d_lastTokenType := T_EOF } := by
    simp only [token, hm]
    rfl
  have hre : token { Lm with d_lastTokenType := T_EOF } T_EOF 0 [] = token Lm T_EOF 0 [] := by
    simp only [token, hm]
  rw [hst]
  unfold nextToken
  by_cases hin : Lm.d_in = none
  · rw [if_pos hin, hre]
  · rw [if_neg hin]
    obtain ⟨hlen, hat⟩ := hend.resolve_left hin
    unfold advance
    rw [skipWhiteSpace]
    rw [if_neg (by
      intro h
      have := h.1
      simp only at this
      omega)]
    simp only
    rw [lineLoop, if_pos hlen, if_pos (by simpa [atEnd] using hat)]
    simp only
    rw [hre]

/-- C33: once nextToken has returned EOF, from a scanner whose column is a 16-bit number,
the token has length 0 and stands at the column of the scanner, and any number of later calls
return the same token, with the same line, column and length, and leave the scanner as it
is, for every iteration budget of at least 1. -/
theorem eof_absorbing (Q : QCharData) (f : Nat) (L : Lexer) (t : Token) (L1 : Lexer)
    (hc : L.d_colNr < 65536) (h : nextToken Q f L = some (t, L1)) (ht : t.d_type = T_EOF) :
    t.d_len = 0 ∧ t.d_col = L1.d_colNr ∧ L1.d_lastTokenType = T_EOF ∧
    (∀ g, 1 ≤ g → nextToken Q g L1 = some (t, L1)) ∧
    ∀ g n, 1 ≤ g → calls Q g n L1 = some (List.replicate n t, L1) := by
  have key : ∃ Lm, (t, L1) = token Lm T_EOF 0 [] ∧ Lm.d_colNr < 65536 ∧
      (Lm.d_in = none ∨ (Lm.d_line.length ≤ Lm.d_colNr ∧ atEnd Lm = true)) := by
    unfold nextToken at h
    split_ifs at h with hin
    · exact ⟨L, (Option.some.inj h).symm, hc, Or.inl hin⟩
    · cases ha : advance Q f L with
      | none => rw [ha] at h; simp at h
      | some r =>
        rw [ha] at h
        cases r with
        | inl p =>
          simp only [Option.some.injEq] at h
          subst h
          unfold advance at ha
          cases hs : skipWhiteSpace Q f L with
          | none => rw [hs] at ha; simp at ha
          | some L2 =>
            rw [hs] at ha
            obtain ⟨Lm, e1, e2, e3, e4⟩ :=
              lineLoop_eof Q f L2 _ ha (skipWhiteSpace_col_lt Q f L L2 hs hc)
            exact ⟨Lm, e1, e4, Or.inr ⟨e2, e3⟩⟩
        | inr Lm =>
          exfalso
          simp only at h
          obtain ⟨tt, len, val, e, e1, e2, _⟩ :=
            scanToken_inLine Q f Lm (advance_inr Q f L Lm ha) t L1 h
          have e3 : t.d_type = tt % 256 := by
            have := congrArg Prod.fst e
            simp only [token] at this
            rw [this]
            rfl
          rw [Nat.mod_eq_of_lt e2] at e3
          exact e1 (e3 ▸ ht)
  obtain ⟨Lm, e, hcm, hend⟩ := key
  have et : t = (token Lm T_EOF 0 []).1 := congrArg Prod.fst e
  have eL : L1 = (token Lm T_EOF 0 []).2 := congrArg Prod.snd e
  have hm : (Lm.d_colNr + 0) % 65536 = Lm.d_colNr := by
    rw [Nat.add_zero]
    exact Nat.mod_eq_of_lt hcm
  have hagain : ∀ g, 1 ≤ g → nextToken Q g L1 = some (t, L1) := by
    intro g hg
    rw [eL, et]
    exact nextToken_eof_again Q Lm hcm hend g hg
  refine ⟨?_, ?_, ?_, hagain, ?_⟩
  · rw [et]; rfl
  · rw [et, eL]
    show Lm.d_colNr % 65536 = (Lm.d_colNr + 0) % 65536
    rw [Nat.add_zero]
  · rw [eL]; rfl
  · intro g n hg
    induction n with
    | zero => rfl
    | succ n ih =>
      rw [calls, hagain g hg]
      simp only
      rw [ih]
      rfl

/-- C33 at the source with the line x, after the token x. -/
theorem eof_absorbing_witness :
    nextToken asciiData 2 ⟨some ⟨[[120]], []⟩, 1, 1, [120], T_Identifier⟩ =
      some (mkToken T_EOF 1 1 0 [], ⟨some ⟨[[120]], []⟩, 1, 1, [120], T_EOF⟩) ∧
    ((mkToken T_EOF 1 1 0 []).d_len = 0 ∧ (mkToken T_EOF 1 1 0 []).d_col = 1 ∧
      T_EOF = T_EOF ∧
      (∀ g, 1 ≤ g → nextToken asciiData g ⟨some ⟨[[120]], []⟩, 1, 1, [120], T_EOF⟩ =
        some (mkToken T_EOF 1 1 0 [], ⟨some ⟨[[120]], []⟩, 1, 1, [120], T_EOF⟩)) ∧
      ∀ g n, 1 ≤ g → calls asciiData g n ⟨some ⟨[[120]], []⟩, 1, 1, [120], T_EOF⟩ =
        some (List.replicate n (mkToken T_EOF 1 1 0 []),
          ⟨some ⟨[[120]], []⟩, 1, 1, [120], T_EOF⟩)) :=
  ⟨by decide,
    eof_absorbing asciiData 2 ⟨some ⟨[[120]], []⟩, 1, 1, [120], T_Identifier⟩
      (mkToken T_EOF 1 1 0 []) ⟨some ⟨[[120]], []⟩, 1, 1, [120], T_EOF⟩
      (by decide) (by decide) (by decide)⟩

/-! ## Spans inside the line -/

/-- On a source with short lines, every token of successive calls from a scanner that
stands in the source lies inside a line of the source, and the scanner afterwards stands in
the source. -/
theorem calls_inside (Q : QCharData) (lines : List (List Nat)) (hs : Short lines) (f : Nat) :
    ∀ (n k : Nat) (L : Lexer) (ts : List Token) (Ln : Lexer), At lines k L →
      calls Q f n L = some (ts, Ln) →
      (∃ kn, At lines kn Ln) ∧
      ∀ t ∈ ts, ∃ k1, k1 ≤ lines.length ∧ t.d_line = k1 % 65536 ∧
        t.d_col + t.d_len ≤ (curLine lines k1).length := by
  intro n
  induction n with
  | zero =>
    intro k L ts Ln hat h
    simp only [calls, Option.some.injEq, Prod.mk.injEq] at h
    obtain ⟨rfl, rfl⟩ := h
    exact ⟨⟨k, hat⟩, by simp⟩
  | succ n ih =>
    intro k L ts Ln hat h
    rw [calls] at h
    cases hn : nextToken Q f L with
    | none => rw [hn] at h; simp at h
    | some r =>
      obtain ⟨t, L2⟩ := r
      rw [hn] at h
      simp only at h
      cases hc : calls Q f n L2 with
      | none => rw [hc] at h; simp at h
      | some r2 =>
        obtain ⟨ts2, L3⟩ := r2
        rw [hc] at h
        simp only [Option.some.injEq, Prod.mk.injEq] at h
        obtain ⟨rfl, rfl⟩ := h
        obtain ⟨k1, hat1, hline, _, _, _, _, hcase⟩ :=
          nextToken_step Q lines hs f k L t L2 hat hn
        obtain ⟨ih1, ih2⟩ := ih k1 L2 ts2 L3 hat1 hc
        refine ⟨ih1, ?_⟩
        intro t' ht'
        rcases List.mem_cons.mp ht' with rfl | hmem
        · refine ⟨k1, hat1.2.2.2.1, hline, ?_⟩
          rcases hcase with ⟨_, e2, _, e4⟩ | ⟨_, _, e3⟩
          · omega
          · exact e3
        · exact ih2 t' hmem

/-- C37: on a source whose lines are all shorter than 65536 characters, every token that
nextToken returns from a scanner standing in the source lies inside the line that the
scanner holds afterwards, which is a line of the source, and the column of the scanner is
not behind the end of that line; started at a digit, parse consumes at least one character
and at most the rest of the text, whether it succeeds or fails; the second loop of nextToken
is entered only with the column inside the line, where the line buffer is indexed; and the
same holds along any number of calls from the start. -/
theorem spans_inside_line (Q : QCharData) (lines : List (List Nat)) (hs : Short lines) :
    (∀ f k L t L1, At lines k L → nextToken Q f L = some (t, L1) →
      ∃ k1, At lines k1 L1 ∧ L1.d_line = curLine lines k1 ∧
        t.d_col + t.d_len ≤ L1.d_line.length ∧ L1.d_colNr ≤ L1.d_line.length ∧
        L1.d_line.length < 65536) ∧
    (∀ f str start ok P, start < str.length → isDigit Q (str.getD start 0) = true →
      NumberParser.parse Q f (NumberParser.new str start) = some (ok, P) →
      1 ≤ P.d_off ∧ start + P.d_off ≤ str.length) ∧
    (∀ f L Lm, advance Q f L = some (Sum.inr Lm) → Lm.d_colNr < Lm.d_line.length) ∧
    (∀ f n ts Ln, calls Q f n (attach lines) = some (ts, Ln) →
      Ln.d_colNr ≤ Ln.d_line.length ∧
      ∀ t ∈ ts, ∃ k1, k1 ≤ lines.length ∧ t.d_line = k1 % 65536 ∧
        t.d_col + t.d_len ≤ (curLine lines k1).length) := by
  refine ⟨?_, ?_, ?_, ?_⟩
  · intro f k L t L1 hat h
    obtain ⟨k1, hat1, _, _, _, _, _, hcase⟩ := nextToken_step Q lines hs f k L t L1 hat h
    refine ⟨k1, hat1, hat1.2.2.1, ?_, hat1.2.2.2.2, hat1.2.2.1 ▸ curLine_short hs k1⟩
    rw [hat1.2.2.1]
    rcases hcase with ⟨_, e2, _, e4⟩ | ⟨_, _, e3⟩
    · omega
    · exact e3
  · intro f str start ok P hlt hd h
    obtain ⟨b1, b2, _, _⟩ := NumberParser.parse_bounds Q f str start ok P h hlt hd
    exact ⟨b1, b2⟩
  · intro f L Lm h
    exact advance_inr Q f L Lm h
  · intro f n ts Ln h
    obtain ⟨⟨kn, hatn⟩, h2⟩ := calls_inside Q lines hs f n 0 _ ts Ln (At.at_attach lines) h
    exact ⟨hatn.2.2.2.2, h2⟩

/-- C37 at the source with the line that holds x, a space and 1_. -/
theorem spans_inside_line_witness :
    Short [qstr "x 1_"] ∧
    calls asciiData 6 3 (attach [qstr "x 1_"]) =
      some ([mkToken T_Identifier 1 0 1 [120], mkToken T_Invalid 1 2 2 (qstr "expecting digit"),
          mkToken T_EOF 1 4 0 []],
        ⟨some ⟨[qstr "x 1_"], []⟩, 1, 4, qstr "x 1_", T_EOF⟩) ∧
    ((4 : Nat) ≤ (qstr "x 1_").length ∧
      ∀ t ∈ [mkToken T_Identifier 1 0 1 [120],
          mkToken T_Invalid 1 2 2 (qstr "expecting digit"), mkToken T_EOF 1 4 0 []],
        ∃ k1, k1 ≤ [qstr "x 1_"].length ∧ t.d_line = k1 % 65536 ∧
          t.d_col + t.d_len ≤ (curLine [qstr "x 1_"] k1).length) :=
  have hs : Short [qstr "x 1_"] := by simp [Short, qstr]
  have hc : calls asciiData 6 3 (attach [qstr "x 1_"]) =
      some ([mkToken T_Identifier 1 0 1 [120], mkToken T_Invalid 1 2 2 (qstr "expecting digit"),
          mkToken T_EOF 1 4 0 []],
        ⟨some ⟨[qstr "x 1_"], []⟩, 1, 4, qstr "x 1_", T_EOF⟩) := by decide
  ⟨hs, hc, (spans_inside_line asciiData [qstr "x 1_"] hs).2.2.2 6 3 _ _ hc⟩

/-! ## The flags of NumberParser and the text read -/

namespace NumberParser

theorem lookAhead_getD (P : NumberParser) (off : Nat) (h : lookAhead P off ≠ 0) :
    P.d_str.getD (P.d_start + off) 0 = lookAhead P off := by
  unfold lookAhead at h ⊢
  split_ifs at h ⊢ with hc
  · rfl
  · exact absurd rfl h

theorem isDigit_plain {Q : QCharData} {c : Nat} (h : isDigit Q c = true) : c ≠ 35 ∧ c ≠ 46 := by
  unfold isDigit at h
  split_ifs at h with hc
  · simp only [Bool.and_eq_true, decide_eq_true_eq] at h
    omega
  · omega

theorem extended_digit_plain {Q : QCharData} {c : Nat} (h : extended_digit Q c = true) :
    c ≠ 35 ∧ c ≠ 46 := by
  unfold extended_digit at h
  split_ifs at h with h1 h2
  · exact isDigit_plain h1
  · omega

theorem marker_plain {Q : QCharData} {c : Nat} (h : toLower Q c = 101) : c ≠ 35 ∧ c ≠ 46 := by
  unfold toLower at h
  split_ifs at h with hc h2
  · omega
  · omega
  · omega

theorem Plain.plain_refl (P : NumberParser) : Plain P P :=
  ⟨rfl, rfl, fun i h1 h2 => absurd h2 (by omega)⟩

theorem Plain.plain_trans {P P1 P2 : NumberParser} (h1 : Plain P P1) (h2 : Plain P1 P2)
    (hs : P1.d_str = P.d_str) (ht : P1.d_start = P.d_start) : Plain P P2 := by
  refine ⟨h2.1.trans h1.1, h2.2.1.trans h1.2.1, fun i hi1 hi2 => ?_⟩
  by_cases hi : i < P1.d_off
  · exact h1.2.2 i hi1 hi
  · rw [← hs, ← ht]
    exact h2.2.2 i (by omega) hi2

/-- One character that is neither a number sign nor a point is read, the flags kept. -/
theorem Plain.plain_bump {P P1 : NumberParser} (hb : P1.d_isBased = P.d_isBased)
    (hd : P1.d_hasDecimals = P.d_hasDecimals) (ho : P1.d_off = P.d_off + 1)
    (hne : lookAhead P P.d_off ≠ 0) (hc : lookAhead P P.d_off ≠ 35 ∧ lookAhead P P.d_off ≠ 46) :
    Plain P P1 := by
  refine ⟨hb, hd, fun i hi1 hi2 => ?_⟩
  have hi : i = P.d_off := by omega
  subst hi
  rw [lookAhead_getD P P.d_off hne]
  exact hc

theorem numeralLoop_plain (Q : QCharData) : ∀ (f : Nat) (P : NumberParser)
    (r : Bool × NumberParser), numeralLoop Q f P = some r →
    Plain P r.2 ∧ r.2.d_hasExponent = P.d_hasExponent := by
  intro f
  induction f with
  | zero => intro P r h; simp [numeralLoop] at h
  | succ f ih =>
    intro P r h
    rw [numeralLoop] at h
    simp only at h
    split_ifs at h with h1 h2 h3 h4
    · have hb : Plain P { P with d_off := P.d_off + 1 } :=
        Plain.plain_bump rfl rfl rfl (by rw [h2]; decide) (by rw [h2]; decide)
      have hb2 : Plain { P with d_off := P.d_off + 1 } { P with d_off := P.d_off + 1 + 1 } :=
        Plain.plain_bump rfl rfl rfl (isDigit_ne_zero h3) (isDigit_plain h3)
      have e := ih _ _ h
      exact ⟨hb.plain_trans (hb2.plain_trans e.1 rfl rfl) rfl rfl, e.2⟩
    · cases h
      exact ⟨(Plain.plain_bump rfl rfl rfl (by rw [h2]; decide) (by rw [h2]; decide) :
        Plain P { P with d_off := P.d_off + 1 }), rfl⟩
    · have hb : Plain P { P with d_off := P.d_off + 1 } :=
        Plain.plain_bump rfl rfl rfl (isDigit_ne_zero h4) (isDigit_plain h4)
      have e := ih _ _ h
      exact ⟨hb.plain_trans e.1 rfl rfl, e.2⟩
    · exact ih _ _ h
    · cases h
      exact ⟨Plain.plain_refl P, rfl⟩

theorem numeral_plain (Q : QCharData) (f : Nat) (P : NumberParser) (r : Bool × NumberParser)
    (h : numeral Q f P = some r) : Plain P r.2 ∧ r.2.d_hasExponent = P.d_hasExponent := by
  unfold numeral at h
  split_ifs at h with h1
  · cases h
    exact ⟨Plain.plain_refl P, rfl⟩
  · have h1b : isDigit Q (lookAhead P P.d_off) = true := by simpa using h1
    have hb : Plain P { P with d_off := P.d_off + 1 } :=
      Plain.plain_bump rfl rfl rfl (isDigit_ne_zero h1b) (isDigit_plain h1b)
    have e := numeralLoop_plain Q f _ r h
    exact ⟨hb.plain_trans e.1 rfl rfl, e.2⟩

theorem basedNumeralLoop_plain (Q : QCharData) : ∀ (f : Nat) (P : NumberParser)
    (r : Bool × NumberParser), basedNumeralLoop Q f P = some r →
    Plain P r.2 ∧ r.2.d_hasExponent = P.d_hasExponent := by
  intro f
  induction f with
  | zero => intro P r h; simp [basedNumeralLoop] at h
  | succ f ih =>
    intro P r h
    rw [basedNumeralLoop] at h
    simp only at h
    split_ifs at h with h1 h2 h3 h4
    · have hb : Plain P { P with d_off := P.d_off + 1 } :=
        Plain.plain_bump rfl rfl rfl (by rw [h2]; decide) (by rw [h2]; decide)
      have hb2 : Plain { P with d_off := P.d_off + 1 } { P with d_off := P.d_off + 1 + 1 } :=
        Plain.plain_bump rfl rfl rfl (extended_digit_ne_zero h3) (extended_digit_plain h3)
      have e := ih _ _ h
      exact ⟨hb.plain_trans (hb2.plain_trans e.1 rfl rfl) rfl rfl, e.2⟩
    · cases h
      exact ⟨(Plain.plain_bump rfl rfl rfl (by rw [h2]; decide) (by rw [h2]; decide) :
        Plain P { P with d_off := P.d_off + 1 }), rfl⟩
    · have hb : Plain P { P with d_off := P.d_off + 1 } :=
        Plain.plain_bump rfl rfl rfl (extended_digit_ne_zero h4) (extended_digit_plain h4)
      have e := ih _ _ h
      exact ⟨hb.plain_trans e.1 rfl rfl, e.2⟩
    · exact ih _ _ h
    · cases h
      exact ⟨Plain.plain_refl P, rfl⟩

theorem basedNumeral_plain (Q : QCharData) (f : Nat) (P : NumberParser)
    (r : Bool × NumberParser) (h : basedNumeral Q f P = some r) :
    Plain P r.2 ∧ r.2.d_hasExponent = P.d_hasExponent := by
  unfold basedNumeral at h
  split_ifs at h with h1
  · cases h
    exact ⟨Plain.plain_refl P, rfl⟩
  · have h1b : extended_digit Q (lookAhead P P.d_off) = true := by simpa using h1
    have hb : Plain P { P with d_off := P.d_off + 1 } :=
      Plain.plain_bump rfl rfl rfl (extended_digit_ne_zero h1b) (extended_digit_plain h1b)
    have e := basedNumeralLoop_plain Q f _ r h
    exact ⟨hb.plain_trans e.1 rfl rfl, e.2⟩

theorem exponent_plain (Q : QCharData) (f : Nat) (P : NumberParser) (r : Bool × NumberParser)
    (h : exponent Q f P = some r) : Plain P r.2 ∧ r.2.d_hasExponent = P.d_hasExponent := by
  unfold exponent at h
  simp only at h
  split_ifs at h with h1 h2 h3
  · have hb : Plain P { P with d_off := P.d_off + 1 } :=
      Plain.plain_bump rfl rfl rfl (by rcases h2 with h2 | h2 <;> rw [h2] <;> decide)
        (by rcases h2 with h2 | h2 <;> rw [h2] <;> decide)
    have e := numeral_plain Q f _ r h
    exact ⟨hb.plain_trans e.1 rfl rfl, e.2⟩
  · exact numeral_plain Q f _ r h
  · cases h
    exact ⟨Plain.plain_refl P, rfl⟩
  · cases h
    exact ⟨Plain.plain_refl P, rfl⟩

theorem parseExponent_plain (Q : QCharData) (f : Nat) (P : NumberParser)
    (r : Bool × NumberParser) (h : parseExponent Q f P = some r) : Plain P r.2 := by
  unfold parseExponent at h
  split_ifs at h with h1
  · have hb : Plain P { P with d_hasExponent := true, d_off := P.d_off + 1 } :=
      Plain.plain_bump rfl rfl rfl (toLower_ne_zero h1) (marker_plain h1)
    have e := exponent_plain Q f _ r h
    exact hb.plain_trans e.1 rfl rfl
  · cases h
    exact Plain.plain_refl P

/-- Reading on without a number sign and without a point keeps what the flags tell. -/
theorem FlagsTell.tell_plain {P P1 : NumberParser} (h : FlagsTell P) (he : Ext P P1)
    (hp : Plain P P1) : FlagsTell P1 := by
  obtain ⟨hs, ht, ho, _⟩ := he
  obtain ⟨hb, hd, hc⟩ := hp
  constructor
  · rw [hb, h.1, hs, ht]
    constructor
    · rintro ⟨i, hi, e⟩
      exact ⟨i, by omega, e⟩
    · rintro ⟨i, hi, e⟩
      by_cases hlt : i < P.d_off
      · exact ⟨i, hlt, e⟩
      · exact absurd e (hc i (by omega) hi).1
  · rw [hd, h.2, hs, ht]
    constructor
    · rintro ⟨i, hi, e⟩
      exact ⟨i, by omega, e⟩
    · rintro ⟨i, hi, e⟩
      by_cases hlt : i < P.d_off
      · exact ⟨i, hlt, e⟩
      · exact absurd e (hc i (by omega) hi).2

/-- Reading one character c, with isBased set if it was set or c is a number sign, and
hasDecimals set if it was set or c is a point, keeps what the flags tell. -/
theorem FlagsTell.tell_char {P P1 : NumberParser} (h : FlagsTell P) (hs : P1.d_str = P.d_str)
    (ht : P1.d_start = P.d_start) (ho : P1.d_off = P.d_off + 1)
    (hne : lookAhead P P.d_off ≠ 0)
    (hb : P1.d_isBased = true ↔ (P.d_isBased = true ∨ lookAhead P P.d_off = 35))
    (hd : P1.d_hasDecimals = true ↔ (P.d_hasDecimals = true ∨ lookAhead P P.d_off = 46)) :
    FlagsTell P1 := by
  have hg := lookAhead_getD P P.d_off hne
  constructor
  · rw [hb, h.1, hs, ht, ho]
    constructor
    · rintro (⟨i, hi, e⟩ | e)
      · exact ⟨i, by omega, e⟩
      · exact ⟨P.d_off, by omega, hg.trans e⟩
    · rintro ⟨i, hi, e⟩
      by_cases hlt : i < P.d_off
      · exact Or.inl ⟨i, hlt, e⟩
      · have hi2 : i = P.d_off := by omega
        subst hi2
        exact Or.inr (hg.symm.trans e)
  · rw [hd, h.2, hs, ht, ho]
    constructor
    · rintro (⟨i, hi, e⟩ | e)
      · exact ⟨i, by omega, e⟩
      · exact ⟨P.d_off, by omega, hg.trans e⟩
    · rintro ⟨i, hi, e⟩
      by_cases hlt : i < P.d_off
      · exact Or.inl ⟨i, hlt, e⟩
      · have hi2 : i = P.d_off := by omega
        subst hi2
        exact Or.inr (hg.symm.trans e)

end NumberParser

namespace NumberParser

/-- Whatever parse answers, the flags isBased and hasDecimals tell whether a number sign and
a point stand among the characters read. -/
theorem parse_flagsTell (Q : QCharData) (f : Nat) (P0 : NumberParser)
    (r : Bool × NumberParser) (h : parse Q f P0 = some r) : FlagsTell r.2 := by
  unfold parse at h
  simp only at h
  have t0 : FlagsTell
      { P0 with d_off := 0, d_hasDecimals := false, d_hasExponent := false,
                d_isBased := false } := by
    constructor
    · constructor
      · intro hb; cases hb
      · rintro ⟨i, hi, _⟩
        exact absurd hi (Nat.not_lt_zero _)
    · constructor
      · intro hb; cases hb
      · rintro ⟨i, hi, _⟩
        exact absurd hi (Nat.not_lt_zero _)
  cases h1 : numeral Q f
      { P0 with d_off := 0, d_hasDecimals := false, d_hasExponent := false,
                d_isBased := false } with
  | none => rw [h1] at h; simp at h
  | some r1 =>
    obtain ⟨ok1, P1⟩ := r1
    have t1 : FlagsTell P1 :=
      t0.tell_plain (numeral_ext Q f _ _ h1).1 (numeral_plain Q f _ _ h1).1
    have b1 : P1.d_isBased = false := (numeral_plain Q f _ _ h1).1.1
    have d1 : P1.d_hasDecimals = false := (numeral_plain Q f _ _ h1).1.2.1
    rw [h1] at h
    cases ok1 with
    | false =>
      simp only [Option.some.injEq] at h
      subst h
      exact t1
    | true =>
      simp only at h
      by_cases h35 : lookAhead P1 P1.d_off = 35
      · rw [if_pos h35] at h
        have t1b : FlagsTell { P1 with d_isBased := true, d_off := P1.d_off + 1 } :=
          t1.tell_char rfl rfl rfl (by rw [h35]; decide)
            ⟨fun _ => Or.inr h35, fun _ => rfl⟩
            ⟨fun hd => Or.inl hd, fun hd => hd.elim id (fun e => by rw [h35] at e; cases e)⟩
        cases h2 : basedNumeral Q f { P1 with d_isBased := true, d_off := P1.d_off + 1 } with
        | none => rw [h2] at h; simp at h
        | some r2 =>
          obtain ⟨ok2, P2⟩ := r2
          have t2 : FlagsTell P2 :=
            t1b.tell_plain (basedNumeral_ext Q f _ _ h2) (basedNumeral_plain Q f _ _ h2).1
          have b2 : P2.d_isBased = true := (basedNumeral_plain Q f _ _ h2).1.1
          rw [h2] at h
          cases ok2 with
          | false =>
            simp only [Option.some.injEq] at h
            subst h
            exact t2
          | true =>
            simp only at h
            have key : ∀ P3 : NumberParser, FlagsTell P3 → P3.d_isBased = true →
                (if lookAhead P3 P3.d_off ≠ 35 then some (error P3 "expecting #")
                 else parseExponent Q f { P3 with d_off := P3.d_off + 1 }) = some r →
                FlagsTell r.2 := by
              intro P3 t3 b3 h3
              split_ifs at h3 with hc
              · cases h3
                exact t3
              · have hc2 : lookAhead P3 P3.d_off = 35 := by
                  by_contra hn
                  exact hc hn
                have t3b : FlagsTell { P3 with d_off := P3.d_off + 1 } :=
                  t3.tell_char rfl rfl rfl (by rw [hc2]; decide)
                    ⟨fun hb => Or.inl hb, fun _ => b3⟩
                    ⟨fun hd => Or.inl hd,
                      fun hd => hd.elim id (fun e => by rw [hc2] at e; cases e)⟩
                exact t3b.tell_plain (parseExponent_ext Q f _ _ h3)
                  (parseExponent_plain Q f _ _ h3)
            by_cases h46 : lookAhead P2 P2.d_off = 46
            · rw [if_pos h46] at h
              have t2b : FlagsTell { P2 with d_hasDecimals := true, d_off := P2.d_off + 1 } :=
                t2.tell_char rfl rfl rfl (by rw [h46]; decide)
                  ⟨fun hb => Or.inl hb,
                    fun hb => hb.elim id (fun e => by rw [h46] at e; cases e)⟩
                  ⟨fun _ => Or.inr h46, fun _ => rfl⟩
              cases h3 : basedNumeral Q f
                  { P2 with d_hasDecimals := true, d_off := P2.d_off + 1 } with
              | none => rw [h3] at h; simp at h
              | some r3 =>
                obtain ⟨ok3, P3⟩ := r3
                have t3 : FlagsTell P3 :=
                  t2b.tell_plain (basedNumeral_ext Q f _ _ h3)
                    (basedNumeral_plain Q f _ _ h3).1
                have b3 : P3.d_isBased = true :=
                  ((basedNumeral_plain Q f _ _ h3).1.1).trans b2
                rw [h3] at h
                cases ok3 with
                | false =>
                  simp only [Option.some.injEq] at h
                  subst h
                  exact t3
                | true =>
                  simp only at h
                  exact key P3 t3 b3 h
            · rw [if_neg h46] at h
              simp only at h
              exact key P2 t2 b2 h
      · rw [if_neg h35] at h
        by_cases h46 : lookAhead P1 P1.d_off = 46
        · rw [if_pos h46] at h
          have t1b : FlagsTell { P1 with d_hasDecimals := true, d_off := P1.d_off + 1 } :=
            t1.tell_char rfl rfl rfl (by rw [h46]; decide)
              ⟨fun hb => Or.inl hb, fun hb => hb.elim id (fun e => by rw [h46] at e; cases e)⟩
              ⟨fun _ => Or.inr h46, fun _ => rfl⟩
          cases h3 : numeral Q f { P1 with d_hasDecimals := true, d_off := P1.d_off + 1 } with
          | none => rw [h3] at h; simp at h
          | some r3 =>
            obtain ⟨ok3, P3⟩ := r3
            have t3 : FlagsTell P3 :=
              t1b.tell_plain (numeral_ext Q f _ _ h3).1 (numeral_plain Q f _ _ h3).1
            rw [h3] at h
            cases ok3 with
            | false =>
              simp only [Option.some.injEq] at h
              subst h
              exact t3
            | true =>
              simp only at h
              exact t3.tell_plain (parseExponent_ext Q f _ _ h) (parseExponent_plain Q f _ _ h)
        · rw [if_neg h46] at h
          simp only at h
          exact t1.tell_plain (parseExponent_ext Q f _ _ h) (parseExponent_plain Q f _ _ h)

/-- A character stands among the first off characters from start on exactly when it belongs
to the span of that length. -/
theorem mem_span_iff (str : List Nat) (start off c : Nat) (hc : c ≠ 0) :
    (∃ i, i < off ∧ str.getD (start + i) 0 = c) ↔ c ∈ (str.drop start).take off := by
  rw [List.mem_iff_getElem?]
  constructor
  · rintro ⟨i, hi, e⟩
    refine ⟨i, ?_⟩
    rw [List.getElem?_take_of_lt hi, List.getElem?_drop]
    rw [List.getD_eq_getElem?_getD] at e
    cases hg : str[start + i]? with
    | none => rw [hg] at e; exact absurd e.symm hc
    | some x => rw [hg] at e; exact congrArg some e
  · rintro ⟨i, e⟩
    have hi : i < off := by
      by_contra hn
      rw [List.getElem?_take_eq_none (by omega)] at e
      cases e
    rw [List.getElem?_take_of_lt hi, List.getElem?_drop] at e
    exact ⟨i, hi, by rw [List.getD_eq_getElem?_getD, e]; rfl⟩

end NumberParser

namespace NumberParser

/-- Where parse leaves with hasExponent set, it has read a decimal literal without exponent,
or a based literal up to its closing number sign, and its answer is that of parseExponent
from there. -/
theorem parse_to_exponent (Q : QCharData) (f : Nat) (str : List Nat) (start : Nat)
    (r : Bool × NumberParser) (h : parse Q f (new str start) = some r)
    (hex : r.2.d_hasExponent = true) :
    ∃ m post point based, str.drop start = m ++ post ∧
      ((based = false ∧ DecimalOf (ReadsDigit Q) (ReadsMarker Q) m point false) ∨
       (based = true ∧
        BasedOf (ReadsDigit Q) (ReadsExtendedDigit Q) (ReadsMarker Q) m point false)) ∧
      parseExponent Q f ⟨[], str, start, m.length, point, false, based⟩ = some r := by
  unfold parse at h
  simp only [new] at h
  cases hn : numeral Q f ⟨[], str, start, 0, false, false, false⟩ with
  | none => rw [hn] at h; simp at h
  | some r1 =>
    obtain ⟨b1, P1⟩ := r1
    rw [hn] at h
    cases b1 with
    | false =>
      exfalso
      have e := (numeral_plain Q f _ _ hn).2
      simp only [Option.some.injEq] at h
      subst h
      simp only at e hex
      rw [e] at hex
      cases hex
    | true =>
      obtain ⟨n, post1, hd1, hnum, rfl⟩ := numeral_sound Q _ _ _ _ _ _ f _ _ hn
      simp only [Nat.add_zero, Nat.zero_add] at hd1
      simp only [Nat.zero_add, lookAhead_eq_headD] at h
      have hpost1 : str.drop (start + n.length) = post1 := by
        rw [← List.drop_drop, hd1, List.drop_left]
      rw [hpost1] at h
      by_cases h35 : post1.headD 0 = 35
      · rw [if_pos h35] at h
        cases hb : basedNumeral Q f ⟨[], str, start, n.length + 1, false, false, true⟩ with
        | none => rw [hb] at h; simp at h
        | some r2 =>
          obtain ⟨b2, P2⟩ := r2
          rw [hb] at h
          cases b2 with
          | false =>
            exfalso
            have e := (basedNumeral_plain Q f _ _ hb).2
            simp only [Option.some.injEq] at h
            subst h
            simp only at e hex
            rw [e] at hex
            cases hex
          | true =>
            obtain ⟨d, post2, hd2, hdn, rfl⟩ := basedNumeral_sound Q _ _ _ _ _ _ f _ _ hb
            have e35 : post1 = 35 :: (d ++ post2) := by
              exact cons_of_drop_headD hpost1 h35 (by decide) (by rw [← hd2]; congr 1)
            have hpost2 : str.drop (start + (n.length + 1 + d.length)) = post2 := by
              rw [drop_add_of_eq hd2 d.length _ (by omega), List.drop_left]
            simp only [lookAhead_eq_headD, hpost2] at h
            by_cases h46 : post2.headD 0 = 46
            · rw [if_pos h46] at h
              cases hb3 : basedNumeral Q f
                  ⟨[], str, start, n.length + 1 + d.length + 1, true, false, true⟩ with
              | none => rw [hb3] at h; simp at h
              | some r3 =>
                obtain ⟨b3, P3⟩ := r3
                rw [hb3] at h
                cases b3 with
                | false =>
                  exfalso
                  have e := (basedNumeral_plain Q f _ _ hb3).2
                  simp only [Option.some.injEq] at h
                  subst h
                  simp only at e hex
                  rw [e] at hex
                  cases hex
                | true =>
                  obtain ⟨m, post3, hd3, hmn, rfl⟩ :=
                    basedNumeral_sound Q _ _ _ _ _ _ f _ _ hb3
                  have e46 : post2 = 46 :: (m ++ post3) := by
                    exact cons_of_drop_headD hpost2 h46 (by decide) (by rw [← hd3]; congr 1)
                  have hpost3 : str.drop (start + (n.length + 1 + d.length + 1 + m.length))
                      = post3 := by
                    rw [drop_add_of_eq hd3 m.length _ (by omega), List.drop_left]
                  simp only [lookAhead_eq_headD, hpost3] at h
                  by_cases h35b : post3.headD 0 = 35
                  · rw [if_neg (by simpa using h35b)] at h
                    have e35b : post3 = 35 :: str.drop
                        (start + (n.length + 1 + d.length + 1 + m.length) + 1) :=
                      cons_of_drop_headD hpost3 h35b (by decide) rfl
                    refine ⟨n ++ (35 :: (d ++ ((46 :: m) ++ (35 :: [])))),
                      str.drop (start + (n.length + 1 + d.length + 1 + m.length) + 1),
                      true, true,
                      ?_, Or.inr ⟨rfl, n, d, 46 :: m, [], rfl, hnum, hdn,
                        Or.inl ⟨rfl, m, rfl, hmn⟩, Or.inr ⟨rfl, rfl⟩⟩, ?_⟩
                    · rw [hd1, e35, e46, e35b]
                      simp
                    · have hl : (n ++ (35 :: (d ++ ((46 :: m) ++ (35 :: []))))).length =
                          n.length + 1 + d.length + 1 + m.length + 1 := by
                        simp only [List.length_append, List.length_cons, List.length_nil]
                        omega
                      rw [hl]
                      exact h
                  · exfalso
                    rw [if_pos (by simpa using h35b)] at h
                    simp only [Option.some.injEq] at h
                    subst h
                    cases hex
            · rw [if_neg h46] at h
              simp only at h
              by_cases h35b : post2.headD 0 = 35
              · rw [if_neg (by simpa [lookAhead_eq_headD, hpost2] using h35b)] at h
                have e35b : post2 = 35 :: str.drop (start + (n.length + 1 + d.length) + 1) :=
                  cons_of_drop_headD hpost2 h35b (by decide) rfl
                refine ⟨n ++ (35 :: (d ++ ([] ++ (35 :: [])))),
                  str.drop (start + (n.length + 1 + d.length) + 1), false, true,
                  ?_, Or.inr ⟨rfl, n, d, [], [], rfl, hnum, hdn,
                    Or.inr ⟨rfl, rfl⟩, Or.inr ⟨rfl, rfl⟩⟩, ?_⟩
                · rw [hd1, e35, e35b]
                  simp
                · have hl : (n ++ (35 :: (d ++ ([] ++ (35 :: []))))).length =
                      n.length + 1 + d.length + 1 := by
                    simp only [List.length_append, List.length_cons, List.length_nil]
                    omega
                  rw [hl]
                  exact h
              · exfalso
                rw [if_pos (by simpa [lookAhead_eq_headD, hpost2] using h35b)] at h
                simp only [Option.some.injEq] at h
                subst h
                cases hex
      · rw [if_neg h35] at h
        by_cases h46 : post1.headD 0 = 46
        · rw [if_pos h46] at h
          cases hb3 : numeral Q f ⟨[], str, start, n.length + 1, true, false, false⟩ with
          | none => rw [hb3] at h; simp at h
          | some r3 =>
            obtain ⟨b3, P3⟩ := r3
            rw [hb3] at h
            cases b3 with
            | false =>
              exfalso
              have e := (numeral_plain Q f _ _ hb3).2
              simp only [Option.some.injEq] at h
              subst h
              simp only at e hex
              rw [e] at hex
              cases hex
            | true =>
              obtain ⟨m, post3, hd3, hmn, rfl⟩ := numeral_sound Q _ _ _ _ _ _ f _ _ hb3
              have e46 : post1 = 46 :: (m ++ post3) := by
                exact cons_of_drop_headD hpost1 h46 (by decide) (by rw [← hd3]; congr 1)
              simp only at h
              refine ⟨n ++ ((46 :: m) ++ []), post3, true, false, ?_,
                Or.inl ⟨rfl, n, 46 :: m, [], rfl, hnum, Or.inl ⟨rfl, m, rfl, hmn⟩,
                  Or.inr ⟨rfl, rfl⟩⟩, ?_⟩
              · rw [hd1, e46]
                simp
              · have hl : (n ++ ((46 :: m) ++ [])).length = n.length + 1 + m.length := by
                  simp only [List.length_append, List.length_cons, List.length_nil]
                  omega
                rw [hl]
                exact h
        · rw [if_neg h46] at h
          simp only at h
          refine ⟨n ++ ([] ++ []), post1, false, false, ?_,
            Or.inl ⟨rfl, n, [], [], rfl, hnum, Or.inr ⟨rfl, rfl⟩, Or.inr ⟨rfl, rfl⟩⟩, ?_⟩
          · rw [hd1]
            simp
          · have hl : (n ++ (([] : List Nat) ++ [])).length = n.length := by simp
            rw [hl]
            exact h

end NumberParser

/-- C36: after parse returns, true or false, on a text in which only e and E lower-case to
e, started at a digit, the consumed span lies inside the text, isBased is set exactly when
the span holds a number sign, hasDecimals is set exactly when it holds a point, and where
hasExponent is set the span is a decimal literal without exponent, or a based literal up to
its closing number sign, followed by e or E and what was read behind it. Digits and extended
digits are those that the parser accepts. -/
theorem flags_agree_with_span (Q : QCharData) (f : Nat) (str : List Nat) (start : Nat)
    (ok : Bool) (P : NumberParser) (hlt : start < str.length)
    (hd : isDigit Q (str.getD start 0) = true)
    (he : ∀ c ∈ str, toLower Q c = 101 → c = 101 ∨ c = 69)
    (h : NumberParser.parse Q f (NumberParser.new str start) = some (ok, P)) :
    1 ≤ P.d_off ∧ start + P.d_off ≤ str.length ∧
    (P.d_isBased = true ↔ 35 ∈ (str.drop start).take P.d_off) ∧
    (P.d_hasDecimals = true ↔ 46 ∈ (str.drop start).take P.d_off) ∧
    (P.d_hasExponent = true →
      ∃ m c tail point, (str.drop start).take P.d_off = m ++ c :: tail ∧ (c = 101 ∨ c = 69) ∧
        ((P.d_isBased = false ∧ DecimalOf (ReadsDigit Q) (ReadsMarker Q) m point false) ∨
         (P.d_isBased = true ∧
          BasedOf (ReadsDigit Q) (ReadsExtendedDigit Q) (ReadsMarker Q) m point false))) := by
  obtain ⟨b1, b2, b3, b4⟩ := NumberParser.parse_bounds Q f str start ok P h hlt hd
  have ft := NumberParser.parse_flagsTell Q f _ _ h
  simp only at ft
  obtain ⟨f1, f2⟩ := ft
  rw [b3, b4] at f1 f2
  refine ⟨b1, b2, ?_, ?_, ?_⟩
  · rw [f1]
    exact NumberParser.mem_span_iff str start P.d_off 35 (by decide)
  · rw [f2]
    exact NumberParser.mem_span_iff str start P.d_off 46 (by decide)
  · intro hex
    obtain ⟨m, post, point, based, hdrop, hm, hpe⟩ :=
      NumberParser.parse_to_exponent Q f str start (ok, P) h hex
    have hpl := NumberParser.parseExponent_plain Q f _ _ hpe
    have hbased : P.d_isBased = based := hpl.1
    unfold NumberParser.parseExponent at hpe
    have hla : NumberParser.lookAhead ⟨[], str, start, m.length, point, false, based⟩ m.length
        = post.headD 0 := by
      rw [NumberParser.lookAhead_eq_headD, ← List.drop_drop, hdrop, List.drop_left]
    simp only [hla] at hpe
    by_cases hmk : toLower Q (post.headD 0) = 101
    · rw [if_pos hmk] at hpe
      have hext := NumberParser.exponent_ext Q f _ _ hpe
      have hoff : m.length + 1 ≤ P.d_off := hext.2.2.1
      obtain ⟨c, tail, rfl⟩ : ∃ c tail, post = c :: tail := by
        cases post with
        | nil =>
          exfalso
          have := NumberParser.toLower_ne_zero hmk
          exact this rfl
        | cons c tail => exact ⟨c, tail, rfl⟩
      have hc : c ∈ str := List.mem_of_mem_drop (hdrop ▸ List.mem_append_right _
        (List.mem_cons_self _ _))
      refine ⟨m, c, tail.take (P.d_off - (m.length + 1)), point, ?_, he c hc hmk, ?_⟩
      · rw [hdrop, List.take_append_eq_append_take, List.take_of_length_le (by omega)]
        congr 1
        obtain ⟨j, hj⟩ : ∃ j, P.d_off - m.length = j + 1 := ⟨P.d_off - m.length - 1, by omega⟩
        rw [hj, List.take_succ_cons]
        congr 2
        omega
      · rw [hbased]
        exact hm
    · exfalso
      rw [if_neg hmk] at hpe
      simp only [Option.some.injEq, Prod.mk.injEq] at hpe
      obtain ⟨_, rfl⟩ := hpe
      cases hex

/-- C36 at the texts 1.5E+x, where parse fails behind the sign, 16#F.A, where it fails for
the missing number sign, and 16#F#e2, where it succeeds. -/
theorem flags_agree_with_span_witness :
    NumberParser.parse asciiData 8 (NumberParser.new (qstr "1.5E+x") 0) =
      some (false, ⟨qstr "expecting digit", qstr "1.5E+x", 0, 5, true, true, false⟩) ∧
    (1 ≤ 5 ∧ 0 + 5 ≤ (qstr "1.5E+x").length ∧
      (false = true ↔ 35 ∈ ((qstr "1.5E+x").drop 0).take 5) ∧
      (true = true ↔ 46 ∈ ((qstr "1.5E+x").drop 0).take 5) ∧
      (true = true →
        ∃ m c tail point, ((qstr "1.5E+x").drop 0).take 5 = m ++ c :: tail ∧
          (c = 101 ∨ c = 69) ∧
          ((false = false ∧
              DecimalOf (ReadsDigit asciiData) (ReadsMarker asciiData) m point false) ∨
           (false = true ∧
              BasedOf (ReadsDigit asciiData) (ReadsExtendedDigit asciiData)
                (ReadsMarker asciiData) m point false)))) ∧
    NumberParser.parse asciiData 8 (NumberParser.new (qstr "16#F.A") 0) =
      some (false, ⟨qstr "expecting #", qstr "16#F.A", 0, 6, true, false, true⟩) ∧
    NumberParser.parse asciiData 8 (NumberParser.new (qstr "16#F#e2") 0) =
      some (true, ⟨[], qstr "16#F#e2", 0, 7, false, true, true⟩) :=
  have h : NumberParser.parse asciiData 8 (NumberParser.new (qstr "1.5E+x") 0) =
      some (false, ⟨qstr "expecting digit", qstr "1.5E+x", 0, 5, true, true, false⟩) := by
    decide
  ⟨h, flags_agree_with_span asciiData 8 (qstr "1.5E+x") 0 false
      ⟨qstr "expecting digit", qstr "1.5E+x", 0, 5, true, true, false⟩ (by decide) (by decide)
      (fun _ _ hl => marker_of_toLower_asciiData hl) h,
    by decide, by decide⟩

end Ada
